import Mathlib

set_option autoImplicit false

/-!
# Tabular connector for Redis: storage core

A shallow embedding of the Go package `db` (schema.go, table.go, format.go,
filter.go, query.go, data.go, load.go, update.go) together with a small model
of the key/value engine the package talks to.

* Go `int` values are mathematical integers; where the code converts to
  `int64` and adds, the sum is wrapped to 64 bits (`wrapInt64`).
* Go `error` results are `Option Err` (`none` is `nil`); a result next to an
  error is `Except Err _`.
* Go maps (`map[string]string`) are association lists.
* Sorted-set scores are rationals: the engine stores IEEE doubles, whose
  rounding, infinities and NaN are outside this model.
* Library functions the package imports (strconv.ParseFloat, encoding/json)
  are fields of `Env`, next to the package variable `Prefix`.
-/

namespace TabularRedis

/-! ## Data model -/



/-- Column of a schema (schema.go, `type Column`). -/
structure Column where
  Name : String
  DataType : String
  Filterable : Bool
  Sortable : Bool
  Searchable : Bool
deriving DecidableEq

/-- Schema of a table (schema.go, `type Schema`). -/
structure Schema where
  Name : String
  Columns : List Column
deriving DecidableEq

/-- Table handle (table.go, `type Table`). -/
structure Table where
  Schema : Schema
  Version : Int
  Name : String
deriving DecidableEq

/-- Filter operator (filter.go, `type FilterOp`). -/
inductive FilterOp where
  | EqualTo
  | GreaterThan
  | LessThan
  | GreaterThanOrEqual
  | LessThanOrEqual
deriving DecidableEq

/-- One filter of a query (filter.go, `type Filter`). -/
structure Filter where
  Col : String
  Op : FilterOp
  Val : List String
deriving DecidableEq

/-- Query (query.go, `type Query`); `Updates` is a Go map, here an association
list walked in list order. -/
structure Query where
  Filters : List Filter
  SearchTerm : String
  Limit : Int
  Offset : Int
  Updates : List (String × String)
deriving DecidableEq

/-- Paging metadata (data.go, `type ResultSet`). -/
structure ResultSet where
  Count : Int
  Offset : Int
  Limit : Int
  Total : Int
deriving DecidableEq

/-- Errors: the three package-level sentinels of db.go, errors built with
`errors.New` in the package, error replies of the engine, errors of library
calls, and `panic` for a run-time panic (the call does not return at all). -/
inductive Err where
  | ErrNil
  | ErrImmutableKey
  | ErrEmptyKey
  | msg (s : String)
  | redis (s : String)
  | lib (s : String)
  | panic (s : String)
deriving DecidableEq

deriving instance DecidableEq for Except

/-- Sorted-set score. -/
abbrev Score := ℚ

/-- What the package takes from outside: the package variable `Prefix`
(db.go), `strconv.ParseFloat` (also standing for the engine's own reading of a
numeric range bound), the JSON codec for schemas, whether BulkLoad creates the
search index (`flag.Lookup("test.v") == nil || ...`: always outside the test
binary) and the reply of the engine's search module to a command sent with
`Do`. -/
structure Env where
  Prefix : String
  parseFloat : String → Option Score
  jsonMarshal : Schema → String
  jsonUnmarshal : String → Option Schema
  indexOnLoad : Bool
  searchReply : List String → Option Err

/-! ## Integers as text -/



/-- Decimal rendering of a Go `int` (`%d`, `strconv.Itoa`). -/
def itoa (i : Int) : String :=
  if i < 0 then "-" ++ Nat.repr i.natAbs else Nat.repr i.toNat

/-- Value of a list of decimal digits, `none` when a character is no digit. -/
def digitsValue : List Char → Nat → Option Nat
  | [], acc => some acc
  | c :: cs, acc =>
    if 48 ≤ c.toNat ∧ c.toNat ≤ 57 then digitsValue cs (acc * 10 + (c.toNat - 48)) else none

/-- Digits of `strconv.Atoi`: at least one decimal digit. -/
def atoiDigits (cs : List Char) : Option Nat :=
  if cs = [] then none else digitsValue cs 0

/-- Sign and digits of `strconv.Atoi`. -/
def atoiSigned (cs : List Char) : Option Int :=
  match cs with
  | '-' :: rest => (atoiDigits rest).map (fun (n : Nat) => - Int.ofNat n)
  | '+' :: rest => (atoiDigits rest).map (fun (n : Nat) => Int.ofNat n)
  | _ => (atoiDigits cs).map (fun (n : Nat) => Int.ofNat n)

/-- Reading of a Go `int` from text (`strconv.Atoi`): an optional sign and at
least one decimal digit, within the 64-bit range. -/
def atoi (s : String) : Option Int :=
  match atoiSigned s.data with
  | some i => if - (2 : Int) ^ 63 ≤ i ∧ i < (2 : Int) ^ 63 then some i else none
  | none => none

/-- Two's-complement wrap of an integer to 64 bits (Go `int64` arithmetic). -/
def wrapInt64 (x : Int) : Int := (x + 2 ^ 63) % 2 ^ 64 - 2 ^ 63

/-! ## Key formatter (format.go) -/



/-- Go: `fmt.Sprintf("%s:%s:%d", Prefix, table.Name, table.Version)`. -/
def Table.formatKeyPrefix (E : Env) (table : Table) : String :=
  E.Prefix ++ ":" ++ table.Name ++ ":" ++ itoa table.Version

/-- Go: `fmt.Sprintf("%s:%d", table.formatKeyPrefix(), seq)`. -/
def Table.formatRecordKey (E : Env) (table : Table) (seq : Int) : String :=
  table.formatKeyPrefix E ++ ":" ++ itoa seq

/-- Go: `fmt.Sprintf("%s:%s", table.formatKeyPrefix(), col)`. -/
def Table.formatSortableKey (E : Env) (table : Table) (col : String) : String :=
  table.formatKeyPrefix E ++ ":" ++ col

/-- Go: `fmt.Sprintf("%s:%s:%s", table.formatKeyPrefix(), col, val)`. -/
def Table.formatFilterKey (E : Env) (table : Table) (col val : String) : String :=
  table.formatKeyPrefix E ++ ":" ++ col ++ ":" ++ val

/-- Go: `fmt.Sprintf("%s:%s:schema", Prefix, name)`. -/
def formatSchemaKey (E : Env) (name : String) : String :=
  E.Prefix ++ ":" ++ name ++ ":schema"

/-- Go: `fmt.Sprintf("%s:%s:lastload", Prefix, table.Name)`. -/
def Table.formatLastLoadKey (E : Env) (table : Table) : String :=
  E.Prefix ++ ":" ++ table.Name ++ ":lastload"

/-- Go: `fmt.Sprintf("%s:all", table.formatKeyPrefix())`. -/
def Table.formatAllRecordKeys (E : Env) (table : Table) : String :=
  table.formatKeyPrefix E ++ ":all"

/-- Go: `formatUnionStoreKey`: the key prefix, `:unionstore:`, the column, one
`_v_` per value, `:` and the token. -/
def Table.formatUnionStoreKey (E : Env) (table : Table) (col : String) (vals : List String)
    (t : String) : String :=
  vals.foldl (fun key v => key ++ ("_" ++ v ++ "_"))
    (table.formatKeyPrefix E ++ ":unionstore:" ++ col) ++ (":" ++ t)

/-- Go: `formatInterStoreKey`: the key prefix, `:interstore:`, one `_k_` per
union key, `:` and the token. -/
def Table.formatInterStoreKey (E : Env) (table : Table) (unionKeys : List String)
    (t : String) : String :=
  unionKeys.foldl (fun key k => key ++ ("_" ++ k ++ "_"))
    (table.formatKeyPrefix E ++ ":interstore:") ++ (":" ++ t)

/-! ## The key/value engine -/



/-- Value held under a key: a string, a hash, a set or a sorted set. -/
inductive RVal where
  | str (s : String)
  | hash (h : List (String × String))
  | set (s : List String)
  | zset (z : List (String × Score))
deriving DecidableEq

/-- Keyspace of the engine. -/
abbrev Store := String → Option RVal

/-- Store with `k` bound to `v` (`none` deletes the key). -/
def Store.put (st : Store) (k : String) (v : Option RVal) : Store :=
  fun k' => if k' = k then v else st k'

/-- Reply of the engine to a command on a key of another type. -/
def wrongType : Err :=
  Err.redis "WRONGTYPE Operation against a key holding the wrong kind of value"

/-- Reply of the engine to a command with too few arguments. -/
def wrongArgs : Err := Err.redis "ERR wrong number of arguments"

/-- Association-list update: replace the value of an existing field in place,
else append. -/
def assocSet {β : Type} (l : List (String × β)) (k : String) (v : β) : List (String × β) :=
  match l with
  | [] => [(k, v)]
  | (k', v') :: rest => if k' = k then (k, v) :: rest else (k', v') :: assocSet rest k v

/-- Association-list lookup. -/
def assocGet {β : Type} (l : List (String × β)) (k : String) : Option β :=
  match l with
  | [] => none
  | (k', v') :: rest => if k' = k then some v' else assocGet rest k

/-- Set stored under a key, as the set commands read it: a missing key is the
empty set, a key of another type is an error. -/
def readSet (st : Store) (k : String) : Except Err (List String) :=
  match st k with
  | none => .ok []
  | some (.set s) => .ok s
  | some _ => .error wrongType

/-- Sorted set stored under a key, as the sorted-set commands read it. -/
def readZSet (st : Store) (k : String) : Except Err (List (String × Score)) :=
  match st k with
  | none => .ok []
  | some (.zset z) => .ok z
  | some _ => .error wrongType

/-- Engine value for a set: an empty set is no key at all. -/
def setVal (s : List String) : Option RVal := if s = [] then none else some (.set s)

/-- Engine value for a sorted set: an empty sorted set is no key at all. -/
def zsetVal (z : List (String × Score)) : Option RVal := if z = [] then none else some (.zset z)

/-- Bytewise order of member names, used to break ties between equal scores. -/
def lexLe : List Char → List Char → Bool
  | [], _ => true
  | _ :: _, [] => false
  | a :: as, b :: bs => if a.toNat < b.toNat then true else if b.toNat < a.toNat then false
      else lexLe as bs

/-- Order of the entries of a sorted set: by score, then by member. -/
def zle (a b : String × Score) : Bool :=
  if a.2 < b.2 then true else if b.2 < a.2 then false else lexLe a.1.data b.1.data

/-- Entries of a sorted set in rank order. -/
def zsorted (z : List (String × Score)) : List (String × Score) :=
  z.insertionSort (fun a b => zle a b = true)

/-- Rank slice of the engine (`ZRANGE key start stop` on a list already in rank
order): negative indexes count from the end, the stop index is inclusive. -/
def rangeByRank (l : List String) (start stop : Int) : List String :=
  let n : Int := l.length
  let start1 := if start < 0 then n + start else start
  let stop1 := if stop < 0 then n + stop else stop
  let start2 := if start1 < 0 then 0 else start1
  if start2 > stop1 ∨ start2 ≥ n then []
  else
    let stop2 := if stop1 ≥ n then n - 1 else stop1
    (l.drop start2.toNat).take (stop2 - start2 + 1).toNat

/-- Engine command `GET`. -/
def Get (st : Store) (key : String) : Except Err String :=
  match st key with
  | none => .error (Err.redis "redis: nil")
  | some (.str s) => .ok s
  | some _ => .error wrongType

/-- Engine command `HGETALL`. -/
def HGetAll (st : Store) (key : String) : Except Err (List (String × String)) :=
  match st key with
  | none => .ok []
  | some (.hash h) => .ok h
  | some _ => .error wrongType

/-- Engine command `SCARD`. -/
def SCard (st : Store) (key : String) : Except Err Int :=
  match readSet st key with
  | .ok s => .ok s.length
  | .error e => .error e

/-- Engine command `SISMEMBER`. -/
def SIsMember (st : Store) (key member : String) : Except Err Bool :=
  match readSet st key with
  | .ok s => .ok (decide (member ∈ s))
  | .error e => .error e

/-- Engine command `ZCARD`. -/
def ZCard (st : Store) (key : String) : Except Err Int :=
  match readZSet st key with
  | .ok z => .ok z.length
  | .error e => .error e

/-- Engine command `ZRANGE key start stop`. -/
def ZRange (st : Store) (key : String) (start stop : Int) : Except Err (List String) :=
  match readZSet st key with
  | .ok z => .ok (rangeByRank ((zsorted z).map Prod.fst) start stop)
  | .error e => .error e

/-- Score named by a range bound: a number or one of the two infinities. -/
inductive ExtScore where
  | ninf
  | pinf
  | fin (x : Score)
deriving DecidableEq

/-- Bound of a score range: a value, taken inclusively or exclusively. -/
structure ZBound where
  value : ExtScore
  exclusive : Bool
deriving DecidableEq

/-- How the engine reads the value of a range bound. -/
def parseExtScore (E : Env) (s : String) : Option ExtScore :=
  if s = "-inf" then some .ninf
  else if s = "+inf" ∨ s = "inf" then some .pinf
  else (E.parseFloat s).map ExtScore.fin

/-- How the engine reads a range bound: a value, exclusive when it is
written after `(`. -/
def parseZBound (E : Env) (s : String) : Option ZBound :=
  match s.data with
  | '(' :: rest => (parseExtScore E (String.mk rest)).map (fun v => ⟨v, true⟩)
  | _ => (parseExtScore E s).map (fun v => ⟨v, false⟩)

/-- Score `x` satisfies the lower bound `b`. -/
def aboveMin (b : ZBound) (x : Score) : Bool :=
  match b.value with
  | .ninf => true
  | .pinf => false
  | .fin m => if b.exclusive then decide (m < x) else decide (m ≤ x)

/-- Score `x` satisfies the upper bound `b`. -/
def belowMax (b : ZBound) (x : Score) : Bool :=
  match b.value with
  | .ninf => false
  | .pinf => true
  | .fin m => if b.exclusive then decide (x < m) else decide (x ≤ m)

/-- Engine command `ZRANGEBYSCORE key min max`. -/
def ZRangeByScore (E : Env) (st : Store) (key : String) (min max : String) :
    Except Err (List String) :=
  match parseZBound E min, parseZBound E max with
  | some lo, some hi =>
    match readZSet st key with
    | .ok z => .ok (((zsorted z).filter (fun e => aboveMin lo e.2 && belowMax hi e.2)).map Prod.fst)
    | .error e => .error e
  | _, _ => .error (Err.redis "ERR min or max is not a float")

/-- Sets stored under a list of keys; the first key of another type is an
error. -/
def readSets (st : Store) : List String → Except Err (List (List String))
  | [] => .ok []
  | k :: ks =>
    match readSet st k with
    | .error e => .error e
    | .ok s =>
      match readSets st ks with
      | .error e => .error e
      | .ok ss => .ok (s :: ss)

/-- Union of a list of sets, without repetition. -/
def unionAll (ss : List (List String)) : List String :=
  (ss.foldl (fun acc s => acc ++ s) []).dedup

/-- Intersection of a non-empty list of sets. -/
def interAll : List (List String) → List String
  | [] => []
  | s :: ss => (ss.foldl (fun acc x => acc.filter (fun m => decide (m ∈ x))) s).dedup

/-- Engine command `SUNIONSTORE dst key...`: the new store and the size of the
stored union. -/
def SUnionStore (st : Store) (dst : String) (keys : List String) : Except Err (Store × Int) :=
  if keys = [] then .error wrongArgs
  else
    match readSets st keys with
    | .error e => .error e
    | .ok ss => .ok (st.put dst (setVal (unionAll ss)), (unionAll ss).length)

/-- Engine command `SINTERSTORE dst key...`. -/
def SInterStore (st : Store) (dst : String) (keys : List String) : Except Err (Store × Int) :=
  if keys = [] then .error wrongArgs
  else
    match readSets st keys with
    | .error e => .error e
    | .ok ss => .ok (st.put dst (setVal (interAll ss)), (interAll ss).length)

/-- Input of `ZINTERSTORE`: a sorted set, or a set whose members count with
score 1. -/
def readZOrSet (st : Store) (k : String) : Except Err (List (String × Score)) :=
  match st k with
  | none => .ok []
  | some (.zset z) => .ok z
  | some (.set s) => .ok (s.map (fun m => (m, (1 : Score))))
  | some _ => .error wrongType

/-- Engine command `ZINTERSTORE dst 2 k1 k2` with the default weights and the
default aggregate (sum of the scores). -/
def ZInterStore (st : Store) (dst : String) (k1 k2 : String) : Except Err (Store × Int) :=
  match readZOrSet st k1 with
  | .error e => .error e
  | .ok z1 =>
    match readZOrSet st k2 with
    | .error e => .error e
    | .ok z2 =>
      let r := z1.filterMap (fun e => (assocGet z2 e.1).map (fun s2 => (e.1, e.2 + s2)))
      .ok (st.put dst (zsetVal r), r.length)

/-- Command queued in a transaction pipeline. -/
inductive Cmd where
  | SAdd (key member : String)
  | SRem (key member : String)
  | ZAdd (key : String) (score : Score) (member : String)
  | HSet (key : String) (fvs : List (String × String))
  | Set (key value : String)
  | Do (args : List String)
deriving DecidableEq

/-- Key a queued command writes (`Do` sends a search-module command, which
writes no key of the keyspace). -/
def Cmd.key : Cmd → String
  | .SAdd k _ => k
  | .SRem k _ => k
  | .ZAdd k _ _ => k
  | .HSet k _ => k
  | .Set k _ => k
  | .Do _ => ""

/-- Effect of one command on the value under its key, or the error reply. -/
def Cmd.onValue : Cmd → Option RVal → Except Err (Option RVal)
  | .SAdd _ m, none => .ok (some (.set [m]))
  | .SAdd _ m, some (.set s) => .ok (some (.set (if m ∈ s then s else s ++ [m])))
  | .SAdd _ _, some _ => .error wrongType
  | .SRem _ _, none => .ok none
  | .SRem _ m, some (.set s) => .ok (setVal (s.filter (fun x => decide (x ≠ m))))
  | .SRem _ _, some _ => .error wrongType
  | .ZAdd _ sc m, none => .ok (some (.zset [(m, sc)]))
  | .ZAdd _ sc m, some (.zset z) => .ok (some (.zset (assocSet z m sc)))
  | .ZAdd _ _ _, some _ => .error wrongType
  | .HSet _ fvs, v =>
    if fvs = [] then .error wrongArgs
    else
      match v with
      | none => .ok (some (.hash (fvs.foldl (fun h fv => assocSet h fv.1 fv.2) [])))
      | some (.hash h) => .ok (some (.hash (fvs.foldl (fun h fv => assocSet h fv.1 fv.2) h)))
      | some _ => .error wrongType
  | .Set _ value, _ => .ok (some (.str value))
  | .Do _, v => .ok v

/-- One command run against the store: the store after it and its error
reply, if any (a failed command leaves the store as it was). -/
def Cmd.run (E : Env) (c : Cmd) (st : Store) : Store × Option Err :=
  match c with
  | .Do args => (st, E.searchReply args)
  | _ =>
    match c.onValue (st c.key) with
    | .ok v => (st.put c.key v, none)
    | .error e => (st, some e)

/-- Transaction pipeline `Exec`: every queued command runs, in order; the
error returned is that of the first command that failed. -/
def Exec (E : Env) : List Cmd → Store → Store × Option Err
  | [], st => (st, none)
  | c :: cs, st =>
    let r := c.run E st
    let r2 := Exec E cs r.1
    (r2.1, if r.2.isSome then r.2 else r2.2)

/-! ## Query validation (filter.go, query.go) -/



/-- Inner loop of `validateFilters`: walk the schema columns up to the first
one named `f.Col`; `ok true` when it is found and passes, `ok false` when no
column has that name. -/
def validateFilterColumns (f : Filter) : List Column → Except Err Bool
  | [] => .ok false
  | col :: rest =>
    if f.Col = col.Name then
      if f.Op ≠ FilterOp.EqualTo then
        if !col.Sortable then
          .error (Err.msg ("can't perform gt or lt on non-sortable column " ++ f.Col))
        else if f.Val.length ≠ 1 then
          .error (Err.msg "gt and lt ops must have only 1 val")
        else .ok true
      else .ok true
    else validateFilterColumns f rest

/-- Go: `(schema *Schema) validateFilters`. -/
def Schema.validateFilters (schema : Schema) : List Filter → Option Err
  | [] => none
  | f :: fs =>
    match validateFilterColumns f schema.Columns with
    | .error e => some e
    | .ok false => some (Err.msg ("filter col " ++ f.Col ++ " not found in schema"))
    | .ok true => schema.validateFilters fs

/-- Go: `(schema *Schema) validateQuery`. -/
def Schema.validateQuery (schema : Schema) (query : Query) : Option Err :=
  if query.Limit < -1 then some (Err.msg "invalid limit")
  else if query.Offset < 0 then some (Err.msg "invalid offset")
  else schema.validateFilters query.Filters

/-- Go: `(schema *Schema) isFilterable`: the flag of the first column with
that name. -/
def Schema.isFilterable (schema : Schema) (col : String) : Except Err Bool :=
  match schema.Columns.find? (fun c => decide (c.Name = col)) with
  | some c => .ok c.Filterable
  | none => .error (Err.msg ("column " ++ col ++ " not found in schema"))

/-- Go: `(schema *Schema) isSortable`. -/
def Schema.isSortable (schema : Schema) (col : String) : Except Err Bool :=
  match schema.Columns.find? (fun c => decide (c.Name = col)) with
  | some c => .ok c.Sortable
  | none => .error (Err.msg ("column " ++ col ++ " not found in schema"))

/-! ## Query planner and paging (data.go) -/



/-- Go: `getPagedRecordKeys`. `start` and `stop` are `int64`; the sum
`int64(offset) + int64(limit) - 1` wraps. -/
def getPagedRecordKeys (st : Store) (key : String) (limit offset : Int) :
    Except Err (List String × ResultSet) :=
  let start := offset
  let stop := if limit ≤ 0 then -1 else wrapInt64 (wrapInt64 (offset + limit) - 1)
  match ZRange st key start stop with
  | .error e => .error e
  | .ok keys =>
    match ZCard st key with
    | .error e => .error e
    | .ok total =>
      .ok (keys, { Count := keys.length, Offset := offset, Limit := limit, Total := total })

/-- Go: `getOrderedFilterKeys`: a `ZRANGEBYSCORE` on the sortable key of the
column; `f.Val[0]` panics on an empty value list. -/
def getOrderedFilterKeys (E : Env) (st : Store) (table : Table) (f : Filter) :
    Except Err (List String) :=
  let key := table.formatSortableKey E f.Col
  match f.Val with
  | [] => .error (Err.panic "index out of range [0] with length 0")
  | v0 :: _ =>
    match f.Op with
    | .GreaterThan => ZRangeByScore E st key ("(" ++ v0) "+inf"
    | .LessThan => ZRangeByScore E st key "-inf" ("(" ++ v0)
    | .GreaterThanOrEqual => ZRangeByScore E st key v0 "+inf"
    | .LessThanOrEqual => ZRangeByScore E st key "-inf" v0
    | .EqualTo => ZRangeByScore E st key "" ""

/-- Go: `addFilterUnionKey`: the store after the call, the extended list of
union keys and the error. An error of `SUNIONSTORE` leaves `n = 0`, so the
call answers `ErrNil`. -/
def addFilterUnionKey (E : Env) (st : Store) (table : Table) (unionKeys : List String)
    (t : String) (f : Filter) : Store × List String × Option Err :=
  let dst := table.formatUnionStoreKey E f.Col f.Val t
  let filterKeys : Except Err (List String) :=
    if f.Op = FilterOp.EqualTo then .ok (f.Val.map (fun v => table.formatFilterKey E f.Col v))
    else getOrderedFilterKeys E st table f
  match filterKeys with
  | .error e => (st, unionKeys, some e)
  | .ok fks =>
    match SUnionStore st dst fks with
    | .ok (st1, n) => (st1, unionKeys ++ [dst], if n = 0 then some Err.ErrNil else none)
    | .error _ => (st, unionKeys ++ [dst], some Err.ErrNil)

/-- Loop of `getFilteredRecordKeys` over the filters: stops at the first
error. -/
def unionLoop (E : Env) (table : Table) (t : String) :
    List Filter → Store → List String → Store × List String × Option Err
  | [], st, unionKeys => (st, unionKeys, none)
  | f :: fs, st, unionKeys =>
    match addFilterUnionKey E st table unionKeys t f with
    | (st1, uks, some e) => (st1, uks, some e)
    | (st1, uks, none) => unionLoop E table t fs st1 uks

/-- Go: `getFilteredRecordKeys`; `t` is `time.Now().String()`. The error of
`SINTERSTORE` is overwritten by that of `ZINTERSTORE`. -/
def getFilteredRecordKeys (E : Env) (st : Store) (table : Table) (filters : List Filter)
    (t : String) : Store × Except Err String :=
  match unionLoop E table t filters st [] with
  | (st1, _, some e) => (st1, .error e)
  | (st1, unionKeys, none) =>
    let interKey := table.formatInterStoreKey E unionKeys t
    let st2 := match SInterStore st1 interKey unionKeys with
      | .ok (s, _) => s
      | .error _ => st1
    let finalKey := interKey ++ "_final"
    match ZInterStore st2 finalKey (table.formatAllRecordKeys E) interKey with
    | .error e => (st2, .error e)
    | .ok (st3, _) => (st3, .ok finalKey)

/-- Go: `getRecordKeys`. -/
def getRecordKeys (E : Env) (st : Store) (table : Table) (query : Query) (t : String) :
    Store × Except Err (List String × ResultSet) :=
  if query.Filters.length > 0 then
    match getFilteredRecordKeys E st table query.Filters t with
    | (st1, .error e) => (st1, .error e)
    | (st1, .ok finalKey) => (st1, getPagedRecordKeys st1 finalKey query.Limit query.Offset)
  else (st, getPagedRecordKeys st (table.formatAllRecordKeys E) query.Limit query.Offset)

/-- Go: `getRecord`: the hash under `key`, checked against the schema. -/
def getRecord (st : Store) (key : String) (schema : Schema) :
    Except Err (List (String × String)) :=
  let record := match HGetAll st key with
    | .ok r => r
    | .error _ => []
  if record.length = 0 then .error Err.ErrNil
  else if schema.Columns.length ≠ record.length then
    .error (Err.msg ("Number of columns for key " ++ key ++ " do not match schema"))
  else
    match schema.Columns.find? (fun c => (assocGet record c.Name).isNone) with
    | some c => .error (Err.msg (c.Name ++ " column not found in record " ++ key))
    | none => .ok record

/-- Go: `getRecordsWorkerPool`, run as one worker: the records of the keys in
key order, or the error of the first key that fails. (With eight workers the
error reported is that of whichever failing fetch is collected first.) -/
def getRecordsWorkerPool (st : Store) (schema : Schema) :
    List String → Except Err (List (List (String × String)))
  | [] => .ok []
  | key :: keys =>
    match getRecord st key schema with
    | .error e => .error e
    | .ok r =>
      match getRecordsWorkerPool st schema keys with
      | .error e => .error e
      | .ok rs => .ok (r :: rs)

/-! ## Schema and table lookup (schema.go, table.go) -/

/-- Go: `getSchemaByKey`. Any error of `GET` comes with an empty string, so it
is answered with `ErrNil`. -/
def getSchemaByKey (E : Env) (st : Store) (key : String) : Except Err Schema :=
  if key = "" then .error Err.ErrEmptyKey
  else
    match Get st key with
    | .error _ => .error Err.ErrNil
    | .ok schemaJSON =>
      match E.jsonUnmarshal schemaJSON with
      | none => .error (Err.lib "json: cannot unmarshal")
      | some schema => .ok schema

/-- Go: `GetSchema`. -/
def GetSchema (E : Env) (st : Store) (name : String) : Except Err Schema :=
  if name = "" then .error Err.ErrEmptyKey
  else getSchemaByKey E st (formatSchemaKey E name)

/-! ## Load controller (load.go) -/

/-- Go: `type LoadStatus int` with its three named values. -/
abbrev LoadStatus := Int

/-- Go: `LoadFailed`. -/
def LoadFailed : LoadStatus := 0

/-- Go: `LoadSuccess`. -/
def LoadSuccess : LoadStatus := 1

/-- Go: `LoadRunning`. -/
def LoadRunning : LoadStatus := 2

/-- Go: `type Load`. -/
structure Load where
  Version : Int
  Status : LoadStatus
  StartTime : String
  EndTime : String
deriving DecidableEq

/-- Field of a Go map read with `m[k]`: the empty string when absent. -/
def fieldOf (record : List (String × String)) (k : String) : String :=
  (assocGet record k).getD ""

/-- Go: `GetLastLoad`. -/
def GetLastLoad (E : Env) (st : Store) (table : Table) : Except Err Load :=
  match HGetAll st (table.formatLastLoadKey E) with
  | .error e => .error e
  | .ok record =>
    if record.length = 0 then .error Err.ErrNil
    else
      match atoi (fieldOf record "version") with
      | none => .error (Err.lib "strconv.Atoi: invalid syntax")
      | some version =>
        match atoi (fieldOf record "status") with
        | none => .error (Err.lib "strconv.Atoi: invalid syntax")
        | some status =>
          .ok { Version := version, Status := status,
                StartTime := fieldOf record "starttime", EndTime := fieldOf record "endtime" }

/-- Go: `updateLastLoad`: one `HSET` of the four fields, sent at once. -/
def updateLastLoad (E : Env) (st : Store) (table : Table) (load : Load) : Store × Option Err :=
  (Cmd.HSet (table.formatLastLoadKey E)
    [("version", itoa load.Version), ("status", itoa load.Status),
     ("starttime", load.StartTime), ("endtime", load.EndTime)]).run E st

/-- Go: `getNextTableVersion`; `lastLoad.Version + 1` is Go `int` arithmetic. -/
def getNextTableVersion (E : Env) (st : Store) (table : Table) : Except Err Int :=
  match GetLastLoad E st table with
  | .error Err.ErrNil => .ok 0
  | .error e => .error e
  | .ok lastLoad =>
    if lastLoad.Status = LoadRunning then .error (Err.msg "last load still running")
    else .ok (wrapInt64 (lastLoad.Version + 1))

/-- Go: `getTable`: the table and the error; on an error the table returned
is the partly filled one. -/
def getTable (E : Env) (st : Store) (name : String) : Table × Option Err :=
  match GetSchema E st name with
  | .error e => ({ Schema := { Name := "", Columns := [] }, Version := 0, Name := name }, some e)
  | .ok schema =>
    match GetLastLoad E st { Schema := schema, Version := 0, Name := name } with
    | .error Err.ErrNil => ({ Schema := schema, Version := 0, Name := name }, none)
    | .error e => ({ Schema := schema, Version := 0, Name := name }, some e)
    | .ok load => ({ Schema := schema, Version := load.Version, Name := name }, none)

/-! ## CSV ingest and index builder (load.go) -/

/-- Go: `addSortableValToPipe`: the command it queues, or the parse error. -/
def addSortableValToPipe (E : Env) (table : Table) (filterKey col val : String) :
    Except Err (List Cmd) :=
  match E.parseFloat val with
  | none => .error (Err.lib "strconv.ParseFloat: invalid syntax")
  | some score => .ok [Cmd.ZAdd (table.formatSortableKey E col) score filterKey]

/-- Body of the loop of `recordToPipe` for one value `val` of column `col`,
whose schema entry is `c`: for a filterable column the record key joins the
filter set of the value, and for a sortable one the filter key is scored by
the value in the sortable set. The error of `addSortableValToPipe` is
dropped, as in the source. -/
def fieldCmds (E : Env) (table : Table) (recordKey col val : String) (c : Column) : List Cmd :=
  if c.Filterable then
    Cmd.SAdd (table.formatFilterKey E col val) recordKey ::
      (if c.Sortable then
        match addSortableValToPipe E table (table.formatFilterKey E col val) col val with
        | .ok zs => zs
        | .error _ => []
      else [])
  else []

/-- Loop of `recordToPipe` over the values of a row, from position `i`: the
commands queued and the field list of the record hash. The header map
answers the empty string for a missing position and the schema map 0 for a
missing name, as Go maps do; an index outside `Columns` panics. -/
def recordFields (E : Env) (table : Table) (recordKey : String) (headerMap : List String)
    (schemaMap : List (String × Nat)) :
    List String → Nat → Except Err (List Cmd × List (String × String))
  | [], _ => .ok ([], [])
  | val :: rest, i =>
    let col := headerMap.getD i ""
    match table.Schema.Columns.get? ((assocGet schemaMap col).getD 0) with
    | none => .error (Err.panic "index out of range")
    | some c =>
      match recordFields E table recordKey headerMap schemaMap rest (i + 1) with
      | .error e => .error e
      | .ok (more, vals) =>
        .ok (fieldCmds E table recordKey col val c ++ more, (col, val) :: vals)

/-- Go: `recordToPipe`: the commands the call queues for one row. -/
def recordToPipe (E : Env) (table : Table) (record : List String) (seq : Int)
    (headerMap : List String) (schemaMap : List (String × Nat)) : Except Err (List Cmd) :=
  match recordFields E table (table.formatRecordKey E seq) headerMap schemaMap record 0 with
  | .error e => .error e
  | .ok (cmds, recordVals) =>
    .ok (cmds ++ [Cmd.HSet (table.formatRecordKey E seq) recordVals,
      Cmd.ZAdd (table.formatAllRecordKeys E) (seq : Score) (table.formatRecordKey E seq)])

/-- Inner loop of `parseCSVHeader`: every schema column named `columnName`
overwrites the entry of the schema map (no break: the last one stays). -/
def schemaIndexLoop (columnName : String) :
    List Column → Nat → List (String × Nat) → Bool → List (String × Nat) × Bool
  | [], _, sm, found => (sm, found)
  | col :: rest, j, sm, found =>
    if col.Name = columnName then schemaIndexLoop columnName rest (j + 1) (assocSet sm columnName j) true
    else schemaIndexLoop columnName rest (j + 1) sm found

/-- Outer loop of `parseCSVHeader` over the names of the header row. -/
def headerLoop (schema : Schema) :
    List String → List String → List (String × Nat) →
      List String × List (String × Nat) × Option Err
  | [], hm, sm => (hm, sm, none)
  | columnName :: rest, hm, sm =>
    match schemaIndexLoop columnName schema.Columns 0 sm false with
    | (sm1, true) => headerLoop schema rest (hm ++ [columnName]) sm1
    | (sm1, false) =>
      (hm ++ [columnName], sm1, some (Err.msg ("column " ++ columnName ++ " not in schema")))

/-- Records a `csv.Reader` yields from an input given as a list of lines
already split into fields: empty lines are skipped. -/
def csvRecords (f : List (List String)) : List (List String) :=
  f.filter (fun r => decide (r ≠ []))

/-- Go: `parseCSVHeader`, on the records of the reader: the header map
(position to name, as the list of names), the schema map (name to index in
`schema.Columns`) and the error. -/
def parseCSVHeader (records : List (List String)) (schema : Schema) :
    List String × List (String × Nat) × Option Err :=
  match records with
  | [] => ([], [], some (Err.msg "empty csv"))
  | record :: _ => headerLoop schema record [] []

/-- Loop of `csvToPipe` over the data rows: the reader rejects a row whose
number of fields differs from the header's. -/
def csvRows (E : Env) (table : Table) (headerMap : List String)
    (schemaMap : List (String × Nat)) (nfields : Nat) :
    List (List String) → Int → Except Err (List Cmd)
  | [], _ => .ok []
  | record :: rest, seq =>
    if record.length ≠ nfields then .error (Err.lib "record on line: wrong number of fields")
    else
      match recordToPipe E table record seq headerMap schemaMap with
      | .error e => .error e
      | .ok cmds =>
        match csvRows E table headerMap schemaMap nfields rest (seq + 1) with
        | .error e => .error e
        | .ok more => .ok (cmds ++ more)

/-- Go: `csvToPipe`: the commands queued for the whole input. -/
def csvToPipe (E : Env) (f : List (List String)) (table : Table) : Except Err (List Cmd) :=
  match parseCSVHeader (csvRecords f) table.Schema with
  | (_, _, some e) => .error e
  | (headerMap, schemaMap, none) =>
    csvRows E table headerMap schemaMap headerMap.length ((csvRecords f).drop 1) 0

/-- Go: `columnIndexFieldType`. -/
def Column.columnIndexFieldType (col : Column) : String :=
  if col.DataType = "int" ∨ col.DataType = "float" then "NUMERIC" else "TEXT"

/-- Go: `createIndexToPipe`: the `FT.CREATE` command it queues. -/
def createIndexToPipe (E : Env) (table : Table) : List Cmd :=
  [Cmd.Do (["FT.CREATE", table.formatKeyPrefix E, "ON", "HASH", "PREFIX", "1",
      table.formatKeyPrefix E ++ ":", "SCHEMA"] ++
    (table.Schema.Columns.filter (fun c => c.Searchable)).flatMap
      (fun col => [col.Name, col.columnIndexFieldType] ++
        (if col.Sortable then ["SORTABLE"] else [])))]

/-- The table a bulk load writes: the stored schema at the next version. -/
def loadTable (E : Env) (st : Store) (tableName : String) : Except Err Table :=
  match getTable E st tableName with
  | (_, some e) => .error e
  | (table, none) =>
    match getNextTableVersion E st table with
    | .error e => .error e
    | .ok version => .ok { table with Version := version }

/-- Go: `BulkLoad`; `starttime` and `endtime` are the two readings of
`time.Now().String()`. The deferred `updateLastLoad` runs at every return
after the `defer` statement, with the load record as it then stands. -/
def BulkLoad (E : Env) (st : Store) (tableName : String) (f : List (List String))
    (format : String) (starttime endtime : String) : Store × Option Err :=
  match loadTable E st tableName with
  | .error e => (st, some e)
  | .ok table =>
    let running : Load :=
      { Version := table.Version, StartTime := starttime, EndTime := "", Status := LoadRunning }
    match updateLastLoad E st table running with
    | (st1, some e) => (st1, some e)
    | (st1, none) =>
      let failed : Load := { running with Status := LoadFailed }
      if format = "csv" then
        match csvToPipe E f table with
        | .error e => ((updateLastLoad E st1 table failed).1, some e)
        | .ok pipe =>
          let pipe2 := if E.indexOnLoad then pipe ++ createIndexToPipe E table else pipe
          match Exec E pipe2 st1 with
          | (st2, some e) => ((updateLastLoad E st2 table failed).1, some e)
          | (st2, none) =>
            ((updateLastLoad E st2 table
              { running with EndTime := endtime, Status := LoadSuccess }).1, none)
      else ((updateLastLoad E st1 table failed).1, some (Err.msg "invalid file format"))

/-- Go: `type GetDataResponse`, with the result set of the metadata. -/
structure GetDataResponse where
  Records : List (List (String × String))
  Metadata : ResultSet
deriving DecidableEq

/-- Go: `GetData`. The error of `getTable` is overwritten by the next
assignment, so the call goes on with the table `getTable` returned. -/
def GetData (E : Env) (st : Store) (tableName : String) (query : Query) (t : String) :
    Store × Except Err GetDataResponse :=
  let table := (getTable E st tableName).1
  match table.Schema.validateQuery query with
  | some e => (st, .error e)
  | none =>
    match getRecordKeys E st table query t with
    | (st1, .error e) => (st1, .error e)
    | (st1, .ok (keys, resultSet)) =>
      match getRecordsWorkerPool st1 table.Schema keys with
      | .error e => (st1, .error e)
      | .ok records => (st1, .ok { Records := records, Metadata := resultSet })


/-! ## Bulk update (update.go) -/

/-- Go: `updateFilterableRecordToPipe`: the commands it queues and the error
it returns. The old value is read from the stored record, before any queued
command runs. -/
def updateFilterableRecordToPipe (E : Env) (st : Store) (table : Table) (col val key : String) :
    List Cmd × Option Err :=
  match getRecord st key table.Schema with
  | .error e => ([], some e)
  | .ok record =>
    let oldVal := fieldOf record col
    let cmds := [Cmd.SRem (table.formatFilterKey E col oldVal) key,
      Cmd.SAdd (table.formatFilterKey E col val) key]
    match table.Schema.isSortable col with
    | .error e => (cmds, some e)
    | .ok false => (cmds, none)
    | .ok true =>
      match addSortableValToPipe E table (table.formatFilterKey E col val) col val with
      | .error e => (cmds, some e)
      | .ok zs => (cmds ++ zs, none)

/-- Inner loop of `updateRecords` over the keys, for one update entry: the
error of `updateFilterableRecordToPipe` is dropped, and the `HSET` of the new
value is queued in any case. -/
def updateKeyCmds (E : Env) (st : Store) (table : Table) (col val : String) (filterable : Bool)
    (keys : List String) : List Cmd :=
  keys.flatMap (fun key =>
    (if filterable then (updateFilterableRecordToPipe E st table col val key).1 else []) ++
      [Cmd.HSet key [(col, val)]])

/-- Outer loop of `updateRecords` over the update entries: the commands
queued, or the error of `isFilterable`, at which the call returns without
sending anything. -/
def updateRecordsLoop (E : Env) (st : Store) (table : Table) (keys : List String) :
    List (String × String) → Except Err (List Cmd)
  | [] => .ok []
  | (col, val) :: rest =>
    match table.Schema.isFilterable col with
    | .error e => .error e
    | .ok filterable =>
      match updateRecordsLoop E st table keys rest with
      | .error e => .error e
      | .ok more => .ok (updateKeyCmds E st table col val filterable keys ++ more)

/-- Go: `updateRecords`. -/
def updateRecords (E : Env) (st : Store) (table : Table) (keys : List String)
    (values : List (String × String)) : Store × Option Err :=
  match updateRecordsLoop E st table keys values with
  | .error e => (st, some e)
  | .ok pipe => Exec E pipe st

/-- Go: `UpdateData`. The error of `getRecordKeys` is dropped and the key list
it returned is dereferenced: after an error that is a nil pointer. The error
of `updateRecords` is dropped too. -/
def UpdateData (E : Env) (st : Store) (tableName : String) (query : Query) (t : String) :
    Store × Option Err :=
  if query.Updates.length = 0 then (st, some (Err.msg "no values provided to update"))
  else
    match getTable E st tableName with
    | (_, some e) => (st, some e)
    | (table, none) =>
      match table.Schema.validateQuery query with
      | some e => (st, some e)
      | none =>
        match getRecordKeys E st table query t with
        | (st1, .error _) =>
          (st1, some (Err.panic "invalid memory address or nil pointer dereference"))
        | (st1, .ok (keys, _)) => ((updateRecords E st1 table keys query.Updates).1, none)

/-- Whether `m` is a member of the set under `k` after a list of commands, `b`
telling whether it was one before: the last `SADD k m` or `SREM k m` decides. -/
def memAfter (k m : String) : List Cmd → Bool → Bool
  | [], b => b
  | c :: cs, b =>
    memAfter k m cs (if c = Cmd.SAdd k m then true else if c = Cmd.SRem k m then false else b)

/-! ## Schema registry (schema.go) -/

/-- Go: `sortableDataType`. -/
def sortableDataType (dt : String) : Bool :=
  if dt = "int" ∨ dt = "float" then true else false

/-- Loop of `validateSchema` over the columns: the error of the first column
that is sortable and not filterable, or sortable with a datatype that is not
sortable. -/
def validateColumns : List Column → Option Err
  | [] => none
  | c :: rest =>
    if c.Sortable then
      if !c.Filterable then
        some (Err.msg ("invalid schema " ++ c.Name ++ " is sortable but not filterable"))
      else if !sortableDataType c.DataType then
        some (Err.msg ("invalid schema " ++ c.Name ++ " datatype is not sortable"))
      else validateColumns rest
    else validateColumns rest

/-- Go: `validateSchema`. -/
def validateSchema (schema : Schema) : Option Err := validateColumns schema.Columns

/-- Go: package variable `allSchemasKey = fmt.Sprintf("%s:schemas", Prefix)`,
set when the package is initialised, from the initial value `"rdb"` of
`Prefix`; `NewDatabase` changes `Prefix` later and leaves it as it is. -/
def allSchemasKey : String := "rdb:schemas"

/-- Go: `AddSchema`. The error of `GET` is dropped: a missing key and a key of
another type both read as the empty string. `json.Marshal` of a schema does
not fail. -/
def AddSchema (E : Env) (st : Store) (schema : Schema) : Store × Option Err :=
  match validateSchema schema with
  | some e => (st, some e)
  | none =>
    let key := formatSchemaKey E schema.Name
    let s := match Get st key with
      | .ok v => v
      | .error _ => ""
    if s ≠ "" then (st, some Err.ErrImmutableKey)
    else Exec E [Cmd.SAdd allSchemasKey key, Cmd.Set key (E.jsonMarshal schema)] st

/-! ## Update validation (query.go) and schema listing (schema.go) -/

/-- Go: `validateUpdateValues`: every key of the updates map is the name of a
schema column. No function of the package calls it. -/
def validateUpdateValues (schema : Schema) : List (String × String) → Option Err
  | [] => none
  | (k, _) :: rest =>
    if schema.Columns.any (fun col => decide (k = col.Name)) then
      validateUpdateValues schema rest
    else some (Err.msg ("column " ++ k ++ " not found"))

/-- Loop of `GetAllSchemas` over the keys of the schema key set. -/
def getSchemasLoop (E : Env) (st : Store) : List String → Except Err (List Schema)
  | [] => .ok []
  | key :: keys =>
    match getSchemaByKey E st key with
    | .error e => .error e
    | .ok s =>
      match getSchemasLoop E st keys with
      | .error e => .error e
      | .ok ss => .ok (s :: ss)

/-- Go: `GetAllSchemas`: `SMEMBERS allSchemasKey`, then every schema by its
key. -/
def GetAllSchemas (E : Env) (st : Store) : Except Err (List Schema) :=
  match readSet st allSchemasKey with
  | .error e => .error e
  | .ok keys => getSchemasLoop E st keys

/-! ## Index cleanup (index.go) -/

/-- Engine command `ZREM` with one member. -/
def ZRem (st : Store) (key member : String) : Store × Option Err :=
  match st key with
  | none => (st, none)
  | some (.zset z) => (st.put key (zsetVal (z.filter (fun p => decide (p.1 ≠ member)))), none)
  | some _ => (st, some wrongType)

/-- Engine command `HDEL`. -/
def HDel (st : Store) (key : String) (fields : List String) : Store × Option Err :=
  if fields = [] then (st, some wrongArgs)
  else
    match st key with
    | none => (st, none)
    | some (.hash h) =>
      let h2 := h.filter (fun p => decide (p.1 ∉ fields))
      (st.put key (if h2 = [] then none else some (.hash h2)), none)
    | some _ => (st, some wrongType)

/-- Loop of `deleteRecords` over `index = 0 .. len(delKeys) - 1`: the column
is `table.Schema.Columns[index]`, which panics past the last column; each
command is sent at once and its error ends the call. -/
def deleteIndexLoop (E : Env) (table : Table) (resMap : List (String × String)) (hk : String) :
    List Nat → Store → Store × Option Err
  | [], st => (st, none)
  | index :: rest, st =>
    match table.Schema.Columns.get? index with
    | none => (st, some (Err.panic "index out of range"))
    | some c =>
      if c.Filterable then
        let filterKey := table.formatFilterKey E c.Name (fieldOf resMap c.Name)
        match (Cmd.SRem filterKey hk).run E st with
        | (st1, some e) => (st1, some e)
        | (st1, none) =>
          if c.Sortable then
            match ZRem st1 (table.formatSortableKey E c.Name) filterKey with
            | (st2, some e) => (st2, some e)
            | (st2, none) => deleteIndexLoop E table resMap hk rest st2
          else deleteIndexLoop E table resMap hk rest st1
      else deleteIndexLoop E table resMap hk rest st

/-- Go: `deleteRecords`: the index cleanup of the record `hk` with the fields
`resMap`, whose names are `delKeys`. -/
def deleteRecords (E : Env) (st : Store) (table : Table) (delKeys : List String)
    (resMap : List (String × String)) (hk : String) : Store × Option Err :=
  match deleteIndexLoop E table resMap hk (List.range delKeys.length) st with
  | (st1, some e) => (st1, some e)
  | (st1, none) =>
    match ZRem st1 (table.formatAllRecordKeys E) hk with
    | (st2, some e) => (st2, some e)
    | (st2, none) => HDel st2 hk delKeys

/-! ## The worker pool of getRecordsWorkerPool, one step at a time (data.go) -/

/-- Go: `const MaxWorkers = 8` (db.go). -/
def MaxWorkers : Nat := 8

/-- Go: `type WorkerJobs`. -/
structure WorkerJobs where
  Key : String
  Index : Nat
deriving DecidableEq

/-- Go: `type WorkerResult`; the record and the error `getRecord` returned are
kept as one value. -/
structure WorkerResult where
  Result : Except Err (List (String × String))
  Index : Nat
deriving DecidableEq

/-- Where a goroutine running `getRecordsWorker` stands: at the head of its
loop `for j := range jobs`, before `results <- ...` with the result of the
fetch in hand, or returned. -/
inductive WorkerState where
  | receiving
  | sending (res : WorkerResult)
  | returned
deriving DecidableEq

/-- State of one call of `getRecordsWorkerPool`: how many jobs the caller has
sent, whether it has closed `jobs`, the contents of the two buffered channels
(both of capacity `len(keys)`, so no send blocks), the workers,
`tableData.Records`, and the value the call returned, once it has. -/
structure PoolState where
  sent : Nat
  jobsClosed : Bool
  jobs : List WorkerJobs
  workers : List WorkerState
  results : List WorkerResult
  records : List (List (String × String))
  returned : Option (Except Err (List (List (String × String))))
deriving DecidableEq

/-- The goroutines that take steps: the caller of `getRecordsWorkerPool` and
the workers. (The goroutine that waits for the workers and closes `results`
has no step of its own: `results` is closed once every worker has returned.) -/
inductive Goroutine where
  | main
  | worker (w : Nat)
deriving DecidableEq

/-- State of the pool when the workers have been started. -/
def poolInit (keys : List String) : PoolState :=
  { sent := 0, jobsClosed := false, jobs := [], workers := List.replicate MaxWorkers .receiving,
    results := [], records := List.replicate keys.length [], returned := none }

/-- One step of one goroutine, `none` when that goroutine cannot move (it is
blocked on a channel, has returned, or the call has returned).

The caller sends the jobs in key order, closes `jobs`, then receives from
`results`: a result with an error ends the call with that error, any other
is stored at its index; when `results` is closed and drained the call returns
the records. A worker receives a job and fetches the record, then sends the
result and returns if the fetch failed; it returns when `jobs` is closed and
drained. -/
def poolStep (st : Store) (schema : Schema) (keys : List String) (g : Goroutine)
    (p : PoolState) : Option PoolState :=
  match p.returned with
  | some _ => none
  | none =>
    match g with
    | .main =>
      if p.sent < keys.length then
        some { p with sent := p.sent + 1, jobs := p.jobs ++ [⟨keys.getD p.sent "", p.sent⟩] }
      else if p.jobsClosed = false then some { p with jobsClosed := true }
      else
        match p.results with
        | res :: rest =>
          match res.Result with
          | .error e => some { p with results := rest, returned := some (.error e) }
          | .ok record =>
            some { p with results := rest, records := p.records.set res.Index record }
        | [] =>
          if p.workers.all (fun w => decide (w = WorkerState.returned)) then
            some { p with returned := some (.ok p.records) }
          else none
    | .worker w =>
      match p.workers.get? w with
      | none => none
      | some .returned => none
      | some (.sending res) =>
        some { p with
          results := p.results ++ [res],
          workers := p.workers.set w
            (match res.Result with
              | .error _ => WorkerState.returned
              | .ok _ => WorkerState.receiving) }
      | some .receiving =>
        match p.jobs with
        | j :: rest =>
          some { p with
            jobs := rest,
            workers := p.workers.set w (.sending ⟨getRecord st j.Key schema, j.Index⟩) }
        | [] =>
          if p.jobsClosed = true then some { p with workers := p.workers.set w .returned }
          else none

/-- The pool run along a schedule, `none` when the schedule names a goroutine
that cannot move. -/
def poolRun (st : Store) (schema : Schema) (keys : List String) :
    List Goroutine → PoolState → Option PoolState
  | [], p => some p
  | g :: gs, p =>
    match poolStep st schema keys g p with
    | none => none
    | some p1 => poolRun st schema keys gs p1

/-! ## The order in which a bulk load writes (load.go) -/

/-- Engine that keeps a record of the writes submitted to it: the keyspace and
the submissions received so far, oldest first. A submission is the list of
commands of one round trip: a command sent on its own, or the commands of a
pipeline sent by `Exec`. -/
abbrev Wire := Store × List (List Cmd)

/-- Go: `updateLastLoad`, on the recording engine: the `HSET` runs on the
keyspace and is one submission. -/
def updateLastLoadOnWire (E : Env) (w : Wire) (table : Table) (load : Load) :
    Wire × Option Err :=
  (((updateLastLoad E w.1 table load).1,
    w.2 ++ [[Cmd.HSet (table.formatLastLoadKey E)
      [("version", itoa load.Version), ("status", itoa load.Status),
       ("starttime", load.StartTime), ("endtime", load.EndTime)]]]),
   (updateLastLoad E w.1 table load).2)

/-- Go: `pipe.Exec`, on the recording engine: the queued commands run on the
keyspace and are one submission. -/
def ExecOnWire (E : Env) (cmds : List Cmd) (w : Wire) : Wire × Option Err :=
  (((Exec E cmds w.1).1, w.2 ++ [cmds]), (Exec E cmds w.1).2)

/-- Go: `BulkLoad`, on the recording engine, statement by statement as
`BulkLoad` above: `getTable` and `getNextTableVersion` only read, the Running
record is sent by `updateLastLoad`, `csvToPipe` and `createIndexToPipe` only
queue, the queue is sent by `pipe.Exec`, and the deferred `updateLastLoad` is
sent at every return after the `defer` statement. -/
def BulkLoadOnWire (E : Env) (w : Wire) (tableName : String) (f : List (List String))
    (format : String) (starttime endtime : String) : Wire × Option Err :=
  match loadTable E w.1 tableName with
  | .error e => (w, some e)
  | .ok table =>
    let running : Load :=
      { Version := table.Version, StartTime := starttime, EndTime := "", Status := LoadRunning }
    match updateLastLoadOnWire E w table running with
    | (w1, some e) => (w1, some e)
    | (w1, none) =>
      let failed : Load := { running with Status := LoadFailed }
      if format = "csv" then
        match csvToPipe E f table with
        | .error e => ((updateLastLoadOnWire E w1 table failed).1, some e)
        | .ok pipe =>
          let pipe2 := if E.indexOnLoad then pipe ++ createIndexToPipe E table else pipe
          match ExecOnWire E pipe2 w1 with
          | (w2, some e) => ((updateLastLoadOnWire E w2 table failed).1, some e)
          | (w2, none) =>
            ((updateLastLoadOnWire E w2 table
              { running with EndTime := endtime, Status := LoadSuccess }).1, none)
      else ((updateLastLoadOnWire E w1 table failed).1, some (Err.msg "invalid file format"))

/-- The `HSET` that `updateLastLoad` sends for a load record. -/
def lastLoadWrite (E : Env) (table : Table) (load : Load) : Cmd :=
  Cmd.HSet (table.formatLastLoadKey E)
    [("version", itoa load.Version), ("status", itoa load.Status),
     ("starttime", load.StartTime), ("endtime", load.EndTime)]

/-! ## Concrete environment for the examples -/



/-- Reading of a plain decimal literal (sign, digits, optional fraction) as an
exact rational: `strconv.ParseFloat` on the literals the examples use. -/
def parseDecimal (s : String) : Option Score :=
  let go (neg : Bool) (cs : List Char) : Option Score :=
    let ip := cs.takeWhile (fun c => c ≠ '.')
    let fp := (cs.dropWhile (fun c => c ≠ '.')).drop 1
    if ip = [] ∧ fp = [] then none
    else
      match digitsValue (ip ++ fp) 0 with
      | some n => some (mkRat (if neg then - (n : Int) else (n : Int)) (10 ^ fp.length))
      | none => none
  match s.data with
  | '-' :: cs => go true cs
  | '+' :: cs => go false cs
  | cs => go false cs

/-- Schema of the examples: an unsortable text column and a sortable number
column. -/
def demoSchema : Schema :=
  { Name := "t",
    Columns := [
      { Name := "name", DataType := "string", Filterable := true, Sortable := false,
        Searchable := false },
      { Name := "n", DataType := "int", Filterable := true, Sortable := true,
        Searchable := false }] }

/-- Environment of the examples: prefix `rdb`, decimal literals, the JSON
codec on the one schema the examples store, no search index on load (as in
the test binary). -/
def demoEnv : Env :=
  { Prefix := "rdb",
    parseFloat := parseDecimal,
    jsonMarshal := fun s => if s = demoSchema then "demo-schema" else "",
    jsonUnmarshal := fun j => if j = "demo-schema" then some demoSchema else none,
    indexOnLoad := false,
    searchReply := fun _ => none }

/-- Table of the examples at version 0. -/
def demoTable : Table := { Schema := demoSchema, Version := 0, Name := "t" }

/-- Query with the given filters and paging, nothing else. -/
def mkQuery (filters : List Filter) (limit offset : Int) : Query :=
  { Filters := filters, SearchTerm := "", Limit := limit, Offset := offset, Updates := [] }

/-- Schema with two columns of the same name, the first of them unsortable. -/
def twinSchema : Schema :=
  { Name := "t",
    Columns := [
      { Name := "a", DataType := "int", Filterable := true, Sortable := false,
        Searchable := false },
      { Name := "a", DataType := "int", Filterable := true, Sortable := true,
        Searchable := false }] }

/-! ## Specification predicates and example data -/



/-- What one filter must satisfy to pass: the first schema column with its
name exists and, for an operator other than eq, is sortable and the filter has
exactly one value. -/
def FilterOk (schema : Schema) (f : Filter) : Prop :=
  ∃ col, schema.Columns.find? (fun c => decide (c.Name = f.Col)) = some col ∧
    (f.Op ≠ FilterOp.EqualTo → col.Sortable = true ∧ f.Val.length = 1)



/-- Members of a sorted set in rank order. -/
def zmembers (z : List (String × Score)) : List String := (zsorted z).map Prod.fst

/-- The page the paging contract prescribes: from `offset` to the end when
`limit ≤ 0`, else at most `limit` keys from `offset`. -/
def expectedPage (ks : List String) (limit offset : Int) : List String :=
  if limit ≤ 0 then ks.drop offset.toNat else (ks.drop offset.toNat).take limit.toNat

/-- Store of the paging examples: one sorted set of four members under the
all-records key of the demo table. -/
def pagingStore : Store :=
  fun k => if k = "rdb:t:0:all" then
    some (.zset [("rdb:t:0:0", 0), ("rdb:t:0:1", 1), ("rdb:t:0:2", 2), ("rdb:t:0:3", 3)])
  else none

/-- The sorted-set key the planner hands to paging: the all-records key for an
empty filter list, else the final key of `getFilteredRecordKeys`. -/
def planFinalKey (E : Env) (st : Store) (table : Table) (filters : List Filter) (t : String) :
    Store × Except Err String :=
  if filters.length > 0 then getFilteredRecordKeys E st table filters t
  else (st, .ok (table.formatAllRecordKeys E))

/-- Key list of the page (limit, offset) of a query. -/
def pageKeys (E : Env) (st : Store) (table : Table) (query : Query) (t : String)
    (limit offset : Int) : Except Err (List String) :=
  match (getRecordKeys E st table { query with Limit := limit, Offset := offset } t).2 with
  | .ok r => .ok r.1
  | .error e => .error e



/-- The source keys `addFilterUnionKey` collects for a filter: one filter key
per listed value for eq, the members of the column's sortable set in the
requested score range otherwise. -/
def sourceKeys (E : Env) (st : Store) (table : Table) (f : Filter) : Except Err (List String) :=
  if f.Op = FilterOp.EqualTo then .ok (f.Val.map (fun v => table.formatFilterKey E f.Col v))
  else getOrderedFilterKeys E st table f

/-- The union of a filter's source sets is empty: its source keys can be
collected and every one of them holds the empty set. -/
def UnionEmpty (E : Env) (st : Store) (table : Table) (f : Filter) : Prop :=
  ∃ fks, sourceKeys E st table f = .ok fks ∧ ∀ k ∈ fks, readSet st k = .ok []

/-- Store of the planner examples: the demo table at version 0 with the three
records (name, n) = (a, 5), (b, 7), (a, 10) and their indexes. -/
def demoStore : Store :=
  fun k =>
    if k = "rdb:t:0:0" then some (.hash [("name", "a"), ("n", "5")])
    else if k = "rdb:t:0:1" then some (.hash [("name", "b"), ("n", "7")])
    else if k = "rdb:t:0:2" then some (.hash [("name", "a"), ("n", "10")])
    else if k = "rdb:t:0:all" then
      some (.zset [("rdb:t:0:0", 0), ("rdb:t:0:1", 1), ("rdb:t:0:2", 2)])
    else if k = "rdb:t:0:name:a" then some (.set ["rdb:t:0:0", "rdb:t:0:2"])
    else if k = "rdb:t:0:name:b" then some (.set ["rdb:t:0:1"])
    else if k = "rdb:t:0:n:5" then some (.set ["rdb:t:0:0"])
    else if k = "rdb:t:0:n:7" then some (.set ["rdb:t:0:1"])
    else if k = "rdb:t:0:n:10" then some (.set ["rdb:t:0:2"])
    else if k = "rdb:t:0:n" then
      some (.zset [("rdb:t:0:n:5", 5), ("rdb:t:0:n:7", 7), ("rdb:t:0:n:10", 10)])
    else none



/-- Value of column `c` in the record hash stored under `k`. -/
def recordValue (st : Store) (k c : String) : Option String :=
  match st k with
  | some (.hash h) => assocGet h c
  | _ => none

/-- Comparison a range operator asks for, between the record's number `x` and
the filter's number `b`. -/
def cmpOp (op : FilterOp) (x b : Score) : Bool :=
  match op with
  | .GreaterThan => decide (b < x)
  | .LessThan => decide (x < b)
  | .GreaterThanOrEqual => decide (b ≤ x)
  | .LessThanOrEqual => decide (x ≤ b)
  | .EqualTo => false

/-- The record under key `k` satisfies the filter: for eq its value is one of
`f.Val`; for gt, gte, lt, lte its numeric value compares accordingly with the
number `f.Val[0]`. -/
def satisfies (E : Env) (st : Store) (k : String) (f : Filter) : Bool :=
  match recordValue st k f.Col with
  | none => false
  | some v =>
    if f.Op = FilterOp.EqualTo then decide (v ∈ f.Val)
    else
      match E.parseFloat v, f.Val.head?.bind E.parseFloat with
      | some x, some b => cmpOp f.Op x b
      | _, _ => false

/-- The text `v0` is a plain number `b`: ParseFloat and the engine's reading of
a range bound agree on it (it is not an infinity and does not start with the
mark `(` of an exclusive bound). -/
def PlainNumber (E : Env) (v0 : String) (b : Score) : Prop :=
  E.parseFloat v0 = some b ∧ parseExtScore E v0 = some (.fin b) ∧
    parseZBound E v0 = some ⟨.fin b, false⟩

/-- The stored indexes of a table are consistent, for the live records with
the sequence numbers `seqs` (ascending): the all-records set holds every
record key scored by its seq; for a filterable column the filter set of a
value holds exactly the record keys with that value; for a sortable column
the sortable set holds exactly the filter keys of the values present, each
scored by its numeric value. -/
structure IndexesConsistent (E : Env) (st : Store) (table : Table) (seqs : List Int) : Prop where
  sorted : seqs.Sorted (fun a b => a < b)
  all : ∃ allz, readZSet st (table.formatAllRecordKeys E) = .ok allz ∧
    allz.Perm (seqs.map (fun s => (table.formatRecordKey E s, (s : Score))))
  filter : ∀ c, table.Schema.isFilterable c = .ok true → ∀ v,
    ∃ s, readSet st (table.formatFilterKey E c v) = .ok s ∧
      ∀ k, k ∈ s ↔ (k ∈ seqs.map (fun s => table.formatRecordKey E s) ∧
        recordValue st k c = some v)
  sortable : ∀ c, table.Schema.isSortable c = .ok true →
    ∃ zc, readZSet st (table.formatSortableKey E c) = .ok zc ∧
      ∀ m x, (m, x) ∈ zc ↔ ∃ v, m = table.formatFilterKey E c v ∧ E.parseFloat v = some x ∧
        ∃ k ∈ seqs.map (fun s => table.formatRecordKey E s), recordValue st k c = some v

/-- The answer the filter contract prescribes: the record keys, in ascending
seq order, of the records that satisfy every filter. -/
def expectedKeys (E : Env) (st : Store) (table : Table) (filters : List Filter)
    (seqs : List Int) : List String :=
  (seqs.map (fun s => table.formatRecordKey E s)).filter
    (fun k => filters.all (fun f => satisfies E st k f))

/-- The union-store keys of a query do not clash: two filters share a key only
if they are the same filter, and no union-store key is a key that a filter of
the query reads on the store `st`: the sortable key of the column of a range
filter, or one of the filter keys whose union the filter takes. -/
def UnionKeysFresh (E : Env) (st : Store) (table : Table) (filters : List Filter)
    (t : String) : Prop :=
  (∀ f ∈ filters, ∀ g ∈ filters,
    table.formatUnionStoreKey E f.Col f.Val t = table.formatUnionStoreKey E g.Col g.Val t →
      f = g) ∧
  (∀ f ∈ filters, ∀ g ∈ filters,
    (g.Op ≠ FilterOp.EqualTo →
      table.formatUnionStoreKey E f.Col f.Val t ≠ table.formatSortableKey E g.Col) ∧
    ∀ fks, sourceKeys E st table g = .ok fks →
      table.formatUnionStoreKey E f.Col f.Val t ∉ fks)

/-- State of the filter loop of the planner after the filters `done`: the
store `cur` differs from the stored state `st` at most under the union keys
of `done`, and under each of them lies the set of the live record keys that
satisfy its filter. -/
def LoopInv (E : Env) (st : Store) (table : Table) (seqs : List Int) (t : String)
    (cur : Store) (done : List Filter) : Prop :=
  (∀ k, (∀ g ∈ done, table.formatUnionStoreKey E g.Col g.Val t ≠ k) → cur k = st k) ∧
  (∀ g ∈ done, ∃ s, readSet cur (table.formatUnionStoreKey E g.Col g.Val t) = .ok s ∧
    ∀ k, k ∈ s ↔ (k ∈ seqs.map (fun s => table.formatRecordKey E s) ∧
      satisfies E st k g = true))

/-- A command the ingest of row `row` with key `rk` queues for its fields:
for some position, with column name `col`, value `val` and schema entry `c`
of a filterable column, the `SADD` into the filter set or, for a sortable
column and a value that parses, the `ZADD` into the sortable set. -/
def FieldCmd (E : Env) (table : Table) (header : List String)
    (schemaMap : List (String × Nat)) (rk : String) (row : List String) (cmd : Cmd) : Prop :=
  ∃ p col val c, header.get? p = some col ∧ row.get? p = some val ∧
    table.Schema.Columns.get? ((assocGet schemaMap col).getD 0) = some c ∧
    c.Filterable = true ∧
    (cmd = Cmd.SAdd (table.formatFilterKey E col val) rk ∨
      (c.Sortable = true ∧ ∃ x, E.parseFloat val = some x ∧
        cmd = Cmd.ZAdd (table.formatSortableKey E col) x (table.formatFilterKey E col val)))

/-- A command the ingest of the rows `rows` (numbered from 0) queues. -/
def LoadCmd (E : Env) (table : Table) (header : List String)
    (schemaMap : List (String × Nat)) (rows : List (List String)) (cmd : Cmd) : Prop :=
  ∃ i row, rows.get? i = some row ∧
    (FieldCmd E table header schemaMap (table.formatRecordKey E (i : Int)) row cmd ∨
      cmd = Cmd.HSet (table.formatRecordKey E (i : Int)) (header.zip row) ∨
      cmd = Cmd.ZAdd (table.formatAllRecordKeys E) ((i : Int) : Score)
        (table.formatRecordKey E (i : Int)))

/-- Value under a key after a command on that key: the command's result, or
the old value when the engine refuses the command. -/
def Cmd.applyTo (c : Cmd) (v : Option RVal) : Option RVal :=
  match c.onValue v with
  | .ok v1 => v1
  | .error _ => v

/-- A column name that cannot be mistaken for another part of a key: it holds
no `:`, is not `all`, and has a character that is no decimal digit. -/
def PlainName (c : String) : Prop :=
  ':' ∉ c.data ∧ c ≠ "all" ∧ ∃ ch ∈ c.data, ¬ (48 ≤ ch.toNat ∧ ch.toNat ≤ 57)

/-- A schema whose derived keys cannot clash: the column names are pairwise
distinct and plain, and every sortable column is filterable. -/
def PlainSchema (schema : Schema) : Prop :=
  (schema.Columns.map (fun c => c.Name)).Nodup ∧
  (∀ c ∈ schema.Columns, PlainName c.Name) ∧
  (∀ c ∈ schema.Columns, c.Sortable = true → c.Filterable = true)

/-- What is known of a CSV ingest that succeeded: the header (without repeated
names, not empty) passed the parser, the rows have as many fields as the
header, the commands queued are the load commands of the rows, and the schema
is plain. -/
structure LoadCtx (E : Env) (table : Table) (header : List String)
    (rows : List (List String)) (schemaMap : List (String × Nat)) (pipe : List Cmd) : Prop where
  hcols : ∀ col ∈ header, ∃ i c, table.Schema.Columns.get? i = some c ∧ c.Name = col ∧
    assocGet schemaMap col = some i
  hlens : ∀ row ∈ rows, row.length = header.length
  hmem : ∀ cmd, cmd ∈ pipe ↔ LoadCmd E table header schemaMap rows cmd
  hnodup : header.Nodup
  hne : header ≠ []
  hschema : PlainSchema table.Schema

/-- No key of the version of the table exists yet. -/
def FreshVersion (E : Env) (st : Store) (table : Table) : Prop :=
  ∀ s, st (table.formatKeyPrefix E ++ (":" ++ s)) = none

/-- A bulk load of the CSV input `f` into table `tableName` succeeded and left
the store `st2`: it wrote the version `table`, no key of which existed before;
the schema is plain; the records of the input are the header `header`, which
repeats no name, and the data rows `rows`. -/
structure Loaded (E : Env) (st : Store) (tableName : String) (f : List (List String))
    (starttime endtime : String) (st2 : Store) (table : Table) (header : List String)
    (rows : List (List String)) : Prop where
  hload : BulkLoad E st tableName f "csv" starttime endtime = (st2, none)
  htable : loadTable E st tableName = .ok table
  hfresh : FreshVersion E st table
  hplain : PlainSchema table.Schema
  hcsv : csvRecords f = header :: rows
  hnodup : header.Nodup

/-- Store of the load examples: the schema of the demo table, stored under its
schema key, and nothing else. -/
def schemaStore : Store :=
  fun k => if k = "rdb:t:schema" then some (.str "demo-schema") else none

/-- CSV input of the load examples: the header and the rows (a, 5), (b, 7),
(a, 10). -/
def demoCsv : List (List String) := [["name", "n"], ["a", "5"], ["b", "7"], ["a", "10"]]

/-- Store after the bulk load of `demoCsv` into the demo table. -/
def loadedStore : Store := (BulkLoad demoEnv schemaStore "t" demoCsv "csv" "t0" "t1").1

/-- Setting of a bulk update of the column `c` over the whole table: the
indexes are consistent for the records with the seqs `is`, of which there is
at least one, every record passes the conformance check of `getRecord`, and
`c` is the column the schema finds under its name, a filterable one. -/
structure UpdateCtx (E : Env) (st : Store) (table : Table) (is : List Nat) (c : Column) :
    Prop where
  hcons : IndexesConsistent E st table (is.map Int.ofNat)
  hne : is ≠ []
  hconf : ∀ i ∈ is, ∃ r,
    getRecord st (table.formatRecordKey E ((i : Nat) : Int)) table.Schema = .ok r
  hfirst : table.Schema.Columns.find? (fun d => decide (d.Name = c.Name)) = some c
  hf : c.Filterable = true

/-- The commands `updateRecords` queues for the one update `c.Name := x` over
the records with the seqs `is`. -/
def updatePipe (E : Env) (st : Store) (table : Table) (c : Column) (x : String)
    (is : List Nat) : List Cmd :=
  updateKeyCmds E st table c.Name x true
    (is.map (fun i => table.formatRecordKey E ((i : Nat) : Int)))

/-- The table with a schema of the one column `c`, taken as unsortable: the
keys of the table do not depend on its schema, and an eq filter on `c` reads
the filter sets of `c` only. -/
def Table.onlyColumn (table : Table) (c : Column) : Table :=
  { Schema := { Name := table.Schema.Name, Columns := [{ c with Sortable := false }] },
    Version := table.Version, Name := table.Name }

/-- CSV input whose header names only the first of the two columns of the demo
schema. -/
def partialCsv : List (List String) := [["name"], ["a"], ["b"]]

/-- Store after the bulk load of `partialCsv` into the demo table. -/
def partialStore : Store := (BulkLoad demoEnv schemaStore "t" partialCsv "csv" "t0" "t1").1

/-- Store after the bulk load of a CSV with a header and no data row. -/
def emptyStore : Store :=
  (BulkLoad demoEnv schemaStore "t" [["name", "n"]] "csv" "t0" "t1").1

/-- Query of a bulk update: no filter, no paging, the one update `col := x`. -/
def mkUpdate (col x : String) : Query :=
  { Filters := [], SearchTerm := "", Limit := 0, Offset := 0, Updates := [(col, x)] }

/-- Store of the conformance example: one hash with the fields `a` and `b`. -/
def twinStore : Store :=
  fun k => if k = "rdb:t:0:0" then some (.hash [("a", "1"), ("b", "2")]) else none

/-- Store without any key. -/
def blankStore : Store := fun _ => none

/-- Schema with the empty name and no column. -/
def namelessSchema : Schema := { Name := "", Columns := [] }

/-- Environment of the schema examples: as `demoEnv`, with a JSON codec that
also knows the nameless schema. -/
def codecEnv : Env :=
  { Prefix := "rdb",
    parseFloat := parseDecimal,
    jsonMarshal := fun s =>
      if s = demoSchema then "demo-schema"
      else if s = namelessSchema then "nameless-schema" else "",
    jsonUnmarshal := fun j =>
      if j = "demo-schema" then some demoSchema
      else if j = "nameless-schema" then some namelessSchema else none,
    indexOnLoad := false,
    searchReply := fun _ => none }

/-- Store with a text under the schema key of table `t` that is no JSON of a
schema. -/
def garbageStore : Store :=
  fun k => if k = "rdb:t:schema" then some (.str "garbage") else none

/-- Store whose last-load record of table `t` holds the largest 64-bit
version, with status Success. -/
def maxVersionStore : Store :=
  fun k => if k = "rdb:t:lastload" then
    some (.hash [("version", "9223372036854775807"), ("status", "1"), ("starttime", "a"),
      ("endtime", "b")])
  else none

/-- Store whose last-load record of table `t` has a version field that is no
number. -/
def unreadableLoadStore : Store :=
  fun k => if k = "rdb:t:lastload" then
    some (.hash [("version", "x"), ("status", "1"), ("starttime", "a"), ("endtime", "b")])
  else none

/-- A filter whose column name and values hold no underscore, the character
that `formatUnionStoreKey` puts around every value. -/
def UnderscoreFree (f : Filter) : Prop :=
  '_' ∉ f.Col.data ∧ ∀ v ∈ f.Val, '_' ∉ v.data

/-- Environment of a database opened with `NewDatabase(address, "app",
password)`: the demo environment with the prefix `app`. -/
def appEnv : Env := { demoEnv with Prefix := "app" }

/-- CSV input with two rows that share the value 5 of the sortable column. -/
def sharedValueCsv : List (List String) := [["name", "n"], ["a", "5"], ["b", "5"]]

/-- Store after the bulk load of `sharedValueCsv` into the demo table. -/
def sharedValueStore : Store :=
  (BulkLoad demoEnv schemaStore "t" sharedValueCsv "csv" "t0" "t1").1

/-- Store after the index cleanup of the record of seq 0 of
`sharedValueStore`. -/
def cleanedStore : Store :=
  (deleteRecords demoEnv sharedValueStore demoTable ["name", "n"] [("name", "a"), ("n", "5")]
    "rdb:t:0:0").1

/-- Steps a worker in a given state has left at most, counting the result it
is about to send. -/
def WorkerState.weight : WorkerState → Nat
  | .receiving => 1
  | .sending _ => 3
  | .returned => 0

/-- Bound on the number of steps a pool state has left. -/
def poolMeasure (keys : List String) (p : PoolState) : Nat :=
  4 * (keys.length - p.sent) + (if p.jobsClosed = true then 0 else 1) + 3 * p.jobs.length
    + (p.workers.map WorkerState.weight).sum + p.results.length
    + (if p.returned = none then 1 else 0)

/-- What holds of every state of the pool: the jobs and results in flight
belong to keys of the list, every key not yet sent, queued, in a worker's
hands or waiting in `results` has its record stored at its index, a worker
has returned only after a failed fetch whose result is still in `results` or
after `jobs` was closed and drained, and the value returned is right. -/
structure PoolInv (st : Store) (schema : Schema) (keys : List String) (p : PoolState) :
    Prop where
  len : p.records.length = keys.length
  sent_le : p.sent ≤ keys.length
  closed : p.jobsClosed = true → p.sent = keys.length
  jobs : ∀ j ∈ p.jobs, j.Index < keys.length ∧ j.Key = keys.getD j.Index ""
  sending : ∀ res, WorkerState.sending res ∈ p.workers →
    res.Index < keys.length ∧ res.Result = getRecord st (keys.getD res.Index "") schema
  results : ∀ res ∈ p.results,
    res.Index < keys.length ∧ res.Result = getRecord st (keys.getD res.Index "") schema
  place : p.returned = none → ∀ i, i < keys.length →
    p.sent ≤ i ∨ (∃ j ∈ p.jobs, j.Index = i) ∨
      (∃ res, WorkerState.sending res ∈ p.workers ∧ res.Index = i) ∨
      (∃ res ∈ p.results, res.Index = i) ∨
      getRecord st (keys.getD i "") schema = .ok (p.records.getD i [])
  gone : p.returned = none → WorkerState.returned ∈ p.workers →
    (∃ res ∈ p.results, ∃ e, res.Result = .error e) ∨ (p.jobsClosed = true ∧ p.jobs = [])
  nworkers : p.workers.length = MaxWorkers
  ok : ∀ rs, p.returned = some (.ok rs) →
    rs.length = keys.length ∧
      ∀ i, i < keys.length → getRecord st (keys.getD i "") schema = .ok (rs.getD i [])
  err : ∀ e, p.returned = some (.error e) →
    ∃ i, i < keys.length ∧ getRecord st (keys.getD i "") schema = .error e

/-- Schedule of the pool for the three record keys of the loaded demo table:
the caller sends the three jobs and closes `jobs`; workers 0 and 1 receive
the first two jobs and worker 1 sends its result first; worker 2 does the
third job; every worker returns; the caller receives the three results and
returns. -/
def demoSchedule : List Goroutine :=
  [.main, .main, .main, .main,
   .worker 0, .worker 1, .worker 1, .worker 0, .worker 2, .worker 2,
   .worker 0, .worker 1, .worker 2, .worker 3, .worker 4, .worker 5, .worker 6, .worker 7,
   .main, .main, .main, .main]

/-- State of the pool at the end of `demoSchedule`. -/
def demoPoolEnd : PoolState :=
  { sent := 3, jobsClosed := true, jobs := [],
    workers := List.replicate 8 WorkerState.returned, results := [],
    records := [[("name", "a"), ("n", "5")], [("name", "b"), ("n", "7")],
      [("name", "a"), ("n", "10")]],
    returned := some (.ok [[("name", "a"), ("n", "5")], [("name", "b"), ("n", "7")],
      [("name", "a"), ("n", "10")]]) }

/-- Whether a worker has a result in hand (1) or not (0). -/
def WorkerState.holds : WorkerState → Nat
  | .sending _ => 1
  | _ => 0

/-- Jobs sent and not yet collected: those in `jobs`, those in the hands of a
worker and those in `results`. -/
def poolInFlight (p : PoolState) : Nat :=
  p.jobs.length + (p.workers.map WorkerState.holds).sum + p.results.length

/-- CSV whose only data row has the value `lastload` in the column `name`. -/
def lastloadCsv : List (List String) := [["name", "n"], ["lastload", "5"]]

/-- Store after the bulk load of `lastloadCsv` into the table `t`: the filter
set of the value `lastload` of the column `name` is stored under the key
`rdb:t:0:name:lastload`. -/
def lastloadStore : Store := (BulkLoad demoEnv schemaStore "t" lastloadCsv "csv" "t0" "t1").1

/-- Table named `t:0:name`, whose last-load key is `rdb:t:0:name:lastload`. -/
def nameTable : Table := { Schema := demoSchema, Version := 0, Name := "t:0:name" }

/-- Schema whose name stands for the Go string of the single byte 0xff, which
is no UTF-8 text (the strings of this development are sequences of
characters, so the byte is written out as the four characters of its Go
escape). -/
def rawByteSchema : Schema :=
  { Name := "\\xff",
    Columns := [
      { Name := "name", DataType := "string", Filterable := true, Sortable := false,
        Searchable := false }] }

/-- Schema `json.Unmarshal` reads from the JSON text of `rawByteSchema`:
`json.Marshal` writes the replacement character U+FFFD for a byte that is no
UTF-8. -/
def replacedByteSchema : Schema := { rawByteSchema with Name := "\uFFFD" }

/-- Environment of the schema examples, with the JSON codec on
`rawByteSchema`. -/
def rawByteEnv : Env :=
  { Prefix := "rdb",
    parseFloat := parseDecimal,
    jsonMarshal := fun s => if s = rawByteSchema then "replaced-byte-schema" else "",
    jsonUnmarshal := fun j => if j = "replaced-byte-schema" then some replacedByteSchema else none,
    indexOnLoad := false,
    searchReply := fun _ => none }

/-- Kind of the value under a key: 0 for a missing key, then string, hash, set
and sorted set. -/
def kindOf : Option RVal → Nat
  | none => 0
  | some (.str _) => 1
  | some (.hash _) => 2
  | some (.set _) => 3
  | some (.zset _) => 4

/-- Kind of value a command works on (as `kindOf`); 0 for `Do`, which works on
no key. -/
def Cmd.kind : Cmd → Nat
  | .SAdd _ _ => 3
  | .SRem _ _ => 3
  | .ZAdd _ _ _ => 4
  | .HSet _ _ => 2
  | .Set _ _ => 1
  | .Do _ => 0

/-- Commands that never remove a key and never replace a value by one of
another kind: all but `SREM` and `SET`. -/
def Cmd.keeps : Cmd → Bool
  | .SRem _ _ => false
  | .Set _ _ => false
  | _ => true

/-- Schema with the one column `all`, filterable and sortable. -/
def allSchema : Schema :=
  { Name := "al",
    Columns := [
      { Name := "all", DataType := "int", Filterable := true, Sortable := true,
        Searchable := false }] }

/-- Environment of the examples with odd column names: as `demoEnv`, with a
JSON codec on the schema of two columns named `a` and on the schema of the
column `all`. -/
def oddEnv : Env :=
  { Prefix := "rdb",
    parseFloat := parseDecimal,
    jsonMarshal := fun s =>
      if s = twinSchema then "twin-schema" else if s = allSchema then "all-schema" else "",
    jsonUnmarshal := fun j =>
      if j = "twin-schema" then some twinSchema
      else if j = "all-schema" then some allSchema else none,
    indexOnLoad := false,
    searchReply := fun _ => none }

/-- Store that holds the schema of two columns named `a` for the table `tw`
and the schema of the column `all` for the table `al`, and nothing else. -/
def oddSchemaStore : Store :=
  fun k => if k = "rdb:tw:schema" then some (.str "twin-schema")
    else if k = "rdb:al:schema" then some (.str "all-schema") else none

/-! # Theorems -/

/-! ## Query validation -/

/-- The inner loop of `validateFilters` looks at the first column with the
filter's name only. -/
theorem validateFilterColumns_eq (f : Filter) (cols : List Column) :
    validateFilterColumns f cols =
      match cols.find? (fun c => decide (c.Name = f.Col)) with
      | none => .ok false
      | some col =>
        if f.Op ≠ FilterOp.EqualTo then
          if !col.Sortable then
            .error (Err.msg ("can't perform gt or lt on non-sortable column " ++ f.Col))
          else if f.Val.length ≠ 1 then
            .error (Err.msg "gt and lt ops must have only 1 val")
          else .ok true
        else .ok true := by
  induction cols with
  | nil => rfl
  | cons c rest ih =>
    by_cases h : f.Col = c.Name
    · have hd : decide (c.Name = f.Col) = true := decide_eq_true h.symm
      rw [validateFilterColumns, List.find?_cons, hd, if_pos h]
    · have hd : decide (c.Name = f.Col) = false := decide_eq_false (fun e => h e.symm)
      rw [validateFilterColumns, List.find?_cons, hd, if_neg h]
      exact ih

theorem validateFilterColumns_ok_iff (schema : Schema) (f : Filter) :
    validateFilterColumns f schema.Columns = .ok true ↔ FilterOk schema f := by
  rw [validateFilterColumns_eq]
  unfold FilterOk
  cases hfind : schema.Columns.find? (fun c => decide (c.Name = f.Col)) with
  | none => simp
  | some col =>
    by_cases hop : f.Op = FilterOp.EqualTo
    · simp [hop]
    · by_cases hs : col.Sortable = true
      · by_cases hl : f.Val.length = 1
        · simp [hop, hs, hl]
        · simp [hop, hs, hl]
      · simp [hop, hs]

theorem validateFilters_none_iff (schema : Schema) (filters : List Filter) :
    schema.validateFilters filters = none ↔ ∀ f ∈ filters, FilterOk schema f := by
  induction filters with
  | nil => simp [Schema.validateFilters]
  | cons f fs ih =>
    rw [Schema.validateFilters]
    cases h : validateFilterColumns f schema.Columns with
    | error e =>
      have hno : ¬ FilterOk schema f := by
        rw [← validateFilterColumns_ok_iff, h]; simp
      simp [hno]
    | ok b =>
      cases b with
      | false =>
        have hno : ¬ FilterOk schema f := by
          rw [← validateFilterColumns_ok_iff, h]; simp
        simp [hno]
      | true =>
        have hyes : FilterOk schema f := by
          rw [← validateFilterColumns_ok_iff, h]
        simp [hyes, ih]

/-- C8 (as amended): validateQuery returns no error exactly when limit ≥ -1,
offset ≥ 0 and, for every filter, the first schema column named like the
filter exists and, when the operator is not eq, that column is sortable and
the filter has exactly one value. -/
theorem validateQuery_none_iff (schema : Schema) (query : Query) :
    schema.validateQuery query = none ↔
      (-1 ≤ query.Limit ∧ 0 ≤ query.Offset ∧
        ∀ f ∈ query.Filters, ∃ col,
          schema.Columns.find? (fun c => decide (c.Name = f.Col)) = some col ∧
          (f.Op ≠ FilterOp.EqualTo → col.Sortable = true ∧ f.Val.length = 1)) := by
  unfold Schema.validateQuery
  by_cases hl : query.Limit < -1
  · simp [hl]
  · by_cases ho : query.Offset < 0
    · simp [hl, ho]
    · have h1 : -1 ≤ query.Limit := by omega
      have h2 : 0 ≤ query.Offset := by omega
      simp only [hl, ho, if_false, h1, h2, true_and]
      exact validateFilters_none_iff schema query.Filters

/-- C8 (counterexample): on a schema with two columns named `a`, the first
unsortable and the second sortable, the filter `a gt ["1"]` is rejected, though
some schema column named `a` is sortable and the filter has one value. -/
theorem validateQuery_twin_counterexample :
    twinSchema.validateQuery (mkQuery [⟨"a", FilterOp.GreaterThan, ["1"]⟩] 0 0) ≠ none ∧
    (-1 ≤ (mkQuery [⟨"a", FilterOp.GreaterThan, ["1"]⟩] 0 0).Limit ∧
      0 ≤ (mkQuery [⟨"a", FilterOp.GreaterThan, ["1"]⟩] 0 0).Offset ∧
      ∀ f ∈ (mkQuery [⟨"a", FilterOp.GreaterThan, ["1"]⟩] 0 0).Filters,
        ∃ col ∈ twinSchema.Columns, col.Name = f.Col ∧
          (f.Op ≠ FilterOp.EqualTo → col.Sortable = true ∧ f.Val.length = 1)) := by
  refine ⟨by decide, by decide, by decide, ?_⟩
  intro f hf
  simp [mkQuery] at hf
  subst hf
  exact ⟨⟨"a", "int", true, true, false⟩, by simp [twinSchema], rfl, fun _ => ⟨rfl, rfl⟩⟩

/-! ## Paging -/

theorem wrapInt64_stop (offset limit : Int) (ho : 0 ≤ offset) (hl : 0 < limit)
    (hs : offset + limit ≤ 2 ^ 63) :
    wrapInt64 (wrapInt64 (offset + limit) - 1) = offset + limit - 1 := by
  unfold wrapInt64
  norm_num at hs ⊢
  omega

theorem rangeByRank_to_end (l : List String) (start : Int) (h : 0 ≤ start) :
    rangeByRank l start (-1) = l.drop start.toNat := by
  unfold rangeByRank
  simp only []
  have h1 : ¬ start < 0 := by omega
  simp only [h1, if_false]
  by_cases hn : (l.length : Int) ≤ start
  · have : l.length ≤ start.toNat := by omega
    rw [List.drop_eq_nil_of_le this]
    simp [hn]
  · have e1 : ¬ (start > (l.length : Int) + -1 ∨ start ≥ l.length) := by omega
    simp only [show ((-1 : Int) < 0) by omega, if_true, e1, if_false]
    apply List.take_of_length_le
    simp only [List.length_drop]
    split <;> omega

theorem rangeByRank_window (l : List String) (start stop : Int) (h : 0 ≤ start)
    (h2 : start ≤ stop) :
    rangeByRank l start stop = (l.drop start.toNat).take (stop - start + 1).toNat := by
  unfold rangeByRank
  simp only []
  have h1 : ¬ start < 0 := by omega
  have h3 : ¬ stop < 0 := by omega
  simp only [h1, h3, if_false]
  by_cases hn : (l.length : Int) ≤ start
  · have : l.length ≤ start.toNat := by omega
    rw [List.drop_eq_nil_of_le this]
    simp [hn]
  · have e1 : ¬ (start > stop ∨ start ≥ l.length) := by omega
    simp only [e1, if_false]
    by_cases hs : stop ≥ (l.length : Int)
    · simp only [hs, if_true]
      rw [List.take_of_length_le, List.take_of_length_le]
      · simp only [List.length_drop]; omega
      · simp only [List.length_drop]; omega
    · simp only [hs, if_false]

theorem zmembers_length (z : List (String × Score)) : (zmembers z).length = z.length := by
  simp [zmembers, zsorted, List.length_insertionSort]

/-- Paging of a stored sorted set, for an offset and limit whose sum does not
leave the 64-bit range. -/
theorem getPagedRecordKeys_eq (st : Store) (key : String) (z : List (String × Score))
    (limit offset : Int) (hz : readZSet st key = .ok z) (ho : 0 ≤ offset)
    (hs : 0 < limit → offset + limit ≤ 2 ^ 63) :
    getPagedRecordKeys st key limit offset =
      .ok (expectedPage (zmembers z) limit offset,
        { Count := (expectedPage (zmembers z) limit offset).length, Offset := offset,
          Limit := limit, Total := z.length }) := by
  unfold getPagedRecordKeys ZRange ZCard expectedPage
  simp only [hz]
  by_cases hl : limit ≤ 0
  · simp only [hl, if_true]
    rw [show rangeByRank (List.map Prod.fst (zsorted z)) offset (-1)
        = (zmembers z).drop offset.toNat from rangeByRank_to_end _ _ ho]
  · have hl2 : 0 < limit := by omega
    simp only [hl, if_false]
    rw [wrapInt64_stop offset limit ho hl2 (hs hl2)]
    rw [show rangeByRank (List.map Prod.fst (zsorted z)) offset (offset + limit - 1)
        = ((zmembers z).drop offset.toNat).take (offset + limit - 1 - offset + 1).toNat
        from rangeByRank_window _ _ _ ho (by omega)]
    rw [show offset + limit - 1 - offset + 1 = limit by omega]

/-- C6 (as amended): for a sorted set with members k_0..k_{n-1} in rank order,
an offset ≥ 0 and a limit with offset + limit ≤ 2^63 when limit > 0,
getPagedRecordKeys returns k_offset..k_{n-1} when limit ≤ 0 and at most limit
keys from k_offset when limit > 0, the empty list when offset ≥ n, and the
metadata Count = number of keys returned, Offset and Limit as passed,
Total = n. -/
theorem getPagedRecordKeys_contract (st : Store) (key : String) (z : List (String × Score))
    (limit offset : Int) (hz : readZSet st key = .ok z) (ho : 0 ≤ offset)
    (hs : 0 < limit → offset + limit ≤ 2 ^ 63) :
    ∃ keys rs, getPagedRecordKeys st key limit offset = .ok (keys, rs) ∧
      (limit ≤ 0 → keys = (zmembers z).drop offset.toNat) ∧
      (0 < limit → keys = ((zmembers z).drop offset.toNat).take limit.toNat) ∧
      ((z.length : Int) ≤ offset → keys = []) ∧
      rs.Count = keys.length ∧ rs.Offset = offset ∧ rs.Limit = limit ∧ rs.Total = z.length := by
  refine ⟨_, _, getPagedRecordKeys_eq st key z limit offset hz ho hs, ?_, ?_, ?_, rfl, rfl, rfl, rfl⟩
  · intro hl; simp [expectedPage, hl]
  · intro hl; have : ¬ limit ≤ 0 := by omega
    simp [expectedPage, this]
  · intro hn
    have hlen : (zmembers z).length ≤ offset.toNat := by
      rw [zmembers_length]; omega
    unfold expectedPage
    rw [List.drop_eq_nil_of_le hlen]
    split <;> simp

/-- C6 (witness): the contract at the four-member set, limit 2, offset 1. -/
theorem getPagedRecordKeys_contract_witness :
    ∃ keys rs, getPagedRecordKeys pagingStore "rdb:t:0:all" 2 1 = .ok (keys, rs) ∧
      ((2 : Int) ≤ 0 → keys = (zmembers [("rdb:t:0:0", 0), ("rdb:t:0:1", 1), ("rdb:t:0:2", 2),
          ("rdb:t:0:3", 3)]).drop (1 : Int).toNat) ∧
      ((0 : Int) < 2 → keys = ((zmembers [("rdb:t:0:0", 0), ("rdb:t:0:1", 1), ("rdb:t:0:2", 2),
          ("rdb:t:0:3", 3)]).drop (1 : Int).toNat).take (2 : Int).toNat) ∧
      ((([("rdb:t:0:0", 0), ("rdb:t:0:1", 1), ("rdb:t:0:2", 2),
          ("rdb:t:0:3", 3)] : List (String × Score)).length : Int) ≤ 1 → keys = []) ∧
      rs.Count = keys.length ∧ rs.Offset = 1 ∧ rs.Limit = 2 ∧
      rs.Total = ([("rdb:t:0:0", 0), ("rdb:t:0:1", 1), ("rdb:t:0:2", 2),
          ("rdb:t:0:3", 3)] : List (String × Score)).length :=
  getPagedRecordKeys_contract pagingStore "rdb:t:0:all" _ 2 1 (by decide) (by decide)
    (by intro _; norm_num)

/-- C6 (counterexample): on a sorted set of four members, offset 2 and limit
2^63 - 1 (both valid Go ints, limit > 0) return no key at all, where the
contract prescribes k_2, k_3: the stop index offset + limit - 1 wraps to
-2^63. -/
theorem getPagedRecordKeys_wrap_counterexample :
    getPagedRecordKeys pagingStore "rdb:t:0:all" (2 ^ 63 - 1) 2 =
      .ok ([], { Count := 0, Offset := 2, Limit := 2 ^ 63 - 1, Total := 4 }) ∧
    expectedPage (zmembers [("rdb:t:0:0", 0), ("rdb:t:0:1", 1), ("rdb:t:0:2", 2),
      ("rdb:t:0:3", 3)]) (2 ^ 63 - 1) 2 = ["rdb:t:0:2", "rdb:t:0:3"] := by
  constructor
  · decide
  · decide

theorem getRecordKeys_eq_plan (E : Env) (st : Store) (table : Table) (query : Query)
    (t : String) :
    getRecordKeys E st table query t =
      match planFinalKey E st table query.Filters t with
      | (st1, .error e) => (st1, .error e)
      | (st1, .ok k) => (st1, getPagedRecordKeys st1 k query.Limit query.Offset) := by
  unfold getRecordKeys planFinalKey
  by_cases h : query.Filters.length > 0
  · simp only [h, if_true]
  · simp only [h, if_false]

theorem rangeByRank_infix (l : List String) (start stop : Int) :
    rangeByRank l start stop <:+: l := by
  unfold rangeByRank
  simp only []
  split_ifs <;>
    first
    | exact List.nil_infix
    | exact (List.take_prefix _ _).isInfix.trans (List.drop_suffix _ _).isInfix

/-- An unpaged answer `ks` comes from a sorted set under the planner's final
key, and `ks` are its members in rank order. -/
theorem pageKeys_unpaged (E : Env) (st : Store) (table : Table) (query : Query) (t : String)
    (ks : List String) (h0 : pageKeys E st table query t 0 0 = .ok ks) :
    ∃ st1 k z, planFinalKey E st table query.Filters t = (st1, .ok k) ∧
      readZSet st1 k = .ok z ∧ ks = zmembers z := by
  unfold pageKeys at h0
  rw [getRecordKeys_eq_plan] at h0
  simp only [] at h0
  rcases hp : planFinalKey E st table query.Filters t with ⟨st1, r⟩
  rw [hp] at h0
  cases r with
  | error e => simp at h0
  | ok k =>
    simp only [] at h0
    cases hz : readZSet st1 k with
    | error e =>
      simp [getPagedRecordKeys, ZRange, hz] at h0
    | ok z =>
      rw [getPagedRecordKeys_eq st1 k z 0 0 hz (le_refl 0) (by intro h; omega)] at h0
      simp only [expectedPage, le_refl, if_true, Int.toNat_zero, List.drop_zero,
        Except.ok.injEq] at h0
      exact ⟨st1, k, z, rfl, hz, h0.symm⟩

/-- Once the unpaged query has answered `ks`, every page whose stop index
stays in the 64-bit range is the prescribed slice of `ks`. -/
theorem pageKeys_eq (E : Env) (st : Store) (table : Table) (query : Query) (t : String)
    (ks : List String) (h0 : pageKeys E st table query t 0 0 = .ok ks)
    (limit offset : Int) (ho : 0 ≤ offset) (hs : 0 < limit → offset + limit ≤ 2 ^ 63) :
    pageKeys E st table query t limit offset = .ok (expectedPage ks limit offset) := by
  obtain ⟨st1, k, z, hp, hz, hks⟩ := pageKeys_unpaged E st table query t ks h0
  unfold pageKeys
  rw [getRecordKeys_eq_plan]
  simp only []
  rw [hp]
  simp only []
  rw [getPagedRecordKeys_eq st1 k z limit offset hz ho hs, hks]

/-- Once the unpaged query has answered `ks`, every page, whatever its limit
and offset, is a contiguous part of `ks`. -/
theorem pageKeys_infix (E : Env) (st : Store) (table : Table) (query : Query) (t : String)
    (ks : List String) (h0 : pageKeys E st table query t 0 0 = .ok ks)
    (limit offset : Int) :
    ∃ page, pageKeys E st table query t limit offset = .ok page ∧ page <:+: ks := by
  obtain ⟨st1, k, z, hp, hz, hks⟩ := pageKeys_unpaged E st table query t ks h0
  unfold pageKeys
  rw [getRecordKeys_eq_plan]
  simp only []
  rw [hp]
  simp only [getPagedRecordKeys, ZRange, ZCard, hz]
  exact ⟨_, rfl, hks ▸ rangeByRank_infix _ _ _⟩

theorem join_pages (ks : List String) (L m : Nat) :
    ((List.range m).map (fun i => (ks.drop (i * L)).take L)).flatten = ks.take (m * L) := by
  induction m with
  | zero => simp
  | succ m ih =>
    rw [List.range_succ, List.map_append, List.flatten_append, ih]
    simp only [List.map_cons, List.map_nil, List.flatten_cons, List.flatten_nil, List.append_nil]
    rw [Nat.succ_mul, List.take_add]

/-- C7 (as amended): when the unpaged query answers the key list ks, then for
every limit L > 0 and offset O ≥ 0 the page (L, O) is a contiguous sub-list
of ks in the same order; when O + 2L ≤ 2^63 (no stop index leaves int64) the
page (L, O) followed by the page (L, O + L) is the page (2L, O); and the m
consecutive pages of size L from offset 0 concatenate to ks as soon as m·L
covers ks and m·L ≤ 2^63. -/
theorem paging_consistent (E : Env) (st : Store) (table : Table) (query : Query)
    (t : String) (ks : List String) (h0 : pageKeys E st table query t 0 0 = .ok ks) :
    (∀ L O : Int, 0 < L → 0 ≤ O →
      ∃ page, pageKeys E st table query t L O = .ok page ∧ page <:+: ks) ∧
    (∀ L O : Nat, 0 < L → (O : Int) + 2 * L ≤ 2 ^ 63 →
      ∃ p1 p2, pageKeys E st table query t L O = .ok p1 ∧
        pageKeys E st table query t L ((O : Int) + L) = .ok p2 ∧
        pageKeys E st table query t (2 * (L : Int)) O = .ok (p1 ++ p2)) ∧
    (∀ L m : Nat, 0 < L → (m : Int) * L ≤ 2 ^ 63 → ks.length ≤ m * L →
      ∃ pages : Nat → List String,
        (∀ i, i < m → pageKeys E st table query t L ((i : Int) * L) = .ok (pages i)) ∧
        ((List.range m).map pages).flatten = ks) := by
  have key : ∀ L O : Nat, 0 < L → (O : Int) + L ≤ 2 ^ 63 →
      pageKeys E st table query t L O = .ok ((ks.drop O).take L) := by
    intro L O hL hs
    rw [pageKeys_eq E st table query t ks h0 L O (by omega) (fun _ => hs)]
    have : ¬ ((L : Int) ≤ 0) := by omega
    simp [expectedPage, this]
  refine ⟨?_, ?_, ?_⟩
  · intro L O _ _
    exact pageKeys_infix E st table query t ks h0 L O
  · intro L O hL hs
    refine ⟨(ks.drop O).take L, (ks.drop (O + L)).take L, key L O hL (by omega), ?_, ?_⟩
    · have := key L (O + L) hL (by push_cast; omega)
      rw [show ((O : Int) + L) = ((O + L : Nat) : Int) by push_cast; rfl]
      exact this
    · have := key (2 * L) O (by omega) (by push_cast; omega)
      rw [show (2 * (L : Int)) = ((2 * L : Nat) : Int) by push_cast; rfl, this]
      congr 1
      rw [two_mul, List.take_add, List.drop_drop]
  · intro L m hL hs hlen
    refine ⟨fun i => (ks.drop (i * L)).take L, ?_, ?_⟩
    · intro i hi
      have hle : ((i : Int) + 1) * L ≤ (m : Int) * L := by
        apply Int.mul_le_mul_of_nonneg_right <;> omega
      have := key L (i * L) hL (by push_cast; linarith)
      rw [show ((i : Int) * L) = ((i * L : Nat) : Int) by push_cast; rfl]
      exact this
    · rw [join_pages, List.take_of_length_le hlen]

/-- C7 (witness): the four-record table, empty filter list. -/
theorem paging_consistent_witness :
    (∀ L O : Int, 0 < L → 0 ≤ O →
      ∃ page, pageKeys demoEnv pagingStore demoTable (mkQuery [] 0 0) "" L O = .ok page ∧
        page <:+: ["rdb:t:0:0", "rdb:t:0:1", "rdb:t:0:2", "rdb:t:0:3"]) ∧
    (∀ L O : Nat, 0 < L → (O : Int) + 2 * L ≤ 2 ^ 63 →
      ∃ p1 p2, pageKeys demoEnv pagingStore demoTable (mkQuery [] 0 0) "" L O = .ok p1 ∧
        pageKeys demoEnv pagingStore demoTable (mkQuery [] 0 0) "" L ((O : Int) + L) = .ok p2 ∧
        pageKeys demoEnv pagingStore demoTable (mkQuery [] 0 0) "" (2 * (L : Int)) O
          = .ok (p1 ++ p2)) ∧
    (∀ L m : Nat, 0 < L → (m : Int) * L ≤ 2 ^ 63 →
      ["rdb:t:0:0", "rdb:t:0:1", "rdb:t:0:2", "rdb:t:0:3"].length ≤ m * L →
      ∃ pages : Nat → List String,
        (∀ i, i < m →
          pageKeys demoEnv pagingStore demoTable (mkQuery [] 0 0) "" L ((i : Int) * L)
            = .ok (pages i)) ∧
        ((List.range m).map pages).flatten = ["rdb:t:0:0", "rdb:t:0:1", "rdb:t:0:2", "rdb:t:0:3"]) :=
  paging_consistent demoEnv pagingStore demoTable (mkQuery [] 0 0) ""
    ["rdb:t:0:0", "rdb:t:0:1", "rdb:t:0:2", "rdb:t:0:3"] (by decide)

/-- C7 (counterexample): on the four-record table with L = 2^62 - 1 and O = 3
(L, O, O + L and 2L are all valid Go ints) the page (L, O) holds the last
record and the page (L, O + L) is empty, but the page (2L, O) is empty: its
stop index O + 2L - 1 = 2^63 wraps. -/
theorem paging_wrap_counterexample :
    pageKeys demoEnv pagingStore demoTable (mkQuery [] 0 0) "" (2 ^ 62 - 1) 3
      = .ok ["rdb:t:0:3"] ∧
    pageKeys demoEnv pagingStore demoTable (mkQuery [] 0 0) "" (2 ^ 62 - 1) (3 + (2 ^ 62 - 1))
      = .ok [] ∧
    pageKeys demoEnv pagingStore demoTable (mkQuery [] 0 0) "" (2 * (2 ^ 62 - 1)) 3
      = .ok [] := by
  refine ⟨by decide, by decide, by decide⟩

/-! ## Planner: per-filter unions -/

theorem addFilterUnionKey_eq (E : Env) (st : Store) (table : Table) (unionKeys : List String)
    (t : String) (f : Filter) :
    addFilterUnionKey E st table unionKeys t f =
      match sourceKeys E st table f with
      | .error e => (st, unionKeys, some e)
      | .ok fks =>
        match SUnionStore st (table.formatUnionStoreKey E f.Col f.Val t) fks with
        | .ok (st1, n) =>
          (st1, unionKeys ++ [table.formatUnionStoreKey E f.Col f.Val t],
            if n = 0 then some Err.ErrNil else none)
        | .error _ =>
          (st, unionKeys ++ [table.formatUnionStoreKey E f.Col f.Val t], some Err.ErrNil) := by
  rfl

theorem unionLoop_append (E : Env) (table : Table) (t : String) (pre rest : List Filter)
    (st : Store) (uks : List String) :
    unionLoop E table t (pre ++ rest) st uks =
      match unionLoop E table t pre st uks with
      | (st1, uks1, some e) => (st1, uks1, some e)
      | (st1, uks1, none) => unionLoop E table t rest st1 uks1 := by
  induction pre generalizing st uks with
  | nil => simp [unionLoop]
  | cons f fs ih =>
    simp only [List.cons_append, unionLoop]
    rcases h : addFilterUnionKey E st table uks t f with ⟨st1, uks1, e⟩
    cases e with
    | some e => simp
    | none => simp only []; exact ih st1 uks1

/-- The planner's answer when the filter loop fails. -/
theorem getRecordKeys_of_loop_error (E : Env) (st : Store) (table : Table) (query : Query)
    (t : String) (e : Err) (hne : query.Filters ≠ [])
    (h : (unionLoop E table t query.Filters st []).2.2 = some e) :
    (getRecordKeys E st table query t).2 = .error e := by
  have hlen : query.Filters.length > 0 := List.length_pos.mpr hne
  unfold getRecordKeys getFilteredRecordKeys
  simp only [hlen, if_true]
  rcases hu : unionLoop E table t query.Filters st [] with ⟨st1, uks1, r⟩
  rw [hu] at h
  simp only [] at h
  subst h
  rfl

/-- A store read by the set and sorted-set commands only through `st k`. -/
theorem readSets_congr (st st1 : Store) (ks : List String) (h : ∀ k ∈ ks, st1 k = st k) :
    readSets st1 ks = readSets st ks := by
  induction ks with
  | nil => rfl
  | cons k ks ih =>
    have hk : st1 k = st k := h k (List.mem_cons_self _ _)
    have ih2 := ih (fun k2 hk2 => h k2 (List.mem_cons_of_mem _ hk2))
    simp only [readSets, readSet, hk, ih2]

theorem sourceKeys_congr (E : Env) (st st1 : Store) (table : Table) (f : Filter)
    (h : st1 (table.formatSortableKey E f.Col) = st (table.formatSortableKey E f.Col)) :
    sourceKeys E st1 table f = sourceKeys E st table f := by
  unfold sourceKeys getOrderedFilterKeys ZRangeByScore readZSet
  simp only [h]

/-- Every step of the filter loop writes at most the union key of its filter. -/
theorem addFilterUnionKey_frame (E : Env) (st : Store) (table : Table) (uks : List String)
    (t : String) (f : Filter) (k : String)
    (hk : table.formatUnionStoreKey E f.Col f.Val t ≠ k) :
    (addFilterUnionKey E st table uks t f).1 k = st k := by
  rw [addFilterUnionKey_eq]
  cases sourceKeys E st table f with
  | error e => rfl
  | ok fks =>
    simp only []
    cases hS : SUnionStore st (table.formatUnionStoreKey E f.Col f.Val t) fks with
    | error e => rfl
    | ok r =>
      rcases r with ⟨st1, n⟩
      simp only []
      unfold SUnionStore at hS
      split at hS
      · cases hS
      · split at hS
        · cases hS
        · simp only [Except.ok.injEq, Prod.mk.injEq] at hS
          rw [← hS.1]
          simp [Store.put, Ne.symm hk]

theorem unionLoop_frame (E : Env) (table : Table) (t : String) (fs : List Filter)
    (st : Store) (uks : List String) (k : String)
    (hk : ∀ g ∈ fs, table.formatUnionStoreKey E g.Col g.Val t ≠ k) :
    (unionLoop E table t fs st uks).1 k = st k := by
  induction fs generalizing st uks with
  | nil => rfl
  | cons f fs ih =>
    simp only [unionLoop]
    have h1 := addFilterUnionKey_frame E st table uks t f k (hk f (List.mem_cons_self _ _))
    rcases h : addFilterUnionKey E st table uks t f with ⟨st1, uks1, e⟩
    rw [h] at h1
    simp only [] at h1
    cases e with
    | some e => simpa using h1
    | none =>
      simp only []
      rw [ih st1 uks1 (fun g hg => hk g (List.mem_cons_of_mem _ hg)), h1]

theorem readSets_all_empty (st : Store) (ks : List String)
    (h : ∀ k ∈ ks, readSet st k = .ok []) :
    ∃ ss, readSets st ks = .ok ss ∧ ∀ s ∈ ss, s = [] := by
  induction ks with
  | nil => exact ⟨[], rfl, by simp⟩
  | cons k ks ih =>
    obtain ⟨ss, hss, hall⟩ := ih (fun k2 hk2 => h k2 (List.mem_cons_of_mem _ hk2))
    refine ⟨[] :: ss, ?_, ?_⟩
    · simp only [readSets, h k (List.mem_cons_self _ _), hss]
    · intro s hs
      rcases List.mem_cons.mp hs with h1 | h1
      · exact h1
      · exact hall s h1

theorem foldl_append_all_empty (ss : List (List String)) (acc : List String)
    (h : ∀ s ∈ ss, s = []) : ss.foldl (fun a s => a ++ s) acc = acc := by
  induction ss generalizing acc with
  | nil => rfl
  | cons s ss ih =>
    have hs : s = [] := h s (List.mem_cons_self _ _)
    simp only [List.foldl_cons, hs, List.append_nil]
    exact ih acc (fun s2 hs2 => h s2 (List.mem_cons_of_mem _ hs2))

theorem unionAll_all_empty (ss : List (List String)) (h : ∀ s ∈ ss, s = []) :
    unionAll ss = [] := by
  unfold unionAll
  rw [foldl_append_all_empty ss [] h]
  rfl

/-- One step of the filter loop on a filter whose union is empty: `ErrNil`. -/
theorem addFilterUnionKey_empty (E : Env) (st : Store) (table : Table) (uks : List String)
    (t : String) (f : Filter) (h : UnionEmpty E st table f) :
    (addFilterUnionKey E st table uks t f).2.2 = some Err.ErrNil := by
  obtain ⟨fks, hsrc, hall⟩ := h
  rw [addFilterUnionKey_eq, hsrc]
  simp only []
  unfold SUnionStore
  by_cases hnil : fks = []
  · simp [hnil]
  · obtain ⟨ss, hss, hempty⟩ := readSets_all_empty st fks hall
    simp only [hnil, if_false, hss, unionAll_all_empty ss hempty]
    simp

/-- C10 (as amended): if the union of the source sets of some filter of the
query is empty, the filters before it in the list are processed without
error, and none of their union-store keys is a key this filter reads, then
getRecordKeys returns ErrNil and no key list, whatever the filters after it
match. -/
theorem getRecordKeys_ErrNil_of_empty_union (E : Env) (st : Store) (table : Table)
    (query : Query) (t : String) (pre : List Filter) (f : Filter) (post : List Filter)
    (hq : query.Filters = pre ++ f :: post)
    (hpre : (unionLoop E table t pre st []).2.2 = none)
    (hfresh : ∀ g ∈ pre,
      table.formatUnionStoreKey E g.Col g.Val t ≠ table.formatSortableKey E f.Col ∧
      ∀ fks, sourceKeys E st table f = .ok fks →
        table.formatUnionStoreKey E g.Col g.Val t ∉ fks)
    (hempty : UnionEmpty E st table f) :
    (getRecordKeys E st table query t).2 = .error Err.ErrNil := by
  apply getRecordKeys_of_loop_error
  · rw [hq]; simp
  · rw [hq, unionLoop_append]
    have hframe := unionLoop_frame E table t pre st []
    rcases hu : unionLoop E table t pre st [] with ⟨st1, uks1, r⟩
    rw [hu] at hpre hframe
    simp only [] at hpre hframe
    subst hpre
    simp only [unionLoop]
    have hempty1 : UnionEmpty E st1 table f := by
      obtain ⟨fks, hsrc, hall⟩ := hempty
      refine ⟨fks, ?_, ?_⟩
      · rw [sourceKeys_congr E st st1 table f (hframe _ (fun g hg => (hfresh g hg).1))]
        exact hsrc
      · intro k hk
        have : st1 k = st k := hframe k (fun g hg e => (hfresh g hg).2 fks hsrc (e ▸ hk))
        have h2 := hall k hk
        unfold readSet at h2 ⊢
        rw [this]
        exact h2
    have hstep := addFilterUnionKey_empty E st1 table uks1 t f hempty1
    rcases ha : addFilterUnionKey E st1 table uks1 t f with ⟨st2, uks2, e⟩
    rw [ha] at hstep
    simp only [] at hstep
    subst hstep
    rfl

/-- C10 (witness): on the demo table the filter `name eq ["zzz"]` has an empty
union; it comes after the filter `n gte ["7"]`. -/
theorem getRecordKeys_ErrNil_of_empty_union_witness :
    (getRecordKeys demoEnv demoStore demoTable
      (mkQuery [⟨"n", FilterOp.GreaterThanOrEqual, ["7"]⟩, ⟨"name", FilterOp.EqualTo, ["zzz"]⟩]
        0 0) "T").2 = .error Err.ErrNil :=
  getRecordKeys_ErrNil_of_empty_union demoEnv demoStore demoTable _ "T"
    [⟨"n", FilterOp.GreaterThanOrEqual, ["7"]⟩] ⟨"name", FilterOp.EqualTo, ["zzz"]⟩ [] rfl
    (by decide)
    (by
      intro g hg
      simp only [List.mem_singleton] at hg
      subst hg
      refine ⟨by decide, ?_⟩
      intro fks hfks
      have : fks = ["rdb:t:0:name:zzz"] := by
        have h2 : sourceKeys demoEnv demoStore demoTable ⟨"name", FilterOp.EqualTo, ["zzz"]⟩
            = .ok ["rdb:t:0:name:zzz"] := by decide
        rw [h2] at hfks
        exact (Except.ok.inj hfks).symm
      subst this
      decide)
    ⟨["rdb:t:0:name:zzz"], by decide, by decide⟩

/-- C10 (counterexample): the query `n lte ["blah"]`, `name eq ["zzz"]` passes
validateQuery and the union of its second filter is empty, yet getRecordKeys
answers the engine's error for the unreadable bound of the first filter, not
ErrNil. -/
theorem getRecordKeys_not_ErrNil_counterexample :
    demoSchema.validateQuery
      (mkQuery [⟨"n", FilterOp.LessThanOrEqual, ["blah"]⟩, ⟨"name", FilterOp.EqualTo, ["zzz"]⟩]
        0 0) = none ∧
    UnionEmpty demoEnv demoStore demoTable ⟨"name", FilterOp.EqualTo, ["zzz"]⟩ ∧
    (getRecordKeys demoEnv demoStore demoTable
      (mkQuery [⟨"n", FilterOp.LessThanOrEqual, ["blah"]⟩, ⟨"name", FilterOp.EqualTo, ["zzz"]⟩]
        0 0) "T").2 = .error (Err.redis "ERR min or max is not a float") :=
  ⟨by decide, ⟨["rdb:t:0:name:zzz"], by decide, by decide⟩, by decide⟩

theorem parseZBound_paren (E : Env) (v0 : String) (h : parseExtScore E v0 = none) :
    parseZBound E ("(" ++ v0) = none := by
  have hd : ("(" ++ v0).data = '(' :: v0.data := rfl
  unfold parseZBound
  rw [hd]
  simp only []
  rw [show String.mk v0.data = v0 from rfl, h]
  rfl

/-- The range read of a filter whose value is no readable bound fails. -/
theorem getOrderedFilterKeys_unreadable (E : Env) (st : Store) (table : Table) (f : Filter)
    (hop : f.Op ≠ FilterOp.EqualTo)
    (hbad : ∀ v0 ∈ f.Val, parseExtScore E v0 = none ∧ parseZBound E v0 = none) :
    ∃ e, getOrderedFilterKeys E st table f = .error e := by
  unfold getOrderedFilterKeys
  cases hval : f.Val with
  | nil => exact ⟨_, rfl⟩
  | cons v0 rest =>
    have hb := hbad v0 (by rw [hval]; exact List.mem_cons_self _ _)
    have hp := parseZBound_paren E v0 hb.1
    simp only []
    cases hopc : f.Op with
    | EqualTo => exact absurd hopc hop
    | GreaterThan => simp only [ZRangeByScore, hp]; exact ⟨_, rfl⟩
    | LessThan =>
      simp only [ZRangeByScore, hp]
      split
      · rename_i h1 h2; cases h2
      · exact ⟨_, rfl⟩
    | GreaterThanOrEqual => simp only [ZRangeByScore, hb.2]; exact ⟨_, rfl⟩
    | LessThanOrEqual =>
      simp only [ZRangeByScore, hb.2]
      split
      · rename_i h1 h2; cases h2
      · exact ⟨_, rfl⟩

theorem unionLoop_error_of_mem (E : Env) (table : Table) (t : String) (f : Filter)
    (hf : ∀ st uks, ∃ e, (addFilterUnionKey E st table uks t f).2.2 = some e)
    (fs : List Filter) (hmem : f ∈ fs) (st : Store) (uks : List String) :
    ∃ e, (unionLoop E table t fs st uks).2.2 = some e := by
  induction fs generalizing st uks with
  | nil => cases hmem
  | cons g gs ih =>
    simp only [unionLoop]
    rcases h : addFilterUnionKey E st table uks t g with ⟨st1, uks1, e⟩
    cases e with
    | some e => exact ⟨e, rfl⟩
    | none =>
      simp only []
      rcases List.mem_cons.mp hmem with h1 | h1
      · subst h1
        obtain ⟨e, he⟩ := hf st uks
        rw [h] at he
        cases he
      · exact ih h1 st1 uks1

/-- C9 (as amended): for a query that is valid in its limit, offset, columns,
operators and value counts and contains a gt, lt, gte or lte filter whose
value the engine cannot read as a range bound (for example "blah"),
validateQuery returns no error; the request is rejected later, by the planner:
getRecordKeys returns an error and no key list. -/
theorem unreadable_bound_rejected_by_planner (E : Env) (st : Store) (table : Table)
    (query : Query) (t : String) (f : Filter)
    (hl : -1 ≤ query.Limit) (ho : 0 ≤ query.Offset)
    (hok : ∀ g ∈ query.Filters, FilterOk table.Schema g)
    (hf : f ∈ query.Filters) (hop : f.Op ≠ FilterOp.EqualTo)
    (hbad : ∀ v0 ∈ f.Val, parseExtScore E v0 = none ∧ parseZBound E v0 = none) :
    table.Schema.validateQuery query = none ∧
    ∃ e, (getRecordKeys E st table query t).2 = .error e := by
  constructor
  · unfold Schema.validateQuery
    have h1 : ¬ query.Limit < -1 := by omega
    have h2 : ¬ query.Offset < 0 := by omega
    simp only [h1, h2, if_false]
    exact (validateFilters_none_iff table.Schema query.Filters).mpr hok
  · have hstep : ∀ st uks, ∃ e, (addFilterUnionKey E st table uks t f).2.2 = some e := by
      intro st uks
      obtain ⟨e, he⟩ := getOrderedFilterKeys_unreadable E st table f hop hbad
      refine ⟨e, ?_⟩
      rw [addFilterUnionKey_eq]
      have : sourceKeys E st table f = .error e := by
        unfold sourceKeys
        simp only [hop, if_false]
        exact he
      rw [this]
    obtain ⟨e, he⟩ := unionLoop_error_of_mem E table t f hstep query.Filters hf st []
    exact ⟨e, getRecordKeys_of_loop_error E st table query t e
      (List.ne_nil_of_mem hf) he⟩

/-- C9 (witness): the filter `n lte ["blah"]` on the demo table. -/
theorem unreadable_bound_rejected_by_planner_witness :
    demoTable.Schema.validateQuery (mkQuery [⟨"n", FilterOp.LessThanOrEqual, ["blah"]⟩] 0 0)
      = none ∧
    ∃ e, (getRecordKeys demoEnv demoStore demoTable
      (mkQuery [⟨"n", FilterOp.LessThanOrEqual, ["blah"]⟩] 0 0) "T").2 = .error e :=
  unreadable_bound_rejected_by_planner demoEnv demoStore demoTable
    (mkQuery [⟨"n", FilterOp.LessThanOrEqual, ["blah"]⟩] 0 0) "T"
    ⟨"n", FilterOp.LessThanOrEqual, ["blah"]⟩ (by decide) (by decide)
    (by
      intro g hg
      simp only [mkQuery, List.mem_singleton] at hg
      subst hg
      exact ⟨⟨"n", "int", true, true, false⟩, by decide, fun _ => ⟨rfl, rfl⟩⟩)
    (by simp [mkQuery]) (by decide)
    (by
      intro v0 hv
      simp only [List.mem_singleton] at hv
      subst hv
      exact ⟨by decide, by decide⟩)

/-- C9 (counterexample): `n` is a sortable column of the demo schema and
"blah" does not parse as a number, yet validateQuery accepts the filter
`n lte ["blah"]`; and when the filter comes second in a query, the union key
of the first filter has been written by the time the planner rejects it. -/
theorem validateQuery_accepts_blah_counterexample :
    demoEnv.parseFloat "blah" = none ∧
    demoSchema.validateQuery (mkQuery [⟨"n", FilterOp.LessThanOrEqual, ["blah"]⟩] 0 0)
      = none ∧
    demoSchema.validateQuery
      (mkQuery [⟨"name", FilterOp.EqualTo, ["b"]⟩, ⟨"n", FilterOp.LessThanOrEqual, ["blah"]⟩]
        0 0) = none ∧
    demoStore "rdb:t:0:unionstore:name_b_:T" = none ∧
    (getRecordKeys demoEnv demoStore demoTable
      (mkQuery [⟨"name", FilterOp.EqualTo, ["b"]⟩, ⟨"n", FilterOp.LessThanOrEqual, ["blah"]⟩]
        0 0) "T").1 "rdb:t:0:unionstore:name_b_:T" = some (.set ["rdb:t:0:1"]) := by
  refine ⟨by decide, by decide, by decide, by decide, by decide⟩

/-! ## Order of sorted-set entries -/

theorem char_toNat_inj (a b : Char) (h : a.toNat = b.toNat) : a = b := by
  apply Char.ext
  apply UInt32.ext
  exact h

theorem lexLe_total (a b : List Char) : lexLe a b = true ∨ lexLe b a = true := by
  induction a generalizing b with
  | nil => left; simp [lexLe]
  | cons x xs ih =>
    cases b with
    | nil => right; simp [lexLe]
    | cons y ys =>
      simp only [lexLe]
      by_cases h1 : x.toNat < y.toNat
      · left; simp [h1]
      · by_cases h2 : y.toNat < x.toNat
        · right; simp [h2]
        · simp only [h1, h2, if_false]
          exact ih ys

theorem lexLe_antisymm (a b : List Char) (h1 : lexLe a b = true) (h2 : lexLe b a = true) :
    a = b := by
  induction a generalizing b with
  | nil =>
    cases b with
    | nil => rfl
    | cons y ys => simp [lexLe] at h2
  | cons x xs ih =>
    cases b with
    | nil => simp [lexLe] at h1
    | cons y ys =>
      simp only [lexLe] at h1 h2
      by_cases c1 : x.toNat < y.toNat
      · have c2 : ¬ y.toNat < x.toNat := by omega
        simp [c1, c2] at h2
      · by_cases c2 : y.toNat < x.toNat
        · simp [c1, c2] at h1
        · simp only [c1, c2, if_false] at h1 h2
          have : x = y := char_toNat_inj x y (by omega)
          rw [this, ih ys h1 h2]

theorem lexLe_trans (a b c : List Char) (h1 : lexLe a b = true) (h2 : lexLe b c = true) :
    lexLe a c = true := by
  induction a generalizing b c with
  | nil => simp [lexLe]
  | cons x xs ih =>
    cases b with
    | nil => simp [lexLe] at h1
    | cons y ys =>
      cases c with
      | nil => simp [lexLe] at h2
      | cons z zs =>
        simp only [lexLe] at h1 h2 ⊢
        by_cases c1 : x.toNat < y.toNat
        · by_cases c2 : y.toNat < z.toNat
          · have : x.toNat < z.toNat := by omega
            simp [this]
          · by_cases c3 : z.toNat < y.toNat
            · simp [c2, c3] at h2
            · have : x.toNat < z.toNat := by omega
              simp [this]
        · by_cases c1' : y.toNat < x.toNat
          · simp [c1, c1'] at h1
          · simp only [c1, c1', if_false] at h1
            by_cases c2 : y.toNat < z.toNat
            · have : x.toNat < z.toNat := by omega
              simp [this]
            · by_cases c3 : z.toNat < y.toNat
              · simp [c2, c3] at h2
              · simp only [c2, c3, if_false] at h2
                have e1 : ¬ x.toNat < z.toNat := by omega
                have e2 : ¬ z.toNat < x.toNat := by omega
                simp only [e1, e2, if_false]
                exact ih ys zs h1 h2

theorem zle_total (a b : String × Score) : zle a b = true ∨ zle b a = true := by
  unfold zle
  by_cases h1 : a.2 < b.2
  · left; simp [h1]
  · by_cases h2 : b.2 < a.2
    · right; simp [h2]
    · simp only [h1, h2, if_false]
      exact lexLe_total _ _

theorem zle_antisymm (a b : String × Score) (h1 : zle a b = true) (h2 : zle b a = true) :
    a = b := by
  unfold zle at h1 h2
  by_cases c1 : a.2 < b.2
  · have c2 : ¬ b.2 < a.2 := not_lt.mpr (le_of_lt c1)
    simp [c1, c2] at h2
  · by_cases c2 : b.2 < a.2
    · simp [c1, c2] at h1
    · simp only [c1, c2, if_false] at h1 h2
      have hs : a.2 = b.2 := le_antisymm (not_lt.mp c2) (not_lt.mp c1)
      have hd : a.1.data = b.1.data := lexLe_antisymm _ _ h1 h2
      have hm : a.1 = b.1 := String.ext hd
      exact Prod.ext hm hs

theorem zle_trans (a b c : String × Score) (h1 : zle a b = true) (h2 : zle b c = true) :
    zle a c = true := by
  unfold zle at h1 h2 ⊢
  by_cases c1 : a.2 < b.2
  · by_cases c2 : b.2 < c.2
    · have : a.2 < c.2 := lt_trans c1 c2
      simp [this]
    · by_cases c3 : c.2 < b.2
      · simp [c2, c3] at h2
      · have : a.2 < c.2 := lt_of_lt_of_le c1 (not_lt.mp c3)
        simp [this]
  · by_cases c1' : b.2 < a.2
    · simp [c1, c1'] at h1
    · simp only [c1, c1', if_false] at h1
      by_cases c2 : b.2 < c.2
      · have : a.2 < c.2 := lt_of_le_of_lt (not_lt.mp c1') c2
        simp [this]
      · by_cases c3 : c.2 < b.2
        · simp [c2, c3] at h2
        · simp only [c2, c3, if_false] at h2
          have e1 : ¬ a.2 < c.2 := not_lt.mpr (le_trans (not_lt.mp c2) (not_lt.mp c1))
          have e2 : ¬ c.2 < a.2 := not_lt.mpr (le_trans (not_lt.mp c1') (not_lt.mp c3))
          simp only [e1, e2, if_false]
          exact lexLe_trans _ _ _ h1 h2

theorem zsorted_sorted (z : List (String × Score)) :
    (zsorted z).Sorted (fun a b => zle a b = true) := by
  haveI : IsTotal (String × Score) (fun a b => zle a b = true) := ⟨zle_total⟩
  haveI : IsTrans (String × Score) (fun a b => zle a b = true) := ⟨zle_trans⟩
  exact List.sorted_insertionSort _ z

theorem zsorted_perm (z : List (String × Score)) : (zsorted z).Perm z :=
  List.perm_insertionSort _ z

/-- The rank order of a sorted set is the one list that holds its entries in
ascending order. -/
theorem zsorted_eq_of_sorted_perm (z l : List (String × Score)) (hp : z.Perm l)
    (hs : l.Sorted (fun a b => zle a b = true)) : zsorted z = l := by
  haveI : IsAntisymm (String × Score) (fun a b => zle a b = true) := ⟨zle_antisymm⟩
  exact List.eq_of_perm_of_sorted ((zsorted_perm z).trans hp) (zsorted_sorted z) hs

/-! ## Keys as text -/

theorem str_append_left_cancel (a b c : String) (h : a ++ b = a ++ c) : b = c := by
  have h2 := congrArg String.data h
  simp only [String.data_append] at h2
  exact String.ext (List.append_cancel_left h2)

theorem foldl_wrap_prefix (l : List String) (init : String) :
    ∃ rest, l.foldl (fun key v => key ++ ("_" ++ v ++ "_")) init = init ++ rest := by
  induction l generalizing init with
  | nil => exact ⟨"", by simp⟩
  | cons v vs ih =>
    obtain ⟨rest, hr⟩ := ih (init ++ ("_" ++ v ++ "_"))
    exact ⟨("_" ++ v ++ "_") ++ rest, by rw [List.foldl_cons, hr, String.append_assoc]⟩

/-- A union-store key is the key prefix followed by `:unionstore:` and more. -/
theorem formatUnionStoreKey_shape (E : Env) (table : Table) (col : String)
    (vals : List String) (t : String) :
    ∃ rest, table.formatUnionStoreKey E col vals t
      = table.formatKeyPrefix E ++ (":unionstore:" ++ rest) := by
  obtain ⟨r, hr⟩ := foldl_wrap_prefix vals (table.formatKeyPrefix E ++ ":unionstore:" ++ col)
  refine ⟨col ++ r ++ (":" ++ t), ?_⟩
  unfold Table.formatUnionStoreKey
  rw [hr]
  simp only [String.append_assoc]

/-- An intersect-store key is the key prefix followed by `:interstore:` and
more. -/
theorem formatInterStoreKey_shape (E : Env) (table : Table) (uks : List String) (t : String) :
    ∃ rest, table.formatInterStoreKey E uks t
      = table.formatKeyPrefix E ++ (":interstore:" ++ rest) := by
  obtain ⟨r, hr⟩ := foldl_wrap_prefix uks (table.formatKeyPrefix E ++ ":interstore:")
  refine ⟨r ++ (":" ++ t), ?_⟩
  unfold Table.formatInterStoreKey
  rw [hr]
  simp only [String.append_assoc]

theorem formatUnionStoreKey_ne_all (E : Env) (table : Table) (col : String)
    (vals : List String) (t : String) :
    table.formatUnionStoreKey E col vals t ≠ table.formatAllRecordKeys E := by
  obtain ⟨rest, hr⟩ := formatUnionStoreKey_shape E table col vals t
  rw [hr]
  unfold Table.formatAllRecordKeys
  intro h
  have h2 := congrArg String.data (str_append_left_cancel _ _ _ h)
  simp only [String.data_append] at h2
  have h4 : (":unionstore:".data ++ rest.data).get? 1 = (":all".data).get? 1 := by rw [h2]
  simp at h4

theorem formatInterStoreKey_ne_all (E : Env) (table : Table) (uks : List String) (t : String) :
    table.formatInterStoreKey E uks t ≠ table.formatAllRecordKeys E := by
  obtain ⟨rest, hr⟩ := formatInterStoreKey_shape E table uks t
  rw [hr]
  unfold Table.formatAllRecordKeys
  intro h
  have h2 := congrArg String.data (str_append_left_cancel _ _ _ h)
  simp only [String.data_append] at h2
  have h4 : (":interstore:".data ++ rest.data).get? 1 = (":all".data).get? 1 := by rw [h2]
  simp at h4

/-! ## Set algebra of the engine -/

theorem mem_foldl_append (ss : List (List String)) (acc : List String) (k : String) :
    k ∈ ss.foldl (fun a s => a ++ s) acc ↔ k ∈ acc ∨ ∃ s ∈ ss, k ∈ s := by
  induction ss generalizing acc with
  | nil => simp
  | cons s ss ih =>
    rw [List.foldl_cons, ih]
    simp only [List.mem_append, List.mem_cons, exists_eq_or_imp]
    tauto

theorem mem_unionAll (ss : List (List String)) (k : String) :
    k ∈ unionAll ss ↔ ∃ s ∈ ss, k ∈ s := by
  unfold unionAll
  rw [List.mem_dedup, mem_foldl_append]
  simp

theorem mem_foldl_filter (ss : List (List String)) (acc : List String) (k : String) :
    k ∈ ss.foldl (fun a x => a.filter (fun m => decide (m ∈ x))) acc ↔
      k ∈ acc ∧ ∀ s ∈ ss, k ∈ s := by
  induction ss generalizing acc with
  | nil => simp
  | cons s ss ih =>
    rw [List.foldl_cons, ih]
    simp only [List.mem_filter, decide_eq_true_eq, List.mem_cons, forall_eq_or_imp]
    tauto

theorem mem_interAll (ss : List (List String)) (hne : ss ≠ []) (k : String) :
    k ∈ interAll ss ↔ ∀ s ∈ ss, k ∈ s := by
  cases ss with
  | nil => exact absurd rfl hne
  | cons s ss =>
    unfold interAll
    rw [List.mem_dedup, mem_foldl_filter]
    simp only [List.mem_cons, forall_eq_or_imp]

theorem readSets_forall₂ (st : Store) (ks : List String)
    (h : ∀ key ∈ ks, ∃ s, readSet st key = .ok s) :
    ∃ ss, readSets st ks = .ok ss ∧ List.Forall₂ (fun key s => readSet st key = .ok s) ks ss := by
  induction ks with
  | nil => exact ⟨[], rfl, List.Forall₂.nil⟩
  | cons key ks ih =>
    obtain ⟨ss, hss, hall⟩ := ih (fun k2 hk2 => h k2 (List.mem_cons_of_mem _ hk2))
    obtain ⟨s, hs⟩ := h key (List.mem_cons_self _ _)
    refine ⟨s :: ss, ?_, List.Forall₂.cons hs hall⟩
    simp only [readSets, hs, hss]

/-! ## Planner: the union of one filter -/

theorem forall₂_mem_right {α β : Type} {R : α → β → Prop} {l1 : List α} {l2 : List β}
    (h : List.Forall₂ R l1 l2) (b : β) (hb : b ∈ l2) : ∃ a ∈ l1, R a b := by
  induction h with
  | nil => cases hb
  | cons hr _ ih =>
    rcases List.mem_cons.mp hb with h1 | h1
    · subst h1; exact ⟨_, List.mem_cons_self _ _, hr⟩
    · obtain ⟨a, ha, hab⟩ := ih h1
      exact ⟨a, List.mem_cons_of_mem _ ha, hab⟩

theorem forall₂_mem_left {α β : Type} {R : α → β → Prop} {l1 : List α} {l2 : List β}
    (h : List.Forall₂ R l1 l2) (a : α) (ha : a ∈ l1) : ∃ b ∈ l2, R a b := by
  induction h with
  | nil => cases ha
  | cons hr _ ih =>
    rcases List.mem_cons.mp ha with h1 | h1
    · subst h1; exact ⟨_, List.mem_cons_self _ _, hr⟩
    · obtain ⟨b, hb, hab⟩ := ih h1
      exact ⟨b, List.mem_cons_of_mem _ hb, hab⟩

theorem mem_zsorted (z : List (String × Score)) (e : String × Score) :
    e ∈ zsorted z ↔ e ∈ z := (zsorted_perm z).mem_iff

theorem parseZBound_pinf (E : Env) : parseZBound E "+inf" = some ⟨.pinf, false⟩ := by
  have hd : ("+inf" : String).data = ['+', 'i', 'n', 'f'] := rfl
  unfold parseZBound
  rw [hd]
  simp [parseExtScore]

theorem parseZBound_ninf (E : Env) : parseZBound E "-inf" = some ⟨.ninf, false⟩ := by
  have hd : ("-inf" : String).data = ['-', 'i', 'n', 'f'] := rfl
  unfold parseZBound
  rw [hd]
  simp [parseExtScore]

theorem parseZBound_paren_number (E : Env) (v0 : String) (b : Score)
    (h : parseExtScore E v0 = some (.fin b)) :
    parseZBound E ("(" ++ v0) = some ⟨.fin b, true⟩ := by
  have hd : ("(" ++ v0).data = '(' :: v0.data := rfl
  unfold parseZBound
  rw [hd]
  simp only []
  rw [show String.mk v0.data = v0 from rfl, h]
  rfl

/-- The range read of a range filter with a plain number: the members of the
sortable set whose score compares as the operator asks. -/
theorem getOrderedFilterKeys_plain (E : Env) (st : Store) (table : Table) (f : Filter)
    (v0 : String) (b : Score) (zc : List (String × Score))
    (hop : f.Op ≠ FilterOp.EqualTo) (hval : f.Val = [v0]) (hnum : PlainNumber E v0 b)
    (hz : readZSet st (table.formatSortableKey E f.Col) = .ok zc) :
    getOrderedFilterKeys E st table f =
      .ok (((zsorted zc).filter (fun e => cmpOp f.Op e.2 b)).map Prod.fst) := by
  obtain ⟨_, h2, h3⟩ := hnum
  have hp := parseZBound_paren_number E v0 b h2
  unfold getOrderedFilterKeys
  rw [hval]
  simp only []
  cases hopc : f.Op with
  | EqualTo => exact absurd hopc hop
  | GreaterThan =>
    simp only [ZRangeByScore, hp, parseZBound_pinf, hz, aboveMin, belowMax, cmpOp,
      if_true, Bool.and_true]
  | LessThan =>
    simp only [ZRangeByScore, hp, parseZBound_ninf, hz, aboveMin, belowMax, cmpOp,
      if_true, Bool.true_and]
  | GreaterThanOrEqual =>
    simp only [ZRangeByScore, h3, parseZBound_pinf, hz, aboveMin, belowMax, cmpOp,
      Bool.and_true]
    simp
  | LessThanOrEqual =>
    simp only [ZRangeByScore, h3, parseZBound_ninf, hz, aboveMin, belowMax, cmpOp,
      Bool.true_and]
    simp

theorem satisfies_eq_iff (E : Env) (st : Store) (k : String) (f : Filter)
    (hop : f.Op = FilterOp.EqualTo) :
    satisfies E st k f = true ↔ ∃ v ∈ f.Val, recordValue st k f.Col = some v := by
  unfold satisfies
  cases hv : recordValue st k f.Col with
  | none => simp
  | some v => simp [hop]

theorem satisfies_range_iff (E : Env) (st : Store) (k : String) (f : Filter)
    (v0 : String) (b : Score) (hop : f.Op ≠ FilterOp.EqualTo) (hval : f.Val = [v0])
    (hb : E.parseFloat v0 = some b) :
    satisfies E st k f = true ↔
      ∃ v x, recordValue st k f.Col = some v ∧ E.parseFloat v = some x ∧
        cmpOp f.Op x b = true := by
  unfold satisfies
  cases hv : recordValue st k f.Col with
  | none => simp
  | some v =>
    simp only [hop, if_false, hval, List.head?_cons, Option.some_bind, hb]
    cases hx : E.parseFloat v with
    | none => simp [hx]
    | some x => simp [hx]

/-- Under consistent indexes the source sets of a filter on a filterable
column can all be read, and their union is the set of the live record keys
that satisfy the filter. -/
theorem sourceKeys_union (E : Env) (st : Store) (table : Table) (seqs : List Int) (f : Filter)
    (hcons : IndexesConsistent E st table seqs)
    (hfil : table.Schema.isFilterable f.Col = .ok true)
    (hrange : f.Op ≠ FilterOp.EqualTo →
      table.Schema.isSortable f.Col = .ok true ∧ ∃ v0 b, f.Val = [v0] ∧ PlainNumber E v0 b) :
    ∃ fks ss, sourceKeys E st table f = .ok fks ∧ readSets st fks = .ok ss ∧
      (∀ key ∈ fks, ∃ v, key = table.formatFilterKey E f.Col v) ∧
      ∀ k, k ∈ unionAll ss ↔
        (k ∈ seqs.map (fun s => table.formatRecordKey E s) ∧ satisfies E st k f = true) := by
  by_cases hop : f.Op = FilterOp.EqualTo
  · -- eq: one filter key per listed value
    have hread : ∀ key ∈ f.Val.map (fun v => table.formatFilterKey E f.Col v),
        ∃ s, readSet st key = .ok s := by
      intro key hkey
      obtain ⟨v, _, rfl⟩ := List.mem_map.mp hkey
      obtain ⟨s, hs, _⟩ := hcons.filter f.Col hfil v
      exact ⟨s, hs⟩
    obtain ⟨ss, hss, hall⟩ := readSets_forall₂ st _ hread
    refine ⟨_, ss, by simp [sourceKeys, hop], hss, ?_, ?_⟩
    · intro key hkey
      obtain ⟨v, _, rfl⟩ := List.mem_map.mp hkey
      exact ⟨v, rfl⟩
    · intro k
      rw [mem_unionAll, satisfies_eq_iff E st k f hop]
      constructor
      · rintro ⟨s, hs, hk⟩
        obtain ⟨key, hkey, hrs⟩ := forall₂_mem_right hall s hs
        obtain ⟨v, hv, rfl⟩ := List.mem_map.mp hkey
        obtain ⟨s2, hs2, hmem⟩ := hcons.filter f.Col hfil v
        rw [hrs] at hs2
        rw [← Except.ok.inj hs2] at hmem
        exact ⟨((hmem k).mp hk).1, v, hv, ((hmem k).mp hk).2⟩
      · rintro ⟨hk, v, hv, hval⟩
        obtain ⟨s2, hs2, hmem⟩ := hcons.filter f.Col hfil v
        obtain ⟨s, hs, hrs⟩ := forall₂_mem_left hall _
          (List.mem_map.mpr ⟨v, hv, rfl⟩)
        rw [hrs] at hs2
        rw [← Except.ok.inj hs2] at hmem
        exact ⟨s, hs, (hmem k).mpr ⟨hk, hval⟩⟩
  · -- range: the members of the sortable set in the score range
    obtain ⟨hsort, v0, b, hval, hnum⟩ := hrange hop
    obtain ⟨zc, hzc, hzmem⟩ := hcons.sortable f.Col hsort
    have hsrc : sourceKeys E st table f =
        .ok (((zsorted zc).filter (fun e => cmpOp f.Op e.2 b)).map Prod.fst) := by
      unfold sourceKeys
      simp only [hop, if_false]
      exact getOrderedFilterKeys_plain E st table f v0 b zc hop hval hnum hzc
    have hfks : ∀ key, key ∈ ((zsorted zc).filter (fun e => cmpOp f.Op e.2 b)).map Prod.fst ↔
        ∃ v x, key = table.formatFilterKey E f.Col v ∧ E.parseFloat v = some x ∧
          cmpOp f.Op x b = true ∧
          ∃ k ∈ seqs.map (fun s => table.formatRecordKey E s),
            recordValue st k f.Col = some v := by
      intro key
      constructor
      · intro h
        obtain ⟨e, he, rfl⟩ := List.mem_map.mp h
        have hf := List.mem_filter.mp he
        obtain ⟨v, hk, hp, hpres⟩ := (hzmem e.1 e.2).mp ((mem_zsorted zc e).mp hf.1)
        exact ⟨v, e.2, hk, hp, hf.2, hpres⟩
      · rintro ⟨v, x, hk, hp, hc, hpres⟩
        exact List.mem_map.mpr ⟨(key, x), List.mem_filter.mpr
          ⟨(mem_zsorted _ _).mpr ((hzmem key x).mpr ⟨v, hk, hp, hpres⟩), hc⟩, rfl⟩
    have hread : ∀ key ∈ ((zsorted zc).filter (fun e => cmpOp f.Op e.2 b)).map Prod.fst,
        ∃ s, readSet st key = .ok s := by
      intro key hkey
      obtain ⟨v, x, rfl, _⟩ := (hfks key).mp hkey
      obtain ⟨s, hs, _⟩ := hcons.filter f.Col hfil v
      exact ⟨s, hs⟩
    obtain ⟨ss, hss, hall⟩ := readSets_forall₂ st _ hread
    refine ⟨_, ss, hsrc, hss, ?_, ?_⟩
    · intro key hkey
      obtain ⟨v, x, rfl, _⟩ := (hfks key).mp hkey
      exact ⟨v, rfl⟩
    · intro k
      rw [mem_unionAll, satisfies_range_iff E st k f v0 b hop hval hnum.1]
      constructor
      · rintro ⟨s, hs, hk⟩
        obtain ⟨key, hkey, hrs⟩ := forall₂_mem_right hall s hs
        obtain ⟨v, x, rfl, hp, hc, _⟩ := (hfks key).mp hkey
        obtain ⟨s2, hs2, hmem⟩ := hcons.filter f.Col hfil v
        rw [hrs] at hs2
        rw [← Except.ok.inj hs2] at hmem
        exact ⟨((hmem k).mp hk).1, v, x, ((hmem k).mp hk).2, hp, hc⟩
      · rintro ⟨hk, v, x, hval2, hp, hc⟩
        obtain ⟨s2, hs2, hmem⟩ := hcons.filter f.Col hfil v
        have hkey : table.formatFilterKey E f.Col v ∈
            ((zsorted zc).filter (fun e => cmpOp f.Op e.2 b)).map Prod.fst :=
          (hfks _).mpr ⟨v, x, rfl, hp, hc, k, hk, hval2⟩
        obtain ⟨s, hs, hrs⟩ := forall₂_mem_left hall _ hkey
        rw [hrs] at hs2
        rw [← Except.ok.inj hs2] at hmem
        exact ⟨s, hs, (hmem k).mpr ⟨hk, hval2⟩⟩

/-! ## Planner: the filter loop -/

theorem readSet_put_same (st : Store) (k : String) (s : List String) (hs : s ≠ []) :
    readSet (st.put k (setVal s)) k = .ok s := by
  simp [readSet, Store.put, setVal, hs]

theorem readSet_put_other (st : Store) (k k2 : String) (v : Option RVal) (h : k ≠ k2) :
    readSet (st.put k v) k2 = readSet st k2 := by
  simp [readSet, Store.put, Ne.symm h]

/-- One step of the filter loop under consistent indexes: the union of the
filter is stored under its union key and no error is raised. -/
theorem addFilterUnionKey_step (E : Env) (st : Store) (table : Table) (seqs : List Int)
    (t : String) (filters : List Filter)
    (hcons : IndexesConsistent E st table seqs)
    (hfil : ∀ f ∈ filters, table.Schema.isFilterable f.Col = .ok true)
    (hrange : ∀ f ∈ filters, f.Op ≠ FilterOp.EqualTo →
      table.Schema.isSortable f.Col = .ok true ∧ ∃ v0 b, f.Val = [v0] ∧ PlainNumber E v0 b)
    (hnonempty : ∀ f ∈ filters, ∃ k ∈ seqs.map (fun s => table.formatRecordKey E s),
      satisfies E st k f = true)
    (hfresh : UnionKeysFresh E st table filters t)
    (done : List Filter) (f : Filter) (cur : Store) (uks : List String)
    (hdone : ∀ g ∈ done, g ∈ filters) (hf : f ∈ filters)
    (hinv : LoopInv E st table seqs t cur done) :
    ∃ nxt, addFilterUnionKey E cur table uks t f =
        (nxt, uks ++ [table.formatUnionStoreKey E f.Col f.Val t], none) ∧
      LoopInv E st table seqs t nxt (done ++ [f]) := by
  obtain ⟨fks, ss, hsrc, hss, hshape, hmem⟩ :=
    sourceKeys_union E st table seqs f hcons (hfil f hf) (hrange f hf)
  have hsrc1 : sourceKeys E cur table f = .ok fks := by
    by_cases hop : f.Op = FilterOp.EqualTo
    · rw [← hsrc]
      unfold sourceKeys
      simp only [hop, if_true]
    · have hsort : cur (table.formatSortableKey E f.Col)
          = st (table.formatSortableKey E f.Col) :=
        hinv.1 _ (fun g hg => (hfresh.2 g (hdone g hg) f hf).1 hop)
      rw [sourceKeys_congr E st cur table f hsort]; exact hsrc
  have hss1 : readSets cur fks = .ok ss := by
    rw [readSets_congr st cur fks]
    · exact hss
    · intro key hkey
      exact hinv.1 _ (fun g hg e =>
        (hfresh.2 g (hdone g hg) f hf).2 fks hsrc (by rw [e]; exact hkey))
  obtain ⟨k0, hk0, hsat0⟩ := hnonempty f hf
  have hU : unionAll ss ≠ [] := by
    intro h
    have : k0 ∈ unionAll ss := (hmem k0).mpr ⟨hk0, hsat0⟩
    rw [h] at this
    cases this
  have hfks : fks ≠ [] := by
    intro h
    rw [h] at hss1
    simp only [readSets, Except.ok.injEq] at hss1
    rw [← hss1] at hU
    exact hU rfl
  have hlen : ¬ (((unionAll ss).length : Int) = 0) := by
    have : 0 < (unionAll ss).length := List.length_pos.mpr hU
    omega
  refine ⟨cur.put (table.formatUnionStoreKey E f.Col f.Val t) (setVal (unionAll ss)), ?_, ?_, ?_⟩
  · rw [addFilterUnionKey_eq, hsrc1]
    simp only [SUnionStore, hfks, if_false, hss1, hlen]
  · intro k hk
    have hne : table.formatUnionStoreKey E f.Col f.Val t ≠ k :=
      hk f (List.mem_append_right _ (List.mem_singleton_self f))
    have : (cur.put (table.formatUnionStoreKey E f.Col f.Val t) (setVal (unionAll ss))) k
        = cur k := by simp [Store.put, Ne.symm hne]
    rw [this]
    exact hinv.1 k (fun g hg => hk g (List.mem_append_left _ hg))
  · intro g hg
    by_cases hkey : table.formatUnionStoreKey E g.Col g.Val t
        = table.formatUnionStoreKey E f.Col f.Val t
    · have hgf : g = f := by
        apply hfresh.1 g _ f hf hkey
        rcases List.mem_append.mp hg with h1 | h1
        · exact hdone g h1
        · rw [List.mem_singleton.mp h1]; exact hf
      subst hgf
      exact ⟨unionAll ss, readSet_put_same _ _ _ hU, hmem⟩
    · have hgd : g ∈ done := by
        rcases List.mem_append.mp hg with h1 | h1
        · exact h1
        · rw [List.mem_singleton.mp h1] at hkey; exact absurd rfl hkey
      obtain ⟨s, hs, hsm⟩ := hinv.2 g hgd
      refine ⟨s, ?_, hsm⟩
      rw [readSet_put_other _ _ _ _ (Ne.symm hkey)]
      exact hs

/-- The filter loop under consistent indexes: it ends without error, with one
union key per filter, each holding the set of the live record keys that
satisfy its filter. -/
theorem unionLoop_inv (E : Env) (st : Store) (table : Table) (seqs : List Int)
    (t : String) (filters : List Filter)
    (hcons : IndexesConsistent E st table seqs)
    (hfil : ∀ f ∈ filters, table.Schema.isFilterable f.Col = .ok true)
    (hrange : ∀ f ∈ filters, f.Op ≠ FilterOp.EqualTo →
      table.Schema.isSortable f.Col = .ok true ∧ ∃ v0 b, f.Val = [v0] ∧ PlainNumber E v0 b)
    (hnonempty : ∀ f ∈ filters, ∃ k ∈ seqs.map (fun s => table.formatRecordKey E s),
      satisfies E st k f = true)
    (hfresh : UnionKeysFresh E st table filters t)
    (rest : List Filter) :
    ∀ (done : List Filter) (cur : Store) (uks : List String),
      (∀ g ∈ done, g ∈ filters) → (∀ g ∈ rest, g ∈ filters) →
      LoopInv E st table seqs t cur done →
      ∃ fin, unionLoop E table t rest cur uks =
          (fin, uks ++ rest.map (fun f => table.formatUnionStoreKey E f.Col f.Val t), none) ∧
        LoopInv E st table seqs t fin (done ++ rest) := by
  induction rest with
  | nil =>
    intro done cur uks _ _ hinv
    exact ⟨cur, by simp [unionLoop], by simpa using hinv⟩
  | cons f rest ih =>
    intro done cur uks hdone hrest hinv
    obtain ⟨nxt, hstep, hinv1⟩ := addFilterUnionKey_step E st table seqs t filters hcons hfil
      hrange hnonempty hfresh done f cur uks hdone (hrest f (List.mem_cons_self _ _)) hinv
    have hdone1 : ∀ g ∈ done ++ [f], g ∈ filters := by
      intro g hg
      rcases List.mem_append.mp hg with h1 | h1
      · exact hdone g h1
      · rw [List.mem_singleton.mp h1]; exact hrest f (List.mem_cons_self _ _)
    obtain ⟨fin, hloop, hinv2⟩ := ih (done ++ [f]) nxt
      (uks ++ [table.formatUnionStoreKey E f.Col f.Val t]) hdone1
      (fun g hg => hrest g (List.mem_cons_of_mem _ hg)) hinv1
    refine ⟨fin, ?_, ?_⟩
    · simp only [unionLoop, hstep, hloop, List.map_cons, List.append_assoc,
        List.singleton_append]
    · simpa [List.append_assoc] using hinv2

/-! ## Planner: intersection and final key -/

theorem readZOrSet_of_readZSet (st : Store) (k : String) (z : List (String × Score))
    (h : readZSet st k = .ok z) : readZOrSet st k = .ok z := by
  unfold readZSet at h
  unfold readZOrSet
  cases hv : st k with
  | none => rw [hv] at h; exact h
  | some v =>
    rw [hv] at h
    cases v with
    | zset z2 => exact h
    | str s => cases h
    | hash x => cases h
    | set s => cases h

theorem readZOrSet_setVal (st : Store) (k : String) (s : List String) :
    readZOrSet (st.put k (setVal s)) k = .ok (s.map (fun m => (m, (1 : Score)))) := by
  unfold readZOrSet Store.put setVal
  by_cases h : s = []
  · simp [h]
  · simp [h]

theorem readZSet_zsetVal (st : Store) (k : String) (z : List (String × Score)) :
    readZSet (st.put k (zsetVal z)) k = .ok z := by
  unfold readZSet Store.put zsetVal
  by_cases h : z = []
  · simp [h]
  · simp [h]

theorem assocGet_map_const (l : List String) (c : Score) (m : String) :
    assocGet (l.map (fun x => (x, c))) m = if m ∈ l then some c else none := by
  induction l with
  | nil => simp [assocGet]
  | cons x xs ih =>
    simp only [List.map_cons, assocGet, ih, List.mem_cons]
    by_cases h : x = m
    · simp [h]
    · have h2 : ¬ m = x := fun e => h e.symm
      simp [h, h2]

theorem filterMap_inter (z : List (String × Score)) (s : List String) :
    z.filterMap (fun e => (assocGet (s.map (fun m => (m, (1 : Score)))) e.1).map
        (fun s2 => (e.1, e.2 + s2)))
      = (z.filter (fun e => decide (e.1 ∈ s))).map (fun e => (e.1, e.2 + 1)) := by
  induction z with
  | nil => rfl
  | cons e es ih =>
    rw [List.filterMap_cons, assocGet_map_const]
    by_cases h : e.1 ∈ s
    · simp [h, ih]
    · simp [h, ih]

theorem sorted_of_score_lt (l : List (String × Score))
    (h : l.Pairwise (fun a b => a.2 < b.2)) : l.Sorted (fun a b => zle a b = true) := by
  apply List.Pairwise.imp _ h
  intro a b hab
  simp [zle, hab]

/-- Rank order of the intersection of a sorted set, scored strictly ascending
along the list `l0`, with a plain set: the entries of `l0` whose member is in
the set, in the order of `l0`. -/
theorem zmembers_inter (z l0 : List (String × Score)) (s : List String) (hp : z.Perm l0)
    (hl0 : l0.Pairwise (fun a b => a.2 < b.2)) :
    zmembers ((z.filter (fun e => decide (e.1 ∈ s))).map (fun e => (e.1, e.2 + 1)))
      = (l0.map Prod.fst).filter (fun m => decide (m ∈ s)) := by
  have hperm : ((z.filter (fun e => decide (e.1 ∈ s))).map (fun e => (e.1, e.2 + 1))).Perm
      ((l0.filter (fun e => decide (e.1 ∈ s))).map (fun e => (e.1, e.2 + 1))) :=
    (hp.filter _).map _
  have hsorted : ((l0.filter (fun e => decide (e.1 ∈ s))).map
      (fun e => (e.1, e.2 + 1))).Sorted (fun a b => zle a b = true) := by
    apply sorted_of_score_lt
    rw [List.pairwise_map]
    apply List.Pairwise.imp _ (hl0.filter _)
    intro a b hab
    simpa using hab
  unfold zmembers
  rw [zsorted_eq_of_sorted_perm _ _ hperm hsorted]
  rw [List.map_map]
  have : (Prod.fst ∘ fun (e : String × Score) => (e.1, e.2 + 1)) = Prod.fst := rfl
  rw [this]
  rw [List.filter_map]
  rfl

theorem seqs_entries_pairwise (E : Env) (table : Table) (seqs : List Int)
    (h : seqs.Sorted (fun a b => a < b)) :
    (seqs.map (fun s => (table.formatRecordKey E s, (s : Score)))).Pairwise
      (fun a b => a.2 < b.2) := by
  rw [List.pairwise_map]
  apply List.Pairwise.imp _ h
  intro a b hab
  exact Int.cast_lt.mpr hab

/-- The planner's final key under consistent indexes: written without error,
it holds a sorted set whose members in rank order are the live record keys,
in seq order, that satisfy every filter. -/
theorem getFilteredRecordKeys_final (E : Env) (st : Store) (table : Table) (seqs : List Int)
    (t : String) (filters : List Filter) (hne : filters ≠ [])
    (hcons : IndexesConsistent E st table seqs)
    (hfil : ∀ f ∈ filters, table.Schema.isFilterable f.Col = .ok true)
    (hrange : ∀ f ∈ filters, f.Op ≠ FilterOp.EqualTo →
      table.Schema.isSortable f.Col = .ok true ∧ ∃ v0 b, f.Val = [v0] ∧ PlainNumber E v0 b)
    (hnonempty : ∀ f ∈ filters, ∃ k ∈ seqs.map (fun s => table.formatRecordKey E s),
      satisfies E st k f = true)
    (hfresh : UnionKeysFresh E st table filters t) :
    ∃ st3 finalKey z, getFilteredRecordKeys E st table filters t = (st3, .ok finalKey) ∧
      readZSet st3 finalKey = .ok z ∧
      zmembers z = expectedKeys E st table filters seqs := by
  have hinv0 : LoopInv E st table seqs t st [] :=
    ⟨fun k _ => rfl, fun g hg => by cases hg⟩
  obtain ⟨fin, hloop, hinv⟩ := unionLoop_inv E st table seqs t filters hcons hfil hrange
    hnonempty hfresh filters [] st [] (fun g hg => by cases hg) (fun g hg => hg) hinv0
  simp only [List.nil_append] at hloop hinv
  -- the intersection of the unions
  have hread : ∀ key ∈ filters.map (fun f => table.formatUnionStoreKey E f.Col f.Val t),
      ∃ s, readSet fin key = .ok s := by
    intro key hkey
    obtain ⟨g, hg, rfl⟩ := List.mem_map.mp hkey
    obtain ⟨s, hs, _⟩ := hinv.2 g hg
    exact ⟨s, hs⟩
  obtain ⟨ss, hss, hall⟩ := readSets_forall₂ fin _ hread
  have huks : filters.map (fun f => table.formatUnionStoreKey E f.Col f.Val t) ≠ [] := by
    simpa using hne
  have hssne : ss ≠ [] := by
    intro h
    have hlen := hall.length_eq
    rw [h] at hlen
    exact huks (List.length_eq_zero.mp hlen)
  have hinter : ∀ k, k ∈ interAll ss ↔
      ∀ g ∈ filters, (k ∈ seqs.map (fun s => table.formatRecordKey E s) ∧
        satisfies E st k g = true) := by
    intro k
    rw [mem_interAll ss hssne]
    constructor
    · intro h g hg
      obtain ⟨s2, hs2, hm⟩ := hinv.2 g hg
      obtain ⟨s, hs, hrs⟩ := forall₂_mem_left hall _ (List.mem_map.mpr ⟨g, hg, rfl⟩)
      rw [hrs] at hs2
      rw [← Except.ok.inj hs2] at hm
      exact (hm k).mp (h s hs)
    · intro h s hs
      obtain ⟨key, hkey, hrs⟩ := forall₂_mem_right hall s hs
      obtain ⟨g, hg, rfl⟩ := List.mem_map.mp hkey
      obtain ⟨s2, hs2, hm⟩ := hinv.2 g hg
      rw [hrs] at hs2
      rw [← Except.ok.inj hs2] at hm
      exact (hm k).mpr (h g hg)
  -- the all-records set as the final intersection reads it
  obtain ⟨allz, hallz, hperm⟩ := hcons.all
  have hallfin : fin (table.formatAllRecordKeys E) = st (table.formatAllRecordKeys E) :=
    hinv.1 _ (fun g _ => formatUnionStoreKey_ne_all E table g.Col g.Val t)
  have hall2 : readZOrSet
      (fin.put (table.formatInterStoreKey E
        (filters.map (fun f => table.formatUnionStoreKey E f.Col f.Val t)) t)
        (setVal (interAll ss))) (table.formatAllRecordKeys E) = .ok allz := by
    apply readZOrSet_of_readZSet
    unfold readZSet Store.put
    rw [if_neg (Ne.symm (formatInterStoreKey_ne_all E table _ t)), hallfin]
    exact hallz
  refine ⟨((fin.put (table.formatInterStoreKey E
        (filters.map (fun f => table.formatUnionStoreKey E f.Col f.Val t)) t)
        (setVal (interAll ss))).put
      (table.formatInterStoreKey E
        (filters.map (fun f => table.formatUnionStoreKey E f.Col f.Val t)) t ++ "_final")
      (zsetVal ((allz.filter (fun e => decide (e.1 ∈ interAll ss))).map
        (fun e => (e.1, e.2 + 1))))),
    table.formatInterStoreKey E
        (filters.map (fun f => table.formatUnionStoreKey E f.Col f.Val t)) t ++ "_final",
    (allz.filter (fun e => decide (e.1 ∈ interAll ss))).map (fun e => (e.1, e.2 + 1)),
    ?_, readZSet_zsetVal _ _ _, ?_⟩
  · unfold getFilteredRecordKeys
    rw [hloop]
    simp only [SInterStore, huks, if_false, hss, ZInterStore, hall2, readZOrSet_setVal,
      filterMap_inter]
  · rw [zmembers_inter allz _ (interAll ss) hperm
      (seqs_entries_pairwise E table seqs hcons.sorted)]
    unfold expectedKeys
    rw [List.map_map]
    have : (Prod.fst ∘ fun (s : Int) => (table.formatRecordKey E s, (s : Score)))
        = fun s => table.formatRecordKey E s := rfl
    rw [this]
    apply List.filter_congr
    intro k hk
    by_cases hin : k ∈ interAll ss
    · have h1 := (hinter k).mp hin
      have : filters.all (fun f => satisfies E st k f) = true :=
        List.all_eq_true.mpr (fun g hg => (h1 g hg).2)
      simp [hin, this]
    · have : ¬ (filters.all (fun f => satisfies E st k f) = true) := by
        intro hall3
        apply hin
        exact (hinter k).mpr (fun g hg => ⟨hk, List.all_eq_true.mp hall3 g hg⟩)
      simp [hin, this]

/-! ## CSV header -/

theorem assocGet_assocSet_same {β : Type} (l : List (String × β)) (k : String) (v : β) :
    assocGet (assocSet l k v) k = some v := by
  induction l with
  | nil => simp [assocSet, assocGet]
  | cons e es ih =>
    rcases e with ⟨k2, v2⟩
    by_cases h : k2 = k
    · simp [assocSet, assocGet, h]
    · simp [assocSet, assocGet, h, ih]

theorem assocGet_assocSet_other {β : Type} (l : List (String × β)) (k k2 : String) (v : β)
    (h : k2 ≠ k) : assocGet (assocSet l k v) k2 = assocGet l k2 := by
  induction l with
  | nil => simp [assocSet, assocGet, Ne.symm h]
  | cons e es ih =>
    rcases e with ⟨k3, v3⟩
    by_cases h3 : k3 = k
    · have h4 : ¬ k3 = k2 := by rw [h3]; exact Ne.symm h
      simp [assocSet, assocGet, h3, Ne.symm h, h4]
    · by_cases h4 : k3 = k2
      · subst h4
        simp [assocSet, assocGet, h3]
      · simp [assocSet, assocGet, h3, h4, ih]

/-- The inner loop of the header parser leaves other names of the schema map
alone; for its own name it records the index of a column with that name, if
one is met. -/
theorem schemaIndexLoop_spec (columnName : String) (cols : List Column) (j : Nat)
    (sm : List (String × Nat)) (found : Bool) :
    (∀ k2, k2 ≠ columnName →
      assocGet (schemaIndexLoop columnName cols j sm found).1 k2 = assocGet sm k2) ∧
    ((schemaIndexLoop columnName cols j sm found).2 = true →
      (found = true ∧ (∀ c ∈ cols, c.Name ≠ columnName) ∧
        assocGet (schemaIndexLoop columnName cols j sm found).1 columnName
          = assocGet sm columnName) ∨
      ∃ i c, cols.get? i = some c ∧ c.Name = columnName ∧
        assocGet (schemaIndexLoop columnName cols j sm found).1 columnName = some (j + i)) := by
  induction cols generalizing j sm found with
  | nil =>
    refine ⟨fun _ _ => rfl, fun h => Or.inl ⟨h, by simp, rfl⟩⟩
  | cons c rest ih =>
    by_cases hc : c.Name = columnName
    · simp only [schemaIndexLoop, hc, if_true]
      obtain ⟨h1, h2⟩ := ih (j + 1) (assocSet sm columnName j) true
      refine ⟨?_, ?_⟩
      · intro k2 hk2
        rw [h1 k2 hk2, assocGet_assocSet_other _ _ _ _ hk2]
      · intro hf
        right
        rcases h2 hf with ⟨_, hnone, hget⟩ | ⟨i, c2, hi, hn, hget⟩
        · refine ⟨0, c, rfl, hc, ?_⟩
          rw [hget, assocGet_assocSet_same]
          rfl
        · refine ⟨i + 1, c2, by simpa using hi, hn, ?_⟩
          rw [hget]
          congr 1
          omega
    · simp only [schemaIndexLoop, hc, if_false]
      obtain ⟨h1, h2⟩ := ih (j + 1) sm found
      refine ⟨h1, ?_⟩
      intro hf
      rcases h2 hf with ⟨hfound, hnone, hget⟩ | ⟨i, c2, hi, hn, hget⟩
      · left
        refine ⟨hfound, ?_, hget⟩
        intro c2 hc2
        rcases List.mem_cons.mp hc2 with h3 | h3
        · rw [h3]; exact hc
        · exact hnone c2 h3
      · right
        refine ⟨i + 1, c2, by simpa using hi, hn, ?_⟩
        rw [hget]
        congr 1
        omega

/-- A header that passes the parser: the header map is the header row, and
every name of it has in the schema map the index of a schema column with
that name. -/
theorem headerLoop_spec (schema : Schema) (names : List String) (hnodup : names.Nodup)
    (hm : List String) (sm : List (String × Nat)) (hm2 : List String)
    (sm2 : List (String × Nat))
    (h : headerLoop schema names hm sm = (hm2, sm2, none)) :
    hm2 = hm ++ names ∧
    (∀ k2, k2 ∉ names → assocGet sm2 k2 = assocGet sm k2) ∧
    (∀ col ∈ names, ∃ i c, schema.Columns.get? i = some c ∧ c.Name = col ∧
      assocGet sm2 col = some i) := by
  induction names generalizing hm sm with
  | nil =>
    simp only [headerLoop, Prod.mk.injEq, and_true] at h
    refine ⟨by simp [h.1], fun _ _ => by rw [h.2], fun _ hc => by cases hc⟩
  | cons name rest ih =>
    have hnd := List.nodup_cons.mp hnodup
    simp only [headerLoop] at h
    rcases hloop : schemaIndexLoop name schema.Columns 0 sm false with ⟨sm1, found⟩
    rw [hloop] at h
    have hspec := schemaIndexLoop_spec name schema.Columns 0 sm false
    rw [hloop] at hspec
    cases found with
    | false => simp at h
    | true =>
      simp only [] at h
      obtain ⟨e1, e2, e3⟩ := ih hnd.2 (hm ++ [name]) sm1 h
      refine ⟨by simp [e1], ?_, ?_⟩
      · intro k2 hk2
        have hne : k2 ≠ name := fun e => hk2 (e ▸ List.mem_cons_self _ _)
        have hnr : k2 ∉ rest := fun e => hk2 (List.mem_cons_of_mem _ e)
        rw [e2 k2 hnr]
        exact hspec.1 k2 hne
      · intro col hcol
        rcases List.mem_cons.mp hcol with h1 | h1
        · subst h1
          rcases hspec.2 rfl with ⟨hf, _⟩ | ⟨i, c, hi, hn, hget⟩
          · cases hf
          · refine ⟨i, c, hi, hn, ?_⟩
            rw [e2 col hnd.1, hget]
            simp
        · exact e3 col h1

/-! ## The commands of an ingest -/

theorem mem_fieldCmds (E : Env) (table : Table) (rk col val : String) (c : Column)
    (cmd : Cmd) :
    cmd ∈ fieldCmds E table rk col val c ↔
      (c.Filterable = true ∧
        (cmd = Cmd.SAdd (table.formatFilterKey E col val) rk ∨
          (c.Sortable = true ∧ ∃ x, E.parseFloat val = some x ∧
            cmd = Cmd.ZAdd (table.formatSortableKey E col) x
              (table.formatFilterKey E col val)))) := by
  unfold fieldCmds addSortableValToPipe
  by_cases hf : c.Filterable = true
  · by_cases hs : c.Sortable = true
    · cases hp : E.parseFloat val with
      | none => simp [hf, hs]
      | some x => simp [hf, hs]
    · simp [hf, hs]
  · simp [hf]

/-- The loop over the values of a row that is no longer than what is left of
the header: no panic, the fields are the header names zipped with the values,
and the commands are the field commands of the row. -/
theorem recordFields_spec (E : Env) (table : Table) (rk : String) (header : List String)
    (schemaMap : List (String × Nat))
    (hcols : ∀ col ∈ header, ∃ i c, table.Schema.Columns.get? i = some c ∧ c.Name = col ∧
      assocGet schemaMap col = some i)
    (row : List String) (i : Nat) (hlen : i + row.length ≤ header.length) :
    ∃ cmds, recordFields E table rk header schemaMap row i
        = .ok (cmds, (header.drop i).zip row) ∧
      ∀ cmd, cmd ∈ cmds ↔ ∃ p col val c, header.get? (i + p) = some col ∧
        row.get? p = some val ∧
        table.Schema.Columns.get? ((assocGet schemaMap col).getD 0) = some c ∧
        cmd ∈ fieldCmds E table rk col val c := by
  induction row generalizing i with
  | nil =>
    refine ⟨[], by simp [recordFields], ?_⟩
    intro cmd
    simp
  | cons val rest ih =>
    have hi : i < header.length := by simp at hlen; omega
    obtain ⟨cmds, hrec, hmem⟩ := ih (i + 1) (by simp at hlen ⊢; omega)
    have hget : header.get? i = some (header.get ⟨i, hi⟩) := List.get?_eq_get hi
    have hgetD : header.getD i "" = header.get ⟨i, hi⟩ := by
      rw [List.getD_eq_getElem?_getD, ← List.get?_eq_getElem?, hget]; rfl
    obtain ⟨j, c, hj, hname, hsm⟩ := hcols (header.get ⟨i, hi⟩) (List.get_mem _ _ _)
    have hcol : table.Schema.Columns.get? ((assocGet schemaMap (header.get ⟨i, hi⟩)).getD 0)
        = some c := by rw [hsm]; exact hj
    refine ⟨fieldCmds E table rk (header.get ⟨i, hi⟩) val c ++ cmds, ?_, ?_⟩
    · simp only [recordFields, hgetD, hcol, hrec]
      congr 2
      rw [List.drop_eq_getElem_cons hi]
      rfl
    · intro cmd
      rw [List.mem_append, hmem]
      constructor
      · rintro (h | ⟨p, col, v, c2, h1, h2, h3, h4⟩)
        · exact ⟨0, _, val, c, by simp [hget], rfl, hcol, h⟩
        · exact ⟨p + 1, col, v, c2, by rw [← h1]; congr 1; omega, by simpa using h2, h3, h4⟩
      · rintro ⟨p, col, v, c2, h1, h2, h3, h4⟩
        cases p with
        | zero =>
          left
          simp only [Nat.add_zero, hget, Option.some.injEq] at h1
          simp only [List.get?_cons_zero, Option.some.injEq] at h2
          subst h1 h2
          rw [hcol] at h3
          cases h3
          exact h4
        | succ p =>
          right
          exact ⟨p, col, v, c2, by rw [← h1]; congr 1; omega, by simpa using h2, h3, h4⟩

theorem recordToPipe_spec (E : Env) (table : Table) (header : List String)
    (schemaMap : List (String × Nat))
    (hcols : ∀ col ∈ header, ∃ i c, table.Schema.Columns.get? i = some c ∧ c.Name = col ∧
      assocGet schemaMap col = some i)
    (row : List String) (seq : Int) (hlen : row.length = header.length) :
    ∃ cmds, recordToPipe E table row seq header schemaMap = .ok cmds ∧
      ∀ cmd, cmd ∈ cmds ↔
        (FieldCmd E table header schemaMap (table.formatRecordKey E seq) row cmd ∨
          cmd = Cmd.HSet (table.formatRecordKey E seq) (header.zip row) ∨
          cmd = Cmd.ZAdd (table.formatAllRecordKeys E) (seq : Score)
            (table.formatRecordKey E seq)) := by
  obtain ⟨cmds, hrec, hmem⟩ := recordFields_spec E table (table.formatRecordKey E seq) header
    schemaMap hcols row 0 (by omega)
  rw [List.drop_zero] at hrec
  refine ⟨cmds ++ [Cmd.HSet (table.formatRecordKey E seq) (header.zip row),
      Cmd.ZAdd (table.formatAllRecordKeys E) (seq : Score) (table.formatRecordKey E seq)],
    by simp only [recordToPipe, hrec], ?_⟩
  intro cmd
  rw [List.mem_append, hmem]
  simp only [List.mem_cons, List.mem_singleton, List.not_mem_nil, or_false, Nat.zero_add]
  constructor
  · rintro (⟨p, col, val, c, h1, h2, h3, h4⟩ | h | h)
    · left
      obtain ⟨hf, hrest⟩ := (mem_fieldCmds E table _ col val c cmd).mp h4
      exact ⟨p, col, val, c, h1, h2, h3, hf, hrest⟩
    · right; left; exact h
    · right; right; exact h
  · rintro (⟨p, col, val, c, h1, h2, h3, hf, hrest⟩ | h | h)
    · left
      exact ⟨p, col, val, c, h1, h2, h3, (mem_fieldCmds E table _ col val c cmd).mpr ⟨hf, hrest⟩⟩
    · right; left; exact h
    · right; right; exact h

/-- The loop of `csvToPipe` over the data rows, when it succeeds: every row
has as many fields as the header, and the commands queued are those of the
rows, numbered from `seq0`. -/
theorem csvRows_spec (E : Env) (table : Table) (header : List String)
    (schemaMap : List (String × Nat))
    (hcols : ∀ col ∈ header, ∃ i c, table.Schema.Columns.get? i = some c ∧ c.Name = col ∧
      assocGet schemaMap col = some i)
    (rows : List (List String)) (seq0 : Int) (pipe : List Cmd)
    (h : csvRows E table header schemaMap header.length rows seq0 = .ok pipe) :
    (∀ row ∈ rows, row.length = header.length) ∧
    ∀ cmd, cmd ∈ pipe ↔ ∃ (i : Nat) (row : List String), rows.get? i = some row ∧
      (FieldCmd E table header schemaMap (table.formatRecordKey E (seq0 + i)) row cmd ∨
        cmd = Cmd.HSet (table.formatRecordKey E (seq0 + i)) (header.zip row) ∨
        cmd = Cmd.ZAdd (table.formatAllRecordKeys E) ((seq0 + i : Int) : Score)
          (table.formatRecordKey E (seq0 + i))) := by
  induction rows generalizing seq0 pipe with
  | nil =>
    simp only [csvRows, Except.ok.injEq] at h
    subst h
    simp
  | cons row rest ih =>
    simp only [csvRows] at h
    by_cases hlen : row.length = header.length
    · simp only [hlen, ne_eq, not_true_eq_false, if_false] at h
      obtain ⟨cmds, hrec, hmem⟩ := recordToPipe_spec E table header schemaMap hcols row seq0 hlen
      rw [hrec] at h
      simp only [] at h
      cases hrest : csvRows E table header schemaMap header.length rest (seq0 + 1) with
      | error e => rw [hrest] at h; cases h
      | ok more =>
        rw [hrest] at h
        simp only [Except.ok.injEq] at h
        subst h
        obtain ⟨hlens, hmore⟩ := ih (seq0 + 1) more hrest
        refine ⟨?_, ?_⟩
        · intro r hr
          rcases List.mem_cons.mp hr with h1 | h1
          · rw [h1]; exact hlen
          · exact hlens r h1
        · intro cmd
          rw [List.mem_append, hmem, hmore]
          constructor
          · rintro (h1 | ⟨i, r, hi, h1⟩)
            · exact ⟨0, row, rfl, by simpa using h1⟩
            · refine ⟨i + 1, r, by simpa using hi, ?_⟩
              have e : seq0 + 1 + (i : Int) = seq0 + ((i + 1 : Nat) : Int) := by
                push_cast; ring
              rw [← e]
              exact h1
          · rintro ⟨i, r, hi, h1⟩
            cases i with
            | zero =>
              left
              simp only [List.get?_cons_zero, Option.some.injEq] at hi
              subst hi
              simpa using h1
            | succ i =>
              right
              refine ⟨i, r, by simpa using hi, ?_⟩
              have e : seq0 + 1 + (i : Int) = seq0 + ((i + 1 : Nat) : Int) := by
                push_cast; ring
              rw [e]
              exact h1
    · simp [hlen] at h

/-- The commands of a CSV ingest that succeeds, for a header without repeated
names: the header passed the parser, every data row has as many fields as
the header, and the commands queued are exactly the load commands of the
rows. -/
theorem csvToPipe_spec (E : Env) (f : List (List String)) (table : Table)
    (pipe : List Cmd) (h : csvToPipe E f table = .ok pipe)
    (hnodup : ∀ header ∈ (csvRecords f).head?, header.Nodup) :
    ∃ header rows schemaMap, csvRecords f = header :: rows ∧
      (∀ col ∈ header, ∃ i c, table.Schema.Columns.get? i = some c ∧ c.Name = col ∧
        assocGet schemaMap col = some i) ∧
      (∀ row ∈ rows, row.length = header.length) ∧
      ∀ cmd, cmd ∈ pipe ↔ LoadCmd E table header schemaMap rows cmd := by
  unfold csvToPipe at h
  cases hrec : csvRecords f with
  | nil => rw [hrec] at h; simp [parseCSVHeader] at h
  | cons header rows =>
    rw [hrec] at h hnodup
    simp only [parseCSVHeader, List.drop_succ_cons, List.drop_zero] at h
    rcases hh : headerLoop table.Schema header [] [] with ⟨hm, sm, err⟩
    rw [hh] at h
    cases err with
    | some e => simp at h
    | none =>
      simp only [] at h
      obtain ⟨e1, _, e3⟩ := headerLoop_spec table.Schema header
        (hnodup header (by simp)) [] [] hm sm hh
      simp only [List.nil_append] at e1
      subst e1
      obtain ⟨hlens, hmem⟩ := csvRows_spec E table hm sm e3 rows 0 pipe h
      refine ⟨hm, rows, sm, rfl, e3, hlens, ?_⟩
      intro cmd
      rw [hmem]
      unfold LoadCmd
      simp only [zero_add]

/-! ## Effect of a pipeline on one key -/

theorem run_at (E : Env) (c : Cmd) (st : Store) (k : String) :
    (c.run E st).1 k = if c.key = k then c.applyTo (st k) else st k := by
  cases c with
  | Do args =>
    simp only [Cmd.run, Cmd.key, Cmd.applyTo, Cmd.onValue]
    split <;> rfl
  | SAdd key m =>
    by_cases hk : key = k
    · subst hk
      simp only [Cmd.run, Cmd.key, Cmd.applyTo, if_true]
      cases (Cmd.SAdd key m).onValue (st key) with
      | ok v => simp [Store.put]
      | error e => rfl
    · simp only [Cmd.run, Cmd.key, Cmd.applyTo, hk, if_false]
      cases (Cmd.SAdd key m).onValue (st key) with
      | ok v =>
        simp only [Store.put]
        rw [if_neg (fun e : k = key => hk e.symm)]
      | error e => rfl
  | SRem key m =>
    by_cases hk : key = k
    · subst hk
      simp only [Cmd.run, Cmd.key, Cmd.applyTo, if_true]
      cases (Cmd.SRem key m).onValue (st key) with
      | ok v => simp [Store.put]
      | error e => rfl
    · simp only [Cmd.run, Cmd.key, Cmd.applyTo, hk, if_false]
      cases (Cmd.SRem key m).onValue (st key) with
      | ok v =>
        simp only [Store.put]
        rw [if_neg (fun e : k = key => hk e.symm)]
      | error e => rfl
  | ZAdd key x m =>
    by_cases hk : key = k
    · subst hk
      simp only [Cmd.run, Cmd.key, Cmd.applyTo, if_true]
      cases (Cmd.ZAdd key x m).onValue (st key) with
      | ok v => simp [Store.put]
      | error e => rfl
    · simp only [Cmd.run, Cmd.key, Cmd.applyTo, hk, if_false]
      cases (Cmd.ZAdd key x m).onValue (st key) with
      | ok v =>
        simp only [Store.put]
        rw [if_neg (fun e : k = key => hk e.symm)]
      | error e => rfl
  | HSet key fvs =>
    by_cases hk : key = k
    · subst hk
      simp only [Cmd.run, Cmd.key, Cmd.applyTo, if_true]
      cases (Cmd.HSet key fvs).onValue (st key) with
      | ok v => simp [Store.put]
      | error e => rfl
    · simp only [Cmd.run, Cmd.key, Cmd.applyTo, hk, if_false]
      cases (Cmd.HSet key fvs).onValue (st key) with
      | ok v =>
        simp only [Store.put]
        rw [if_neg (fun e : k = key => hk e.symm)]
      | error e => rfl
  | Set key value =>
    by_cases hk : key = k
    · subst hk
      simp only [Cmd.run, Cmd.key, Cmd.applyTo, if_true]
      cases (Cmd.Set key value).onValue (st key) with
      | ok v => simp [Store.put]
      | error e => rfl
    · simp only [Cmd.run, Cmd.key, Cmd.applyTo, hk, if_false]
      cases (Cmd.Set key value).onValue (st key) with
      | ok v =>
        simp only [Store.put]
        rw [if_neg (fun e : k = key => hk e.symm)]
      | error e => rfl

theorem Exec_cons_at (E : Env) (c : Cmd) (cs : List Cmd) (st : Store) (k : String) :
    (Exec E (c :: cs) st).1 k = (Exec E cs (c.run E st).1).1 k := rfl

/-- A pipeline leaves alone every key none of its commands names. -/
theorem Exec_frame (E : Env) (cs : List Cmd) (st : Store) (k : String)
    (h : ∀ c ∈ cs, c.key ≠ k) : (Exec E cs st).1 k = st k := by
  induction cs generalizing st with
  | nil => rfl
  | cons c cs ih =>
    rw [Exec_cons_at, ih _ (fun c2 hc2 => h c2 (List.mem_cons_of_mem _ hc2)), run_at,
      if_neg (h c (List.mem_cons_self _ _))]

/-- A key on which the pipeline runs only `SADD`: it holds a set afterwards,
with the old members and the added ones. -/
theorem Exec_sadd (E : Env) (k : String) (cs : List Cmd) (st : Store) (s0 : List String)
    (h0 : readSet st k = .ok s0)
    (h : ∀ c ∈ cs, c.key = k → ∃ m, c = Cmd.SAdd k m) :
    ∃ s, readSet (Exec E cs st).1 k = .ok s ∧
      ∀ m, m ∈ s ↔ (m ∈ s0 ∨ Cmd.SAdd k m ∈ cs) := by
  induction cs generalizing st s0 with
  | nil => exact ⟨s0, h0, by simp⟩
  | cons c cs ih =>
    have hrest : ∀ c2 ∈ cs, c2.key = k → ∃ m, c2 = Cmd.SAdd k m :=
      fun c2 hc2 => h c2 (List.mem_cons_of_mem _ hc2)
    by_cases hk : c.key = k
    · obtain ⟨m0, hm0⟩ := h c (List.mem_cons_self _ _) hk
      subst hm0
      have hstep : ∃ s1, readSet ((Cmd.SAdd k m0).run E st).1 k = .ok s1 ∧
          ∀ m, m ∈ s1 ↔ (m ∈ s0 ∨ m = m0) := by
        unfold readSet at h0 ⊢
        simp only [run_at, Cmd.key, if_true]
        cases hv : st k with
        | none =>
          rw [hv] at h0
          simp only [Except.ok.injEq] at h0
          subst h0
          exact ⟨[m0], by simp [Cmd.applyTo, Cmd.onValue], by simp⟩
        | some v =>
          rw [hv] at h0
          cases v with
          | set s =>
            simp only [Except.ok.injEq] at h0
            subst h0
            refine ⟨if m0 ∈ s then s else s ++ [m0], by simp [Cmd.applyTo, Cmd.onValue], ?_⟩
            intro m
            by_cases hm : m0 ∈ s
            · simp only [hm, if_true]
              constructor
              · intro h1; exact Or.inl h1
              · rintro (h1 | h1)
                · exact h1
                · rw [h1]; exact hm
            · simp [hm]
          | str x => cases h0
          | hash x => cases h0
          | zset x => cases h0
      obtain ⟨s1, hs1, hm1⟩ := hstep
      obtain ⟨s, hs, hm⟩ := ih _ s1 hs1 hrest
      refine ⟨s, hs, ?_⟩
      intro m
      rw [hm, hm1, List.mem_cons]
      constructor
      · rintro ((h1 | h1) | h1)
        · exact Or.inl h1
        · right; left; rw [h1]
        · right; right; exact h1
      · rintro (h1 | h1 | h1)
        · exact Or.inl (Or.inl h1)
        · left; right
          cases h1; rfl
        · exact Or.inr h1
    · have h1 : readSet (c.run E st).1 k = .ok s0 := by
        unfold readSet at h0 ⊢
        rw [run_at, if_neg hk]
        exact h0
      obtain ⟨s, hs, hm⟩ := ih _ s0 h1 hrest
      refine ⟨s, hs, ?_⟩
      intro m
      rw [hm, List.mem_cons]
      constructor
      · rintro (h2 | h2)
        · exact Or.inl h2
        · exact Or.inr (Or.inr h2)
      · rintro (h2 | h2 | h2)
        · exact Or.inl h2
        · exfalso; apply hk; rw [← h2]; rfl
        · exact Or.inr h2

theorem assocSet_keys_mem {β : Type} (l : List (String × β)) (k : String) (v : β) (m : String) :
    m ∈ (assocSet l k v).map Prod.fst ↔ (m ∈ l.map Prod.fst ∨ m = k) := by
  induction l with
  | nil => simp [assocSet]
  | cons e es ih =>
    rcases e with ⟨k2, v2⟩
    by_cases h : k2 = k
    · subst h
      simp only [assocSet, if_true, List.map_cons, List.mem_cons]
      tauto
    · simp only [assocSet, h, if_false, List.map_cons, List.mem_cons, ih]
      tauto

theorem assocSet_keys_nodup {β : Type} (l : List (String × β)) (k : String) (v : β)
    (h : (l.map Prod.fst).Nodup) : ((assocSet l k v).map Prod.fst).Nodup := by
  induction l with
  | nil => simp [assocSet]
  | cons e es ih =>
    rcases e with ⟨k2, v2⟩
    simp only [List.map_cons, List.nodup_cons] at h
    by_cases hk : k2 = k
    · subst hk
      simp only [assocSet, if_true, List.map_cons, List.nodup_cons]
      exact h
    · simp only [assocSet, hk, if_false, List.map_cons, List.nodup_cons]
      refine ⟨?_, ih h.2⟩
      rw [assocSet_keys_mem]
      rintro (h1 | h1)
      · exact h.1 h1
      · exact hk h1

theorem assocSet_mem {β : Type} (l : List (String × β)) (k : String) (v : β) (e : String × β)
    (h : e ∈ assocSet l k v) : e ∈ l ∨ e = (k, v) := by
  induction l with
  | nil => simp [assocSet] at h; exact Or.inr h
  | cons e2 es ih =>
    rcases e2 with ⟨k2, v2⟩
    by_cases hk : k2 = k
    · simp only [assocSet, hk, if_true, List.mem_cons] at h
      rcases h with h1 | h1
      · exact Or.inr h1
      · exact Or.inl (List.mem_cons_of_mem _ h1)
    · simp only [assocSet, hk, if_false, List.mem_cons] at h
      rcases h with h1 | h1
      · exact Or.inl (h1 ▸ List.mem_cons_self _ _)
      · rcases ih h1 with h2 | h2
        · exact Or.inl (List.mem_cons_of_mem _ h2)
        · exact Or.inr h2

/-- A key on which the pipeline runs only `ZADD`: it holds a sorted set
afterwards, whose members are the old and the added ones, each once, and
whose entries are old entries or added ones. -/
theorem Exec_zadd (E : Env) (k : String) (cs : List Cmd) (st : Store)
    (z0 : List (String × Score)) (h0 : readZSet st k = .ok z0)
    (hnd : (z0.map Prod.fst).Nodup)
    (h : ∀ c ∈ cs, c.key = k → ∃ x m, c = Cmd.ZAdd k x m) :
    ∃ z, readZSet (Exec E cs st).1 k = .ok z ∧ (z.map Prod.fst).Nodup ∧
      (∀ m, m ∈ z.map Prod.fst ↔ (m ∈ z0.map Prod.fst ∨ ∃ x, Cmd.ZAdd k x m ∈ cs)) ∧
      (∀ m x, (m, x) ∈ z → ((m, x) ∈ z0 ∨ Cmd.ZAdd k x m ∈ cs)) := by
  induction cs generalizing st z0 with
  | nil => exact ⟨z0, h0, hnd, by simp, fun m x hm => Or.inl hm⟩
  | cons c cs ih =>
    have hrest : ∀ c2 ∈ cs, c2.key = k → ∃ x m, c2 = Cmd.ZAdd k x m :=
      fun c2 hc2 => h c2 (List.mem_cons_of_mem _ hc2)
    by_cases hk : c.key = k
    · obtain ⟨x0, m0, hc⟩ := h c (List.mem_cons_self _ _) hk
      subst hc
      have hstep : readZSet ((Cmd.ZAdd k x0 m0).run E st).1 k = .ok (assocSet z0 m0 x0) := by
        unfold readZSet at h0 ⊢
        simp only [run_at, Cmd.key, if_true]
        cases hv : st k with
        | none =>
          rw [hv] at h0
          simp only [Except.ok.injEq] at h0
          subst h0
          simp [Cmd.applyTo, Cmd.onValue, assocSet]
        | some v =>
          rw [hv] at h0
          cases v with
          | zset z =>
            simp only [Except.ok.injEq] at h0
            subst h0
            simp [Cmd.applyTo, Cmd.onValue]
          | str x => cases h0
          | hash x => cases h0
          | set x => cases h0
      obtain ⟨z, hz, hznd, hzm, hze⟩ := ih _ (assocSet z0 m0 x0) hstep
        (assocSet_keys_nodup z0 m0 x0 hnd) hrest
      refine ⟨z, hz, hznd, ?_, ?_⟩
      · intro m
        rw [hzm, assocSet_keys_mem]
        constructor
        · rintro ((h1 | h1) | ⟨x, h1⟩)
          · exact Or.inl h1
          · exact Or.inr ⟨x0, h1 ▸ List.mem_cons_self _ _⟩
          · exact Or.inr ⟨x, List.mem_cons_of_mem _ h1⟩
        · rintro (h1 | ⟨x, h1⟩)
          · exact Or.inl (Or.inl h1)
          · rcases List.mem_cons.mp h1 with h2 | h2
            · left; right
              cases h2; rfl
            · exact Or.inr ⟨x, h2⟩
      · intro m x hmx
        rcases hze m x hmx with h1 | h1
        · rcases assocSet_mem z0 m0 x0 (m, x) h1 with h2 | h2
          · exact Or.inl h2
          · right
            cases h2
            exact List.mem_cons_self _ _
        · exact Or.inr (List.mem_cons_of_mem _ h1)
    · have h1 : readZSet (c.run E st).1 k = .ok z0 := by
        unfold readZSet at h0 ⊢
        rw [run_at, if_neg hk]
        exact h0
      obtain ⟨z, hz, hznd, hzm, hze⟩ := ih _ z0 h1 hnd hrest
      refine ⟨z, hz, hznd, ?_, ?_⟩
      · intro m
        rw [hzm]
        constructor
        · rintro (h2 | ⟨x, h2⟩)
          · exact Or.inl h2
          · exact Or.inr ⟨x, List.mem_cons_of_mem _ h2⟩
        · rintro (h2 | ⟨x, h2⟩)
          · exact Or.inl h2
          · rcases List.mem_cons.mp h2 with h3 | h3
            · exfalso; apply hk; rw [← h3]; rfl
            · exact Or.inr ⟨x, h3⟩
      · intro m x hmx
        rcases hze m x hmx with h2 | h2
        · exact Or.inl h2
        · exact Or.inr (List.mem_cons_of_mem _ h2)

theorem assocSet_append_fresh {β : Type} (l : List (String × β)) (k : String) (v : β)
    (h : k ∉ l.map Prod.fst) : assocSet l k v = l ++ [(k, v)] := by
  induction l with
  | nil => rfl
  | cons e es ih =>
    rcases e with ⟨k2, v2⟩
    simp only [List.map_cons, List.mem_cons, not_or] at h
    have hk : ¬ k2 = k := fun e => h.1 e.symm
    simp only [assocSet, hk, if_false, List.cons_append, ih h.2]

theorem foldl_assocSet_fresh (fvs acc : List (String × String))
    (hnd : (fvs.map Prod.fst).Nodup)
    (hdis : ∀ k ∈ fvs.map Prod.fst, k ∉ acc.map Prod.fst) :
    fvs.foldl (fun h fv => assocSet h fv.1 fv.2) acc = acc ++ fvs := by
  induction fvs generalizing acc with
  | nil => simp
  | cons fv rest ih =>
    simp only [List.map_cons, List.nodup_cons] at hnd
    rw [List.foldl_cons, assocSet_append_fresh acc fv.1 fv.2
      (hdis fv.1 (by simp)), ih _ hnd.2]
    · simp
    · intro k hk
      simp only [List.map_append, List.map_cons, List.map_nil, List.mem_append,
        List.mem_singleton, not_or]
      refine ⟨hdis k (by simp [hk]), ?_⟩
      intro e
      exact hnd.1 (e ▸ hk)

theorem assocGet_of_mem_nodup {β : Type} (l : List (String × β)) (k : String) (v : β)
    (hnd : (l.map Prod.fst).Nodup) (h : (k, v) ∈ l) : assocGet l k = some v := by
  induction l with
  | nil => cases h
  | cons e es ih =>
    rcases e with ⟨k2, v2⟩
    simp only [List.map_cons, List.nodup_cons] at hnd
    rcases List.mem_cons.mp h with h1 | h1
    · cases h1
      simp [assocGet]
    · have hk : ¬ k2 = k := by
        intro e
        apply hnd.1
        rw [e]
        exact List.mem_map.mpr ⟨(k, v), h1, rfl⟩
      simp only [assocGet, hk, if_false]
      exact ih hnd.2 h1

theorem assocSet_of_get {β : Type} (l : List (String × β)) (k : String) (v : β)
    (h : assocGet l k = some v) : assocSet l k v = l := by
  induction l with
  | nil => simp [assocGet] at h
  | cons e es ih =>
    rcases e with ⟨k2, v2⟩
    by_cases hk : k2 = k
    · simp only [assocGet, hk, if_true, Option.some.injEq] at h
      simp [assocSet, hk, h]
    · simp only [assocGet, hk, if_false] at h
      simp only [assocSet, hk, if_false, ih h]

theorem foldl_assocSet_same (h0 l : List (String × String))
    (hall : ∀ fv ∈ l, assocGet h0 fv.1 = some fv.2) :
    l.foldl (fun h fv => assocSet h fv.1 fv.2) h0 = h0 := by
  induction l with
  | nil => rfl
  | cons fv rest ih =>
    rw [List.foldl_cons, assocSet_of_get h0 fv.1 fv.2 (hall fv (List.mem_cons_self _ _))]
    exact ih (fun fv2 h2 => hall fv2 (List.mem_cons_of_mem _ h2))

/-- A fresh key on which the pipeline runs one and the same `HSET`, at least
once, and nothing else: it holds the hash of the fields of that command. -/
theorem Exec_hset (E : Env) (k : String) (fvs : List (String × String)) (hne : fvs ≠ [])
    (hnd : (fvs.map Prod.fst).Nodup) (cs : List Cmd) (st : Store)
    (h0 : (st k = none ∧ Cmd.HSet k fvs ∈ cs) ∨ st k = some (.hash fvs))
    (h : ∀ c ∈ cs, c.key = k → c = Cmd.HSet k fvs) :
    (Exec E cs st).1 k = some (.hash fvs) := by
  induction cs generalizing st with
  | nil =>
    rcases h0 with ⟨_, h1⟩ | h1
    · cases h1
    · exact h1
  | cons c cs ih =>
    have hrest : ∀ c2 ∈ cs, c2.key = k → c2 = Cmd.HSet k fvs :=
      fun c2 hc2 => h c2 (List.mem_cons_of_mem _ hc2)
    by_cases hk : c.key = k
    · have hc := h c (List.mem_cons_self _ _) hk
      subst hc
      apply ih _ _ hrest
      right
      simp only [run_at, Cmd.key, if_true]
      rcases h0 with ⟨h1, _⟩ | h1
      · rw [h1]
        simp only [Cmd.applyTo, Cmd.onValue, hne, if_false]
        rw [foldl_assocSet_fresh fvs [] hnd (by simp)]
        rfl
      · rw [h1]
        simp only [Cmd.applyTo, Cmd.onValue, hne, if_false]
        rw [foldl_assocSet_same fvs fvs
          (fun fv hfv => assocGet_of_mem_nodup fvs fv.1 fv.2 hnd (by simpa using hfv))]
    · apply ih _ _ hrest
      rw [run_at, if_neg hk]
      rcases h0 with ⟨h1, h2⟩ | h1
      · left
        refine ⟨h1, ?_⟩
        rcases List.mem_cons.mp h2 with h3 | h3
        · exfalso; apply hk; rw [← h3]; rfl
        · exact h3
      · exact Or.inr h1

/-! ## Integers as text -/

theorem digitChar_toNat (d : Nat) (h : d < 10) : (Nat.digitChar d).toNat = 48 + d := by
  revert d
  decide

theorem digitsValue_append (a b : List Char) (acc : Nat) :
    digitsValue (a ++ b) acc = (digitsValue a acc).bind (fun v => digitsValue b v) := by
  induction a generalizing acc with
  | nil => rfl
  | cons c cs ih =>
    simp only [List.cons_append, digitsValue]
    split
    · exact ih _
    · rfl

theorem toDigitsCore_spec (fuel n : Nat) (ds : List Char) (h : n < fuel) :
    ∃ pre, Nat.toDigitsCore 10 fuel n ds = pre ++ ds ∧ pre ≠ [] ∧
      (∀ c ∈ pre, 48 ≤ c.toNat ∧ c.toNat ≤ 57) ∧ digitsValue pre 0 = some n := by
  induction fuel generalizing n ds with
  | zero => omega
  | succ fuel ih =>
    have hd : (Nat.digitChar (n % 10)).toNat = 48 + n % 10 :=
      digitChar_toNat _ (Nat.mod_lt _ (by omega))
    simp only [Nat.toDigitsCore]
    by_cases h0 : n / 10 = 0
    · simp only [h0, if_true]
      refine ⟨[Nat.digitChar (n % 10)], rfl, by simp, ?_, ?_⟩
      · intro c hc
        simp only [List.mem_singleton] at hc
        subst hc
        omega
      · simp only [digitsValue, hd]
        have : 48 ≤ 48 + n % 10 ∧ 48 + n % 10 ≤ 57 := by omega
        simp only [this, and_self, if_true]
        congr 1
        omega
    · simp only [h0, if_false]
      obtain ⟨pre, hpre, hne, hdig, hval⟩ := ih (n / 10) (Nat.digitChar (n % 10) :: ds) (by omega)
      refine ⟨pre ++ [Nat.digitChar (n % 10)], by simp [hpre], by simp, ?_, ?_⟩
      · intro c hc
        rcases List.mem_append.mp hc with h1 | h1
        · exact hdig c h1
        · simp only [List.mem_singleton] at h1
          subst h1
          omega
      · rw [digitsValue_append, hval]
        simp only [Option.some_bind, digitsValue, hd]
        have : 48 ≤ 48 + n % 10 ∧ 48 + n % 10 ≤ 57 := by omega
        simp only [this, and_self, if_true]
        congr 1
        omega

theorem repr_spec (n : Nat) :
    (Nat.repr n).data ≠ [] ∧ (∀ c ∈ (Nat.repr n).data, 48 ≤ c.toNat ∧ c.toNat ≤ 57) ∧
      digitsValue (Nat.repr n).data 0 = some n := by
  obtain ⟨pre, hpre, hne, hdig, hval⟩ := toDigitsCore_spec (n + 1) n [] (by omega)
  have : (Nat.repr n).data = pre := by
    simp only [Nat.repr, Nat.toDigits, hpre, List.append_nil]
    rfl
  rw [this]
  exact ⟨hne, hdig, hval⟩

theorem repr_injective (a b : Nat) (h : Nat.repr a = Nat.repr b) : a = b := by
  have ha := (repr_spec a).2.2
  have hb := (repr_spec b).2.2
  rw [h, hb] at ha
  exact (Option.some.inj ha).symm

theorem atoi_itoa (i : Int) (h1 : - (2 : Int) ^ 63 ≤ i) (h2 : i < (2 : Int) ^ 63) :
    atoi (itoa i) = some i := by
  have hsigned : atoiSigned (itoa i).data = some i := by
    unfold itoa
    by_cases hneg : i < 0
    · simp only [hneg, if_true]
      obtain ⟨hne, hdig, hval⟩ := repr_spec i.natAbs
      have hd : ("-" ++ Nat.repr i.natAbs).data = '-' :: (Nat.repr i.natAbs).data := rfl
      rw [hd]
      simp only [atoiSigned, atoiDigits, hne, if_false, hval, Option.map_some',
        Option.some.injEq, Int.ofNat_eq_coe]
      omega
    · simp only [hneg, if_false]
      obtain ⟨hne, hdig, hval⟩ := repr_spec i.toNat
      cases hdata : (Nat.repr i.toNat).data with
      | nil => exact absurd hdata hne
      | cons c cs =>
        have hc := hdig c (by rw [hdata]; exact List.mem_cons_self _ _)
        have hm : c ≠ '-' := by
          intro e; rw [e] at hc; revert hc; decide
        have hp : c ≠ '+' := by
          intro e; rw [e] at hc; revert hc; decide
        rw [hdata] at hval
        unfold atoiSigned
        split
        · rename_i h; cases h; exact absurd rfl hm
        · rename_i h; cases h; exact absurd rfl hp
        · simp only [atoiDigits, List.cons_ne_nil, if_false, hval, Option.map_some',
            Option.some.injEq, Int.ofNat_eq_coe]
          omega
  unfold atoi
  rw [hsigned]
  simp only []
  rw [if_pos ⟨h1, h2⟩]

theorem itoa_nat (n : Nat) : itoa (n : Int) = Nat.repr n := by
  unfold itoa
  have : ¬ ((n : Int) < 0) := by omega
  simp only [this, if_false, Int.toNat_ofNat]

/-! ## Keys of a table do not clash -/

theorem key_eq_iff (P a b : String) : P ++ a = P ++ b ↔ a = b :=
  ⟨str_append_left_cancel P a b, fun h => by rw [h]⟩

theorem formatRecordKey_eq (E : Env) (table : Table) (s : Int) :
    table.formatRecordKey E s = table.formatKeyPrefix E ++ (":" ++ itoa s) := by
  simp only [Table.formatRecordKey, String.append_assoc]

theorem formatSortableKey_eq (E : Env) (table : Table) (c : String) :
    table.formatSortableKey E c = table.formatKeyPrefix E ++ (":" ++ c) := by
  simp only [Table.formatSortableKey, String.append_assoc]

theorem formatFilterKey_eq (E : Env) (table : Table) (c v : String) :
    table.formatFilterKey E c v = table.formatKeyPrefix E ++ (":" ++ (c ++ (":" ++ v))) := by
  simp only [Table.formatFilterKey, String.append_assoc]

theorem colon_data (x : String) : (":" ++ x).data = ':' :: x.data := rfl

theorem split_first_colon (a a2 b b2 : List Char) (ha : ':' ∉ a) (ha2 : ':' ∉ a2)
    (h : a ++ ':' :: b = a2 ++ ':' :: b2) : a = a2 ∧ b = b2 := by
  induction a generalizing a2 with
  | nil =>
    cases a2 with
    | nil => simpa using h
    | cons x xs =>
      simp only [List.nil_append, List.cons_append, List.cons.injEq] at h
      exact absurd (h.1 ▸ List.mem_cons_self _ _) ha2
  | cons y ys ih =>
    cases a2 with
    | nil =>
      simp only [List.nil_append, List.cons_append, List.cons.injEq] at h
      exact absurd (h.1 ▸ List.mem_cons_self _ _) ha
    | cons x xs =>
      simp only [List.cons_append, List.cons.injEq] at h
      obtain ⟨e1, e2⟩ := ih xs (fun hm => ha (List.mem_cons_of_mem _ hm))
        (fun hm => ha2 (List.mem_cons_of_mem _ hm)) h.2
      exact ⟨by rw [h.1, e1], e2⟩

theorem formatRecordKey_nat_inj (E : Env) (table : Table) (a b : Nat)
    (h : table.formatRecordKey E (a : Int) = table.formatRecordKey E (b : Int)) : a = b := by
  rw [formatRecordKey_eq, formatRecordKey_eq, key_eq_iff, key_eq_iff, itoa_nat, itoa_nat] at h
  exact repr_injective a b h

theorem formatRecordKey_ne_all (E : Env) (table : Table) (a : Nat) :
    table.formatRecordKey E (a : Int) ≠ table.formatAllRecordKeys E := by
  intro h
  rw [formatRecordKey_eq, itoa_nat] at h
  unfold Table.formatAllRecordKeys at h
  have h2 := (key_eq_iff _ _ _).mp h
  have h3 : Nat.repr a = "all" := (key_eq_iff ":" _ _).mp h2
  have hd := (repr_spec a).2.1 'a' (by rw [h3]; decide)
  revert hd
  decide

theorem formatRecordKey_ne_filter (E : Env) (table : Table) (a : Nat) (c v : String) :
    table.formatRecordKey E (a : Int) ≠ table.formatFilterKey E c v := by
  intro h
  rw [formatRecordKey_eq, formatFilterKey_eq, itoa_nat] at h
  have h3 : Nat.repr a = c ++ (":" ++ v) := (key_eq_iff ":" _ _).mp ((key_eq_iff _ _ _).mp h)
  have hd := (repr_spec a).2.1 ':' (by rw [h3]; simp [colon_data])
  revert hd
  decide

theorem formatRecordKey_ne_sortable (E : Env) (table : Table) (a : Nat) (c : String)
    (hc : PlainName c) : table.formatRecordKey E (a : Int) ≠ table.formatSortableKey E c := by
  intro h
  rw [formatRecordKey_eq, formatSortableKey_eq, itoa_nat] at h
  have h3 : Nat.repr a = c := (key_eq_iff ":" _ _).mp ((key_eq_iff _ _ _).mp h)
  obtain ⟨ch, hch, hnd⟩ := hc.2.2
  exact hnd ((repr_spec a).2.1 ch (by rw [h3]; exact hch))

theorem formatFilterKey_ne_all (E : Env) (table : Table) (c v : String) :
    table.formatFilterKey E c v ≠ table.formatAllRecordKeys E := by
  intro h
  rw [formatFilterKey_eq] at h
  unfold Table.formatAllRecordKeys at h
  have h3 : c ++ (":" ++ v) = "all" := (key_eq_iff ":" _ _).mp ((key_eq_iff _ _ _).mp h)
  have : ':' ∈ ("all" : String).data := by rw [← h3]; simp [colon_data]
  revert this
  decide

theorem formatSortableKey_ne_all (E : Env) (table : Table) (c : String) (hc : PlainName c) :
    table.formatSortableKey E c ≠ table.formatAllRecordKeys E := by
  intro h
  rw [formatSortableKey_eq] at h
  unfold Table.formatAllRecordKeys at h
  exact hc.2.1 ((key_eq_iff ":" _ _).mp ((key_eq_iff _ _ _).mp h))

theorem formatSortableKey_ne_filter (E : Env) (table : Table) (c c2 v : String)
    (hc : PlainName c) : table.formatSortableKey E c ≠ table.formatFilterKey E c2 v := by
  intro h
  rw [formatSortableKey_eq, formatFilterKey_eq] at h
  have h3 : c = c2 ++ (":" ++ v) := (key_eq_iff ":" _ _).mp ((key_eq_iff _ _ _).mp h)
  apply hc.1
  rw [h3]
  simp [colon_data]

theorem formatSortableKey_inj (E : Env) (table : Table) (c c2 : String)
    (h : table.formatSortableKey E c = table.formatSortableKey E c2) : c = c2 := by
  rw [formatSortableKey_eq, formatSortableKey_eq] at h
  exact (key_eq_iff ":" _ _).mp ((key_eq_iff _ _ _).mp h)

theorem formatFilterKey_inj (E : Env) (table : Table) (c c2 v v2 : String)
    (hc : PlainName c) (hc2 : PlainName c2)
    (h : table.formatFilterKey E c v = table.formatFilterKey E c2 v2) : c = c2 ∧ v = v2 := by
  rw [formatFilterKey_eq, formatFilterKey_eq] at h
  have h3 : c ++ (":" ++ v) = c2 ++ (":" ++ v2) :=
    (key_eq_iff ":" _ _).mp ((key_eq_iff _ _ _).mp h)
  have h4 := congrArg String.data h3
  simp only [String.data_append, colon_data] at h4
  obtain ⟨e1, e2⟩ := split_first_colon _ _ _ _ hc.1 hc2.1 h4
  exact ⟨String.ext e1, String.ext e2⟩

theorem formatFilterKey_val_inj (E : Env) (table : Table) (c v v2 : String)
    (h : table.formatFilterKey E c v = table.formatFilterKey E c v2) : v = v2 := by
  unfold Table.formatFilterKey at h
  exact (key_eq_iff _ _ _).mp h

/-! ## The store after an ingest -/

theorem column_unique (schema : Schema) (h : (schema.Columns.map (fun c => c.Name)).Nodup)
    (c c2 : Column) (hc : c ∈ schema.Columns) (hc2 : c2 ∈ schema.Columns)
    (hn : c.Name = c2.Name) : c = c2 :=
  List.inj_on_of_nodup_map h hc hc2 hn

theorem zip_keys (header row : List String) (h : row.length = header.length) :
    (header.zip row).map Prod.fst = header := by
  rw [List.map_fst_zip]
  omega

theorem mem_zip_iff_get (header row : List String) (col val : String) :
    (col, val) ∈ header.zip row ↔
      ∃ p, header.get? p = some col ∧ row.get? p = some val := by
  induction header generalizing row with
  | nil => simp
  | cons h hs ih =>
    cases row with
    | nil => simp
    | cons r rs =>
      simp only [List.zip_cons_cons, List.mem_cons, Prod.mk.injEq, ih]
      constructor
      · rintro (⟨e1, e2⟩ | ⟨p, h1, h2⟩)
        · exact ⟨0, by simp [e1], by simp [e2]⟩
        · exact ⟨p + 1, by simpa using h1, by simpa using h2⟩
      · rintro ⟨p, h1, h2⟩
        cases p with
        | zero =>
          left
          simp only [List.get?_cons_zero, Option.some.injEq] at h1 h2
          exact ⟨h1.symm, h2.symm⟩
        | succ p =>
          right
          exact ⟨p, by simpa using h1, by simpa using h2⟩

theorem mem_of_assocGet {β : Type} (l : List (String × β)) (k : String) (v : β)
    (h : assocGet l k = some v) : (k, v) ∈ l := by
  induction l with
  | nil => simp [assocGet] at h
  | cons e es ih =>
    rcases e with ⟨k2, v2⟩
    by_cases hk2 : k2 = k
    · simp only [assocGet, hk2, if_true, Option.some.injEq] at h
      rw [hk2, h]
      exact List.mem_cons_self _ _
    · simp only [assocGet, hk2, if_false] at h
      exact List.mem_cons_of_mem _ (ih h)

/-- In a row zipped with a header without repeated names, the value of a
column is the one at the column's position. -/
theorem assocGet_zip_iff (header row : List String) (hnd : header.Nodup)
    (hlen : row.length = header.length) (col val : String) :
    assocGet (header.zip row) col = some val ↔
      ∃ p, header.get? p = some col ∧ row.get? p = some val := by
  rw [← mem_zip_iff_get]
  have hk : ((header.zip row).map Prod.fst).Nodup := by rw [zip_keys header row hlen]; exact hnd
  exact ⟨mem_of_assocGet _ col val, assocGet_of_mem_nodup _ col val hk⟩

theorem loadCmd_field (E : Env) (table : Table) (header : List String)
    (rows : List (List String)) (schemaMap : List (String × Nat)) (pipe : List Cmd)
    (ctx : LoadCtx E table header rows schemaMap pipe) (rk : String) (row : List String)
    (cmd : Cmd) :
    FieldCmd E table header schemaMap rk row cmd ↔
      ∃ p col val c, header.get? p = some col ∧ row.get? p = some val ∧
        c ∈ table.Schema.Columns ∧ c.Name = col ∧ c.Filterable = true ∧
        (cmd = Cmd.SAdd (table.formatFilterKey E col val) rk ∨
          (c.Sortable = true ∧ ∃ x, E.parseFloat val = some x ∧
            cmd = Cmd.ZAdd (table.formatSortableKey E col) x
              (table.formatFilterKey E col val))) := by
  unfold FieldCmd
  constructor
  · rintro ⟨p, col, val, c, h1, h2, h3, h4, h5⟩
    obtain ⟨j, c2, hj, hn, hsm⟩ := ctx.hcols col (List.get?_mem h1)
    rw [hsm] at h3
    simp only [Option.getD_some] at h3
    rw [hj] at h3
    cases h3
    exact ⟨p, col, val, c, h1, h2, List.get?_mem hj, hn, h4, h5⟩
  · rintro ⟨p, col, val, c, h1, h2, hc, hn, h4, h5⟩
    obtain ⟨j, c2, hj, hn2, hsm⟩ := ctx.hcols col (List.get?_mem h1)
    have : c2 = c := column_unique table.Schema ctx.hschema.1 c2 c (List.get?_mem hj) hc
      (by rw [hn2, hn])
    subst this
    refine ⟨p, col, val, c2, h1, h2, ?_, h4, h5⟩
    rw [hsm]
    exact hj

/-- The four kinds of command of an ingest. -/
theorem loadCmd_cases (E : Env) (table : Table) (header : List String)
    (rows : List (List String)) (schemaMap : List (String × Nat)) (pipe : List Cmd)
    (ctx : LoadCtx E table header rows schemaMap pipe) (cmd : Cmd) :
    cmd ∈ pipe ↔
      ((∃ (i : Nat) (row : List String) (col val : String) (c : Column),
          rows.get? i = some row ∧
          assocGet (header.zip row) col = some val ∧ c ∈ table.Schema.Columns ∧
          c.Name = col ∧ c.Filterable = true ∧
          cmd = Cmd.SAdd (table.formatFilterKey E col val) (table.formatRecordKey E (i : Int))) ∨
       (∃ (i : Nat) (row : List String) (col val : String) (c : Column) (x : Score),
          rows.get? i = some row ∧
          assocGet (header.zip row) col = some val ∧ c ∈ table.Schema.Columns ∧
          c.Name = col ∧ c.Filterable = true ∧ c.Sortable = true ∧
          E.parseFloat val = some x ∧
          cmd = Cmd.ZAdd (table.formatSortableKey E col) x (table.formatFilterKey E col val)) ∨
       (∃ (i : Nat) (row : List String), rows.get? i = some row ∧
          cmd = Cmd.HSet (table.formatRecordKey E (i : Int)) (header.zip row)) ∨
       (∃ (i : Nat) (row : List String), rows.get? i = some row ∧
          cmd = Cmd.ZAdd (table.formatAllRecordKeys E) ((i : Int) : Score)
            (table.formatRecordKey E (i : Int)))) := by
  rw [ctx.hmem]
  unfold LoadCmd
  constructor
  · rintro ⟨i, row, hrow, h | h | h⟩
    · have hlen := ctx.hlens row (List.get?_mem hrow)
      obtain ⟨p, col, val, c, h1, h2, hc, hn, hf, h5⟩ :=
        (loadCmd_field E table header rows schemaMap pipe ctx _ row cmd).mp h
      have hz : assocGet (header.zip row) col = some val :=
        (assocGet_zip_iff header row ctx.hnodup hlen col val).mpr ⟨p, h1, h2⟩
      rcases h5 with h5 | ⟨hs, x, hx, h5⟩
      · exact Or.inl ⟨i, row, col, val, c, hrow, hz, hc, hn, hf, h5⟩
      · exact Or.inr (Or.inl ⟨i, row, col, val, c, x, hrow, hz, hc, hn, hf, hs, hx, h5⟩)
    · exact Or.inr (Or.inr (Or.inl ⟨i, row, hrow, h⟩))
    · exact Or.inr (Or.inr (Or.inr ⟨i, row, hrow, h⟩))
  · rintro (⟨i, row, col, val, c, hrow, hz, hc, hn, hf, h5⟩ |
      ⟨i, row, col, val, c, x, hrow, hz, hc, hn, hf, hs, hx, h5⟩ | ⟨i, row, hrow, h⟩ |
      ⟨i, row, hrow, h⟩)
    · have hlen := ctx.hlens row (List.get?_mem hrow)
      obtain ⟨p, h1, h2⟩ := (assocGet_zip_iff header row ctx.hnodup hlen col val).mp hz
      exact ⟨i, row, hrow, Or.inl
        ((loadCmd_field E table header rows schemaMap pipe ctx _ row cmd).mpr
          ⟨p, col, val, c, h1, h2, hc, hn, hf, Or.inl h5⟩)⟩
    · have hlen := ctx.hlens row (List.get?_mem hrow)
      obtain ⟨p, h1, h2⟩ := (assocGet_zip_iff header row ctx.hnodup hlen col val).mp hz
      exact ⟨i, row, hrow, Or.inl
        ((loadCmd_field E table header rows schemaMap pipe ctx _ row cmd).mpr
          ⟨p, col, val, c, h1, h2, hc, hn, hf, Or.inr ⟨hs, x, hx, h5⟩⟩)⟩
    · exact ⟨i, row, hrow, Or.inr (Or.inl h)⟩
    · exact ⟨i, row, hrow, Or.inr (Or.inr h)⟩

/-- After the ingest the key of every row holds the hash of its fields. -/
theorem load_record (E : Env) (table : Table) (header : List String)
    (rows : List (List String)) (schemaMap : List (String × Nat)) (pipe : List Cmd)
    (ctx : LoadCtx E table header rows schemaMap pipe) (st : Store)
    (hfresh : FreshVersion E st table) (i : Nat) (row : List String)
    (hrow : rows.get? i = some row) :
    (Exec E pipe st).1 (table.formatRecordKey E (i : Int)) = some (.hash (header.zip row)) := by
  have hlen := ctx.hlens row (List.get?_mem hrow)
  have hzne : header.zip row ≠ [] := by
    intro h
    have h2 := congrArg (List.map Prod.fst) h
    rw [zip_keys header row hlen] at h2
    exact ctx.hne h2
  apply Exec_hset E _ _ hzne (by rw [zip_keys header row hlen]; exact ctx.hnodup)
  · left
    refine ⟨by rw [formatRecordKey_eq]; exact hfresh _, ?_⟩
    exact (loadCmd_cases E table header rows schemaMap pipe ctx _).mpr
      (Or.inr (Or.inr (Or.inl ⟨i, row, hrow, rfl⟩)))
  · intro c hc hk
    rcases (loadCmd_cases E table header rows schemaMap pipe ctx c).mp hc with
      ⟨i2, row2, col, val, c2, _, _, _, _, _, h5⟩ |
      ⟨i2, row2, col, val, c2, x, _, _, hc2, hn, _, _, _, h5⟩ | ⟨i2, row2, hrow2, h5⟩ |
      ⟨i2, row2, _, h5⟩
    · subst h5
      exact absurd hk.symm (formatRecordKey_ne_filter E table i col val)
    · subst h5
      exact absurd hk.symm (formatRecordKey_ne_sortable E table i col
        (hn ▸ ctx.hschema.2.1 c2 hc2))
    · subst h5
      have : i2 = i := formatRecordKey_nat_inj E table i2 i hk
      subst this
      rw [hrow] at hrow2
      cases hrow2
      rfl
    · subst h5
      exact absurd hk.symm (formatRecordKey_ne_all E table i)

/-- After the ingest the all-records set holds the key of every row, scored
by its sequence number, and nothing else. -/
theorem load_all (E : Env) (table : Table) (header : List String)
    (rows : List (List String)) (schemaMap : List (String × Nat)) (pipe : List Cmd)
    (ctx : LoadCtx E table header rows schemaMap pipe) (st : Store)
    (hfresh : FreshVersion E st table) :
    ∃ z, readZSet (Exec E pipe st).1 (table.formatAllRecordKeys E) = .ok z ∧
      (z.map Prod.fst).Nodup ∧
      ∀ m x, (m, x) ∈ z ↔ ∃ i : Nat, i < rows.length ∧
        m = table.formatRecordKey E (i : Int) ∧ x = ((i : Int) : Score) := by
  have h0 : readZSet st (table.formatAllRecordKeys E) = .ok [] := by
    unfold readZSet
    have : table.formatAllRecordKeys E = table.formatKeyPrefix E ++ (":" ++ "all") := rfl
    rw [this, hfresh]
  have hshape : ∀ c ∈ pipe, c.key = table.formatAllRecordKeys E →
      ∃ (i : Nat), i < rows.length ∧ c = Cmd.ZAdd (table.formatAllRecordKeys E)
        ((i : Int) : Score) (table.formatRecordKey E (i : Int)) := by
    intro c hc hk
    rcases (loadCmd_cases E table header rows schemaMap pipe ctx c).mp hc with
      ⟨i2, row2, col, val, c2, _, _, _, _, _, h5⟩ |
      ⟨i2, row2, col, val, c2, x, _, _, hc2, hn, _, _, _, h5⟩ | ⟨i2, row2, hrow2, h5⟩ |
      ⟨i2, row2, hrow2, h5⟩
    · subst h5
      exact absurd hk (formatFilterKey_ne_all E table col val)
    · subst h5
      exact absurd hk (formatSortableKey_ne_all E table col (hn ▸ ctx.hschema.2.1 c2 hc2))
    · subst h5
      exact absurd hk (formatRecordKey_ne_all E table i2)
    · exact ⟨i2, (List.get?_eq_some.mp hrow2).1, h5⟩
  obtain ⟨z, hz, hnd, hzm, hze⟩ := Exec_zadd E _ pipe st [] h0 (by simp)
    (fun c hc hk => by
      obtain ⟨i, _, hi⟩ := hshape c hc hk
      exact ⟨_, _, hi⟩)
  refine ⟨z, hz, hnd, ?_⟩
  have hfwd : ∀ m x, (m, x) ∈ z → ∃ i : Nat, i < rows.length ∧
      m = table.formatRecordKey E (i : Int) ∧ x = ((i : Int) : Score) := by
    intro m x hmx
    rcases hze m x hmx with h1 | h1
    · cases h1
    · obtain ⟨i, hi, he⟩ := hshape _ h1 rfl
      simp only [Cmd.ZAdd.injEq, true_and] at he
      exact ⟨i, hi, he.2, he.1⟩
  intro m x
  constructor
  · exact hfwd m x
  · rintro ⟨i, hi, hm, hx⟩
    have hcmd : Cmd.ZAdd (table.formatAllRecordKeys E) ((i : Int) : Score)
        (table.formatRecordKey E (i : Int)) ∈ pipe :=
      (loadCmd_cases E table header rows schemaMap pipe ctx _).mpr
        (Or.inr (Or.inr (Or.inr ⟨i, rows.get ⟨i, hi⟩, List.get?_eq_get hi, rfl⟩)))
    have hmem : m ∈ z.map Prod.fst := (hzm m).mpr (Or.inr ⟨_, hm ▸ hcmd⟩)
    obtain ⟨e, he, hfst⟩ := List.mem_map.mp hmem
    obtain ⟨i2, _, hm2, hx2⟩ := hfwd e.1 e.2 he
    have : i2 = i := formatRecordKey_nat_inj E table i2 i (by rw [← hm2, hfst, hm])
    subst this
    have : e = (m, x) := Prod.ext hfst (by rw [hx2, hx])
    rw [← this]
    exact he

/-- After the ingest the filter set of a value of a filterable column holds
exactly the keys of the rows with that value in the column. -/
theorem load_filter (E : Env) (table : Table) (header : List String)
    (rows : List (List String)) (schemaMap : List (String × Nat)) (pipe : List Cmd)
    (ctx : LoadCtx E table header rows schemaMap pipe) (st : Store)
    (hfresh : FreshVersion E st table) (c : Column) (hc : c ∈ table.Schema.Columns)
    (hf : c.Filterable = true) (v : String) :
    ∃ s, readSet (Exec E pipe st).1 (table.formatFilterKey E c.Name v) = .ok s ∧
      ∀ k, k ∈ s ↔ ∃ (i : Nat) (row : List String), rows.get? i = some row ∧
        k = table.formatRecordKey E (i : Int) ∧
        assocGet (header.zip row) c.Name = some v := by
  have h0 : readSet st (table.formatFilterKey E c.Name v) = .ok [] := by
    unfold readSet
    rw [formatFilterKey_eq, hfresh]
  have hplain := ctx.hschema.2.1 c hc
  have hshape : ∀ cmd ∈ pipe, cmd.key = table.formatFilterKey E c.Name v →
      ∃ (i : Nat) (row : List String), rows.get? i = some row ∧
        assocGet (header.zip row) c.Name = some v ∧
        cmd = Cmd.SAdd (table.formatFilterKey E c.Name v) (table.formatRecordKey E (i : Int)) := by
    intro cmd hcmd hk
    rcases (loadCmd_cases E table header rows schemaMap pipe ctx cmd).mp hcmd with
      ⟨i2, row2, col, val, c2, hrow2, hz, hc2, hn, _, h5⟩ |
      ⟨i2, row2, col, val, c2, x, _, _, hc2, hn, _, _, _, h5⟩ | ⟨i2, row2, hrow2, h5⟩ |
      ⟨i2, row2, hrow2, h5⟩
    · subst h5
      obtain ⟨e1, e2⟩ := formatFilterKey_inj E table col c.Name val v
        (hn ▸ ctx.hschema.2.1 c2 hc2) hplain hk
      subst e1 e2
      exact ⟨i2, row2, hrow2, hz, rfl⟩
    · subst h5
      exact absurd hk (formatSortableKey_ne_filter E table col c.Name v
        (hn ▸ ctx.hschema.2.1 c2 hc2))
    · subst h5
      exact absurd hk (formatRecordKey_ne_filter E table i2 c.Name v)
    · subst h5
      exact absurd hk.symm (formatFilterKey_ne_all E table c.Name v)
  obtain ⟨s, hs, hm⟩ := Exec_sadd E _ pipe st [] h0
    (fun cmd hcmd hk => by
      obtain ⟨i, row, _, _, he⟩ := hshape cmd hcmd hk
      exact ⟨_, he⟩)
  refine ⟨s, hs, ?_⟩
  intro k
  rw [hm]
  simp only [List.not_mem_nil, false_or]
  constructor
  · intro h
    obtain ⟨i, row, hrow, hz, he⟩ := hshape _ h rfl
    simp only [Cmd.SAdd.injEq, true_and] at he
    exact ⟨i, row, hrow, he, hz⟩
  · rintro ⟨i, row, hrow, hk, hz⟩
    rw [hk]
    exact (loadCmd_cases E table header rows schemaMap pipe ctx _).mpr
      (Or.inl ⟨i, row, c.Name, v, c, hrow, hz, hc, rfl, hf, rfl⟩)

/-- After the ingest the sortable set of a sortable column holds, each once,
the filter keys of the values of the column that parse as a number, scored
by that number, and nothing else. -/
theorem load_sortable (E : Env) (table : Table) (header : List String)
    (rows : List (List String)) (schemaMap : List (String × Nat)) (pipe : List Cmd)
    (ctx : LoadCtx E table header rows schemaMap pipe) (st : Store)
    (hfresh : FreshVersion E st table) (c : Column) (hc : c ∈ table.Schema.Columns)
    (hs : c.Sortable = true) :
    ∃ z, readZSet (Exec E pipe st).1 (table.formatSortableKey E c.Name) = .ok z ∧
      (z.map Prod.fst).Nodup ∧
      ∀ m x, (m, x) ∈ z ↔ ∃ (i : Nat) (row : List String) (v : String),
        rows.get? i = some row ∧ assocGet (header.zip row) c.Name = some v ∧
        m = table.formatFilterKey E c.Name v ∧ E.parseFloat v = some x := by
  have h0 : readZSet st (table.formatSortableKey E c.Name) = .ok [] := by
    unfold readZSet
    rw [formatSortableKey_eq, hfresh]
  have hplain := ctx.hschema.2.1 c hc
  have hf := ctx.hschema.2.2 c hc hs
  have hshape : ∀ cmd ∈ pipe, cmd.key = table.formatSortableKey E c.Name →
      ∃ (i : Nat) (row : List String) (v : String) (x : Score), rows.get? i = some row ∧
        assocGet (header.zip row) c.Name = some v ∧ E.parseFloat v = some x ∧
        cmd = Cmd.ZAdd (table.formatSortableKey E c.Name) x
          (table.formatFilterKey E c.Name v) := by
    intro cmd hcmd hk
    rcases (loadCmd_cases E table header rows schemaMap pipe ctx cmd).mp hcmd with
      ⟨i2, row2, col, val, c2, hrow2, hz, hc2, hn, _, h5⟩ |
      ⟨i2, row2, col, val, c2, x, hrow2, hz, hc2, hn, _, _, hx, h5⟩ | ⟨i2, row2, hrow2, h5⟩ |
      ⟨i2, row2, hrow2, h5⟩
    · subst h5
      exact absurd hk.symm (formatSortableKey_ne_filter E table c.Name col val hplain)
    · subst h5
      have e1 := formatSortableKey_inj E table col c.Name hk
      subst e1
      exact ⟨i2, row2, val, x, hrow2, hz, hx, rfl⟩
    · subst h5
      exact absurd hk (formatRecordKey_ne_sortable E table i2 c.Name hplain)
    · subst h5
      exact absurd hk.symm (formatSortableKey_ne_all E table c.Name hplain)
  obtain ⟨z, hz, hnd, hzm, hze⟩ := Exec_zadd E _ pipe st [] h0 (by simp)
    (fun cmd hcmd hk => by
      obtain ⟨i, row, v, x, _, _, _, he⟩ := hshape cmd hcmd hk
      exact ⟨_, _, he⟩)
  refine ⟨z, hz, hnd, ?_⟩
  have hfwd : ∀ m x, (m, x) ∈ z → ∃ (i : Nat) (row : List String) (v : String),
      rows.get? i = some row ∧ assocGet (header.zip row) c.Name = some v ∧
      m = table.formatFilterKey E c.Name v ∧ E.parseFloat v = some x := by
    intro m x hmx
    rcases hze m x hmx with h1 | h1
    · cases h1
    · obtain ⟨i, row, v, x2, hrow, hzv, hx, he⟩ := hshape _ h1 rfl
      simp only [Cmd.ZAdd.injEq, true_and] at he
      exact ⟨i, row, v, hrow, hzv, he.2, he.1 ▸ hx⟩
  intro m x
  constructor
  · exact hfwd m x
  · rintro ⟨i, row, v, hrow, hzv, hm, hx⟩
    have hcmd : Cmd.ZAdd (table.formatSortableKey E c.Name) x
        (table.formatFilterKey E c.Name v) ∈ pipe :=
      (loadCmd_cases E table header rows schemaMap pipe ctx _).mpr
        (Or.inr (Or.inl ⟨i, row, c.Name, v, c, x, hrow, hzv, hc, rfl, hf, hs, hx, rfl⟩))
    have hmem : m ∈ z.map Prod.fst := (hzm m).mpr (Or.inr ⟨_, hm ▸ hcmd⟩)
    obtain ⟨e, he, hfst⟩ := List.mem_map.mp hmem
    obtain ⟨i2, row2, v2, _, _, hm2, hx2⟩ := hfwd e.1 e.2 he
    have hv : v2 = v := formatFilterKey_val_inj E table c.Name v2 v
      (by rw [← hm2, hfst, hm])
    subst hv
    have : e = (m, x) := Prod.ext hfst (by
      have := hx2.symm.trans hx
      exact Option.some.inj this)
    rw [← this]
    exact he

/-- Every command of an ingest writes a key of the version of the table. -/
theorem loadCmd_key (E : Env) (table : Table) (header : List String)
    (rows : List (List String)) (schemaMap : List (String × Nat)) (pipe : List Cmd)
    (ctx : LoadCtx E table header rows schemaMap pipe) (cmd : Cmd) (h : cmd ∈ pipe) :
    ∃ s, cmd.key = table.formatKeyPrefix E ++ (":" ++ s) := by
  rcases (loadCmd_cases E table header rows schemaMap pipe ctx cmd).mp h with
    ⟨i2, row2, col, val, c2, _, _, _, _, _, h5⟩ |
    ⟨i2, row2, col, val, c2, x, _, _, _, _, _, _, _, h5⟩ | ⟨i2, row2, _, h5⟩ |
    ⟨i2, row2, _, h5⟩
  · subst h5; exact ⟨_, formatFilterKey_eq E table col val⟩
  · subst h5; exact ⟨_, formatSortableKey_eq E table col⟩
  · subst h5; exact ⟨_, formatRecordKey_eq E table _⟩
  · subst h5; exact ⟨"all", rfl⟩

/-! ## BulkLoad -/

theorem Exec_append_fst (E : Env) (a b : List Cmd) (st : Store) :
    (Exec E (a ++ b) st).1 = (Exec E b (Exec E a st).1).1 := by
  induction a generalizing st with
  | nil => rfl
  | cons c cs ih =>
    show (Exec E (cs ++ b) (c.run E st).1).1 = (Exec E b (Exec E cs (c.run E st).1).1).1
    exact ih _

theorem Exec_createIndex (E : Env) (table : Table) (st : Store) :
    (Exec E (createIndexToPipe E table) st).1 = st := rfl

theorem formatLastLoadKey_ne_version (E : Env) (table : Table) (s : String) :
    table.formatLastLoadKey E ≠ table.formatKeyPrefix E ++ (":" ++ s) := by
  intro h
  unfold Table.formatLastLoadKey Table.formatKeyPrefix at h
  simp only [String.append_assoc] at h
  have h2 := (key_eq_iff _ _ _).mp ((key_eq_iff _ _ _).mp ((key_eq_iff _ _ _).mp h))
  have h3 : ("lastload" : String) = itoa table.Version ++ (":" ++ s) :=
    (key_eq_iff ":" _ _).mp h2
  have : ':' ∈ ("lastload" : String).data := by rw [h3]; simp [colon_data]
  revert this
  decide

theorem formatSchemaKey_ne_version (E : Env) (table : Table) (s : String) :
    formatSchemaKey E table.Name ≠ table.formatKeyPrefix E ++ (":" ++ s) := by
  intro h
  unfold formatSchemaKey Table.formatKeyPrefix at h
  simp only [String.append_assoc] at h
  have h2 := (key_eq_iff _ _ _).mp ((key_eq_iff _ _ _).mp ((key_eq_iff _ _ _).mp h))
  have h3 : ("schema" : String) = itoa table.Version ++ (":" ++ s) :=
    (key_eq_iff ":" _ _).mp h2
  have : ':' ∈ ("schema" : String).data := by rw [h3]; simp [colon_data]
  revert this
  decide

theorem formatSchemaKey_ne_lastLoad (E : Env) (table : Table) :
    formatSchemaKey E table.Name ≠ table.formatLastLoadKey E := by
  intro h
  unfold formatSchemaKey Table.formatLastLoadKey at h
  simp only [String.append_assoc] at h
  have h2 := (key_eq_iff _ _ _).mp ((key_eq_iff _ _ _).mp ((key_eq_iff _ _ _).mp h))
  revert h2
  decide

/-- `updateLastLoad` writes the last-load key and nothing else. -/
theorem updateLastLoad_frame (E : Env) (st : Store) (table : Table) (load : Load) (k : String)
    (hk : table.formatLastLoadKey E ≠ k) : (updateLastLoad E st table load).1 k = st k := by
  unfold updateLastLoad
  rw [run_at]
  simp only [Cmd.key, hk, if_false]

/-- After `updateLastLoad` without error the last-load key holds a hash. -/
theorem updateLastLoad_hash (E : Env) (st st1 : Store) (table : Table) (load : Load)
    (h : updateLastLoad E st table load = (st1, none)) :
    ∃ h1, st1 (table.formatLastLoadKey E) = some (.hash h1) := by
  unfold updateLastLoad at h
  simp only [Cmd.run, Cmd.key, Cmd.onValue, List.cons_ne_nil, reduceCtorEq, if_false] at h
  cases hv : st (table.formatLastLoadKey E) with
  | none =>
    rw [hv] at h
    simp only [Prod.mk.injEq, and_true] at h
    rw [← h]
    exact ⟨_, by unfold Store.put; rw [if_pos rfl]⟩
  | some v =>
    rw [hv] at h
    cases v with
    | hash h0 =>
      simp only [Prod.mk.injEq, and_true] at h
      rw [← h]
      exact ⟨_, by unfold Store.put; rw [if_pos rfl]⟩
    | str _ => simp at h
    | set _ => simp at h
    | zset _ => simp at h

/-- A bulk load of CSV input that succeeds: the table it wrote, the commands
of the ingest, and the store they ran on, which agrees with the store before
the load on every key of the version; the store after the load agrees with
the outcome of the commands on every key of the version. -/
theorem BulkLoad_success (E : Env) (st : Store) (tableName : String) (f : List (List String))
    (starttime endtime : String) (st2 : Store) (table : Table)
    (h : BulkLoad E st tableName f "csv" starttime endtime = (st2, none))
    (htable : loadTable E st tableName = .ok table) :
    ∃ pipe st1, csvToPipe E f table = .ok pipe ∧
      (∀ k, table.formatLastLoadKey E ≠ k → st1 k = st k) ∧
      (∀ k, table.formatLastLoadKey E ≠ k → st2 k = (Exec E pipe st1).1 k) ∧
      st2 = (updateLastLoad E (Exec E pipe st1).1 table
        { Version := table.Version, StartTime := starttime, EndTime := endtime,
          Status := LoadSuccess }).1 ∧
      updateLastLoad E st table
        { Version := table.Version, StartTime := starttime, EndTime := "",
          Status := LoadRunning } = (st1, none) := by
  unfold BulkLoad at h
  rw [htable] at h
  simp only [if_true] at h
  rcases hu : updateLastLoad E st table
    { Version := table.Version, StartTime := starttime, EndTime := "", Status := LoadRunning }
    with ⟨st1, e1⟩
  rw [hu] at h
  cases e1 with
  | some e => simp at h
  | none =>
    simp only [] at h
    cases hp : csvToPipe E f table with
    | error e => rw [hp] at h; simp at h
    | ok pipe =>
      rw [hp] at h
      simp only [] at h
      have hexec : (Exec E (if E.indexOnLoad = true then pipe ++ createIndexToPipe E table
          else pipe) st1).1 = (Exec E pipe st1).1 := by
        by_cases hi : E.indexOnLoad = true
        · simp only [hi, if_true]
          rw [Exec_append_fst, Exec_createIndex]
        · simp [hi]
      rcases hx : Exec E (if E.indexOnLoad = true then pipe ++ createIndexToPipe E table
          else pipe) st1 with ⟨st3, e3⟩
      rw [hx] at h hexec
      simp only [] at hexec
      cases e3 with
      | some e => simp at h
      | none =>
        simp only [Prod.mk.injEq, and_true] at h
        refine ⟨pipe, st1, rfl, ?_, ?_, ?_, rfl⟩
        · intro k hk
          have := updateLastLoad_frame E st table
            { Version := table.Version, StartTime := starttime, EndTime := "",
              Status := LoadRunning } k hk
          rw [hu] at this
          exact this
        · intro k hk
          rw [← h, ← hexec]
          exact updateLastLoad_frame E st3 table _ k hk
        · rw [← h, ← hexec]

theorem readSet_agree (st st2 : Store) (k : String) (h : st2 k = st k) :
    readSet st2 k = readSet st k := by
  unfold readSet; rw [h]

theorem readZSet_agree (st st2 : Store) (k : String) (h : st2 k = st k) :
    readZSet st2 k = readZSet st k := by
  unfold readZSet; rw [h]

/-- A successful load ran the load commands of its rows on a store without
keys of the version, and left their outcome under every key of the version. -/
theorem Loaded.ctx {E : Env} {st : Store} {tableName : String} {f : List (List String)}
    {starttime endtime : String} {st2 : Store} {table : Table} {header : List String}
    {rows : List (List String)}
    (L : Loaded E st tableName f starttime endtime st2 table header rows) :
    ∃ pipe st1 schemaMap, LoadCtx E table header rows schemaMap pipe ∧
      FreshVersion E st1 table ∧
      (∀ s, st2 (table.formatKeyPrefix E ++ (":" ++ s)) =
        (Exec E pipe st1).1 (table.formatKeyPrefix E ++ (":" ++ s))) ∧
      (∀ k, table.formatLastLoadKey E ≠ k → ¬ (∃ s, k = table.formatKeyPrefix E ++ (":" ++ s)) →
        st2 k = st k) ∧
      st2 = (updateLastLoad E (Exec E pipe st1).1 table
        { Version := table.Version, StartTime := starttime, EndTime := endtime,
          Status := LoadSuccess }).1 ∧
      ∃ h1, (Exec E pipe st1).1 (table.formatLastLoadKey E) = some (.hash h1) := by
  obtain ⟨pipe, st1, hp, h1, h2, h3, hu⟩ :=
    BulkLoad_success E st tableName f starttime endtime st2 table L.hload L.htable
  obtain ⟨header2, rows2, schemaMap, hrec, hcols, hlens, hmem⟩ :=
    csvToPipe_spec E f table pipe hp (by
      intro hd hhd
      rw [L.hcsv] at hhd
      simp only [List.head?_cons, Option.mem_def, Option.some.injEq] at hhd
      rw [← hhd]; exact L.hnodup)
  rw [L.hcsv] at hrec
  obtain ⟨e1, e2⟩ := List.cons.inj hrec
  subst e1 e2
  have hne : header ≠ [] := by
    have hm : header ∈ csvRecords f := by rw [L.hcsv]; simp
    unfold csvRecords at hm
    simpa using (List.mem_filter.mp hm).2
  have ctx : LoadCtx E table header rows schemaMap pipe :=
    ⟨hcols, hlens, hmem, L.hnodup, hne, L.hplain⟩
  have hkeys : ∀ cmd ∈ pipe, cmd.key ≠ table.formatLastLoadKey E := by
    intro cmd hcmd hkey
    obtain ⟨s, hs⟩ := loadCmd_key E table header rows schemaMap pipe ctx cmd hcmd
    exact formatLastLoadKey_ne_version E table s (by rw [← hkey, hs])
  obtain ⟨hh, hhash⟩ := updateLastLoad_hash E st st1 table _ hu
  refine ⟨pipe, st1, schemaMap, ctx, ?_, ?_, ?_, h3, hh, by rw [Exec_frame _ _ _ _ hkeys, hhash]⟩
  · intro s
    rw [h1 _ (formatLastLoadKey_ne_version E table s)]
    exact L.hfresh s
  · intro s
    exact h2 _ (formatLastLoadKey_ne_version E table s)
  · intro k hk hv
    rw [h2 k hk, Exec_frame, h1 k hk]
    intro cmd hcmd hkey
    obtain ⟨s, hs⟩ := loadCmd_key E table header rows schemaMap pipe ctx cmd hcmd
    exact hv ⟨s, by rw [← hkey, hs]⟩

/-- After a load the hash of row `i` lies under the record key of seq `i`. -/
theorem Loaded.record {E : Env} {st : Store} {tableName : String} {f : List (List String)}
    {starttime endtime : String} {st2 : Store} {table : Table} {header : List String}
    {rows : List (List String)}
    (L : Loaded E st tableName f starttime endtime st2 table header rows)
    (i : Nat) (row : List String) (hrow : rows.get? i = some row) :
    st2 (table.formatRecordKey E (i : Int)) = some (.hash (header.zip row)) := by
  obtain ⟨pipe, st1, schemaMap, ctx, hfresh, hagree, _, _⟩ := L.ctx
  have := load_record E table header rows schemaMap pipe ctx st1 hfresh i row hrow
  rw [formatRecordKey_eq] at this ⊢
  rw [hagree]; exact this

/-- After a load the all-records set holds the record keys of the rows, each
once, scored by its seq. -/
theorem Loaded.all {E : Env} {st : Store} {tableName : String} {f : List (List String)}
    {starttime endtime : String} {st2 : Store} {table : Table} {header : List String}
    {rows : List (List String)}
    (L : Loaded E st tableName f starttime endtime st2 table header rows) :
    ∃ z, readZSet st2 (table.formatAllRecordKeys E) = .ok z ∧
      (z.map Prod.fst).Nodup ∧
      ∀ m x, (m, x) ∈ z ↔ ∃ i : Nat, i < rows.length ∧
        m = table.formatRecordKey E (i : Int) ∧ x = ((i : Int) : Score) := by
  obtain ⟨pipe, st1, schemaMap, ctx, hfresh, hagree, _, _⟩ := L.ctx
  obtain ⟨z, hz, h2⟩ := load_all E table header rows schemaMap pipe ctx st1 hfresh
  refine ⟨z, ?_, h2⟩
  rw [← hz]
  exact readZSet_agree _ _ _ (hagree "all")

/-- After a load the filter set of a value of a filterable column holds the
record keys of the rows with that value. -/
theorem Loaded.filter {E : Env} {st : Store} {tableName : String} {f : List (List String)}
    {starttime endtime : String} {st2 : Store} {table : Table} {header : List String}
    {rows : List (List String)}
    (L : Loaded E st tableName f starttime endtime st2 table header rows)
    (c : Column) (hc : c ∈ table.Schema.Columns) (hf : c.Filterable = true) (v : String) :
    ∃ s, readSet st2 (table.formatFilterKey E c.Name v) = .ok s ∧
      ∀ k, k ∈ s ↔ ∃ (i : Nat) (row : List String), rows.get? i = some row ∧
        k = table.formatRecordKey E (i : Int) ∧
        assocGet (header.zip row) c.Name = some v := by
  obtain ⟨pipe, st1, schemaMap, ctx, hfresh, hagree, _, _⟩ := L.ctx
  obtain ⟨s, hs, h2⟩ := load_filter E table header rows schemaMap pipe ctx st1 hfresh c hc hf v
  refine ⟨s, ?_, h2⟩
  rw [← hs]
  apply readSet_agree
  rw [formatFilterKey_eq]
  exact hagree _

/-- After a load the sortable set of a sortable column holds the filter keys
of the values of the rows that read as numbers, each once, scored by its
number. -/
theorem Loaded.sortable {E : Env} {st : Store} {tableName : String} {f : List (List String)}
    {starttime endtime : String} {st2 : Store} {table : Table} {header : List String}
    {rows : List (List String)}
    (L : Loaded E st tableName f starttime endtime st2 table header rows)
    (c : Column) (hc : c ∈ table.Schema.Columns) (hs : c.Sortable = true) :
    ∃ z, readZSet st2 (table.formatSortableKey E c.Name) = .ok z ∧
      (z.map Prod.fst).Nodup ∧
      ∀ m x, (m, x) ∈ z ↔ ∃ (i : Nat) (row : List String) (v : String),
        rows.get? i = some row ∧ assocGet (header.zip row) c.Name = some v ∧
        m = table.formatFilterKey E c.Name v ∧ E.parseFloat v = some x := by
  obtain ⟨pipe, st1, schemaMap, ctx, hfresh, hagree, _, _⟩ := L.ctx
  obtain ⟨z, hz, h2⟩ := load_sortable E table header rows schemaMap pipe ctx st1 hfresh c hc hs
  refine ⟨z, ?_, h2⟩
  rw [← hz]
  apply readZSet_agree
  rw [formatSortableKey_eq]
  exact hagree _

theorem isFilterable_column (schema : Schema) (c : String)
    (h : schema.isFilterable c = .ok true) :
    ∃ col ∈ schema.Columns, col.Name = c ∧ col.Filterable = true := by
  unfold Schema.isFilterable at h
  cases hf : schema.Columns.find? (fun col => decide (col.Name = c)) with
  | none => rw [hf] at h; simp at h
  | some col =>
    rw [hf] at h
    simp only [Except.ok.injEq] at h
    exact ⟨col, List.mem_of_find?_eq_some hf, by simpa using List.find?_some hf, h⟩

theorem isSortable_column (schema : Schema) (c : String)
    (h : schema.isSortable c = .ok true) :
    ∃ col ∈ schema.Columns, col.Name = c ∧ col.Sortable = true := by
  unfold Schema.isSortable at h
  cases hf : schema.Columns.find? (fun col => decide (col.Name = c)) with
  | none => rw [hf] at h; simp at h
  | some col =>
    rw [hf] at h
    simp only [Except.ok.injEq] at h
    exact ⟨col, List.mem_of_find?_eq_some hf, by simpa using List.find?_some hf, h⟩

/-- The record keys of the seqs 0..n-1. -/
theorem mem_loaded_keys (E : Env) (table : Table) (n : Nat) (k : String) :
    k ∈ ((List.range n).map Int.ofNat).map (fun s => table.formatRecordKey E s) ↔
      ∃ i : Nat, i < n ∧ k = table.formatRecordKey E (i : Int) := by
  simp only [List.map_map, List.mem_map, List.mem_range, Function.comp]
  constructor
  · rintro ⟨i, hi, rfl⟩; exact ⟨i, hi, rfl⟩
  · rintro ⟨i, hi, rfl⟩; exact ⟨i, hi, rfl⟩

/-- After a load the value of a column in the record of row `i`. -/
theorem Loaded.recordValue {E : Env} {st : Store} {tableName : String} {f : List (List String)}
    {starttime endtime : String} {st2 : Store} {table : Table} {header : List String}
    {rows : List (List String)}
    (L : Loaded E st tableName f starttime endtime st2 table header rows)
    (i : Nat) (row : List String) (hrow : rows.get? i = some row) (c : String) :
    recordValue st2 (table.formatRecordKey E (i : Int)) c = assocGet (header.zip row) c := by
  unfold TabularRedis.recordValue
  rw [L.record i row hrow]

/-- After a load on a fresh version the indexes are consistent, for the
records with the seqs 0..n-1 of the n rows. -/
theorem Loaded.consistent {E : Env} {st : Store} {tableName : String} {f : List (List String)}
    {starttime endtime : String} {st2 : Store} {table : Table} {header : List String}
    {rows : List (List String)}
    (L : Loaded E st tableName f starttime endtime st2 table header rows) :
    IndexesConsistent E st2 table ((List.range rows.length).map Int.ofNat) := by
  refine ⟨?_, ?_, ?_, ?_⟩
  · have h := List.pairwise_lt_range rows.length
    exact (List.pairwise_map.mpr (h.imp (fun hab => by exact Int.ofNat_lt.mpr hab)))
  · obtain ⟨z, hz, hnd, hmem⟩ := L.all
    refine ⟨z, hz, ?_⟩
    apply (List.perm_ext_iff_of_nodup (List.Nodup.of_map _ hnd) ?_).mpr
    · rintro ⟨m, x⟩
      rw [hmem]
      simp only [List.map_map, List.mem_map, List.mem_range, Function.comp, Prod.mk.injEq]
      constructor
      · rintro ⟨i, hi, rfl, rfl⟩; exact ⟨i, hi, rfl, rfl⟩
      · rintro ⟨i, hi, rfl, rfl⟩; exact ⟨i, hi, rfl, rfl⟩
    · rw [List.map_map]
      apply (List.nodup_range _).map
      intro a b hab
      simp only [Function.comp, Prod.mk.injEq] at hab
      have : ((a : Int) : Score) = ((b : Int) : Score) := hab.2
      exact_mod_cast this
  · intro c hc v
    obtain ⟨col, hcol, hn, hf⟩ := isFilterable_column _ _ hc
    obtain ⟨s, hs, hmem⟩ := L.filter col hcol hf v
    rw [hn] at hs hmem
    refine ⟨s, hs, ?_⟩
    intro k
    rw [hmem, mem_loaded_keys]
    constructor
    · rintro ⟨i, row, hrow, rfl, hv⟩
      refine ⟨⟨i, ?_, rfl⟩, ?_⟩
      · exact (List.get?_eq_some.mp hrow).1
      · rw [L.recordValue i row hrow]; exact hv
    · rintro ⟨⟨i, hi, rfl⟩, hv⟩
      have hrow : rows.get? i = some (rows.get ⟨i, hi⟩) := List.get?_eq_get hi
      exact ⟨i, _, hrow, rfl, by rw [← L.recordValue i _ hrow]; exact hv⟩
  · intro c hc
    obtain ⟨col, hcol, hn, hs⟩ := isSortable_column _ _ hc
    obtain ⟨z, hz, _, hmem⟩ := L.sortable col hcol hs
    rw [hn] at hz hmem
    refine ⟨z, hz, ?_⟩
    intro m x
    rw [hmem]
    constructor
    · rintro ⟨i, row, v, hrow, hv, rfl, hx⟩
      refine ⟨v, rfl, hx, _, (mem_loaded_keys E table _ _).mpr
        ⟨i, (List.get?_eq_some.mp hrow).1, rfl⟩, ?_⟩
      rw [L.recordValue i row hrow]; exact hv
    · rintro ⟨v, rfl, hx, k, hk, hv⟩
      obtain ⟨i, hi, rfl⟩ := (mem_loaded_keys E table _ _).mp hk
      have hrow : rows.get? i = some (rows.get ⟨i, hi⟩) := List.get?_eq_get hi
      exact ⟨i, _, v, hrow, by rw [← L.recordValue i _ hrow]; exact hv, rfl, hx⟩

/-! ## The filter contract of the planner -/

theorem validateQuery_filters (schema : Schema) (query : Query)
    (h : schema.validateQuery query = none) : ∀ f ∈ query.Filters, FilterOk schema f := by
  unfold Schema.validateQuery at h
  by_cases hl : query.Limit < -1
  · simp [hl] at h
  · by_cases ho : query.Offset < 0
    · simp [hl, ho] at h
    · simp only [hl, ho, if_false] at h
      exact (validateFilters_none_iff schema query.Filters).mp h

/-- Under consistent indexes a filter whose union is not empty is satisfied by
a live record. -/
theorem satisfied_of_union_nonempty (E : Env) (st : Store) (table : Table) (seqs : List Int)
    (f : Filter) (hcons : IndexesConsistent E st table seqs)
    (hfil : table.Schema.isFilterable f.Col = .ok true)
    (hrange : f.Op ≠ FilterOp.EqualTo →
      table.Schema.isSortable f.Col = .ok true ∧ ∃ v0 b, f.Val = [v0] ∧ PlainNumber E v0 b)
    (hne : ¬ UnionEmpty E st table f) :
    ∃ k ∈ seqs.map (fun s => table.formatRecordKey E s), satisfies E st k f = true := by
  obtain ⟨fks, ss, hsrc, hss, _, hmem⟩ := sourceKeys_union E st table seqs f hcons hfil hrange
  by_contra hno
  apply hne
  refine ⟨fks, hsrc, ?_⟩
  intro key hkey
  have hall : List.Forall₂ (fun key s => readSet st key = .ok s) fks ss := by
    obtain ⟨ss2, hss2, hall2⟩ := readSets_forall₂ st fks (by
      intro key2 hkey2
      by_contra hx
      have : ∀ (ks : List String) (ss : List (List String)), readSets st ks = .ok ss →
          ∀ k ∈ ks, ∃ s, readSet st k = .ok s := by
        intro ks
        induction ks with
        | nil => intro _ _ k hk; cases hk
        | cons a as ih =>
          intro ss0 h0 k hk
          simp only [readSets] at h0
          cases ha : readSet st a with
          | error e => rw [ha] at h0; simp at h0
          | ok s =>
            rw [ha] at h0
            cases has : readSets st as with
            | error e => rw [has] at h0; simp at h0
            | ok ss1 =>
              rcases List.mem_cons.mp hk with h1 | h1
              · subst h1; exact ⟨s, ha⟩
              · exact ih ss1 has k h1
      exact hx (this fks ss hss key2 hkey2))
    rw [hss] at hss2
    rw [Except.ok.inj hss2]
    exact hall2
  obtain ⟨s, hs, hr⟩ := forall₂_mem_left hall key hkey
  rw [hr]
  cases s with
  | nil => rfl
  | cons x xs =>
    exfalso
    apply hno
    have hx : x ∈ unionAll ss := (mem_unionAll ss x).mpr ⟨_, hs, List.mem_cons_self _ _⟩
    obtain ⟨h1, h2⟩ := (hmem x).mp hx
    exact ⟨x, h1, h2⟩

/-- The planner on a query whose filters write different union-store keys:
for a table whose stored indexes are consistent and a valid query with a
non-empty filter list, limit 0 and offset 0, whose filter columns are
filterable, whose range bounds are plain numbers, whose per-filter unions are
all non-empty and whose union-store keys are apart from each other and from
the index keys the filters read, getRecordKeys returns exactly the record keys
that satisfy every filter, in ascending seq order. -/
theorem getRecordKeys_filtered (E : Env) (st : Store) (table : Table) (seqs : List Int)
    (query : Query) (t : String)
    (hcons : IndexesConsistent E st table seqs)
    (hvalid : table.Schema.validateQuery query = none)
    (hne : query.Filters ≠ [])
    (hlim : query.Limit = 0) (hoff : query.Offset = 0)
    (hfil : ∀ f ∈ query.Filters, table.Schema.isFilterable f.Col = .ok true)
    (hnum : ∀ f ∈ query.Filters, f.Op ≠ FilterOp.EqualTo →
      ∀ v0 ∈ f.Val.head?, ∃ b, PlainNumber E v0 b)
    (hnonempty : ∀ f ∈ query.Filters, ¬ UnionEmpty E st table f)
    (hfresh : UnionKeysFresh E st table query.Filters t) :
    ∃ st1 total, getRecordKeys E st table query t =
      (st1, .ok (expectedKeys E st table query.Filters seqs,
        { Count := (expectedKeys E st table query.Filters seqs).length, Offset := 0,
          Limit := 0, Total := total })) := by
  have hrange : ∀ f ∈ query.Filters, f.Op ≠ FilterOp.EqualTo →
      table.Schema.isSortable f.Col = .ok true ∧ ∃ v0 b, f.Val = [v0] ∧ PlainNumber E v0 b := by
    intro f hf hop
    obtain ⟨col, hcol, hok⟩ := validateQuery_filters _ _ hvalid f hf
    obtain ⟨hs, hl⟩ := hok hop
    refine ⟨by simp [Schema.isSortable, hcol, hs], ?_⟩
    obtain ⟨v0, hv0⟩ := List.length_eq_one.mp hl
    obtain ⟨b, hb⟩ := hnum f hf hop v0 (by rw [hv0]; rfl)
    exact ⟨v0, b, hv0, hb⟩
  have hsat : ∀ f ∈ query.Filters, ∃ k ∈ seqs.map (fun s => table.formatRecordKey E s),
      satisfies E st k f = true := fun f hf =>
    satisfied_of_union_nonempty E st table seqs f hcons (hfil f hf) (hrange f hf)
      (hnonempty f hf)
  obtain ⟨st3, finalKey, z, hrun, hz, hmem⟩ :=
    getFilteredRecordKeys_final E st table seqs t query.Filters hne hcons hfil hrange hsat hfresh
  have hlen : query.Filters.length > 0 := List.length_pos.mpr hne
  refine ⟨st3, z.length, ?_⟩
  unfold getRecordKeys
  simp only [hlen, if_true, hrun]
  rw [getPagedRecordKeys_eq st3 finalKey z query.Limit query.Offset hz (by omega) (by omega)]
  simp only [hlim, hoff, expectedPage, le_refl, if_true, Int.toNat_zero, List.drop_zero, hmem]

/-! ## The loaded demo table -/

theorem formatUnionStoreKey_ne_filterKey (E : Env) (table : Table) (col : String)
    (vals : List String) (t c v : String) (hc : c.data.head? ≠ some 'u') :
    table.formatUnionStoreKey E col vals t ≠ table.formatFilterKey E c v := by
  obtain ⟨rest, hr⟩ := formatUnionStoreKey_shape E table col vals t
  rw [hr, formatFilterKey_eq]
  intro h
  have h2 := (key_eq_iff _ _ _).mp h
  have e : (":unionstore:" : String) = ":" ++ "unionstore:" := by decide
  rw [e, String.append_assoc] at h2
  have h3 := congrArg String.data ((key_eq_iff _ _ _).mp h2)
  simp only [String.data_append] at h3
  cases hd : c.data with
  | nil =>
    rw [hd] at h3
    have := (List.cons.inj h3).1
    revert this
    decide
  | cons ch cs =>
    rw [hd] at h3 hc
    have := (List.cons.inj h3).1
    apply hc
    simp [← this]

theorem formatUnionStoreKey_ne_sortableKey (E : Env) (table : Table) (col : String)
    (vals : List String) (t c : String) (hc : ':' ∉ c.data) :
    table.formatUnionStoreKey E col vals t ≠ table.formatSortableKey E c := by
  obtain ⟨rest, hr⟩ := formatUnionStoreKey_shape E table col vals t
  rw [hr, formatSortableKey_eq]
  intro h
  have h2 := (key_eq_iff _ _ _).mp h
  have e : (":unionstore:" : String) = ":" ++ "unionstore:" := by decide
  rw [e, String.append_assoc] at h2
  have h3 := (key_eq_iff _ _ _).mp h2
  apply hc
  rw [← h3]
  simp [String.data_append]

theorem demo_loaded : Loaded demoEnv schemaStore "t" demoCsv "t0" "t1" loadedStore demoTable
    ["name", "n"] [["a", "5"], ["b", "7"], ["a", "10"]] where
  hload := Prod.ext rfl (by decide)
  htable := by decide
  hfresh := by
    intro s
    have h := formatSchemaKey_ne_version demoEnv demoTable s
    unfold schemaStore
    rw [if_neg (fun e => h (e.trans (by decide)).symm)]
  hplain := by
    refine ⟨by decide, ?_, by decide⟩
    intro c hc
    simp only [demoTable, demoSchema, List.mem_cons, List.mem_singleton, List.not_mem_nil,
      or_false] at hc
    rcases hc with rfl | rfl
    · exact ⟨by decide, by decide, 'n', by decide, by decide⟩
    · exact ⟨by decide, by decide, 'n', by decide, by decide⟩
  hcsv := by decide
  hnodup := by decide

/-- The planner on the loaded demo table and the query `n gte 5`, `n lte 7`,
`name eq a or b`: two filters on the same column, with different values. -/
theorem getRecordKeys_filtered_witness :
    ∃ st1 total, getRecordKeys demoEnv loadedStore demoTable
      (mkQuery [⟨"n", FilterOp.GreaterThanOrEqual, ["5"]⟩, ⟨"n", FilterOp.LessThanOrEqual, ["7"]⟩,
        ⟨"name", FilterOp.EqualTo, ["a", "b"]⟩] 0 0) "T" =
      (st1, .ok (expectedKeys demoEnv loadedStore demoTable
        [⟨"n", FilterOp.GreaterThanOrEqual, ["5"]⟩, ⟨"n", FilterOp.LessThanOrEqual, ["7"]⟩,
          ⟨"name", FilterOp.EqualTo, ["a", "b"]⟩] [0, 1, 2],
        { Count := (expectedKeys demoEnv loadedStore demoTable
            [⟨"n", FilterOp.GreaterThanOrEqual, ["5"]⟩, ⟨"n", FilterOp.LessThanOrEqual, ["7"]⟩,
              ⟨"name", FilterOp.EqualTo, ["a", "b"]⟩] [0, 1, 2]).length,
          Offset := 0, Limit := 0, Total := total })) :=
  getRecordKeys_filtered demoEnv loadedStore demoTable [0, 1, 2]
    (mkQuery [⟨"n", FilterOp.GreaterThanOrEqual, ["5"]⟩, ⟨"n", FilterOp.LessThanOrEqual, ["7"]⟩,
      ⟨"name", FilterOp.EqualTo, ["a", "b"]⟩] 0 0) "T"
    demo_loaded.consistent (by decide) (by decide) rfl rfl (by decide)
    (by
      intro f hf hop v0 hv0
      simp only [mkQuery, List.mem_cons, List.mem_singleton, List.not_mem_nil, or_false] at hf
      rcases hf with rfl | rfl | rfl
      · simp only [List.head?_cons, Option.mem_def, Option.some.injEq] at hv0
        subst hv0
        exact ⟨5, by decide, by decide, by decide⟩
      · simp only [List.head?_cons, Option.mem_def, Option.some.injEq] at hv0
        subst hv0
        exact ⟨7, by decide, by decide, by decide⟩
      · exact absurd rfl hop)
    (by
      intro f hf
      simp only [mkQuery, List.mem_cons, List.mem_singleton, List.not_mem_nil, or_false] at hf
      rcases hf with rfl | rfl | rfl
      · rintro ⟨fks, hsrc, hall⟩
        have h2 : sourceKeys demoEnv loadedStore demoTable
            ⟨"n", FilterOp.GreaterThanOrEqual, ["5"]⟩
            = .ok ["rdb:t:0:n:5", "rdb:t:0:n:7", "rdb:t:0:n:10"] := by decide
        rw [h2] at hsrc
        rw [← Except.ok.inj hsrc] at hall
        revert hall
        decide
      · rintro ⟨fks, hsrc, hall⟩
        have h2 : sourceKeys demoEnv loadedStore demoTable
            ⟨"n", FilterOp.LessThanOrEqual, ["7"]⟩
            = .ok ["rdb:t:0:n:5", "rdb:t:0:n:7"] := by decide
        rw [h2] at hsrc
        rw [← Except.ok.inj hsrc] at hall
        revert hall
        decide
      · rintro ⟨fks, hsrc, hall⟩
        have h2 : sourceKeys demoEnv loadedStore demoTable
            ⟨"name", FilterOp.EqualTo, ["a", "b"]⟩
            = .ok ["rdb:t:0:name:a", "rdb:t:0:name:b"] := by decide
        rw [h2] at hsrc
        rw [← Except.ok.inj hsrc] at hall
        revert hall
        decide)
    ⟨by decide, by
      intro f hf g hg
      simp only [mkQuery, List.mem_cons, List.mem_singleton, List.not_mem_nil, or_false]
        at hf hg
      have hcol : ':' ∉ g.Col.data := by
        rcases hg with rfl | rfl | rfl <;> decide
      refine ⟨fun _ => formatUnionStoreKey_ne_sortableKey _ _ _ _ _ _ hcol, ?_⟩
      intro fks hsrc
      rcases hg with rfl | rfl | rfl
      · have h2 : sourceKeys demoEnv loadedStore demoTable
            ⟨"n", FilterOp.GreaterThanOrEqual, ["5"]⟩
            = .ok ["rdb:t:0:n:5", "rdb:t:0:n:7", "rdb:t:0:n:10"] := by decide
        rw [h2] at hsrc
        rw [← Except.ok.inj hsrc]
        rcases hf with rfl | rfl | rfl <;> decide
      · have h2 : sourceKeys demoEnv loadedStore demoTable
            ⟨"n", FilterOp.LessThanOrEqual, ["7"]⟩
            = .ok ["rdb:t:0:n:5", "rdb:t:0:n:7"] := by decide
        rw [h2] at hsrc
        rw [← Except.ok.inj hsrc]
        rcases hf with rfl | rfl | rfl <;> decide
      · have h2 : sourceKeys demoEnv loadedStore demoTable
            ⟨"name", FilterOp.EqualTo, ["a", "b"]⟩
            = .ok ["rdb:t:0:name:a", "rdb:t:0:name:b"] := by decide
        rw [h2] at hsrc
        rw [← Except.ok.inj hsrc]
        rcases hf with rfl | rfl | rfl <;> decide⟩

/-- C1 (the code at the failing input): on the loaded demo table, whose
indexes are consistent, the valid query `n gte 7`, `n lte 7` has two non-empty
unions and exactly the record of seq 1 satisfies both filters, yet
getRecordKeys returns the records of seq 0 and seq 1, those of `n lte 7`
alone: both filters write the same union-store key. -/
theorem getRecordKeys_same_column_overwrite :
    IndexesConsistent demoEnv loadedStore demoTable [0, 1, 2] ∧
    demoTable.Schema.validateQuery
      (mkQuery [⟨"n", FilterOp.GreaterThanOrEqual, ["7"]⟩, ⟨"n", FilterOp.LessThanOrEqual, ["7"]⟩]
        0 0) = none ∧
    sourceKeys demoEnv loadedStore demoTable ⟨"n", FilterOp.GreaterThanOrEqual, ["7"]⟩
      = .ok ["rdb:t:0:n:7", "rdb:t:0:n:10"] ∧
    sourceKeys demoEnv loadedStore demoTable ⟨"n", FilterOp.LessThanOrEqual, ["7"]⟩
      = .ok ["rdb:t:0:n:5", "rdb:t:0:n:7"] ∧
    readSet loadedStore "rdb:t:0:n:7" = .ok ["rdb:t:0:1"] ∧
    expectedKeys demoEnv loadedStore demoTable
      [⟨"n", FilterOp.GreaterThanOrEqual, ["7"]⟩, ⟨"n", FilterOp.LessThanOrEqual, ["7"]⟩]
      [0, 1, 2] = ["rdb:t:0:1"] ∧
    (getRecordKeys demoEnv loadedStore demoTable
      (mkQuery [⟨"n", FilterOp.GreaterThanOrEqual, ["7"]⟩, ⟨"n", FilterOp.LessThanOrEqual, ["7"]⟩]
        0 0) "T").2 =
      .ok (["rdb:t:0:0", "rdb:t:0:1"], { Count := 2, Offset := 0, Limit := 0, Total := 2 }) :=
  ⟨demo_loaded.consistent, by decide, by decide, by decide, by decide, by decide,
    by decide!⟩

/-! ## The table after a load -/

theorem wrapInt64_range (x : Int) : - (2 : Int) ^ 63 ≤ wrapInt64 x ∧ wrapInt64 x < (2 : Int) ^ 63 := by
  unfold wrapInt64
  have h1 := Int.emod_nonneg (x + 2 ^ 63) (show ((2 : Int) ^ 64) ≠ 0 by norm_num)
  have h2 := Int.emod_lt_of_pos (x + 2 ^ 63) (show (0 : Int) < 2 ^ 64 by norm_num)
  constructor <;> omega

theorem formatLastLoadKey_name (E : Env) (t1 t2 : Table) (h : t1.Name = t2.Name) :
    t1.formatLastLoadKey E = t2.formatLastLoadKey E := by
  unfold Table.formatLastLoadKey
  rw [h]

/-- The table a load writes: the stored schema under the name asked for, at a
version within the 64-bit range. -/
theorem loadTable_ok (E : Env) (st : Store) (name : String) (table : Table)
    (h : loadTable E st name = .ok table) :
    table.Name = name ∧ GetSchema E st name = .ok table.Schema ∧
      - (2 : Int) ^ 63 ≤ table.Version ∧ table.Version < (2 : Int) ^ 63 := by
  unfold loadTable at h
  rcases hg : getTable E st name with ⟨table0, e0⟩
  rw [hg] at h
  cases e0 with
  | some e => simp at h
  | none =>
    simp only [] at h
    have h0 : table0.Name = name ∧ GetSchema E st name = .ok table0.Schema := by
      unfold getTable at hg
      cases hs : GetSchema E st name with
      | error e => rw [hs] at hg; simp at hg
      | ok schema =>
        rw [hs] at hg
        simp only [] at hg
        split at hg <;>
          (simp only [Prod.mk.injEq] at hg; obtain ⟨hg1, _⟩ := hg; rw [← hg1]; exact ⟨rfl, rfl⟩)
    cases hv : getNextTableVersion E st table0 with
    | error e => rw [hv] at h; simp at h
    | ok version =>
      rw [hv] at h
      simp only [Except.ok.injEq] at h
      rw [← h]
      refine ⟨h0.1, h0.2, ?_⟩
      show - (2 : Int) ^ 63 ≤ version ∧ version < (2 : Int) ^ 63
      unfold getNextTableVersion at hv
      split at hv
      · simp only [Except.ok.injEq] at hv
        rw [← hv]; norm_num
      · simp at hv
      · split at hv
        · simp at hv
        · simp only [Except.ok.injEq] at hv
          rw [← hv]
          exact wrapInt64_range _

/-- The four fields `updateLastLoad` sets can be read back from the hash. -/
theorem lastLoad_fields (h0 : List (String × String)) (a b c d : String) :
    let h := [("version", a), ("status", b), ("starttime", c), ("endtime", d)].foldl
      (fun h fv => assocSet h fv.1 fv.2) h0
    h ≠ [] ∧ fieldOf h "version" = a ∧ fieldOf h "status" = b ∧
      fieldOf h "starttime" = c ∧ fieldOf h "endtime" = d := by
  simp only [List.foldl_cons, List.foldl_nil, fieldOf]
  refine ⟨?_, ?_, ?_, ?_, ?_⟩
  · intro hnil
    have := assocGet_assocSet_same
      (assocSet (assocSet (assocSet h0 "version" a) "status" b) "starttime" c) "endtime" d
    rw [hnil] at this
    simp [assocGet] at this
  · rw [assocGet_assocSet_other _ _ _ _ (by decide), assocGet_assocSet_other _ _ _ _ (by decide),
      assocGet_assocSet_other _ _ _ _ (by decide), assocGet_assocSet_same]
    rfl
  · rw [assocGet_assocSet_other _ _ _ _ (by decide), assocGet_assocSet_other _ _ _ _ (by decide),
      assocGet_assocSet_same]
    rfl
  · rw [assocGet_assocSet_other _ _ _ _ (by decide), assocGet_assocSet_same]
    rfl
  · rw [assocGet_assocSet_same]
    rfl

/-- On a store with a hash under the last-load key, `updateLastLoad` leaves
the hash with its four fields set. -/
theorem updateLastLoad_on_hash (E : Env) (st : Store) (table : Table) (load : Load)
    (h0 : List (String × String)) (h : st (table.formatLastLoadKey E) = some (.hash h0)) :
    (updateLastLoad E st table load).1 (table.formatLastLoadKey E) =
      some (.hash ([("version", itoa load.Version), ("status", itoa load.Status),
        ("starttime", load.StartTime), ("endtime", load.EndTime)].foldl
          (fun h fv => assocSet h fv.1 fv.2) h0)) := by
  unfold updateLastLoad
  simp only [Cmd.run, Cmd.key, Cmd.onValue, List.cons_ne_nil, reduceCtorEq, if_false, h]
  simp [Store.put]

theorem GetSchema_agree (E : Env) (st st2 : Store) (name : String)
    (h : st2 (formatSchemaKey E name) = st (formatSchemaKey E name)) :
    GetSchema E st2 name = GetSchema E st name := by
  unfold GetSchema getSchemaByKey Get
  rw [h]

/-- After a load `getTable` finds the table the load wrote, at its version. -/
theorem Loaded.getTable {E : Env} {st : Store} {tableName : String} {f : List (List String)}
    {starttime endtime : String} {st2 : Store} {table : Table} {header : List String}
    {rows : List (List String)}
    (L : Loaded E st tableName f starttime endtime st2 table header rows) :
    TabularRedis.getTable E st2 tableName = (table, none) := by
  obtain ⟨pipe, st1, schemaMap, ctx, hfresh, hagree, hother, hst2, h1, hhash⟩ := L.ctx
  obtain ⟨hname, hschema, hv1, hv2⟩ := loadTable_ok E st tableName table L.htable
  have hsk : st2 (formatSchemaKey E tableName) = st (formatSchemaKey E tableName) := by
    rw [← hname]
    apply hother
    · exact fun e => formatSchemaKey_ne_lastLoad E table e.symm
    · rintro ⟨s, hs⟩
      exact formatSchemaKey_ne_version E table s hs
  have hlast := updateLastLoad_on_hash E (Exec E pipe st1).1 table
    { Version := table.Version, StartTime := starttime, EndTime := endtime,
      Status := LoadSuccess } h1 hhash
  rw [← hst2] at hlast
  obtain ⟨hne, hfv, hfs, hst, hen⟩ := lastLoad_fields h1 (itoa table.Version) (itoa LoadSuccess)
    starttime endtime
  have hkey : Table.formatLastLoadKey E { Schema := table.Schema, Version := 0, Name := tableName }
      = table.formatLastLoadKey E := formatLastLoadKey_name E _ _ hname.symm
  unfold TabularRedis.getTable
  rw [GetSchema_agree E st st2 tableName hsk, hschema]
  simp only []
  have hload : GetLastLoad E st2 { Schema := table.Schema, Version := 0, Name := tableName }
      = .ok { Version := table.Version, Status := LoadSuccess, StartTime := starttime,
              EndTime := endtime } := by
    unfold GetLastLoad HGetAll
    rw [hkey, hlast]
    simp only []
    rw [if_neg (fun e => hne (List.length_eq_zero.mp e))]
    rw [hfv, hfs, atoi_itoa _ hv1 hv2, atoi_itoa LoadSuccess (by decide) (by decide)]
    simp only []
    rw [hst, hen]
  rw [hload]
  simp only [Prod.mk.injEq, and_true]
  cases table
  simp only [Table.mk.injEq, true_and] at hname ⊢
  exact hname.symm

/-- Under consistent indexes the all-records set lists the record keys in seq
order. -/
theorem zmembers_of_consistent (E : Env) (st : Store) (table : Table) (seqs : List Int)
    (hcons : IndexesConsistent E st table seqs) :
    ∃ z, readZSet st (table.formatAllRecordKeys E) = .ok z ∧
      zmembers z = seqs.map (fun s => table.formatRecordKey E s) ∧ z.length = seqs.length := by
  obtain ⟨z, hz, hperm⟩ := hcons.all
  refine ⟨z, hz, ?_, by rw [hperm.length_eq, List.length_map]⟩
  unfold zmembers
  rw [zsorted_eq_of_sorted_perm z _ hperm
    (sorted_of_score_lt _ (seqs_entries_pairwise E table seqs hcons.sorted)), List.map_map]
  rfl

/-! ## Reading a loaded table back -/

/-- The record of a row whose header lists the schema's columns passes the
conformance check of `getRecord`. -/
theorem getRecord_loaded (st2 : Store) (schema : Schema) (key : String)
    (header row : List String) (hnd : header.Nodup) (hne : header ≠ [])
    (hlen : row.length = header.length)
    (hperm : header.Perm (schema.Columns.map (fun c => c.Name)))
    (hrec : st2 key = some (.hash (header.zip row))) :
    getRecord st2 key schema = .ok (header.zip row) := by
  unfold getRecord HGetAll
  rw [hrec]
  simp only []
  have hzl : (header.zip row).length = header.length := by
    rw [List.length_zip, hlen, Nat.min_self]
  have hcl : schema.Columns.length = header.length := by
    have := hperm.length_eq
    rw [List.length_map] at this
    exact this.symm
  rw [if_neg (by rw [hzl]; exact fun e => hne (List.length_eq_zero.mp e)),
    if_neg (by rw [hzl, hcl]; exact fun e => e rfl)]
  have hfind : schema.Columns.find? (fun c => (assocGet (header.zip row) c.Name).isNone) = none := by
    rw [List.find?_eq_none]
    intro c hc
    have hmem : c.Name ∈ header := hperm.mem_iff.mpr (List.mem_map.mpr ⟨c, hc, rfl⟩)
    obtain ⟨p, hp, hget⟩ := List.getElem_of_mem hmem
    have hp2 : p < row.length := by omega
    have : assocGet (header.zip row) c.Name = some (row.get ⟨p, hp2⟩) :=
      (assocGet_zip_iff header row hnd hlen _ _).mpr
        ⟨p, by rw [List.get?_eq_get hp]; simpa using hget, List.get?_eq_get hp2⟩
    rw [this]
    simp
  rw [hfind]

theorem map_range_getD {α β : Type} (rows : List α) (d : α) (g : α → β) :
    (List.range rows.length).map (fun i => g (rows.getD i d)) = rows.map g := by
  apply List.ext_getElem
  · simp
  · intro i h1 h2
    simp only [List.getElem_map, List.getElem_range]
    have hi : i < rows.length := by simpa using h2
    rw [List.getD_eq_getElem _ _ hi]

/-! ## Index invariants after a load -/

theorem readSet_cases (st : Store) (k : String) (s0 : List String)
    (h : readSet st k = .ok s0) : (st k = none ∧ s0 = []) ∨ st k = some (.set s0) := by
  unfold readSet at h
  cases hv : st k with
  | none => rw [hv] at h; left; exact ⟨rfl, (Except.ok.inj h).symm⟩
  | some v =>
    rw [hv] at h
    cases v with
    | set s => right; rw [Except.ok.inj h]
    | str _ => simp [wrongType] at h
    | hash _ => simp [wrongType] at h
    | zset _ => simp [wrongType] at h

theorem run_sadd_readSet (E : Env) (st : Store) (k m0 : String) (s0 : List String)
    (h0 : readSet st k = .ok s0) :
    ∃ s1, readSet ((Cmd.SAdd k m0).run E st).1 k = .ok s1 ∧ ∀ m, m ∈ s1 ↔ (m ∈ s0 ∨ m = m0) := by
  unfold readSet
  rw [run_at]
  simp only [Cmd.key, if_true, Cmd.applyTo]
  rcases readSet_cases st k s0 h0 with ⟨h1, h2⟩ | h1
  · rw [h1, h2]
    exact ⟨[m0], rfl, by simp⟩
  · rw [h1]
    simp only [Cmd.onValue]
    refine ⟨_, rfl, ?_⟩
    intro m
    by_cases hm : m0 ∈ s0
    · simp only [hm, if_true]
      constructor
      · exact fun h => Or.inl h
      · rintro (h | h)
        · exact h
        · rw [h]; exact hm
    · simp [hm]

theorem run_srem_readSet (E : Env) (st : Store) (k m0 : String) (s0 : List String)
    (h0 : readSet st k = .ok s0) :
    ∃ s1, readSet ((Cmd.SRem k m0).run E st).1 k = .ok s1 ∧ ∀ m, m ∈ s1 ↔ (m ∈ s0 ∧ m ≠ m0) := by
  unfold readSet
  rw [run_at]
  simp only [Cmd.key, if_true, Cmd.applyTo]
  rcases readSet_cases st k s0 h0 with ⟨h1, h2⟩ | h1
  · rw [h1, h2]
    exact ⟨[], rfl, by simp⟩
  · rw [h1]
    simp only [Cmd.onValue, setVal]
    by_cases he : s0.filter (fun x => decide (x ≠ m0)) = []
    · rw [if_pos he]
      refine ⟨[], rfl, ?_⟩
      intro m
      have : m ∉ s0.filter (fun x => decide (x ≠ m0)) := by rw [he]; simp
      simpa [List.mem_filter] using this
    · rw [if_neg he]
      exact ⟨_, rfl, fun m => by simp [List.mem_filter]⟩

/-- A key on which the pipeline runs only `SADD` and `SREM`: it holds a set
afterwards, and for each member the last command on it decides. -/
theorem Exec_setops (E : Env) (k : String) (cs : List Cmd) (st : Store) (s0 : List String)
    (h0 : readSet st k = .ok s0)
    (h : ∀ c ∈ cs, c.key = k → ∃ m, c = Cmd.SAdd k m ∨ c = Cmd.SRem k m) :
    ∃ s, readSet (Exec E cs st).1 k = .ok s ∧
      ∀ m, m ∈ s ↔ memAfter k m cs (decide (m ∈ s0)) = true := by
  induction cs generalizing st s0 with
  | nil => exact ⟨s0, h0, by simp [memAfter]⟩
  | cons c cs ih =>
    have hrest : ∀ c2 ∈ cs, c2.key = k → ∃ m, c2 = Cmd.SAdd k m ∨ c2 = Cmd.SRem k m :=
      fun c2 hc2 => h c2 (List.mem_cons_of_mem _ hc2)
    by_cases hk : c.key = k
    · obtain ⟨m0, hm0 | hm0⟩ := h c (List.mem_cons_self _ _) hk
      · subst hm0
        obtain ⟨s1, hs1, hmem1⟩ := run_sadd_readSet E st k m0 s0 h0
        obtain ⟨s, hs, hmem⟩ := ih _ s1 hs1 hrest
        refine ⟨s, hs, ?_⟩
        intro m
        rw [hmem, memAfter]
        by_cases hm : m0 = m
        · subst hm
          simp [hmem1]
        · have e : decide (m ∈ s1) = decide (m ∈ s0) := by
            rw [decide_eq_decide, hmem1]
            simp [Ne.symm hm]
          simp [hm, e]
      · subst hm0
        obtain ⟨s1, hs1, hmem1⟩ := run_srem_readSet E st k m0 s0 h0
        obtain ⟨s, hs, hmem⟩ := ih _ s1 hs1 hrest
        refine ⟨s, hs, ?_⟩
        intro m
        rw [hmem, memAfter]
        by_cases hm : m0 = m
        · subst hm
          simp [hmem1]
        · have e : decide (m ∈ s1) = decide (m ∈ s0) := by
            rw [decide_eq_decide, hmem1]
            simp [Ne.symm hm]
          simp [hm, e]
    · have hst : readSet (c.run E st).1 k = .ok s0 := by
        rw [← h0]
        apply readSet_agree
        rw [run_at, if_neg hk]
      obtain ⟨s, hs, hmem⟩ := ih _ s0 hst hrest
      refine ⟨s, hs, ?_⟩
      intro m
      rw [hmem, memAfter]
      have h1 : c ≠ Cmd.SAdd k m := fun e => hk (by rw [e]; rfl)
      have h2 : c ≠ Cmd.SRem k m := fun e => hk (by rw [e]; rfl)
      simp [h1, h2]

theorem memAfter_append (k m : String) (a b : List Cmd) (init : Bool) :
    memAfter k m (a ++ b) init = memAfter k m b (memAfter k m a init) := by
  induction a generalizing init with
  | nil => rfl
  | cons c cs ih =>
    show memAfter k m (cs ++ b) _ = memAfter k m b (memAfter k m cs _)
    exact ih _

theorem memAfter_skip (k m : String) (cs : List Cmd) (b : Bool)
    (h : ∀ c ∈ cs, c ≠ Cmd.SAdd k m ∧ c ≠ Cmd.SRem k m) : memAfter k m cs b = b := by
  induction cs generalizing b with
  | nil => rfl
  | cons c cs ih =>
    obtain ⟨h1, h2⟩ := h c (List.mem_cons_self _ _)
    simp only [memAfter, h1, h2, if_false]
    exact ih b (fun c2 hc2 => h c2 (List.mem_cons_of_mem _ hc2))

/-- Without any `SADD k m` in the pipeline, `m` ends outside the set if it was
outside before or the pipeline holds an `SREM k m`. -/
theorem memAfter_false (k m : String) (cs : List Cmd) (b : Bool)
    (hno : Cmd.SAdd k m ∉ cs) (h : b = false ∨ Cmd.SRem k m ∈ cs) :
    memAfter k m cs b = false := by
  induction cs generalizing b with
  | nil =>
    rcases h with h | h
    · exact h
    · cases h
  | cons c cs ih =>
    have h1 : c ≠ Cmd.SAdd k m := fun e => hno (by rw [e]; exact List.mem_cons_self _ _)
    have hno2 : Cmd.SAdd k m ∉ cs := fun e => hno (List.mem_cons_of_mem _ e)
    simp only [memAfter, h1, if_false]
    by_cases h2 : c = Cmd.SRem k m
    · simp only [h2, if_true]
      exact ih false hno2 (Or.inl rfl)
    · simp only [h2, if_false]
      apply ih b hno2
      rcases h with h | h
      · exact Or.inl h
      · rcases List.mem_cons.mp h with h3 | h3
        · exact absurd h3.symm h2
        · exact Or.inr h3

/-! ## What the planner leaves alone -/

theorem formatRecordKey_ne_of_colon (E : Env) (table : Table) (a : Nat) (s : String)
    (hs : ':' ∈ s.data) :
    table.formatRecordKey E (a : Int) ≠ table.formatKeyPrefix E ++ (":" ++ s) := by
  intro h
  rw [formatRecordKey_eq, itoa_nat] at h
  have h3 : Nat.repr a = s := (key_eq_iff ":" _ _).mp ((key_eq_iff _ _ _).mp h)
  have hd := (repr_spec a).2.1 ':' (by rw [h3]; exact hs)
  revert hd
  decide

theorem formatUnionStoreKey_ne_record (E : Env) (table : Table) (col : String)
    (vals : List String) (t : String) (a : Nat) :
    table.formatUnionStoreKey E col vals t ≠ table.formatRecordKey E (a : Int) := by
  obtain ⟨rest, hr⟩ := formatUnionStoreKey_shape E table col vals t
  rw [hr]
  have e : (":unionstore:" : String) = ":" ++ "unionstore:" := by decide
  rw [e, String.append_assoc]
  exact fun h => formatRecordKey_ne_of_colon E table a _ (by simp [String.data_append]) h.symm

theorem formatInterStoreKey_ne_record (E : Env) (table : Table) (uks : List String)
    (t : String) (a : Nat) :
    table.formatInterStoreKey E uks t ≠ table.formatRecordKey E (a : Int) ∧
    table.formatInterStoreKey E uks t ++ "_final" ≠ table.formatRecordKey E (a : Int) := by
  obtain ⟨rest, hr⟩ := formatInterStoreKey_shape E table uks t
  rw [hr]
  have e : (":interstore:" : String) = ":" ++ "interstore:" := by decide
  rw [e]
  simp only [String.append_assoc]
  constructor
  · exact fun h => formatRecordKey_ne_of_colon E table a _ (by simp [String.data_append]) h.symm
  · exact fun h => formatRecordKey_ne_of_colon E table a _ (by simp [String.data_append]) h.symm

/-- The planner writes its union-store keys, its intersect-store key and its
final key, and nothing else. -/
theorem getFilteredRecordKeys_frame (E : Env) (st : Store) (table : Table)
    (filters : List Filter) (t : String) (k : String)
    (hu : ∀ g ∈ filters, table.formatUnionStoreKey E g.Col g.Val t ≠ k)
    (hi : ∀ uks, table.formatInterStoreKey E uks t ≠ k ∧
      table.formatInterStoreKey E uks t ++ "_final" ≠ k) :
    (getFilteredRecordKeys E st table filters t).1 k = st k := by
  unfold getFilteredRecordKeys
  have hloop := unionLoop_frame E table t filters st [] k hu
  rcases hl : unionLoop E table t filters st [] with ⟨st1, uks, e⟩
  rw [hl] at hloop
  simp only [] at hloop
  cases e with
  | some e => exact hloop
  | none =>
    simp only []
    have h2 : (match SInterStore st1 (table.formatInterStoreKey E uks t) uks with
        | .ok (s, _) => s
        | .error _ => st1) k = st k := by
      unfold SInterStore
      split_ifs
      · exact hloop
      · cases readSets st1 uks with
        | error e => exact hloop
        | ok ss =>
          simp only [Store.put]
          rw [if_neg (fun e => (hi uks).1 e.symm)]
          exact hloop
    generalize (match SInterStore st1 (table.formatInterStoreKey E uks t) uks with
        | .ok (s, _) => s
        | .error _ => st1) = st2 at h2 ⊢
    unfold ZInterStore
    cases readZOrSet st2 (table.formatAllRecordKeys E) with
    | error e => exact h2
    | ok z1 =>
      simp only []
      cases readZOrSet st2 (table.formatInterStoreKey E uks t) with
      | error e => exact h2
      | ok z2 =>
        simp only [Store.put]
        rw [if_neg (fun e => (hi uks).2 e.symm)]
        exact h2

theorem getRecord_agree (st st2 : Store) (key : String) (schema : Schema)
    (h : st2 key = st key) : getRecord st2 key schema = getRecord st key schema := by
  unfold getRecord HGetAll
  rw [h]

/-- A record `getRecord` accepts is the stored hash, and it has a value for
every column of the schema and as many fields as the schema has columns. -/
theorem getRecord_ok (st : Store) (key : String) (schema : Schema)
    (r : List (String × String)) (h : getRecord st key schema = .ok r) :
    st key = some (.hash r) ∧ schema.Columns.length = r.length ∧
      ∀ col ∈ schema.Columns, ∃ v, assocGet r col.Name = some v := by
  unfold getRecord HGetAll at h
  cases hv : st key with
  | none => rw [hv] at h; simp at h
  | some v =>
    rw [hv] at h
    cases v with
    | str _ => simp at h
    | set _ => simp at h
    | zset _ => simp at h
    | hash r0 =>
      simp only [] at h
      split_ifs at h with h1 h2
      cases hfind : schema.Columns.find? (fun c => (assocGet r0 c.Name).isNone) with
      | some c => rw [hfind] at h; simp at h
      | none =>
        rw [hfind] at h
        simp only [Except.ok.injEq] at h
        subst h
        refine ⟨rfl, by simpa using h2, ?_⟩
        intro col hcol
        have := List.find?_eq_none.mp hfind col hcol
        cases hg : assocGet r0 col.Name with
        | none => rw [hg] at this; simp at this
        | some v => exact ⟨v, rfl⟩

/-! ## The commands of a bulk update -/

theorem UpdateCtx.hc {E : Env} {st : Store} {table : Table} {is : List Nat} {c : Column}
    (U : UpdateCtx E st table is c) : c ∈ table.Schema.Columns :=
  List.mem_of_find?_eq_some U.hfirst

theorem UpdateCtx.isFilterable {E : Env} {st : Store} {table : Table} {is : List Nat}
    {c : Column} (U : UpdateCtx E st table is c) :
    table.Schema.isFilterable c.Name = .ok true := by
  unfold Schema.isFilterable
  rw [U.hfirst]
  exact congrArg Except.ok U.hf

theorem UpdateCtx.isSortable {E : Env} {st : Store} {table : Table} {is : List Nat}
    {c : Column} (U : UpdateCtx E st table is c) :
    table.Schema.isSortable c.Name = .ok c.Sortable := by
  unfold Schema.isSortable
  rw [U.hfirst]

/-- The sortable key of a column is shorter than its filter keys. -/
theorem formatSortableKey_ne_own_filter (E : Env) (table : Table) (col v : String) :
    table.formatSortableKey E col ≠ table.formatFilterKey E col v := by
  intro h
  have h2 := congrArg String.length h
  simp only [Table.formatSortableKey, Table.formatFilterKey, String.length_append] at h2
  have h3 : (":" : String).length = 1 := rfl
  omega

/-- The union-store key of the one value `x` of a column is longer than the
filter key of that value. -/
theorem formatUnionStoreKey_ne_own_filter (E : Env) (table : Table) (col x t : String) :
    table.formatUnionStoreKey E col [x] t ≠ table.formatFilterKey E col x := by
  intro h
  have h2 := congrArg String.length h
  simp only [Table.formatUnionStoreKey, Table.formatFilterKey, List.foldl_cons, List.foldl_nil,
    String.length_append] at h2
  have h3 : (":" : String).length = 1 := rfl
  have h4 : (":unionstore:" : String).length = 12 := rfl
  have h5 : ("_" : String).length = 1 := rfl
  omega

/-- Where the column is sortable its sortable key holds a sorted set or
nothing, so it is not the key of a record, which holds a hash. -/
theorem UpdateCtx.sortable_ne_record {E : Env} {st : Store} {table : Table} {is : List Nat}
    {c : Column} (U : UpdateCtx E st table is c) (hs : c.Sortable = true) (i : Nat)
    (hi : i ∈ is) :
    table.formatSortableKey E c.Name ≠ table.formatRecordKey E ((i : Nat) : Int) := by
  intro h
  obtain ⟨zc, hzc, _⟩ := U.hcons.sortable c.Name (by rw [U.isSortable, hs])
  obtain ⟨r, hr⟩ := U.hconf i hi
  obtain ⟨hst, _, _⟩ := getRecord_ok _ _ _ r hr
  unfold readZSet at hzc
  rw [h, hst] at hzc
  cases hzc

/-- Where the column is sortable its sortable key holds the filter keys of the
values present, so it is not the all-records key, which holds the record
keys. -/
theorem UpdateCtx.sortable_ne_all {E : Env} {st : Store} {table : Table} {is : List Nat}
    {c : Column} (U : UpdateCtx E st table is c) (hs : c.Sortable = true) :
    table.formatSortableKey E c.Name ≠ table.formatAllRecordKeys E := by
  intro h
  obtain ⟨zc, hzc, hmem⟩ := U.hcons.sortable c.Name (by rw [U.isSortable, hs])
  obtain ⟨allz, hallz, hperm⟩ := U.hcons.all
  rw [h, hallz] at hzc
  have hz : allz = zc := Except.ok.inj hzc
  obtain ⟨i0, hi0⟩ := List.exists_mem_of_ne_nil is U.hne
  have hin : (table.formatRecordKey E ((i0 : Nat) : Int), (((i0 : Nat) : Int) : Score)) ∈ allz :=
    hperm.symm.subset (List.mem_map.mpr ⟨((i0 : Nat) : Int),
      List.mem_map.mpr ⟨i0, hi0, rfl⟩, rfl⟩)
  rw [hz] at hin
  obtain ⟨v, hv, _⟩ := (hmem _ _).mp hin
  exact formatRecordKey_ne_filter E table i0 c.Name v hv

theorem mem_keys (E : Env) (table : Table) (is : List Nat) (k : String) :
    k ∈ (is.map Int.ofNat).map (fun s => table.formatRecordKey E s) ↔
      ∃ i ∈ is, k = table.formatRecordKey E ((i : Nat) : Int) := by
  simp only [List.map_map, List.mem_map, Function.comp]
  constructor
  · rintro ⟨i, hi, rfl⟩; exact ⟨i, hi, rfl⟩
  · rintro ⟨i, hi, rfl⟩; exact ⟨i, hi, rfl⟩

/-- The commands queued for one record: `SREM` from the filter set of the old
value, `SADD` to that of the new one, commands on the sortable set, and the
`HSET` of the new value. -/
theorem UpdateCtx.block {E : Env} {st : Store} {table : Table} {is : List Nat} {c : Column}
    (U : UpdateCtx E st table is c) (x : String) (i : Nat) (hi : i ∈ is) :
    ∃ r old zs, st (table.formatRecordKey E (i : Int)) = some (.hash r) ∧
      getRecord st (table.formatRecordKey E (i : Int)) table.Schema = .ok r ∧
      assocGet r c.Name = some old ∧
      (∀ z ∈ zs, c.Sortable = true ∧
        ∃ s m, z = Cmd.ZAdd (table.formatSortableKey E c.Name) s m) ∧
      (updateFilterableRecordToPipe E st table c.Name x (table.formatRecordKey E (i : Int))).1 =
        Cmd.SRem (table.formatFilterKey E c.Name old) (table.formatRecordKey E (i : Int)) ::
          Cmd.SAdd (table.formatFilterKey E c.Name x) (table.formatRecordKey E (i : Int)) ::
            zs := by
  obtain ⟨r, hr⟩ := U.hconf i hi
  obtain ⟨hst, _, hall⟩ := getRecord_ok _ _ _ r hr
  obtain ⟨old, hold⟩ := hall c U.hc
  have hfo : fieldOf r c.Name = old := by simp [fieldOf, hold]
  unfold updateFilterableRecordToPipe
  rw [hr, U.isSortable]
  simp only [hfo]
  cases hs : c.Sortable with
  | false => exact ⟨r, old, [], hst, rfl, hold, by simp, rfl⟩
  | true =>
    simp only [addSortableValToPipe]
    cases hp : E.parseFloat x with
    | none => exact ⟨r, old, [], hst, rfl, hold, by simp, rfl⟩
    | some sc =>
      refine ⟨r, old, [Cmd.ZAdd (table.formatSortableKey E c.Name) sc
        (table.formatFilterKey E c.Name x)], hst, rfl, hold, ?_, rfl⟩
      intro z hz
      simp only [List.mem_singleton] at hz
      exact ⟨trivial, _, _, hz⟩

theorem mem_updatePipe (E : Env) (st : Store) (table : Table) (c : Column) (x : String)
    (is : List Nat) (cmd : Cmd) :
    cmd ∈ updatePipe E st table c x is ↔ ∃ i ∈ is,
      cmd ∈ (updateFilterableRecordToPipe E st table c.Name x
          (table.formatRecordKey E ((i : Nat) : Int))).1 ++
        [Cmd.HSet (table.formatRecordKey E ((i : Nat) : Int)) [(c.Name, x)]] := by
  unfold updatePipe updateKeyCmds
  simp only [List.mem_flatMap, List.mem_map, if_true]
  constructor
  · rintro ⟨key, ⟨i, hi, rfl⟩, h⟩; exact ⟨i, hi, h⟩
  · rintro ⟨i, hi, h⟩; exact ⟨_, ⟨i, hi, rfl⟩, h⟩

/-- Every command of the update is of one of four kinds. -/
theorem UpdateCtx.cases {E : Env} {st : Store} {table : Table} {is : List Nat} {c : Column}
    (U : UpdateCtx E st table is c) (x : String) (cmd : Cmd)
    (h : cmd ∈ updatePipe E st table c x is) :
    (∃ i ∈ is, ∃ old, recordValue st (table.formatRecordKey E ((i : Nat) : Int)) c.Name = some old ∧
        cmd = Cmd.SRem (table.formatFilterKey E c.Name old)
          (table.formatRecordKey E ((i : Nat) : Int))) ∨
    (∃ i ∈ is, cmd = Cmd.SAdd (table.formatFilterKey E c.Name x)
        (table.formatRecordKey E ((i : Nat) : Int))) ∨
    (c.Sortable = true ∧ ∃ s m, cmd = Cmd.ZAdd (table.formatSortableKey E c.Name) s m) ∨
    (∃ i ∈ is, cmd = Cmd.HSet (table.formatRecordKey E ((i : Nat) : Int)) [(c.Name, x)]) := by
  obtain ⟨i, hi, hmem⟩ := (mem_updatePipe E st table c x is cmd).mp h
  obtain ⟨r, old, zs, hst, _, hold, hzs, hblock⟩ := U.block x i hi
  rw [hblock] at hmem
  simp only [List.cons_append, List.mem_cons, List.mem_append, List.mem_singleton,
    List.not_mem_nil, or_false] at hmem
  rcases hmem with h1 | h1 | h1 | h1
  · left
    exact ⟨i, hi, old, by simp [recordValue, hst, hold], h1⟩
  · right; left
    exact ⟨i, hi, h1⟩
  · right; right; left
    exact hzs cmd h1
  · right; right; right
    exact ⟨i, hi, h1⟩

/-- Effect of the update on the membership of `m` in the filter set of the
new value: every record key of the update ends as a member. -/
theorem UpdateCtx.memAfter_new {E : Env} {st : Store} {table : Table} {is : List Nat}
    {c : Column} (U : UpdateCtx E st table is c) (x m : String) (js : List Nat)
    (hjs : ∀ j ∈ js, j ∈ is) (b : Bool) :
    memAfter (table.formatFilterKey E c.Name x) m (updatePipe E st table c x js) b =
      (b || decide (∃ j ∈ js, m = table.formatRecordKey E ((j : Nat) : Int))) := by
  induction js generalizing b with
  | nil => simp [updatePipe, updateKeyCmds, memAfter]
  | cons j js ih =>
    have hj : j ∈ is := hjs j (List.mem_cons_self _ _)
    obtain ⟨r, old, zs, _, _, _, hzs, hblock⟩ := U.block x j hj
    have hsplit : updatePipe E st table c x (j :: js) =
        (Cmd.SRem (table.formatFilterKey E c.Name old) (table.formatRecordKey E (j : Int)) ::
          Cmd.SAdd (table.formatFilterKey E c.Name x) (table.formatRecordKey E (j : Int)) ::
            (zs ++ [Cmd.HSet (table.formatRecordKey E (j : Int)) [(c.Name, x)]])) ++
          updatePipe E st table c x js := by
      unfold updatePipe updateKeyCmds
      simp only [List.map_cons, List.flatMap_cons, if_true, hblock, List.cons_append]
    rw [hsplit, memAfter_append, ih (fun j2 h2 => hjs j2 (List.mem_cons_of_mem _ h2))]
    have hskip : ∀ b2, memAfter (table.formatFilterKey E c.Name x) m
        (zs ++ [Cmd.HSet (table.formatRecordKey E (j : Int)) [(c.Name, x)]]) b2 = b2 := by
      intro b2
      apply memAfter_skip
      intro c2 hc2
      rcases List.mem_append.mp hc2 with h | h
      · obtain ⟨_, s, m2, rfl⟩ := hzs c2 h
        exact ⟨by simp, by simp⟩
      · simp only [List.mem_singleton] at h
        subst h
        exact ⟨by simp, by simp⟩
    simp only [memAfter, hskip]
    by_cases hm : m = table.formatRecordKey E (j : Int)
    · subst hm
      simp
    · have h1 : ¬ table.formatRecordKey E (j : Int) = m := fun e => hm e.symm
      simp [h1, hm]

/-! ## The store after a bulk update -/

theorem hset_one_apply (k c x : String) (r : List (String × String)) :
    (Cmd.HSet k [(c, x)]).applyTo (some (.hash r)) = some (.hash (assocSet r c x)) := by
  simp [Cmd.applyTo, Cmd.onValue]

/-- A key holding a hash on which the pipeline runs one and the same `HSET`
of a single field, at least once, and nothing else: the field is set. -/
theorem Exec_hset_one (E : Env) (k c x : String) (r : List (String × String)) (cs : List Cmd)
    (st : Store)
    (h0 : (st k = some (.hash r) ∧ Cmd.HSet k [(c, x)] ∈ cs) ∨
      st k = some (.hash (assocSet r c x)))
    (h : ∀ cmd ∈ cs, cmd.key = k → cmd = Cmd.HSet k [(c, x)]) :
    (Exec E cs st).1 k = some (.hash (assocSet r c x)) := by
  induction cs generalizing st with
  | nil =>
    rcases h0 with ⟨_, h1⟩ | h1
    · cases h1
    · exact h1
  | cons cmd cs ih =>
    have hrest : ∀ c2 ∈ cs, c2.key = k → c2 = Cmd.HSet k [(c, x)] :=
      fun c2 hc2 => h c2 (List.mem_cons_of_mem _ hc2)
    rw [Exec_cons_at]
    apply ih _ _ hrest
    by_cases hk : cmd.key = k
    · have hc := h cmd (List.mem_cons_self _ _) hk
      subst hc
      right
      rw [run_at]
      simp only [Cmd.key, if_true]
      rcases h0 with ⟨h1, _⟩ | h1
      · rw [h1, hset_one_apply]
      · rw [h1, hset_one_apply, assocSet_of_get _ _ _ (assocGet_assocSet_same r c x)]
    · rw [run_at, if_neg hk]
      rcases h0 with ⟨h1, h2⟩ | h1
      · left
        refine ⟨h1, ?_⟩
        rcases List.mem_cons.mp h2 with h3 | h3
        · exact absurd (by rw [← h3]; rfl) hk
        · exact h3
      · right; exact h1

/-- After the update the filter set of the new value holds the record keys of
the table, all of them and nothing else. -/
theorem UpdateCtx.filter_new {E : Env} {st : Store} {table : Table} {is : List Nat}
    {c : Column} (U : UpdateCtx E st table is c) (x : String) :
    ∃ s, readSet (Exec E (updatePipe E st table c x is) st).1
        (table.formatFilterKey E c.Name x) = .ok s ∧
      ∀ m, m ∈ s ↔ ∃ i ∈ is, m = table.formatRecordKey E ((i : Nat) : Int) := by
  obtain ⟨s0, hs0, hmem0⟩ := U.hcons.filter c.Name U.isFilterable x
  obtain ⟨s, hs, hmem⟩ := Exec_setops E (table.formatFilterKey E c.Name x)
    (updatePipe E st table c x is) st s0 hs0 (by
      intro cmd hcmd hk
      rcases U.cases x cmd hcmd with ⟨i, _, old, _, rfl⟩ | ⟨i, _, rfl⟩ | ⟨_, sc, m, rfl⟩ |
        ⟨i, _, rfl⟩
      · simp only [Cmd.key] at hk
        exact ⟨_, Or.inr (by rw [hk])⟩
      · exact ⟨_, Or.inl rfl⟩
      · exact absurd hk (formatSortableKey_ne_own_filter E table c.Name x)
      · exact absurd hk (formatRecordKey_ne_filter E table i c.Name x))
  refine ⟨s, hs, ?_⟩
  intro m
  rw [hmem, U.memAfter_new x m is (fun j hj => hj)]
  simp only [Bool.or_eq_true, decide_eq_true_eq]
  constructor
  · rintro (h | h)
    · exact (mem_keys E table is m).mp ((hmem0 m).mp h).1
    · exact h
  · exact fun h => Or.inr h

/-- After the update the filter set of every other value is empty. -/
theorem UpdateCtx.filter_old {E : Env} {st : Store} {table : Table} {is : List Nat}
    {c : Column} (U : UpdateCtx E st table is c) (x y : String) (hy : y ≠ x) :
    readSet (Exec E (updatePipe E st table c x is) st).1
      (table.formatFilterKey E c.Name y) = .ok [] := by
  obtain ⟨s0, hs0, hmem0⟩ := U.hcons.filter c.Name U.isFilterable y
  obtain ⟨s, hs, hmem⟩ := Exec_setops E (table.formatFilterKey E c.Name y)
    (updatePipe E st table c x is) st s0 hs0 (by
      intro cmd hcmd hk
      rcases U.cases x cmd hcmd with ⟨i, _, old, _, rfl⟩ | ⟨i, _, rfl⟩ | ⟨_, sc, m, rfl⟩ |
        ⟨i, _, rfl⟩
      · simp only [Cmd.key] at hk
        exact ⟨_, Or.inr (by rw [hk])⟩
      · simp only [Cmd.key] at hk
        exact ⟨_, Or.inl (by rw [hk])⟩
      · exact absurd hk (formatSortableKey_ne_own_filter E table c.Name y)
      · exact absurd hk (formatRecordKey_ne_filter E table i c.Name y))
  rw [hs]
  congr 1
  apply List.eq_nil_iff_forall_not_mem.mpr
  intro m hm
  have hfalse : memAfter (table.formatFilterKey E c.Name y) m (updatePipe E st table c x is)
      (decide (m ∈ s0)) = false := by
    apply memAfter_false
    · intro hin
      rcases U.cases x _ hin with ⟨i, _, old, _, h⟩ | ⟨i, _, h⟩ | ⟨_, sc, m2, h⟩ | ⟨i, _, h⟩
      · cases h
      · simp only [Cmd.SAdd.injEq] at h
        exact hy (formatFilterKey_val_inj E table c.Name y x h.1)
      · cases h
      · cases h
    · by_cases hm0 : m ∈ s0
      · right
        obtain ⟨hk, hv⟩ := (hmem0 m).mp hm0
        obtain ⟨i, hi, rfl⟩ := (mem_keys E table is m).mp hk
        apply (mem_updatePipe E st table c x is _).mpr
        refine ⟨i, hi, ?_⟩
        obtain ⟨r, old, zs, hst, _, hold, _, hblock⟩ := U.block x i hi
        have : old = y := by
          simp only [recordValue, hst, hold, Option.some.injEq] at hv
          exact hv
        rw [hblock, this]
        simp
      · left
        simp [hm0]
  rw [(hmem m).mp hm] at hfalse
  cases hfalse

/-- After the update every record holds the new value, in the hash it had. -/
theorem UpdateCtx.record_after {E : Env} {st : Store} {table : Table} {is : List Nat}
    {c : Column} (U : UpdateCtx E st table is c) (x : String) (i : Nat) (hi : i ∈ is) :
    ∃ r, getRecord st (table.formatRecordKey E (i : Int)) table.Schema = .ok r ∧
      (Exec E (updatePipe E st table c x is) st).1 (table.formatRecordKey E (i : Int)) =
        some (.hash (assocSet r c.Name x)) := by
  obtain ⟨r, old, zs, hst, hr, _, _, _⟩ := U.block x i hi
  refine ⟨r, hr, ?_⟩
  apply Exec_hset_one
  · left
    refine ⟨hst, (mem_updatePipe E st table c x is _).mpr ⟨i, hi, by simp⟩⟩
  · intro cmd hcmd hk
    rcases U.cases x cmd hcmd with ⟨j, _, old2, _, rfl⟩ | ⟨j, _, rfl⟩ | ⟨hs, sc, m, rfl⟩ |
      ⟨j, _, rfl⟩
    · exact absurd hk.symm (formatRecordKey_ne_filter E table i c.Name old2)
    · exact absurd hk.symm (formatRecordKey_ne_filter E table i c.Name x)
    · exact absurd hk (U.sortable_ne_record hs i hi)
    · simp only [Cmd.key] at hk
      rw [hk]

/-- The commands of the update write keys of the version only, and not the
all-records key. -/
theorem UpdateCtx.frame {E : Env} {st : Store} {table : Table} {is : List Nat}
    {c : Column} (U : UpdateCtx E st table is c) (x : String) (k : String)
    (hk : k = table.formatAllRecordKeys E ∨
      ¬ ∃ s, k = table.formatKeyPrefix E ++ (":" ++ s)) :
    (Exec E (updatePipe E st table c x is) st).1 k = st k := by
  apply Exec_frame
  intro cmd hcmd hkey
  rcases U.cases x cmd hcmd with ⟨j, _, old2, _, rfl⟩ | ⟨j, _, rfl⟩ | ⟨hs, sc, m, rfl⟩ |
    ⟨j, _, rfl⟩
  · simp only [Cmd.key] at hkey
    rcases hk with hk | hk
    · exact formatFilterKey_ne_all E table c.Name old2 (hkey.trans hk)
    · exact hk ⟨_, by rw [← hkey, formatFilterKey_eq]⟩
  · simp only [Cmd.key] at hkey
    rcases hk with hk | hk
    · exact formatFilterKey_ne_all E table c.Name x (hkey.trans hk)
    · exact hk ⟨_, by rw [← hkey, formatFilterKey_eq]⟩
  · simp only [Cmd.key] at hkey
    rcases hk with hk | hk
    · exact U.sortable_ne_all hs (hkey.trans hk)
    · exact hk ⟨_, by rw [← hkey, formatSortableKey_eq]⟩
  · simp only [Cmd.key] at hkey
    rcases hk with hk | hk
    · exact formatRecordKey_ne_all E table j (hkey.trans hk)
    · exact hk ⟨_, by rw [← hkey, formatRecordKey_eq]⟩

/-! ## UpdateData over the whole table -/

theorem getTable_name (E : Env) (st : Store) (name : String) :
    (getTable E st name).1.Name = name := by
  unfold getTable
  cases GetSchema E st name with
  | error e => rfl
  | ok schema =>
    simp only []
    split <;> rfl

theorem getTable_agree (E : Env) (st st2 : Store) (name : String)
    (h1 : st2 (formatSchemaKey E name) = st (formatSchemaKey E name))
    (h2 : st2 (E.Prefix ++ ":" ++ name ++ ":lastload") = st (E.Prefix ++ ":" ++ name ++ ":lastload")) :
    getTable E st2 name = getTable E st name := by
  unfold getTable
  rw [GetSchema_agree E st st2 name h1]
  cases GetSchema E st name with
  | error e => rfl
  | ok schema =>
    have : GetLastLoad E st2 { Schema := schema, Version := 0, Name := name } =
        GetLastLoad E st { Schema := schema, Version := 0, Name := name } := by
      unfold GetLastLoad HGetAll Table.formatLastLoadKey
      rw [h2]
    simp only [this]

/-- A store that agrees with `st` outside the keys of the version of the table
`getTable` finds holds the same table. -/
theorem getTable_of_frame (E : Env) (st st2 : Store) (name : String) (table : Table)
    (hget : getTable E st name = (table, none))
    (h : ∀ k, (¬ ∃ s, k = table.formatKeyPrefix E ++ (":" ++ s)) → st2 k = st k) :
    getTable E st2 name = (table, none) := by
  have hname : table.Name = name := by
    have := getTable_name E st name
    rw [hget] at this
    exact this
  rw [← hget]
  apply getTable_agree
  · apply h
    rintro ⟨s, hs⟩
    rw [← hname] at hs
    exact formatSchemaKey_ne_version E table s hs
  · apply h
    rintro ⟨s, hs⟩
    rw [← hname] at hs
    exact formatLastLoadKey_ne_version E table s hs

/-- The unfiltered, unpaged key list of a table with consistent indexes. -/
theorem getRecordKeys_all (E : Env) (st : Store) (table : Table) (is : List Nat)
    (updates : List (String × String)) (t : String)
    (hcons : IndexesConsistent E st table (is.map Int.ofNat)) :
    getRecordKeys E st table
        { Filters := [], SearchTerm := "", Limit := 0, Offset := 0, Updates := updates } t =
      (st, .ok (is.map (fun i => table.formatRecordKey E ((i : Nat) : Int)),
        { Count := is.length, Offset := 0, Limit := 0, Total := is.length })) := by
  obtain ⟨z, hz, hzm, hzl⟩ := zmembers_of_consistent E st table _ hcons
  unfold getRecordKeys
  simp only [List.length_nil, gt_iff_lt, lt_self_iff_false, if_false]
  rw [getPagedRecordKeys_eq st _ z 0 0 hz (le_refl _) (by omega)]
  simp only [expectedPage, le_refl, if_true, Int.toNat_zero, List.drop_zero, hzm, hzl,
    List.length_map, List.map_map]
  rfl

/-- UpdateData with an empty filter list and the one update of column `c`
runs the commands of `updatePipe` and returns no error. -/
theorem UpdateCtx.updateData {E : Env} {st : Store} {table : Table} {is : List Nat}
    {c : Column} (U : UpdateCtx E st table is c) (tableName x t : String)
    (hget : getTable E st tableName = (table, none)) :
    UpdateData E st tableName
        { Filters := [], SearchTerm := "", Limit := 0, Offset := 0, Updates := [(c.Name, x)] } t =
      ((Exec E (updatePipe E st table c x is) st).1, none) := by
  unfold UpdateData
  simp only [List.length_singleton, one_ne_zero, if_false, hget]
  have hv : table.Schema.validateQuery
      { Filters := [], SearchTerm := "", Limit := 0, Offset := 0, Updates := [(c.Name, x)] }
      = none := by
    simp [Schema.validateQuery, Schema.validateFilters]
  rw [hv]
  simp only [getRecordKeys_all E st table is _ t U.hcons]
  unfold updateRecords updateRecordsLoop
  rw [U.isFilterable]
  simp only [updateRecordsLoop, List.append_nil]
  rfl

/-! ## The planner does not look at the schema -/

theorem addFilterUnionKey_onlyColumn (E : Env) (st : Store) (table : Table) (c : Column)
    (uks : List String) (t : String) (f : Filter) :
    addFilterUnionKey E st (table.onlyColumn c) uks t f = addFilterUnionKey E st table uks t f :=
  rfl

theorem unionLoop_onlyColumn (E : Env) (table : Table) (c : Column) (t : String)
    (fs : List Filter) (st : Store) (uks : List String) :
    unionLoop E (table.onlyColumn c) t fs st uks = unionLoop E table t fs st uks := by
  induction fs generalizing st uks with
  | nil => rfl
  | cons f fs ih =>
    simp only [unionLoop, addFilterUnionKey_onlyColumn]
    rcases addFilterUnionKey E st table uks t f with ⟨st1, uks1, e⟩
    cases e with
    | some e => rfl
    | none => exact ih st1 uks1

theorem getFilteredRecordKeys_onlyColumn (E : Env) (st : Store) (table : Table) (c : Column)
    (filters : List Filter) (t : String) :
    getFilteredRecordKeys E st (table.onlyColumn c) filters t =
      getFilteredRecordKeys E st table filters t := by
  unfold getFilteredRecordKeys
  rw [unionLoop_onlyColumn]
  rfl

theorem forall₂_of_forall_exists {α β : Type} (P : α → β → Prop) (l : List α)
    (h : ∀ a ∈ l, ∃ b, P a b) : ∃ l2, List.Forall₂ P l l2 := by
  induction l with
  | nil => exact ⟨[], List.Forall₂.nil⟩
  | cons a as ih =>
    obtain ⟨b, hb⟩ := h a (List.mem_cons_self _ _)
    obtain ⟨bs, hbs⟩ := ih (fun a2 h2 => h a2 (List.mem_cons_of_mem _ h2))
    exact ⟨b :: bs, List.Forall₂.cons hb hbs⟩

theorem workerPool_of_forall₂ (st : Store) (schema : Schema) (keys : List String)
    (records : List (List (String × String)))
    (h : List.Forall₂ (fun k r => getRecord st k schema = .ok r) keys records) :
    getRecordsWorkerPool st schema keys = .ok records := by
  induction h with
  | nil => rfl
  | cons h1 _ ih => simp only [getRecordsWorkerPool, h1, ih]

theorem assocSet_length {β : Type} (l : List (String × β)) (k : String) (v v0 : β)
    (h : assocGet l k = some v0) : (assocSet l k v).length = l.length := by
  induction l with
  | nil => simp [assocGet] at h
  | cons e es ih =>
    rcases e with ⟨k2, v2⟩
    by_cases hk : k2 = k
    · simp [assocSet, hk]
    · simp only [assocGet, hk, if_false] at h
      simp [assocSet, hk, ih h]

/-- A record that passed the conformance check passes it again after one of
the schema's columns is set. -/
theorem getRecord_assocSet (st st2 : Store) (key : String) (schema : Schema) (c : Column)
    (x : String) (r : List (String × String)) (hc : c ∈ schema.Columns)
    (hr : getRecord st key schema = .ok r)
    (h2 : st2 key = some (.hash (assocSet r c.Name x))) :
    getRecord st2 key schema = .ok (assocSet r c.Name x) := by
  obtain ⟨_, hlen, hall⟩ := getRecord_ok st key schema r hr
  obtain ⟨old, hold⟩ := hall c hc
  have hl := assocSet_length r c.Name x old hold
  have hne : r ≠ [] := by
    intro e
    rw [e] at hold
    simp [assocGet] at hold
  unfold getRecord HGetAll
  rw [h2]
  simp only []
  rw [if_neg (by rw [hl]; exact fun e => hne (List.length_eq_zero.mp e)),
    if_neg (by rw [hl]; exact fun e => e hlen)]
  have hfind : schema.Columns.find?
      (fun col => (assocGet (assocSet r c.Name x) col.Name).isNone) = none := by
    rw [List.find?_eq_none]
    intro col hcol
    by_cases hk : col.Name = c.Name
    · rw [hk, assocGet_assocSet_same]
      simp
    · rw [assocGet_assocSet_other _ _ _ _ hk]
      obtain ⟨v, hv⟩ := hall col hcol
      rw [hv]
      simp
  rw [hfind]

/-! ## Reading the table after a bulk update -/

/-- After the update the value of the column in every record. -/
theorem UpdateCtx.recordValue_after {E : Env} {st : Store} {table : Table} {is : List Nat}
    {c : Column} (U : UpdateCtx E st table is c) (x : String) (i : Nat) (hi : i ∈ is) :
    recordValue (Exec E (updatePipe E st table c x is) st).1
      (table.formatRecordKey E (i : Int)) c.Name = some x := by
  obtain ⟨r, _, hst⟩ := U.record_after x i hi
  simp only [recordValue, hst, assocGet_assocSet_same]

/-- After the update the all-records set and the filter sets of the updated
column are consistent with the records. -/
theorem UpdateCtx.consistent_after {E : Env} {st : Store} {table : Table} {is : List Nat}
    {c : Column} (U : UpdateCtx E st table is c) (x : String) :
    IndexesConsistent E (Exec E (updatePipe E st table c x is) st).1 (table.onlyColumn c)
      (is.map Int.ofNat) := by
  refine ⟨U.hcons.sorted, ?_, ?_, ?_⟩
  · obtain ⟨z, hz, hp⟩ := U.hcons.all
    refine ⟨z, ?_, hp⟩
    rw [← hz]
    exact readZSet_agree _ _ _ (U.frame x _ (Or.inl rfl))
  · intro c2 hc2 v
    have hc2n : c2 = c.Name := by
      unfold Schema.isFilterable Table.onlyColumn at hc2
      simp only [List.find?_cons, List.find?_nil] at hc2
      by_cases h : c.Name = c2
      · exact h.symm
      · simp [h] at hc2
    subst hc2n
    by_cases hv : v = x
    · subst hv
      obtain ⟨s, hs, hmem⟩ := U.filter_new v
      refine ⟨s, hs, ?_⟩
      intro k
      rw [hmem]
      constructor
      · rintro ⟨i, hi, rfl⟩
        exact ⟨(mem_keys E table is _).mpr ⟨i, hi, rfl⟩, U.recordValue_after v i hi⟩
      · rintro ⟨hk, _⟩
        exact (mem_keys E table is _).mp hk
    · refine ⟨[], U.filter_old x v hv, ?_⟩
      intro k
      simp only [List.not_mem_nil, false_iff, not_and]
      intro hk
      obtain ⟨i, hi, rfl⟩ := (mem_keys E table is _).mp hk
      have := U.recordValue_after x i hi
      intro h2
      have h3 : recordValue (Exec E (updatePipe E st table c x is) st).1
          (table.formatRecordKey E (i : Int)) c.Name = some v := h2
      rw [this] at h3
      exact hv (Option.some.inj h3).symm
  · intro c2 hc2
    exfalso
    unfold Schema.isSortable Table.onlyColumn at hc2
    simp only [List.find?_cons, List.find?_nil] at hc2
    by_cases h : c.Name = c2
    · simp [h] at hc2
    · simp [h] at hc2

/-- After the update GetData with the single filter `c eq x` returns the
records of all record keys, in seq order. -/
theorem UpdateCtx.getData {E : Env} {st : Store} {table : Table} {is : List Nat}
    {c : Column} (U : UpdateCtx E st table is c) (tableName x t : String)
    (hget : getTable E st tableName = (table, none)) :
    ∃ st3 records,
      GetData E (Exec E (updatePipe E st table c x is) st).1 tableName
        (mkQuery [⟨c.Name, FilterOp.EqualTo, [x]⟩] 0 0) t =
        (st3, .ok { Records := records,
                    Metadata := { Count := is.length, Offset := 0, Limit := 0,
                                  Total := is.length } }) ∧
      List.Forall₂ (fun i r =>
        HGetAll (Exec E (updatePipe E st table c x is) st).1
          (table.formatRecordKey E ((i : Nat) : Int)) = .ok r) is records := by
  have hcons := U.consistent_after x
  have hfilt : (table.onlyColumn c).Schema.isFilterable c.Name = .ok true := by
    simp [Schema.isFilterable, Table.onlyColumn, U.hf]
  obtain ⟨i0, hi0⟩ := List.exists_mem_of_ne_nil is U.hne
  have hsat : ∀ i ∈ is, satisfies E (Exec E (updatePipe E st table c x is) st).1
      (table.formatRecordKey E ((i : Nat) : Int)) ⟨c.Name, FilterOp.EqualTo, [x]⟩ = true := by
    intro i hi
    have hv : recordValue (Exec E (updatePipe E st table c x is) st).1
        (Table.formatRecordKey E table (i : Int)) c.Name = some x := U.recordValue_after x i hi
    simp [satisfies, hv]
  obtain ⟨st3, finalKey, z, hrun, hz, hzm⟩ := getFilteredRecordKeys_final E
    (Exec E (updatePipe E st table c x is) st).1 (table.onlyColumn c) (is.map Int.ofNat) t
    [⟨c.Name, FilterOp.EqualTo, [x]⟩] (by simp) hcons
    (by intro f hf; simp only [List.mem_singleton] at hf; subst hf; exact hfilt)
    (by intro f hf hop; simp only [List.mem_singleton] at hf; subst hf; exact absurd rfl hop)
    (by
      intro f hf
      simp only [List.mem_singleton] at hf
      subst hf
      exact ⟨_, (mem_keys E table is _).mpr ⟨i0, hi0, rfl⟩, hsat i0 hi0⟩)
    ⟨by
      intro f hf g hg _
      simp only [List.mem_singleton] at hf hg
      rw [hf, hg], by
      intro f hf g hg
      simp only [List.mem_singleton] at hf hg
      subst hf hg
      refine ⟨fun hop => absurd rfl hop, ?_⟩
      intro fks hsrc hin
      have hfks : fks = [table.formatFilterKey E c.Name x] := by
        unfold sourceKeys at hsrc
        simp only [if_true, List.map_cons, List.map_nil, Except.ok.injEq] at hsrc
        exact hsrc.symm
      rw [hfks, List.mem_singleton] at hin
      exact formatUnionStoreKey_ne_own_filter E table c.Name x t hin⟩
  rw [getFilteredRecordKeys_onlyColumn] at hrun
  have hkeys : expectedKeys E (Exec E (updatePipe E st table c x is) st).1 (table.onlyColumn c)
      [⟨c.Name, FilterOp.EqualTo, [x]⟩] (is.map Int.ofNat) =
      is.map (fun i => table.formatRecordKey E ((i : Nat) : Int)) := by
    unfold expectedKeys
    rw [List.map_map]
    show List.filter _ (is.map (fun i => table.formatRecordKey E ((i : Nat) : Int))) = _
    apply List.filter_eq_self.mpr
    intro k hk
    obtain ⟨i, hi, rfl⟩ := List.mem_map.mp hk
    simp only [List.all_cons, List.all_nil, Bool.and_true]
    exact hsat i hi
  rw [hkeys] at hzm
  have hzl : z.length = is.length := by
    rw [← zmembers_length, hzm, List.length_map]
  -- the records under the keys
  have hframe : ∀ i : Nat, st3 (table.formatRecordKey E (i : Int)) =
      (Exec E (updatePipe E st table c x is) st).1 (table.formatRecordKey E (i : Int)) := by
    intro i
    have := getFilteredRecordKeys_frame E (Exec E (updatePipe E st table c x is) st).1 table
      [⟨c.Name, FilterOp.EqualTo, [x]⟩] t (table.formatRecordKey E (i : Int))
      (fun g _ => formatUnionStoreKey_ne_record E table _ _ t i)
      (fun uks => formatInterStoreKey_ne_record E table uks t i)
    rw [hrun] at this
    exact this
  obtain ⟨records, hrecs⟩ := forall₂_of_forall_exists
    (fun (i : Nat) r => getRecord st3 (table.formatRecordKey E (i : Int)) table.Schema = .ok r ∧
      HGetAll (Exec E (updatePipe E st table c x is) st).1
        (table.formatRecordKey E (i : Int)) = .ok r) is (by
      intro i hi
      obtain ⟨r, hr, hst⟩ := U.record_after x i hi
      refine ⟨assocSet r c.Name x, ?_, by simp [HGetAll, hst]⟩
      exact getRecord_assocSet st st3 _ table.Schema c x r U.hc hr (by rw [hframe, hst]))
  refine ⟨st3, records, ?_, hrecs.imp (fun _ _ h => h.2)⟩
  have htab : getTable E (Exec E (updatePipe E st table c x is) st).1 tableName
      = (table, none) :=
    getTable_of_frame E st _ tableName table hget (fun k hk => U.frame x k (Or.inr hk))
  have hv : table.Schema.validateQuery (mkQuery [⟨c.Name, FilterOp.EqualTo, [x]⟩] 0 0)
      = none := by
    simp only [Schema.validateQuery, mkQuery]
    simp only [show ¬ ((0 : Int) < -1) by decide, lt_self_iff_false, if_false]
    apply (validateFilters_none_iff _ _).mpr
    intro f hf
    simp only [List.mem_singleton] at hf
    subst hf
    exact ⟨c, U.hfirst, fun h => absurd rfl h⟩
  have hpool : getRecordsWorkerPool st3 table.Schema
      (is.map (fun i => table.formatRecordKey E ((i : Nat) : Int))) = .ok records := by
    apply workerPool_of_forall₂
    rw [List.forall₂_map_left_iff]
    exact hrecs.imp (fun _ _ h => h.1)
  unfold GetData
  rw [htab]
  simp only [hv]
  unfold getRecordKeys
  simp only [mkQuery, List.length_singleton, gt_iff_lt, zero_lt_one, if_true, hrun]
  rw [getPagedRecordKeys_eq st3 finalKey z 0 0 hz (le_refl _) (by omega)]
  simp only [expectedPage, le_refl, if_true, Int.toNat_zero, List.drop_zero, hzm, hzl,
    List.length_map, hpool]

/-- C5 (as amended): for a table with consistent indexes and at least one
record, whose records all pass the conformance check of getRecord, every
column c that the schema answers as filterable and every value x: UpdateData
with an empty filter list, no paging and the updates (c: x) returns no error;
afterwards every record hash has c = x, every record key of the table is a
member of filter(c, x), every filter set filter(c, y) with y different from x
is empty, and GetData with the single filter (c eq x) returns the records of
all record keys, in seq order. -/
theorem UpdateData_whole_column (E : Env) (st : Store) (tableName : String) (table : Table)
    (is : List Nat) (col x t t2 : String)
    (hget : getTable E st tableName = (table, none))
    (hcons : IndexesConsistent E st table (is.map Int.ofNat))
    (hne : is ≠ [])
    (hconf : ∀ i ∈ is, ∃ r,
      getRecord st (table.formatRecordKey E ((i : Nat) : Int)) table.Schema = .ok r)
    (hfil : table.Schema.isFilterable col = .ok true) :
    (UpdateData E st tableName (mkUpdate col x) t).2 = none ∧
    (∀ i ∈ is, recordValue (UpdateData E st tableName (mkUpdate col x) t).1
      (table.formatRecordKey E ((i : Nat) : Int)) col = some x) ∧
    (∀ i ∈ is, SIsMember (UpdateData E st tableName (mkUpdate col x) t).1
      (table.formatFilterKey E col x) (table.formatRecordKey E ((i : Nat) : Int))
        = .ok true) ∧
    (∀ y, y ≠ x → SCard (UpdateData E st tableName (mkUpdate col x) t).1
      (table.formatFilterKey E col y) = .ok 0) ∧
    ∃ st3 records,
      GetData E (UpdateData E st tableName (mkUpdate col x) t).1 tableName
        (mkQuery [⟨col, FilterOp.EqualTo, [x]⟩] 0 0) t2 =
        (st3, .ok { Records := records,
                    Metadata := { Count := is.length, Offset := 0, Limit := 0,
                                  Total := is.length } }) ∧
      List.Forall₂ (fun i r =>
        HGetAll (UpdateData E st tableName (mkUpdate col x) t).1
          (table.formatRecordKey E ((i : Nat) : Int)) = .ok r) is records := by
  obtain ⟨c, hfirst, hf⟩ : ∃ c, table.Schema.Columns.find? (fun d => decide (d.Name = col))
      = some c ∧ c.Filterable = true := by
    unfold Schema.isFilterable at hfil
    cases hfind : table.Schema.Columns.find? (fun d => decide (d.Name = col)) with
    | none => rw [hfind] at hfil; cases hfil
    | some c =>
      rw [hfind] at hfil
      exact ⟨c, rfl, Except.ok.inj hfil⟩
  have hname : c.Name = col := by
    have := List.find?_some hfirst
    simpa using this
  subst hname
  have U : UpdateCtx E st table is c := ⟨hcons, hne, hconf, hfirst, hf⟩
  have hrun : UpdateData E st tableName (mkUpdate c.Name x) t =
      ((Exec E (updatePipe E st table c x is) st).1, none) := U.updateData tableName x t hget
  rw [hrun]
  refine ⟨rfl, fun i hi => U.recordValue_after x i hi, ?_, ?_, U.getData tableName x t2 hget⟩
  · intro i hi
    obtain ⟨s, hs, hmem⟩ := U.filter_new x
    unfold SIsMember
    simp only [hs, Except.ok.injEq, decide_eq_true_eq]
    exact (hmem _).mpr ⟨i, hi, rfl⟩
  · intro y hy
    unfold SCard
    simp only [U.filter_old x y hy, List.length_nil]
    rfl

/-- C5 (witness): the loaded demo table, the filterable column `name` and the
value `z`. -/
theorem UpdateData_whole_column_witness :
    (UpdateData demoEnv loadedStore "t" (mkUpdate "name" "z") "T").2 = none ∧
    (∀ i ∈ [0, 1, 2], recordValue (UpdateData demoEnv loadedStore "t" (mkUpdate "name" "z") "T").1
      (demoTable.formatRecordKey demoEnv ((i : Nat) : Int)) "name" = some "z") ∧
    (∀ i ∈ [0, 1, 2], SIsMember (UpdateData demoEnv loadedStore "t" (mkUpdate "name" "z") "T").1
      (demoTable.formatFilterKey demoEnv "name" "z")
      (demoTable.formatRecordKey demoEnv ((i : Nat) : Int)) = .ok true) ∧
    (∀ y, y ≠ "z" → SCard (UpdateData demoEnv loadedStore "t" (mkUpdate "name" "z") "T").1
      (demoTable.formatFilterKey demoEnv "name" y) = .ok 0) ∧
    ∃ st3 records,
      GetData demoEnv (UpdateData demoEnv loadedStore "t" (mkUpdate "name" "z") "T").1 "t"
        (mkQuery [⟨"name", FilterOp.EqualTo, ["z"]⟩] 0 0) "T2" =
        (st3, .ok { Records := records,
                    Metadata := { Count := 3, Offset := 0, Limit := 0, Total := 3 } }) ∧
      List.Forall₂ (fun i r =>
        HGetAll (UpdateData demoEnv loadedStore "t" (mkUpdate "name" "z") "T").1
          (demoTable.formatRecordKey demoEnv ((i : Nat) : Int)) = .ok r) [0, 1, 2] records :=
  UpdateData_whole_column demoEnv loadedStore "t" demoTable [0, 1, 2] "name" "z" "T" "T2"
    demo_loaded.getTable demo_loaded.consistent (by decide)
    (by
      intro i hi
      simp only [List.mem_cons, List.mem_singleton, List.not_mem_nil, or_false] at hi
      rcases hi with rfl | rfl | rfl
      · exact ⟨[("name", "a"), ("n", "5")], by decide⟩
      · exact ⟨[("name", "b"), ("n", "7")], by decide⟩
      · exact ⟨[("name", "a"), ("n", "10")], by decide⟩)
    (by decide)

theorem partial_loaded : Loaded demoEnv schemaStore "t" partialCsv "t0" "t1" partialStore
    demoTable ["name"] [["a"], ["b"]] where
  hload := Prod.ext rfl (by decide)
  htable := demo_loaded.htable
  hfresh := demo_loaded.hfresh
  hplain := demo_loaded.hplain
  hcsv := by decide
  hnodup := by decide

theorem empty_loaded : Loaded demoEnv schemaStore "t" [["name", "n"]] "t0" "t1" emptyStore
    demoTable ["name", "n"] [] where
  hload := Prod.ext rfl (by decide)
  htable := demo_loaded.htable
  hfresh := demo_loaded.hfresh
  hplain := demo_loaded.hplain
  hcsv := by decide
  hnodup := by decide

/-- C5 (counterexample): the demo table loaded from a CSV without data rows
has consistent indexes; UpdateData with no filter and the update (name: z)
returns no error, and GetData with the filter (name eq z) then returns ErrNil
and no record list. The demo table loaded from a CSV whose header names only
the column `name` has consistent indexes too; there UpdateData sets the field
of record 0, but record 0 is no member of filter(name, z), filter(name, a)
still has a member, and GetData with the filter (name eq z) returns ErrNil. -/
theorem UpdateData_nonconforming_counterexample :
    IndexesConsistent demoEnv emptyStore demoTable [] ∧
    IndexesConsistent demoEnv partialStore demoTable [0, 1] ∧
    (UpdateData demoEnv partialStore "t" (mkUpdate "name" "z") "T").2 = none ∧
    HGetAll (UpdateData demoEnv partialStore "t" (mkUpdate "name" "z") "T").1 "rdb:t:0:0"
      = .ok [("name", "z")] ∧
    SIsMember (UpdateData demoEnv partialStore "t" (mkUpdate "name" "z") "T").1
      "rdb:t:0:name:z" "rdb:t:0:0" = .ok false ∧
    SCard (UpdateData demoEnv partialStore "t" (mkUpdate "name" "z") "T").1
      "rdb:t:0:name:a" = .ok 1 ∧
    (GetData demoEnv (UpdateData demoEnv partialStore "t" (mkUpdate "name" "z") "T").1 "t"
      (mkQuery [⟨"name", FilterOp.EqualTo, ["z"]⟩] 0 0) "T2").2 = .error Err.ErrNil ∧
    (UpdateData demoEnv emptyStore "t" (mkUpdate "name" "z") "T").2 = none ∧
    (GetData demoEnv (UpdateData demoEnv emptyStore "t" (mkUpdate "name" "z") "T").1 "t"
      (mkQuery [⟨"name", FilterOp.EqualTo, ["z"]⟩] 0 0) "T2").2 = .error Err.ErrNil :=
  ⟨empty_loaded.consistent, partial_loaded.consistent, by decide, by decide, by decide,
    by decide, by decide, by decide, by decide⟩

/-! ## Schema validation -/

/-- C12: validateSchema returns no error if and only if every column marked
sortable is also marked filterable and has datatype `int` or `float`. -/
theorem validateSchema_none_iff (schema : Schema) :
    validateSchema schema = none ↔
      ∀ c ∈ schema.Columns, c.Sortable = true →
        c.Filterable = true ∧ (c.DataType = "int" ∨ c.DataType = "float") := by
  unfold validateSchema
  generalize schema.Columns = cols
  induction cols with
  | nil => simp [validateColumns]
  | cons c rest ih =>
    simp only [validateColumns, List.mem_cons, forall_eq_or_imp]
    by_cases hs : c.Sortable = true
    · by_cases hf : c.Filterable = true
      · by_cases hd : c.DataType = "int" ∨ c.DataType = "float"
        · simp [hs, hf, hd, sortableDataType, ih]
        · simp [hs, hf, hd, sortableDataType]
      · simp [hs, hf]
    · simp [hs, ih]

/-! ## Record conformance -/

theorem assocGet_isSome_of_mem {β : Type} (l : List (String × β)) (k : String)
    (h : k ∈ l.map Prod.fst) : ∃ v, assocGet l k = some v := by
  induction l with
  | nil => simp at h
  | cons e es ih =>
    rcases e with ⟨k2, v2⟩
    by_cases hk : k2 = k
    · exact ⟨v2, by simp [assocGet, hk]⟩
    · simp only [List.map_cons, List.mem_cons] at h
      rcases h with h | h
      · exact absurd h.symm hk
      · obtain ⟨v, hv⟩ := ih h
        exact ⟨v, by simp [assocGet, hk, hv]⟩

/-- What `getRecord` answers on a non-empty hash, in terms of its two checks. -/
theorem getRecord_hash (st : Store) (key : String) (schema : Schema)
    (r : List (String × String)) (hst : st key = some (.hash r)) (hne : r ≠ []) :
    (getRecord st key schema = .ok r ↔
      schema.Columns.length = r.length ∧
        ∀ col ∈ schema.Columns, ∃ v, assocGet r col.Name = some v) ∧
    getRecord st key schema ≠ .error Err.ErrNil := by
  unfold getRecord HGetAll
  rw [hst]
  simp only []
  rw [if_neg (fun e => hne (List.length_eq_zero.mp e))]
  by_cases hlen : schema.Columns.length = r.length
  · rw [if_neg (fun e => e hlen)]
    cases hfind : schema.Columns.find? (fun c => (assocGet r c.Name).isNone) with
    | some c =>
      simp only [reduceCtorEq, false_iff, not_and, ne_eq]
      refine ⟨?_, by simp⟩
      intro _ hall
      obtain ⟨v, hv⟩ := hall c (List.mem_of_find?_eq_some hfind)
      have := List.find?_some hfind
      rw [hv] at this
      simp at this
    | none =>
      simp only [true_iff, ne_eq, reduceCtorEq, not_false_eq_true, and_true]
      refine ⟨hlen, ?_⟩
      intro col hcol
      have := List.find?_eq_none.mp hfind col hcol
      cases hg : assocGet r col.Name with
      | none => rw [hg] at this; simp at this
      | some v => exact ⟨v, rfl⟩
  · rw [if_pos hlen]
    simp [hlen]

/-- C11 (as amended): for a schema whose column names are pairwise distinct
and a stored hash (its field names are pairwise distinct), getRecord returns
the record without error exactly if the hash is not empty and its set of
field names equals the schema's set of column names; where no non-empty hash
is stored it returns ErrNil. -/
theorem getRecord_conforms (st : Store) (key : String) (schema : Schema)
    (hcols : (schema.Columns.map (fun c => c.Name)).Nodup)
    (hfields : ∀ h, st key = some (.hash h) → (h.map Prod.fst).Nodup) :
    (∀ r, getRecord st key schema = .ok r ↔
      st key = some (.hash r) ∧ r ≠ [] ∧
        ∀ name, name ∈ r.map Prod.fst ↔ name ∈ schema.Columns.map (fun c => c.Name)) ∧
    ((∀ r, st key = some (.hash r) → r = []) →
      getRecord st key schema = .error Err.ErrNil) := by
  constructor
  · intro r
    constructor
    · intro hr
      obtain ⟨hst, hlen, hall⟩ := getRecord_ok st key schema r hr
      have hne : r ≠ [] := by
        intro e
        subst e
        unfold getRecord HGetAll at hr
        rw [hst] at hr
        simp at hr
      refine ⟨hst, hne, ?_⟩
      have hsub : schema.Columns.map (fun c => c.Name) ⊆ r.map Prod.fst := by
        intro name hname
        obtain ⟨c, hc, rfl⟩ := List.mem_map.mp hname
        obtain ⟨v, hv⟩ := hall c hc
        exact List.mem_map.mpr ⟨(c.Name, v), mem_of_assocGet r c.Name v hv, rfl⟩
      have hperm := (List.subperm_of_subset hcols hsub).perm_of_length_le
        (by simp only [List.length_map]; omega)
      intro name
      exact hperm.mem_iff.symm
    · rintro ⟨hst, hne, hset⟩
      apply (getRecord_hash st key schema r hst hne).1.mpr
      have hperm : (r.map Prod.fst).Perm (schema.Columns.map (fun c => c.Name)) :=
        (List.perm_ext_iff_of_nodup (hfields r hst) hcols).mpr hset
      refine ⟨by simpa using hperm.length_eq.symm, ?_⟩
      intro col hcol
      exact assocGet_isSome_of_mem r col.Name
        ((hset col.Name).mpr (List.mem_map.mpr ⟨col, hcol, rfl⟩))
  · intro hno
    unfold getRecord HGetAll
    cases hv : st key with
    | none => simp
    | some v =>
      cases v with
      | hash r => rw [hno r hv]; simp
      | str _ => simp
      | set _ => simp
      | zset _ => simp

/-- C11 (witness): the record of seq 1 of the loaded demo table. -/
theorem getRecord_conforms_witness :
    (∀ r, getRecord loadedStore "rdb:t:0:1" demoSchema = .ok r ↔
      loadedStore "rdb:t:0:1" = some (.hash r) ∧ r ≠ [] ∧
        ∀ name, name ∈ r.map Prod.fst ↔ name ∈ demoSchema.Columns.map (fun c => c.Name)) ∧
    ((∀ r, loadedStore "rdb:t:0:1" = some (.hash r) → r = []) →
      getRecord loadedStore "rdb:t:0:1" demoSchema = .error Err.ErrNil) :=
  getRecord_conforms loadedStore "rdb:t:0:1" demoSchema (by decide) (by
    intro h hh
    have e : loadedStore "rdb:t:0:1" = some (.hash [("name", "b"), ("n", "7")]) := by decide
    rw [e] at hh
    cases hh
    decide)

/-- C11 (counterexample): for the schema with two columns named `a` and the
stored hash with the fields `a` and `b`, getRecord returns the record without
error although the field `b` is no column of the schema. -/
theorem getRecord_twin_counterexample :
    getRecord twinStore "rdb:t:0:0" twinSchema = .ok [("a", "1"), ("b", "2")] ∧
    "b" ∉ twinSchema.Columns.map (fun c => c.Name) := by
  decide

/-! ## Schema registry -/

theorem formatSchemaKey_ne_empty (E : Env) (name : String) : formatSchemaKey E name ≠ "" := by
  intro h
  have h2 := congrArg (fun s => s.data.getLast?) h
  simp [formatSchemaKey, String.data_append] at h2

theorem formatSchemaKey_ne_allSchemasKey (E : Env) (name : String) :
    formatSchemaKey E name ≠ allSchemasKey := by
  intro h
  have h2 := congrArg (fun s => s.data.reverse.head?) h
  have e2 : allSchemasKey.data.reverse.head? = some 's' := by decide
  simp only [e2] at h2
  simp [formatSchemaKey, String.data_append, List.reverse_append] at h2

/-- C13: on a store that holds a schema (a text that is not empty) under the
schema key of name n, AddSchema of a schema named n that passes validation
returns ErrImmutableKey and leaves the store as it was, the stored schema
value and the all-schemas set included. -/
theorem AddSchema_immutable (E : Env) (st : Store) (s : Schema) (j : String)
    (hval : validateSchema s = none)
    (hst : st (formatSchemaKey E s.Name) = some (.str j)) (hj : j ≠ "") :
    AddSchema E st s = (st, some Err.ErrImmutableKey) := by
  unfold AddSchema
  rw [hval]
  simp only [Get, hst]
  rw [if_pos hj]

/-- C13 (witness): the demo schema is stored; adding it again is refused. -/
theorem AddSchema_immutable_witness :
    AddSchema demoEnv schemaStore demoSchema = (schemaStore, some Err.ErrImmutableKey) :=
  AddSchema_immutable demoEnv schemaStore demoSchema "demo-schema" (by decide) (by decide)
    (by decide)

theorem AddSchema_stored (E : Env) (st st2 : Store) (s : Schema)
    (hadd : AddSchema E st s = (st2, none)) :
    SIsMember st2 allSchemasKey (formatSchemaKey E s.Name) = .ok true ∧
      Get st2 (formatSchemaKey E s.Name) = .ok (E.jsonMarshal s) := by
  unfold AddSchema at hadd
  cases hval : validateSchema s with
  | some e => rw [hval] at hadd; simp at hadd
  | none =>
    rw [hval] at hadd
    simp only [] at hadd
    split_ifs at hadd with hs
    · simp at hadd
    have hne := formatSchemaKey_ne_allSchemasKey E s.Name
    simp only [Exec, Prod.mk.injEq] at hadd
    obtain ⟨h1, h2⟩ := hadd
    have hset : ((Cmd.Set (formatSchemaKey E s.Name) (E.jsonMarshal s)).run E
        ((Cmd.SAdd allSchemasKey (formatSchemaKey E s.Name)).run E st).1).1 = st2 := h1
    have hat : ∀ k, st2 k = if formatSchemaKey E s.Name = k then some (.str (E.jsonMarshal s))
        else ((Cmd.SAdd allSchemasKey (formatSchemaKey E s.Name)).run E st).1 k := by
      intro k
      rw [← hset, run_at]
      simp only [Cmd.key, Cmd.applyTo, Cmd.onValue]
    constructor
    · unfold SIsMember readSet
      rw [hat, if_neg hne, run_at]
      simp only [Cmd.key, if_true, Cmd.applyTo]
      cases hv : st allSchemasKey with
      | none => simp [Cmd.onValue]
      | some v =>
        cases v with
        | set s0 =>
          simp only [Cmd.onValue]
          by_cases hm : formatSchemaKey E s.Name ∈ s0
          · simp [hm]
          · simp [hm]
        | str _ =>
          exfalso
          simp [Cmd.run, Cmd.key, Cmd.onValue, hv] at h2
        | hash _ =>
          exfalso
          simp [Cmd.run, Cmd.key, Cmd.onValue, hv] at h2
        | zset _ =>
          exfalso
          simp [Cmd.run, Cmd.key, Cmd.onValue, hv] at h2
    · unfold Get
      rw [hat, if_pos rfl]

/-- C14 (as amended): for every schema s with a name that is not empty which
AddSchema accepts, afterwards the key schema(s.Name) is a member of the
all-schemas set, the JSON text of s is stored under that key, and
GetSchema(s.Name) returns what that text decodes to: the schema s, without
error, whenever the JSON text of s decodes to s again. -/
theorem AddSchema_then_GetSchema (E : Env) (st st2 : Store) (s : Schema)
    (hadd : AddSchema E st s = (st2, none)) (hname : s.Name ≠ "") :
    SIsMember st2 allSchemasKey (formatSchemaKey E s.Name) = .ok true ∧
    Get st2 (formatSchemaKey E s.Name) = .ok (E.jsonMarshal s) ∧
    GetSchema E st2 s.Name =
      (match E.jsonUnmarshal (E.jsonMarshal s) with
        | none => .error (Err.lib "json: cannot unmarshal")
        | some s2 => .ok s2) ∧
    (E.jsonUnmarshal (E.jsonMarshal s) = some s → GetSchema E st2 s.Name = .ok s) := by
  obtain ⟨h1, h2⟩ := AddSchema_stored E st st2 s hadd
  have h3 : GetSchema E st2 s.Name =
      (match E.jsonUnmarshal (E.jsonMarshal s) with
        | none => .error (Err.lib "json: cannot unmarshal")
        | some s2 => .ok s2) := by
    unfold GetSchema getSchemaByKey
    rw [if_neg hname, if_neg (formatSchemaKey_ne_empty E s.Name), h2]
  refine ⟨h1, h2, h3, ?_⟩
  intro hround
  rw [h3, hround]

/-- C14 (witness): the demo schema added to the store without keys. -/
theorem AddSchema_then_GetSchema_witness :
    SIsMember (AddSchema demoEnv blankStore demoSchema).1 allSchemasKey
        (formatSchemaKey demoEnv demoSchema.Name) = .ok true ∧
      GetSchema demoEnv (AddSchema demoEnv blankStore demoSchema).1 demoSchema.Name
        = .ok demoSchema :=
  have h := AddSchema_then_GetSchema demoEnv blankStore
    (AddSchema demoEnv blankStore demoSchema).1 demoSchema (Prod.ext rfl (by decide))
    (by decide)
  ⟨h.1, h.2.2.2 (by decide)⟩

/-- C14 (counterexample): AddSchema accepts the schema with the empty name on
the store without keys and writes its JSON text, and GetSchema of the empty
name returns ErrEmptyKey; and AddSchema accepts the schema whose name is a
byte that is no UTF-8, whose JSON text holds the replacement character in its
place, and GetSchema of that name returns the schema with the replaced name. -/
theorem AddSchema_GetSchema_counterexample :
    ((AddSchema codecEnv blankStore namelessSchema).2 = none ∧
      Get (AddSchema codecEnv blankStore namelessSchema).1 "rdb::schema"
        = .ok "nameless-schema" ∧
      codecEnv.jsonUnmarshal "nameless-schema" = some namelessSchema ∧
      GetSchema codecEnv (AddSchema codecEnv blankStore namelessSchema).1 namelessSchema.Name
        = .error Err.ErrEmptyKey) ∧
    ((AddSchema rawByteEnv blankStore rawByteSchema).2 = none ∧
      rawByteSchema.Name ≠ "" ∧
      GetSchema rawByteEnv (AddSchema rawByteEnv blankStore rawByteSchema).1 rawByteSchema.Name
        = .ok replacedByteSchema ∧
      replacedByteSchema ≠ rawByteSchema) := by
  decide

/-- C15 (as amended): GetSchema returns ErrEmptyKey for the empty name; for a
name that is not empty it returns ErrNil if the schema key holds no text (the
key is missing or holds a value of another type), the decoded schema without
error if the key holds a text that decodes, and the error of the JSON decoder
if the key holds a text that does not decode. -/
theorem GetSchema_cases (E : Env) (st : Store) (name : String) :
    (name = "" → GetSchema E st name = .error Err.ErrEmptyKey) ∧
    (name ≠ "" → (∀ j, st (formatSchemaKey E name) ≠ some (.str j)) →
      GetSchema E st name = .error Err.ErrNil) ∧
    (name ≠ "" → ∀ j s, st (formatSchemaKey E name) = some (.str j) →
      E.jsonUnmarshal j = some s → GetSchema E st name = .ok s) ∧
    (name ≠ "" → ∀ j, st (formatSchemaKey E name) = some (.str j) →
      E.jsonUnmarshal j = none →
        GetSchema E st name = .error (Err.lib "json: cannot unmarshal")) := by
  refine ⟨?_, ?_, ?_, ?_⟩
  · intro h
    simp [GetSchema, h]
  · intro h hno
    unfold GetSchema getSchemaByKey Get
    rw [if_neg h, if_neg (formatSchemaKey_ne_empty E name)]
    cases hv : st (formatSchemaKey E name) with
    | none => rfl
    | some v =>
      cases v with
      | str j => exact absurd hv (hno j)
      | hash _ => rfl
      | set _ => rfl
      | zset _ => rfl
  · intro h j s hst hdec
    unfold GetSchema getSchemaByKey Get
    rw [if_neg h, if_neg (formatSchemaKey_ne_empty E name), hst]
    simp only [hdec]
  · intro h j hst hdec
    unfold GetSchema getSchemaByKey Get
    rw [if_neg h, if_neg (formatSchemaKey_ne_empty E name), hst]
    simp only [hdec]

/-- C15 (counterexample): under the schema key of table `t` lies a text that
is no JSON of a schema, so no schema is stored under `t`; GetSchema returns
the error of the JSON decoder, which is neither ErrNil nor a schema. -/
theorem GetSchema_garbage_counterexample :
    demoEnv.jsonUnmarshal "garbage" = none ∧
    Get garbageStore (formatSchemaKey demoEnv "t") = .ok "garbage" ∧
    GetSchema demoEnv garbageStore "t" = .error (Err.lib "json: cannot unmarshal") ∧
    GetSchema demoEnv garbageStore "t" ≠ .error Err.ErrNil := by
  decide

/-! ## The header parser in general -/

theorem schemaIndexLoop_found (columnName : String) (cols : List Column) (j : Nat)
    (sm : List (String × Nat)) (found : Bool) :
    (schemaIndexLoop columnName cols j sm found).2 = true ↔
      (found = true ∨ ∃ c ∈ cols, c.Name = columnName) := by
  induction cols generalizing j sm found with
  | nil => simp [schemaIndexLoop]
  | cons c rest ih =>
    by_cases hc : c.Name = columnName
    · simp only [schemaIndexLoop, hc, if_true, ih, true_or, true_iff]
      exact Or.inr ⟨c, List.mem_cons_self _ _, hc⟩
    · simp only [schemaIndexLoop, hc, if_false, ih, List.mem_cons]
      constructor
      · rintro (h | ⟨c2, h2, h3⟩)
        · exact Or.inl h
        · exact Or.inr ⟨c2, Or.inr h2, h3⟩
      · rintro (h | ⟨c2, h2 | h2, h3⟩)
        · exact Or.inl h
        · subst h2; exact absurd h3 hc
        · exact Or.inr ⟨c2, h2, h3⟩

/-- The header parser on any list of names: it ends without error exactly if
every name is the name of a schema column; then the header map is the list of
names, and the schema map, if its entries were indexes of columns of their
name before, holds such an index for every name of the header. -/
theorem headerLoop_general (schema : Schema) (names : List String) (hm : List String)
    (sm : List (String × Nat)) :
    ((headerLoop schema names hm sm).2.2 = none ↔
      ∀ name ∈ names, ∃ c ∈ schema.Columns, c.Name = name) ∧
    ((headerLoop schema names hm sm).2.2 = none →
      (headerLoop schema names hm sm).1 = hm ++ names ∧
      ((∀ k j, assocGet sm k = some j → ∃ c, schema.Columns.get? j = some c ∧ c.Name = k) →
        ∀ k j, assocGet (headerLoop schema names hm sm).2.1 k = some j →
          ∃ c, schema.Columns.get? j = some c ∧ c.Name = k) ∧
      (∀ k, (k ∈ names ∨ ∃ j, assocGet sm k = some j) →
        ∃ j, assocGet (headerLoop schema names hm sm).2.1 k = some j)) := by
  induction names generalizing hm sm with
  | nil => simp [headerLoop]
  | cons name rest ih =>
    have hfound := schemaIndexLoop_found name schema.Columns 0 sm false
    have hspec := schemaIndexLoop_spec name schema.Columns 0 sm false
    simp only [headerLoop]
    rcases hloop : schemaIndexLoop name schema.Columns 0 sm false with ⟨sm1, found⟩
    rw [hloop] at hfound hspec
    simp only [] at hfound hspec
    cases found with
    | false =>
      simp only [reduceCtorEq, false_iff, List.mem_cons, forall_eq_or_imp, not_and,
        false_implies, and_true]
      intro hex
      have := hfound.mpr (Or.inr hex)
      cases this
    | true =>
      simp only []
      obtain ⟨ih1, ih2⟩ := ih (hm ++ [name]) sm1
      have hcol : ∃ c ∈ schema.Columns, c.Name = name := by
        rcases hfound.mp rfl with h | h
        · cases h
        · exact h
      refine ⟨?_, ?_⟩
      · rw [ih1]
        simp only [List.mem_cons, forall_eq_or_imp]
        exact ⟨fun h => ⟨hcol, h⟩, fun h => h.2⟩
      · intro herr
        obtain ⟨e1, e2, e3⟩ := ih2 herr
        have hname : ∃ i c, schema.Columns.get? i = some c ∧ c.Name = name ∧
            assocGet sm1 name = some i := by
          rcases hspec.2 rfl with ⟨hf, _⟩ | ⟨i, c, hi, hn, hget⟩
          · cases hf
          · exact ⟨i, c, hi, hn, by simpa using hget⟩
        refine ⟨by rw [e1]; simp, ?_, ?_⟩
        · intro hvalid
          apply e2
          intro k j hk
          by_cases hkn : k = name
          · subst hkn
            obtain ⟨i, c, hi, hn, hget⟩ := hname
            rw [hget] at hk
            cases hk
            exact ⟨c, hi, hn⟩
          · rw [hspec.1 k hkn] at hk
            exact hvalid k j hk
        · intro k hk
          apply e3
          rcases hk with hk | ⟨j, hj⟩
          · rcases List.mem_cons.mp hk with h | h
            · subst h
              obtain ⟨i, _, _, _, hget⟩ := hname
              exact Or.inr ⟨i, hget⟩
            · exact Or.inl h
          · by_cases hkn : k = name
            · subst hkn
              obtain ⟨i, _, _, _, hget⟩ := hname
              exact Or.inr ⟨i, hget⟩
            · exact Or.inr ⟨j, by rw [hspec.1 k hkn]; exact hj⟩

/-- C20: parseCSVHeader returns no error if and only if the reader yields a
first row and every name in that row is the name of some schema column; then
the header map holds at every position of the header the name at that
position, and the schema map holds for every name of the header the index in
schema.Columns of a column with that name. -/
theorem parseCSVHeader_contract (records : List (List String)) (schema : Schema) :
    ((parseCSVHeader records schema).2.2 = none ↔
      ∃ header rest, records = header :: rest ∧
        ∀ name ∈ header, ∃ c ∈ schema.Columns, c.Name = name) ∧
    ((parseCSVHeader records schema).2.2 = none →
      ∀ header rest, records = header :: rest →
        (∀ i, (parseCSVHeader records schema).1.get? i = header.get? i) ∧
        ∀ name ∈ header, ∃ j c, assocGet (parseCSVHeader records schema).2.1 name = some j ∧
          schema.Columns.get? j = some c ∧ c.Name = name) := by
  cases records with
  | nil => simp [parseCSVHeader]
  | cons header rest =>
    obtain ⟨h1, h2⟩ := headerLoop_general schema header [] []
    simp only [parseCSVHeader]
    refine ⟨?_, ?_⟩
    · rw [h1]
      constructor
      · exact fun h => ⟨header, rest, rfl, h⟩
      · rintro ⟨hd, rs, e, h⟩
        cases e
        exact h
    · intro herr hd rs e
      cases e
      obtain ⟨e1, e2, e3⟩ := h2 herr
      refine ⟨by intro i; rw [e1, List.nil_append], ?_⟩
      intro name hname
      obtain ⟨j, hj⟩ := e3 name (Or.inl hname)
      obtain ⟨c, hc, hn⟩ := e2 (by intro k j hk; simp [assocGet] at hk) name j hj
      exact ⟨j, c, hj, hc, hn⟩

/-- C20 (witness): the statement at the demo CSV and the demo schema. -/
theorem parseCSVHeader_contract_witness :
    ((parseCSVHeader demoCsv demoSchema).2.2 = none ↔
      ∃ header rest, demoCsv = header :: rest ∧
        ∀ name ∈ header, ∃ c ∈ demoSchema.Columns, c.Name = name) ∧
    ((parseCSVHeader demoCsv demoSchema).2.2 = none →
      ∀ header rest, demoCsv = header :: rest →
        (∀ i, (parseCSVHeader demoCsv demoSchema).1.get? i = header.get? i) ∧
        ∀ name ∈ header, ∃ j c, assocGet (parseCSVHeader demoCsv demoSchema).2.1 name = some j ∧
          demoSchema.Columns.get? j = some c ∧ c.Name = name) :=
  parseCSVHeader_contract demoCsv demoSchema

/-- The parser on three inputs: a header that repeats a name, a header with a
name that is no column, and a reader without rows. -/
theorem parseCSVHeader_examples :
    parseCSVHeader [["n", "name", "n"], ["1", "a", "2"]] demoSchema =
      (["n", "name", "n"], [("n", 1), ("name", 0)], none) ∧
    (parseCSVHeader [["n", "zzz"]] demoSchema).2.2 = some (Err.msg "column zzz not in schema") ∧
    (parseCSVHeader [] demoSchema).2.2 = some (Err.msg "empty csv") := by
  decide

/-! ## Keys of the commands of an ingest, in general -/

theorem fieldCmds_key (E : Env) (table : Table) (rk col val : String) (c : Column) (cmd : Cmd)
    (h : cmd ∈ fieldCmds E table rk col val c) :
    ∃ s, cmd.key = table.formatKeyPrefix E ++ (":" ++ s) := by
  rcases (mem_fieldCmds E table rk col val c cmd).mp h with ⟨_, h1 | ⟨_, x, _, h1⟩⟩
  · subst h1; exact ⟨_, formatFilterKey_eq E table col val⟩
  · subst h1; exact ⟨_, formatSortableKey_eq E table col⟩

theorem recordFields_keys (E : Env) (table : Table) (seq : Int) (headerMap : List String)
    (schemaMap : List (String × Nat)) (row : List String) (i : Nat) (cmds : List Cmd)
    (vals : List (String × String))
    (h : recordFields E table (table.formatRecordKey E seq) headerMap schemaMap row i
      = .ok (cmds, vals)) :
    ∀ cmd ∈ cmds, ∃ s, cmd.key = table.formatKeyPrefix E ++ (":" ++ s) := by
  induction row generalizing i cmds vals with
  | nil =>
    simp only [recordFields, Except.ok.injEq, Prod.mk.injEq] at h
    intro cmd hcmd
    rw [← h.1] at hcmd
    cases hcmd
  | cons val rest ih =>
    simp only [recordFields] at h
    cases hc : table.Schema.Columns.get? ((assocGet schemaMap (headerMap.getD i "")).getD 0) with
    | none => rw [hc] at h; simp at h
    | some c =>
      rw [hc] at h
      simp only [] at h
      cases hr : recordFields E table (table.formatRecordKey E seq) headerMap schemaMap rest
          (i + 1) with
      | error e => rw [hr] at h; simp at h
      | ok r =>
        rcases r with ⟨more, vs⟩
        rw [hr] at h
        simp only [Except.ok.injEq, Prod.mk.injEq] at h
        intro cmd hcmd
        rw [← h.1] at hcmd
        rcases List.mem_append.mp hcmd with h1 | h1
        · exact fieldCmds_key E table _ _ _ c cmd h1
        · exact ih (i + 1) more vs hr cmd h1

theorem recordToPipe_keys (E : Env) (table : Table) (row : List String) (seq : Int)
    (headerMap : List String) (schemaMap : List (String × Nat)) (cmds : List Cmd)
    (h : recordToPipe E table row seq headerMap schemaMap = .ok cmds) :
    ∀ cmd ∈ cmds, ∃ s, cmd.key = table.formatKeyPrefix E ++ (":" ++ s) := by
  unfold recordToPipe at h
  cases hr : recordFields E table (table.formatRecordKey E seq) headerMap schemaMap row 0 with
  | error e => rw [hr] at h; simp at h
  | ok r =>
    rcases r with ⟨more, vs⟩
    rw [hr] at h
    simp only [Except.ok.injEq] at h
    intro cmd hcmd
    rw [← h] at hcmd
    simp only [List.mem_append, List.mem_cons, List.mem_singleton, List.not_mem_nil,
      or_false] at hcmd
    rcases hcmd with h1 | h1 | h1
    · exact recordFields_keys E table seq headerMap schemaMap row 0 more vs hr cmd h1
    · subst h1; exact ⟨_, formatRecordKey_eq E table seq⟩
    · subst h1; exact ⟨"all", rfl⟩

theorem csvRows_keys (E : Env) (table : Table) (headerMap : List String)
    (schemaMap : List (String × Nat)) (n : Nat) (rows : List (List String)) (seq : Int)
    (pipe : List Cmd) (h : csvRows E table headerMap schemaMap n rows seq = .ok pipe) :
    ∀ cmd ∈ pipe, ∃ s, cmd.key = table.formatKeyPrefix E ++ (":" ++ s) := by
  induction rows generalizing seq pipe with
  | nil =>
    simp only [csvRows, Except.ok.injEq] at h
    intro cmd hcmd
    rw [← h] at hcmd
    cases hcmd
  | cons row rest ih =>
    simp only [csvRows] at h
    split_ifs at h with hlen
    cases hr : recordToPipe E table row seq headerMap schemaMap with
    | error e => rw [hr] at h; simp at h
    | ok cmds =>
      rw [hr] at h
      simp only [] at h
      cases hrest : csvRows E table headerMap schemaMap n rest (seq + 1) with
      | error e => rw [hrest] at h; simp at h
      | ok more =>
        rw [hrest] at h
        simp only [Except.ok.injEq] at h
        intro cmd hcmd
        rw [← h] at hcmd
        rcases List.mem_append.mp hcmd with h1 | h1
        · exact recordToPipe_keys E table row seq headerMap schemaMap cmds hr cmd h1
        · exact ih (seq + 1) more hrest cmd h1

/-- Every command of an ingest writes a key of the version of the table. -/
theorem csvToPipe_keys (E : Env) (f : List (List String)) (table : Table) (pipe : List Cmd)
    (h : csvToPipe E f table = .ok pipe) :
    ∀ cmd ∈ pipe, ∃ s, cmd.key = table.formatKeyPrefix E ++ (":" ++ s) := by
  unfold csvToPipe at h
  rcases hp : parseCSVHeader (csvRecords f) table.Schema with ⟨hm, sm, err⟩
  rw [hp] at h
  cases err with
  | some e => simp at h
  | none => exact csvRows_keys E table hm sm hm.length _ 0 pipe h

/-- The commands a bulk load sends leave the last-load key alone. -/
theorem loadPipe_frame (E : Env) (f : List (List String)) (table : Table) (pipe : List Cmd)
    (h : csvToPipe E f table = .ok pipe) (st : Store) :
    (Exec E (if E.indexOnLoad = true then pipe ++ createIndexToPipe E table else pipe) st).1
      (table.formatLastLoadKey E) = st (table.formatLastLoadKey E) := by
  apply Exec_frame
  intro cmd hcmd hkey
  have hpipe : cmd ∈ pipe → False := by
    intro hin
    obtain ⟨s, hs⟩ := csvToPipe_keys E f table pipe h cmd hin
    exact formatLastLoadKey_ne_version E table s (by rw [← hkey, hs])
  split_ifs at hcmd
  · rcases List.mem_append.mp hcmd with h1 | h1
    · exact hpipe h1
    · simp only [createIndexToPipe, List.mem_singleton] at h1
      subst h1
      simp only [Cmd.key] at hkey
      have h2 := congrArg (fun s => s.data.reverse.head?) hkey
      simp [Table.formatLastLoadKey, String.data_append, List.reverse_append] at h2
  · exact hpipe hcmd

/-! ## The last-load record of a bulk load -/

/-- Where a load gets past version allocation, the last-load key is missing
or holds a hash. -/
theorem loadTable_lastKey (E : Env) (st : Store) (name : String) (table : Table)
    (h : loadTable E st name = .ok table) :
    st (table.formatLastLoadKey E) = none ∨
      ∃ h0, st (table.formatLastLoadKey E) = some (.hash h0) := by
  unfold loadTable at h
  rcases hg : getTable E st name with ⟨table0, e0⟩
  rw [hg] at h
  cases e0 with
  | some e => simp at h
  | none =>
    simp only [] at h
    cases hv : getNextTableVersion E st table0 with
    | error e => rw [hv] at h; simp at h
    | ok version =>
      rw [hv] at h
      simp only [Except.ok.injEq] at h
      have hkey : table.formatLastLoadKey E = table0.formatLastLoadKey E := by
        rw [← h]; rfl
      rw [hkey]
      unfold getNextTableVersion GetLastLoad HGetAll at hv
      cases hs : st (table0.formatLastLoadKey E) with
      | none => exact Or.inl rfl
      | some v =>
        cases v with
        | hash h0 => exact Or.inr ⟨h0, rfl⟩
        | str _ => rw [hs] at hv; simp [wrongType] at hv
        | set _ => rw [hs] at hv; simp [wrongType] at hv
        | zset _ => rw [hs] at hv; simp [wrongType] at hv

/-- On a store whose last-load key is missing or holds a hash,
`updateLastLoad` succeeds and `GetLastLoad` reads the load back. -/
theorem updateLastLoad_read (E : Env) (st : Store) (table : Table) (load : Load)
    (hst : st (table.formatLastLoadKey E) = none ∨
      ∃ h0, st (table.formatLastLoadKey E) = some (.hash h0))
    (hv : - (2 : Int) ^ 63 ≤ load.Version ∧ load.Version < (2 : Int) ^ 63)
    (hs : - (2 : Int) ^ 63 ≤ load.Status ∧ load.Status < (2 : Int) ^ 63) :
    (updateLastLoad E st table load).2 = none ∧
    GetLastLoad E (updateLastLoad E st table load).1 table = .ok load ∧
    (∃ h1, (updateLastLoad E st table load).1 (table.formatLastLoadKey E) = some (.hash h1)) ∧
    ∀ k, k ≠ table.formatLastLoadKey E → (updateLastLoad E st table load).1 k = st k := by
  have hval : ∃ h0, (updateLastLoad E st table load) =
      (st.put (table.formatLastLoadKey E) (some (.hash
        ([("version", itoa load.Version), ("status", itoa load.Status),
          ("starttime", load.StartTime), ("endtime", load.EndTime)].foldl
            (fun h fv => assocSet h fv.1 fv.2) h0))), none) := by
    unfold updateLastLoad
    simp only [Cmd.run, Cmd.key, Cmd.onValue, List.cons_ne_nil, reduceCtorEq, if_false]
    rcases hst with h | ⟨h0, h⟩
    · exact ⟨[], by rw [h]⟩
    · exact ⟨h0, by rw [h]⟩
  obtain ⟨h0, hrun⟩ := hval
  obtain ⟨hne, hfv, hfs, hft, hfe⟩ := lastLoad_fields h0 (itoa load.Version) (itoa load.Status)
    load.StartTime load.EndTime
  rw [hrun]
  refine ⟨rfl, ?_, ⟨_, by simp only [Store.put]; exact if_pos trivial⟩, ?_⟩
  · unfold GetLastLoad HGetAll
    simp only [Store.put, if_true]
    rw [if_neg (fun e => hne (List.length_eq_zero.mp e)), hfv, hfs,
      atoi_itoa _ hv.1 hv.2, atoi_itoa _ hs.1 hs.2]
    simp only []
    rw [hft, hfe]
  · intro k hk
    simp [Store.put, hk]

/-- Course of a BulkLoad call that gets past version allocation: the record
of the running load is written first, on the store of the call; then a list of
commands runs (none, if the call fails before it sends any), which leaves a
hash under the last-load key; then the final record is written, that of a
failed load if the call returns an error and that of a successful load
otherwise. -/
theorem BulkLoad_shape (E : Env) (st : Store) (tableName : String)
    (f : List (List String)) (format starttime endtime : String) (table : Table)
    (htable : loadTable E st tableName = .ok table) :
    ∃ st1 cmds,
      updateLastLoad E st table
        { Version := table.Version, Status := LoadRunning, StartTime := starttime,
          EndTime := "" } = (st1, none) ∧
      (∃ h1, (Exec E cmds st1).1 (table.formatLastLoadKey E) = some (.hash h1)) ∧
      (((∃ e, (BulkLoad E st tableName f format starttime endtime).2 = some e) ∧
          (BulkLoad E st tableName f format starttime endtime).1 =
            (updateLastLoad E (Exec E cmds st1).1 table
              { Version := table.Version, Status := LoadFailed, StartTime := starttime,
                EndTime := "" }).1 ∧
          ((format ≠ "csv" ∨ ∃ e, csvToPipe E f table = .error e) → cmds = [])) ∨
        ((BulkLoad E st tableName f format starttime endtime).2 = none ∧
          (BulkLoad E st tableName f format starttime endtime).1 =
            (updateLastLoad E (Exec E cmds st1).1 table
              { Version := table.Version, Status := LoadSuccess, StartTime := starttime,
                EndTime := endtime }).1 ∧
          format = "csv" ∧ ∃ pipe, csvToPipe E f table = .ok pipe)) := by
  obtain ⟨_, _, hv1, hv2⟩ := loadTable_ok E st tableName table htable
  have hkey := loadTable_lastKey E st tableName table htable
  obtain ⟨hr1, _, hr3, _⟩ := updateLastLoad_read E st table
    { Version := table.Version, Status := LoadRunning, StartTime := starttime, EndTime := "" }
    hkey ⟨hv1, hv2⟩ ⟨by simp [LoadRunning], by simp [LoadRunning]⟩
  rcases hu : updateLastLoad E st table
    { Version := table.Version, Status := LoadRunning, StartTime := starttime, EndTime := "" }
    with ⟨st1, e1⟩
  rw [hu] at hr1 hr3
  simp only [] at hr1 hr3
  subst hr1
  unfold BulkLoad
  rw [htable]
  simp only [hu]
  by_cases hfmt : format = "csv"
  · simp only [hfmt, if_true]
    cases hp : csvToPipe E f table with
    | error e =>
      exact ⟨st1, [], rfl, hr3, Or.inl ⟨⟨e, rfl⟩, rfl, fun _ => rfl⟩⟩
    | ok pipe =>
      simp only []
      have hframe := loadPipe_frame E f table pipe hp st1
      refine ⟨st1, (if E.indexOnLoad = true then pipe ++ createIndexToPipe E table else pipe),
        rfl, by rw [hframe]; exact hr3, ?_⟩
      rcases hx : Exec E (if E.indexOnLoad = true then pipe ++ createIndexToPipe E table
          else pipe) st1 with ⟨st2, e2⟩
      cases e2 with
      | some e =>
        refine Or.inl ⟨⟨e, rfl⟩, rfl, ?_⟩
        rintro (h | ⟨e3, h⟩)
        · exact absurd rfl h
        · cases h
      | none => exact Or.inr ⟨rfl, rfl, trivial, pipe, rfl⟩
  · simp only [hfmt, if_false]
    exact ⟨st1, [], rfl, hr3, Or.inl ⟨⟨_, rfl⟩, rfl, fun _ => rfl⟩⟩

/-- The recording engine changes nothing in what `BulkLoad` does to the
keyspace and in what it returns. -/
theorem BulkLoadOnWire_keyspace (E : Env) (st : Store) (log : List (List Cmd))
    (tableName : String) (f : List (List String)) (format starttime endtime : String) :
    ((BulkLoadOnWire E (st, log) tableName f format starttime endtime).1.1,
      (BulkLoadOnWire E (st, log) tableName f format starttime endtime).2)
      = BulkLoad E st tableName f format starttime endtime := by
  unfold BulkLoadOnWire BulkLoad
  simp only []
  cases loadTable E st tableName with
  | error e => rfl
  | ok table =>
    simp only [updateLastLoadOnWire, ExecOnWire]
    rcases hu : updateLastLoad E st table
      { Version := table.Version, StartTime := starttime, EndTime := "", Status := LoadRunning }
      with ⟨st1, e1⟩
    cases e1 with
    | some e => rfl
    | none =>
      simp only []
      by_cases hfmt : format = "csv"
      · simp only [hfmt, if_true]
        cases csvToPipe E f table with
        | error e => rfl
        | ok pipe =>
          simp only []
          rcases hx : Exec E (if E.indexOnLoad = true then pipe ++ createIndexToPipe E table
            else pipe) st1 with ⟨st2, e2⟩
          cases e2 with
          | some e => rfl
          | none => rfl
      · simp only [hfmt, if_false]

/-- What a bulk load that gets past version allocation submits, in order: the
Running record, then the pipeline if one was built, then the final record. -/
theorem BulkLoadOnWire_log (E : Env) (st : Store) (tableName : String)
    (f : List (List String)) (format starttime endtime : String) (table : Table)
    (htable : loadTable E st tableName = .ok table) :
    ∃ index final,
      (BulkLoadOnWire E (st, []) tableName f format starttime endtime).1.2 =
        [lastLoadWrite E table
          { Version := table.Version, Status := LoadRunning, StartTime := starttime,
            EndTime := "" }] :: (index ++ [[lastLoadWrite E table final]]) ∧
      (index = [] ∨ ∃ pipe, format = "csv" ∧ csvToPipe E f table = .ok pipe ∧
        index = [if E.indexOnLoad = true then pipe ++ createIndexToPipe E table else pipe]) ∧
      (BulkLoad E st tableName f format starttime endtime).1 =
        (updateLastLoad E
          (index.foldl (fun s cmds => (Exec E cmds s).1)
            (updateLastLoad E st table
              { Version := table.Version, Status := LoadRunning, StartTime := starttime,
                EndTime := "" }).1) table final).1 := by
  obtain ⟨_, _, hv1, hv2⟩ := loadTable_ok E st tableName table htable
  have hkey := loadTable_lastKey E st tableName table htable
  obtain ⟨hr1, _, _, _⟩ := updateLastLoad_read E st table
    { Version := table.Version, Status := LoadRunning, StartTime := starttime, EndTime := "" }
    hkey ⟨hv1, hv2⟩ ⟨by simp [LoadRunning], by simp [LoadRunning]⟩
  rcases hu : updateLastLoad E st table
    { Version := table.Version, Status := LoadRunning, StartTime := starttime, EndTime := "" }
    with ⟨st1, e1⟩
  rw [hu] at hr1
  simp only [] at hr1
  subst hr1
  unfold BulkLoadOnWire BulkLoad
  simp only [htable, updateLastLoadOnWire, ExecOnWire, hu, List.nil_append]
  by_cases hfmt : format = "csv"
  · simp only [hfmt, if_true]
    cases hp : csvToPipe E f table with
    | error e =>
      exact ⟨[], ⟨table.Version, LoadFailed, starttime, ""⟩, rfl, Or.inl rfl, rfl⟩
    | ok pipe =>
      simp only []
      rcases hx : Exec E (if E.indexOnLoad = true then pipe ++ createIndexToPipe E table
        else pipe) st1 with ⟨st2, e2⟩
      cases e2 with
      | some e =>
        refine ⟨[if E.indexOnLoad = true then pipe ++ createIndexToPipe E table else pipe],
          ⟨table.Version, LoadFailed, starttime, ""⟩, rfl,
          Or.inr ⟨pipe, trivial, rfl, rfl⟩, ?_⟩
        simp only [List.foldl_cons, List.foldl_nil, hx]
      | none =>
        refine ⟨[if E.indexOnLoad = true then pipe ++ createIndexToPipe E table else pipe],
          ⟨table.Version, LoadSuccess, starttime, endtime⟩, rfl,
          Or.inr ⟨pipe, trivial, rfl, rfl⟩, ?_⟩
        simp only [List.foldl_cons, List.foldl_nil, hx]
  · simp only [hfmt, if_false]
    exact ⟨[], ⟨table.Version, LoadFailed, starttime, ""⟩, rfl, Or.inl rfl, rfl⟩

/-- C17: for a BulkLoad call that gets past version allocation, the first
write the call submits to the engine is the HSET of the last-load record with
status Running, the new version and the start time; that write succeeds,
leaves every other key as it was and GetLastLoad then reads the Running
record; the index writes (the pipeline, when one was built) are submitted
after it, and the last write submitted is the HSET of the final record; if
BulkLoad returns an error, the stored last-load record has status Failed, the
new version and the start time of the call; if it returns no error, the
stored record has status Success, the new version, that start time and the
end time read at the end of the call, which is not empty. -/
theorem BulkLoad_records_status (E : Env) (st : Store) (tableName : String)
    (f : List (List String)) (format starttime endtime : String) (table : Table)
    (htable : loadTable E st tableName = .ok table) (hend : endtime ≠ "") :
    ∃ st1 index final,
      (BulkLoadOnWire E (st, []) tableName f format starttime endtime).1.2 =
        [lastLoadWrite E table
          { Version := table.Version, Status := LoadRunning, StartTime := starttime,
            EndTime := "" }] :: (index ++ [[lastLoadWrite E table final]]) ∧
      (index = [] ∨ ∃ pipe, format = "csv" ∧ csvToPipe E f table = .ok pipe ∧
        index = [if E.indexOnLoad = true then pipe ++ createIndexToPipe E table else pipe]) ∧
      ((BulkLoadOnWire E (st, []) tableName f format starttime endtime).1.1,
        (BulkLoadOnWire E (st, []) tableName f format starttime endtime).2)
        = BulkLoad E st tableName f format starttime endtime ∧
      (lastLoadWrite E table
        { Version := table.Version, Status := LoadRunning, StartTime := starttime,
          EndTime := "" }).run E st = (st1, none) ∧
      GetLastLoad E st1 table = .ok
        { Version := table.Version, Status := LoadRunning, StartTime := starttime,
          EndTime := "" } ∧
      (∀ k, k ≠ table.formatLastLoadKey E → st1 k = st k) ∧
      (BulkLoad E st tableName f format starttime endtime).1 =
        ((lastLoadWrite E table final).run E
          (index.foldl (fun s cmds => (Exec E cmds s).1) st1)).1 ∧
      (∀ e, (BulkLoad E st tableName f format starttime endtime).2 = some e →
        GetLastLoad E (BulkLoad E st tableName f format starttime endtime).1 table = .ok
          { Version := table.Version, Status := LoadFailed, StartTime := starttime,
            EndTime := "" }) ∧
      ((BulkLoad E st tableName f format starttime endtime).2 = none →
        ∃ load, GetLastLoad E (BulkLoad E st tableName f format starttime endtime).1 table
            = .ok load ∧
          load.Version = table.Version ∧ load.Status = LoadSuccess ∧
          load.StartTime = starttime ∧ load.EndTime = endtime ∧ load.EndTime ≠ "") := by
  obtain ⟨_, _, hv1, hv2⟩ := loadTable_ok E st tableName table htable
  have hkey := loadTable_lastKey E st tableName table htable
  obtain ⟨_, hr2, _, hr4⟩ := updateLastLoad_read E st table
    { Version := table.Version, Status := LoadRunning, StartTime := starttime, EndTime := "" }
    hkey ⟨hv1, hv2⟩ ⟨by simp [LoadRunning], by simp [LoadRunning]⟩
  obtain ⟨st1, cmds, hu, hhash, hcases⟩ :=
    BulkLoad_shape E st tableName f format starttime endtime table htable
  obtain ⟨index, final, hlog, hindex, hstore⟩ :=
    BulkLoadOnWire_log E st tableName f format starttime endtime table htable
  rw [hu] at hr2 hr4 hstore
  have hfailed := (updateLastLoad_read E (Exec E cmds st1).1 table
    { Version := table.Version, Status := LoadFailed, StartTime := starttime, EndTime := "" }
    (Or.inr hhash) ⟨hv1, hv2⟩ ⟨by simp [LoadFailed], by simp [LoadFailed]⟩).2.1
  have hsuccess := (updateLastLoad_read E (Exec E cmds st1).1 table
    { Version := table.Version, Status := LoadSuccess, StartTime := starttime,
      EndTime := endtime }
    (Or.inr hhash) ⟨hv1, hv2⟩ ⟨by simp [LoadSuccess], by simp [LoadSuccess]⟩).2.1
  refine ⟨st1, index, final, hlog, hindex,
    BulkLoadOnWire_keyspace E st [] tableName f format starttime endtime, hu, hr2, hr4,
    hstore, ?_, ?_⟩
  · intro e he
    rcases hcases with ⟨_, h, _⟩ | ⟨hnone, _⟩
    · rw [h]; exact hfailed
    · rw [hnone] at he; cases he
  · intro he
    rcases hcases with ⟨⟨e, h2⟩, _, _⟩ | ⟨_, h, _⟩
    · rw [he] at h2; cases h2
    · rw [h]; exact ⟨_, hsuccess, rfl, rfl, rfl, rfl, hend⟩

/-- C17 (witness): the bulk load of the demo CSV gets past version
allocation; it submits the Running record, the pipeline of the three rows and
the Success record, in that order. -/
theorem BulkLoad_records_status_witness :
    (BulkLoadOnWire demoEnv (schemaStore, []) "t" demoCsv "csv" "t0" "t1").1.2 =
      [[Cmd.HSet "rdb:t:lastload"
          [("version", "0"), ("status", "2"), ("starttime", "t0"), ("endtime", "")]],
        [Cmd.SAdd "rdb:t:0:name:a" "rdb:t:0:0", Cmd.SAdd "rdb:t:0:n:5" "rdb:t:0:0",
          Cmd.ZAdd "rdb:t:0:n" 5 "rdb:t:0:n:5",
          Cmd.HSet "rdb:t:0:0" [("name", "a"), ("n", "5")], Cmd.ZAdd "rdb:t:0:all" 0 "rdb:t:0:0",
          Cmd.SAdd "rdb:t:0:name:b" "rdb:t:0:1", Cmd.SAdd "rdb:t:0:n:7" "rdb:t:0:1",
          Cmd.ZAdd "rdb:t:0:n" 7 "rdb:t:0:n:7",
          Cmd.HSet "rdb:t:0:1" [("name", "b"), ("n", "7")], Cmd.ZAdd "rdb:t:0:all" 1 "rdb:t:0:1",
          Cmd.SAdd "rdb:t:0:name:a" "rdb:t:0:2", Cmd.SAdd "rdb:t:0:n:10" "rdb:t:0:2",
          Cmd.ZAdd "rdb:t:0:n" 10 "rdb:t:0:n:10",
          Cmd.HSet "rdb:t:0:2" [("name", "a"), ("n", "10")],
          Cmd.ZAdd "rdb:t:0:all" 2 "rdb:t:0:2"],
        [Cmd.HSet "rdb:t:lastload"
          [("version", "0"), ("status", "1"), ("starttime", "t0"), ("endtime", "t1")]]] ∧
    ∃ st1 index final,
      (BulkLoadOnWire demoEnv (schemaStore, []) "t" demoCsv "csv" "t0" "t1").1.2 =
        [lastLoadWrite demoEnv demoTable
          { Version := demoTable.Version, Status := LoadRunning, StartTime := "t0",
            EndTime := "" }] :: (index ++ [[lastLoadWrite demoEnv demoTable final]]) ∧
      (index = [] ∨ ∃ pipe, "csv" = "csv" ∧ csvToPipe demoEnv demoCsv demoTable = .ok pipe ∧
        index = [if demoEnv.indexOnLoad = true then pipe ++ createIndexToPipe demoEnv demoTable
          else pipe]) ∧
      ((BulkLoadOnWire demoEnv (schemaStore, []) "t" demoCsv "csv" "t0" "t1").1.1,
        (BulkLoadOnWire demoEnv (schemaStore, []) "t" demoCsv "csv" "t0" "t1").2)
        = BulkLoad demoEnv schemaStore "t" demoCsv "csv" "t0" "t1" ∧
      (lastLoadWrite demoEnv demoTable
        { Version := demoTable.Version, Status := LoadRunning, StartTime := "t0",
          EndTime := "" }).run demoEnv schemaStore = (st1, none) ∧
      GetLastLoad demoEnv st1 demoTable = .ok
        { Version := demoTable.Version, Status := LoadRunning, StartTime := "t0",
          EndTime := "" } ∧
      (∀ k, k ≠ demoTable.formatLastLoadKey demoEnv → st1 k = schemaStore k) ∧
      (BulkLoad demoEnv schemaStore "t" demoCsv "csv" "t0" "t1").1 =
        ((lastLoadWrite demoEnv demoTable final).run demoEnv
          (index.foldl (fun s cmds => (Exec demoEnv cmds s).1) st1)).1 ∧
      (∀ e, (BulkLoad demoEnv schemaStore "t" demoCsv "csv" "t0" "t1").2 = some e →
        GetLastLoad demoEnv (BulkLoad demoEnv schemaStore "t" demoCsv "csv" "t0" "t1").1
          demoTable = .ok
          { Version := demoTable.Version, Status := LoadFailed, StartTime := "t0",
            EndTime := "" }) ∧
      ((BulkLoad demoEnv schemaStore "t" demoCsv "csv" "t0" "t1").2 = none →
        ∃ load, GetLastLoad demoEnv
            (BulkLoad demoEnv schemaStore "t" demoCsv "csv" "t0" "t1").1 demoTable = .ok load ∧
          load.Version = demoTable.Version ∧ load.Status = LoadSuccess ∧
          load.StartTime = "t0" ∧ load.EndTime = "t1" ∧ load.EndTime ≠ "") :=
  ⟨by decide, BulkLoad_records_status demoEnv schemaStore "t" demoCsv "csv" "t0" "t1" demoTable
    demo_loaded.htable (by decide)⟩

/-! ## Loads that are refused -/

theorem csvToPipe_bad_header (E : Env) (f : List (List String)) (table : Table)
    (header : List String) (rest : List (List String)) (col : String)
    (hrec : csvRecords f = header :: rest) (hcol : col ∈ header)
    (hno : ∀ c ∈ table.Schema.Columns, c.Name ≠ col) :
    ∃ e, csvToPipe E f table = .error e := by
  unfold csvToPipe
  rw [hrec]
  have h1 := (headerLoop_general table.Schema header [] []).1
  simp only [parseCSVHeader]
  rcases hh : headerLoop table.Schema header [] [] with ⟨hm, sm, err⟩
  rw [hh] at h1
  cases err with
  | some e => exact ⟨e, rfl⟩
  | none =>
    exfalso
    obtain ⟨c, hc, hn⟩ := h1.mp rfl col hcol
    exact hno c hc hn

/-- C18: for a table with a stored schema, a BulkLoad whose format is not
`csv`, or whose CSV header names a column that is not in the schema, returns
an error, and the store afterwards holds under every record key, filter key,
sortable key and all-records key of every version of the table what it held
before. -/
theorem BulkLoad_rejected_no_index_write (E : Env) (st : Store) (tableName : String)
    (f : List (List String)) (format starttime endtime : String) (schema : Schema)
    (hschema : GetSchema E st tableName = .ok schema)
    (hbad : format ≠ "csv" ∨ ∃ header rest col, csvRecords f = header :: rest ∧
      col ∈ header ∧ ∀ c ∈ schema.Columns, c.Name ≠ col) :
    (∃ e, (BulkLoad E st tableName f format starttime endtime).2 = some e) ∧
    ∀ table2 : Table, table2.Name = tableName →
      (∀ seq, (BulkLoad E st tableName f format starttime endtime).1
          (table2.formatRecordKey E seq) = st (table2.formatRecordKey E seq)) ∧
      (∀ c v, (BulkLoad E st tableName f format starttime endtime).1
          (table2.formatFilterKey E c v) = st (table2.formatFilterKey E c v)) ∧
      (∀ c, (BulkLoad E st tableName f format starttime endtime).1
          (table2.formatSortableKey E c) = st (table2.formatSortableKey E c)) ∧
      (BulkLoad E st tableName f format starttime endtime).1 (table2.formatAllRecordKeys E)
        = st (table2.formatAllRecordKeys E) := by
  have hmain : (∃ e, (BulkLoad E st tableName f format starttime endtime).2 = some e) ∧
      ∀ table2 : Table, table2.Name = tableName → ∀ k, table2.formatLastLoadKey E ≠ k →
        (BulkLoad E st tableName f format starttime endtime).1 k = st k := by
    cases hl : loadTable E st tableName with
    | error e =>
      have : BulkLoad E st tableName f format starttime endtime = (st, some e) := by
        unfold BulkLoad; rw [hl]
      rw [this]
      exact ⟨⟨e, rfl⟩, fun _ _ _ _ => rfl⟩
    | ok table =>
      obtain ⟨hname, hsch, _, _⟩ := loadTable_ok E st tableName table hl
      rw [hschema] at hsch
      have hs : table.Schema = schema := (Except.ok.inj hsch).symm
      obtain ⟨st1, cmds, hu, _, hcases⟩ :=
        BulkLoad_shape E st tableName f format starttime endtime table hl
      have hrej : format ≠ "csv" ∨ ∃ e, csvToPipe E f table = .error e := by
        rcases hbad with h | ⟨header, rest, col, hrec, hcol, hno⟩
        · exact Or.inl h
        · exact Or.inr (csvToPipe_bad_header E f table header rest col hrec hcol
            (by rw [hs]; exact hno))
      rcases hcases with ⟨herr, hstore, hcmds⟩ | ⟨_, _, hfmt, pipe, hp⟩
      · refine ⟨herr, ?_⟩
        intro table2 hn2 k hk
        have hk2 : table.formatLastLoadKey E ≠ k := by
          rw [formatLastLoadKey_name E table table2 (by rw [hname, hn2])]; exact hk
        rw [hstore, hcmds hrej, updateLastLoad_frame E _ table _ k hk2]
        have := updateLastLoad_frame E st table
          { Version := table.Version, Status := LoadRunning, StartTime := starttime,
            EndTime := "" } k hk2
        rw [hu] at this
        exact this
      · exfalso
        rcases hrej with h | ⟨e, h⟩
        · exact h hfmt
        · rw [hp] at h; cases h
  refine ⟨hmain.1, ?_⟩
  intro table2 hn2
  refine ⟨?_, ?_, ?_, ?_⟩
  · intro seq
    exact hmain.2 table2 hn2 _ (by rw [formatRecordKey_eq]; exact formatLastLoadKey_ne_version E table2 _)
  · intro c v
    exact hmain.2 table2 hn2 _ (by rw [formatFilterKey_eq]; exact formatLastLoadKey_ne_version E table2 _)
  · intro c
    exact hmain.2 table2 hn2 _ (by rw [formatSortableKey_eq]; exact formatLastLoadKey_ne_version E table2 _)
  · exact hmain.2 table2 hn2 _ (formatLastLoadKey_ne_version E table2 "all")

/-- C18 (witness): a load into the demo table with the header `name`, `zzz`. -/
theorem BulkLoad_rejected_no_index_write_witness :
    (∃ e, (BulkLoad demoEnv loadedStore "t" [["name", "zzz"], ["a", "1"]] "csv" "t2" "t3").2
      = some e) ∧
    ∀ table2 : Table, table2.Name = "t" →
      (∀ seq, (BulkLoad demoEnv loadedStore "t" [["name", "zzz"], ["a", "1"]] "csv" "t2" "t3").1
          (table2.formatRecordKey demoEnv seq) = loadedStore (table2.formatRecordKey demoEnv seq)) ∧
      (∀ c v, (BulkLoad demoEnv loadedStore "t" [["name", "zzz"], ["a", "1"]] "csv" "t2" "t3").1
          (table2.formatFilterKey demoEnv c v) = loadedStore (table2.formatFilterKey demoEnv c v)) ∧
      (∀ c, (BulkLoad demoEnv loadedStore "t" [["name", "zzz"], ["a", "1"]] "csv" "t2" "t3").1
          (table2.formatSortableKey demoEnv c) = loadedStore (table2.formatSortableKey demoEnv c)) ∧
      (BulkLoad demoEnv loadedStore "t" [["name", "zzz"], ["a", "1"]] "csv" "t2" "t3").1
          (table2.formatAllRecordKeys demoEnv) = loadedStore (table2.formatAllRecordKeys demoEnv) :=
  BulkLoad_rejected_no_index_write demoEnv loadedStore "t" [["name", "zzz"], ["a", "1"]] "csv"
    "t2" "t3" demoSchema (by decide)
    (Or.inr ⟨["name", "zzz"], [["a", "1"]], "zzz", by decide, by decide, by decide⟩)

/-! ## Version allocation -/

theorem GetLastLoad_name (E : Env) (st : Store) (t1 t2 : Table) (h : t1.Name = t2.Name) :
    GetLastLoad E st t1 = GetLastLoad E st t2 := by
  unfold GetLastLoad
  rw [formatLastLoadKey_name E t1 t2 h]

/-- The parts of a successful `loadTable`: the table `getTable` finds and the
version `getNextTableVersion` allots to it. -/
theorem loadTable_parts (E : Env) (st : Store) (name : String) (table : Table)
    (h : loadTable E st name = .ok table) :
    ∃ table0, table0.Name = name ∧ table.Name = name ∧
      getNextTableVersion E st table0 = .ok table.Version := by
  unfold loadTable at h
  have hn := getTable_name E st name
  rcases hg : getTable E st name with ⟨table0, e0⟩
  rw [hg] at h hn
  cases e0 with
  | some e => simp at h
  | none =>
    simp only [] at h hn
    cases hv : getNextTableVersion E st table0 with
    | error e => rw [hv] at h; simp at h
    | ok version =>
      rw [hv] at h
      simp only [Except.ok.injEq] at h
      rw [← h]
      exact ⟨table0, hn, hn, hv⟩

theorem BulkLoad_loadTable (E : Env) (st : Store) (tableName : String)
    (f : List (List String)) (format starttime endtime : String) (st2 : Store)
    (h : BulkLoad E st tableName f format starttime endtime = (st2, none)) :
    ∃ table, loadTable E st tableName = .ok table := by
  unfold BulkLoad at h
  cases hl : loadTable E st tableName with
  | error e => rw [hl] at h; simp at h
  | ok table => exact ⟨table, rfl⟩

/-- C16 (as amended): getNextTableVersion returns 0 when no last-load record
is stored (the last-load key is missing), returns an error when the stored
last load has status Running, and otherwise, for a stored version below
2^63 - 1, returns the stored version plus 1, whatever the status; for a
stored record whose version or status field does not read as an integer it
returns the error of the conversion; two consecutive successful loads on a
table without a last-load record get the versions 0 and 1. -/
theorem getNextTableVersion_contract (E : Env) :
    (∀ st table, st (table.formatLastLoadKey E) = none →
      getNextTableVersion E st table = .ok 0) ∧
    (∀ st table load, GetLastLoad E st table = .ok load → load.Status = LoadRunning →
      getNextTableVersion E st table = .error (Err.msg "last load still running")) ∧
    (∀ st table load, GetLastLoad E st table = .ok load → load.Status ≠ LoadRunning →
      load.Version < 2 ^ 63 - 1 →
        getNextTableVersion E st table = .ok (load.Version + 1)) ∧
    (∀ st table record, HGetAll st (table.formatLastLoadKey E) = .ok record → record ≠ [] →
      (atoi (fieldOf record "version") = none ∨ atoi (fieldOf record "status") = none) →
        getNextTableVersion E st table = .error (Err.lib "strconv.Atoi: invalid syntax")) ∧
    (∀ st tableName f1 f2 a1 b1 a2 b2 st2 st3,
      st (E.Prefix ++ ":" ++ tableName ++ ":lastload") = none →
      BulkLoad E st tableName f1 "csv" a1 b1 = (st2, none) →
      BulkLoad E st2 tableName f2 "csv" a2 b2 = (st3, none) →
        ∃ t1 t2, loadTable E st tableName = .ok t1 ∧ t1.Version = 0 ∧
          loadTable E st2 tableName = .ok t2 ∧ t2.Version = 1) := by
  have hfresh : ∀ (st : Store) (table : Table), st (table.formatLastLoadKey E) = none →
      getNextTableVersion E st table = .ok 0 := by
    intro st table h
    simp [getNextTableVersion, GetLastLoad, HGetAll, h]
  have hnext : ∀ (st : Store) (table : Table) (load : Load),
      GetLastLoad E st table = .ok load → load.Status ≠ LoadRunning →
        getNextTableVersion E st table = .ok (wrapInt64 (load.Version + 1)) := by
    intro st table load h hs
    simp [getNextTableVersion, h, hs]
  refine ⟨hfresh, ?_, ?_, ?_, ?_⟩
  · intro st table load h hs
    simp [getNextTableVersion, h, hs]
  · intro st table load h hs hv
    rw [hnext st table load h hs]
    have hrange : - (2 : Int) ^ 63 ≤ load.Version := by
      unfold GetLastLoad at h
      cases hg : HGetAll st (table.formatLastLoadKey E) with
      | error e => rw [hg] at h; simp at h
      | ok record =>
        rw [hg] at h
        simp only [] at h
        split_ifs at h
        cases ha : atoi (fieldOf record "version") with
        | none => rw [ha] at h; simp at h
        | some v =>
          rw [ha] at h
          simp only [] at h
          cases hb : atoi (fieldOf record "status") with
          | none => rw [hb] at h; simp at h
          | some s =>
            rw [hb] at h
            simp only [Except.ok.injEq] at h
            rw [← h]
            simp only []
            unfold atoi at ha
            cases hsg : atoiSigned (fieldOf record "version").data with
            | none => rw [hsg] at ha; simp at ha
            | some i =>
              rw [hsg] at ha
              simp only [] at ha
              split_ifs at ha with hr
              cases ha
              exact hr.1
    congr 1
    unfold wrapInt64
    omega
  · intro st table record hrec hne hbad
    have hlen : record.length ≠ 0 := fun h => hne (List.length_eq_zero.mp h)
    unfold getNextTableVersion GetLastLoad
    rw [hrec]
    simp only [hlen, if_false]
    cases hv : atoi (fieldOf record "version") with
    | none => rfl
    | some v =>
      rcases hbad with h | h
      · rw [hv] at h; cases h
      · simp only [h]
  · intro st tableName f1 f2 a1 b1 a2 b2 st2 st3 hnone h1 h2
    obtain ⟨t1, ht1⟩ := BulkLoad_loadTable E st tableName f1 "csv" a1 b1 st2 h1
    obtain ⟨t2, ht2⟩ := BulkLoad_loadTable E st2 tableName f2 "csv" a2 b2 st3 h2
    obtain ⟨t10, hn10, hn1, hv1⟩ := loadTable_parts E st tableName t1 ht1
    obtain ⟨t20, hn20, hn2, hv2⟩ := loadTable_parts E st2 tableName t2 ht2
    have hver1 : t1.Version = 0 := by
      have hk : st (t10.formatLastLoadKey E) = none := by
        unfold Table.formatLastLoadKey; rw [hn10]; exact hnone
      rw [hfresh st t10 hk] at hv1
      exact (Except.ok.inj hv1).symm
    refine ⟨t1, t2, ht1, hver1, ht2, ?_⟩
    -- the record the first load left
    obtain ⟨_, _, hr1, hr2⟩ := loadTable_ok E st tableName t1 ht1
    obtain ⟨st1, cmds, _, hhash, hcases⟩ := BulkLoad_shape E st tableName f1 "csv" a1 b1 t1 ht1
    have hsucc := (updateLastLoad_read E (Exec E cmds st1).1 t1
      { Version := t1.Version, Status := LoadSuccess, StartTime := a1, EndTime := b1 }
      (Or.inr hhash) ⟨hr1, hr2⟩ ⟨by simp [LoadSuccess], by simp [LoadSuccess]⟩).2.1
    have hlast : GetLastLoad E st2 t20 = .ok
        { Version := t1.Version, Status := LoadSuccess, StartTime := a1, EndTime := b1 } := by
      rw [GetLastLoad_name E st2 t20 t1 (by rw [hn20, hn1])]
      rcases hcases with ⟨⟨e, he⟩, _, _⟩ | ⟨_, hstore, _⟩
      · rw [h1] at he; cases he
      · rw [h1] at hstore
        simp only [] at hstore
        rw [hstore]
        exact hsucc
    rw [hnext st2 t20 _ hlast (by simp [LoadSuccess, LoadRunning]), hver1] at hv2
    have := (Except.ok.inj hv2).symm
    rw [this]
    show wrapInt64 (0 + 1) = 1
    decide

/-- C16 (witness): two loads of the demo CSV, one after the other, on the
store that holds the schema only. -/
theorem getNextTableVersion_contract_witness :
    ∃ t1 t2, loadTable demoEnv schemaStore "t" = .ok t1 ∧ t1.Version = 0 ∧
      loadTable demoEnv loadedStore "t" = .ok t2 ∧ t2.Version = 1 :=
  (getNextTableVersion_contract demoEnv).2.2.2.2 schemaStore "t" demoCsv demoCsv "t0" "t1" "t2" "t3"
    loadedStore (BulkLoad demoEnv loadedStore "t" demoCsv "csv" "t2" "t3").1 (by decide)
    demo_loaded.hload (Prod.ext rfl (by decide))

/-- C16 (counterexample): a stored last load with the version 2^63 - 1 and
status Success, for which getNextTableVersion returns -2^63, not 2^63; and a
stored last-load record with status Success whose version field is no number,
for which getNextTableVersion returns the error of the conversion and no
version. -/
theorem getNextTableVersion_wrap_counterexample :
    (GetLastLoad demoEnv maxVersionStore demoTable = .ok
      { Version := 9223372036854775807, Status := LoadSuccess, StartTime := "a",
        EndTime := "b" } ∧
     getNextTableVersion demoEnv maxVersionStore demoTable = .ok (-9223372036854775808)) ∧
    (HGetAll unreadableLoadStore (demoTable.formatLastLoadKey demoEnv) = .ok
      [("version", "x"), ("status", "1"), ("starttime", "a"), ("endtime", "b")] ∧
     getNextTableVersion demoEnv unreadableLoadStore demoTable
       = .error (Err.lib "strconv.Atoi: invalid syntax")) := by
  decide

/-! ## A value of a sortable column that is no number -/

/-- C19 (the code at the failing input): the value `abc` of the sortable
column `n` does not parse as a number; csvToPipe queues the commands of the
row without error, BulkLoad returns no error, the record is stored and is a
member of filter(n, abc), and the sortable set of `n` has no member. -/
theorem BulkLoad_unparsable_value_accepted :
    demoEnv.parseFloat "abc" = none ∧
    demoSchema.isSortable "n" = .ok true ∧
    csvToPipe demoEnv [["name", "n"], ["a", "abc"]] demoTable = .ok
      [Cmd.SAdd "rdb:t:0:name:a" "rdb:t:0:0", Cmd.SAdd "rdb:t:0:n:abc" "rdb:t:0:0",
        Cmd.HSet "rdb:t:0:0" [("name", "a"), ("n", "abc")],
        Cmd.ZAdd "rdb:t:0:all" 0 "rdb:t:0:0"] ∧
    (BulkLoad demoEnv schemaStore "t" [["name", "n"], ["a", "abc"]] "csv" "t0" "t1").2 = none ∧
    HGetAll (BulkLoad demoEnv schemaStore "t" [["name", "n"], ["a", "abc"]] "csv" "t0" "t1").1
      "rdb:t:0:0" = .ok [("name", "a"), ("n", "abc")] ∧
    SIsMember (BulkLoad demoEnv schemaStore "t" [["name", "n"], ["a", "abc"]] "csv" "t0" "t1").1
      "rdb:t:0:n:abc" "rdb:t:0:0" = .ok true ∧
    ZCard (BulkLoad demoEnv schemaStore "t" [["name", "n"], ["a", "abc"]] "csv" "t0" "t1").1
      "rdb:t:0:n" = .ok 0 := by
  decide

/-! ## Keys of two versions of a table -/

theorem itoa_no_colon (i : Int) : ':' ∉ (itoa i).data := by
  unfold itoa
  by_cases hneg : i < 0
  · simp only [hneg, if_true]
    have hd : ("-" ++ Nat.repr i.natAbs).data = '-' :: (Nat.repr i.natAbs).data := rfl
    rw [hd]
    intro hm
    rcases List.mem_cons.mp hm with h | h
    · revert h; decide
    · have := (repr_spec i.natAbs).2.1 ':' h
      revert this; decide
  · simp only [hneg, if_false]
    intro hm
    have := (repr_spec i.toNat).2.1 ':' hm
    revert this; decide

theorem itoa_injective (a b : Int) (h : itoa a = itoa b) : a = b := by
  unfold itoa at h
  have hdash : ∀ n : Nat, '-' ∉ (Nat.repr n).data := by
    intro n hm
    have := (repr_spec n).2.1 '-' hm
    revert this; decide
  by_cases ha : a < 0 <;> by_cases hb : b < 0
  · simp only [ha, hb, if_true] at h
    have := repr_injective _ _ (str_append_left_cancel "-" _ _ h)
    omega
  · simp only [ha, hb, if_true, if_false] at h
    exfalso
    apply hdash b.toNat
    rw [← h]
    exact List.mem_cons_self _ _
  · simp only [ha, hb, if_true, if_false] at h
    exfalso
    apply hdash a.toNat
    rw [h]
    exact List.mem_cons_self _ _
  · simp only [ha, hb, if_false] at h
    have := repr_injective _ _ h
    omega

/-- Two keys under the key prefixes of two versions of one table differ,
whatever follows the prefix. -/
theorem formatKeyPrefix_version_ne (E : Env) (t1 t2 : Table) (hname : t1.Name = t2.Name)
    (hver : t1.Version ≠ t2.Version) (x1 x2 : String) :
    t1.formatKeyPrefix E ++ (":" ++ x1) ≠ t2.formatKeyPrefix E ++ (":" ++ x2) := by
  intro h
  unfold Table.formatKeyPrefix at h
  rw [hname] at h
  simp only [String.append_assoc] at h
  have h2 := (key_eq_iff _ _ _).mp ((key_eq_iff _ _ _).mp ((key_eq_iff _ _ _).mp
    ((key_eq_iff _ _ _).mp h)))
  have h3 := congrArg String.data h2
  simp only [String.data_append, colon_data] at h3
  obtain ⟨e1, _⟩ := split_first_colon _ _ _ _ (itoa_no_colon _) (itoa_no_colon _) h3
  exact hver (itoa_injective _ _ (String.ext e1))

/-- C24: for one prefix and one table name and two distinct versions, no
record key, filter key or sortable key of the first version (for any seq,
column and value) equals a record key, filter key or sortable key of the
second version. -/
theorem version_keyspaces_disjoint (E : Env) (name : String) (schema1 schema2 : Schema)
    (v1 v2 : Int) (seq1 seq2 : Int) (c1 x1 c2 x2 : String) :
    v1 ≠ v2 →
    (Table.formatRecordKey E ⟨schema1, v1, name⟩ seq1
        ≠ Table.formatRecordKey E ⟨schema2, v2, name⟩ seq2 ∧
      Table.formatRecordKey E ⟨schema1, v1, name⟩ seq1
        ≠ Table.formatFilterKey E ⟨schema2, v2, name⟩ c2 x2 ∧
      Table.formatRecordKey E ⟨schema1, v1, name⟩ seq1
        ≠ Table.formatSortableKey E ⟨schema2, v2, name⟩ c2) ∧
    (Table.formatFilterKey E ⟨schema1, v1, name⟩ c1 x1
        ≠ Table.formatRecordKey E ⟨schema2, v2, name⟩ seq2 ∧
      Table.formatFilterKey E ⟨schema1, v1, name⟩ c1 x1
        ≠ Table.formatFilterKey E ⟨schema2, v2, name⟩ c2 x2 ∧
      Table.formatFilterKey E ⟨schema1, v1, name⟩ c1 x1
        ≠ Table.formatSortableKey E ⟨schema2, v2, name⟩ c2) ∧
    (Table.formatSortableKey E ⟨schema1, v1, name⟩ c1
        ≠ Table.formatRecordKey E ⟨schema2, v2, name⟩ seq2 ∧
      Table.formatSortableKey E ⟨schema1, v1, name⟩ c1
        ≠ Table.formatFilterKey E ⟨schema2, v2, name⟩ c2 x2 ∧
      Table.formatSortableKey E ⟨schema1, v1, name⟩ c1
        ≠ Table.formatSortableKey E ⟨schema2, v2, name⟩ c2) := by
  intro hver
  have key := formatKeyPrefix_version_ne E ⟨schema1, v1, name⟩ ⟨schema2, v2, name⟩ rfl hver
  refine ⟨⟨?_, ?_, ?_⟩, ⟨?_, ?_, ?_⟩, ⟨?_, ?_, ?_⟩⟩
  · rw [formatRecordKey_eq, formatRecordKey_eq]; exact key _ _
  · rw [formatRecordKey_eq, formatFilterKey_eq]; exact key _ _
  · rw [formatRecordKey_eq, formatSortableKey_eq]; exact key _ _
  · rw [formatFilterKey_eq, formatRecordKey_eq]; exact key _ _
  · rw [formatFilterKey_eq, formatFilterKey_eq]; exact key _ _
  · rw [formatFilterKey_eq, formatSortableKey_eq]; exact key _ _
  · rw [formatSortableKey_eq, formatRecordKey_eq]; exact key _ _
  · rw [formatSortableKey_eq, formatFilterKey_eq]; exact key _ _
  · rw [formatSortableKey_eq, formatSortableKey_eq]; exact key _ _

/-- C24 (witness): versions 1 and 12 of the demo table, whose decimal texts
begin alike. -/
theorem version_keyspaces_disjoint_witness :
    (Table.formatRecordKey demoEnv ⟨demoSchema, 1, "t"⟩ 20
        ≠ Table.formatRecordKey demoEnv ⟨demoSchema, 12, "t"⟩ 0 ∧
      Table.formatRecordKey demoEnv ⟨demoSchema, 1, "t"⟩ 20
        ≠ Table.formatFilterKey demoEnv ⟨demoSchema, 12, "t"⟩ "n" "5" ∧
      Table.formatRecordKey demoEnv ⟨demoSchema, 1, "t"⟩ 20
        ≠ Table.formatSortableKey demoEnv ⟨demoSchema, 12, "t"⟩ "n") ∧
    (Table.formatFilterKey demoEnv ⟨demoSchema, 1, "t"⟩ "2" "n"
        ≠ Table.formatRecordKey demoEnv ⟨demoSchema, 12, "t"⟩ 0 ∧
      Table.formatFilterKey demoEnv ⟨demoSchema, 1, "t"⟩ "2" "n"
        ≠ Table.formatFilterKey demoEnv ⟨demoSchema, 12, "t"⟩ "n" "5" ∧
      Table.formatFilterKey demoEnv ⟨demoSchema, 1, "t"⟩ "2" "n"
        ≠ Table.formatSortableKey demoEnv ⟨demoSchema, 12, "t"⟩ "n") ∧
    (Table.formatSortableKey demoEnv ⟨demoSchema, 1, "t"⟩ "2"
        ≠ Table.formatRecordKey demoEnv ⟨demoSchema, 12, "t"⟩ 0 ∧
      Table.formatSortableKey demoEnv ⟨demoSchema, 1, "t"⟩ "2"
        ≠ Table.formatFilterKey demoEnv ⟨demoSchema, 12, "t"⟩ "n" "5" ∧
      Table.formatSortableKey demoEnv ⟨demoSchema, 1, "t"⟩ "2"
        ≠ Table.formatSortableKey demoEnv ⟨demoSchema, 12, "t"⟩ "n") :=
  version_keyspaces_disjoint demoEnv "t" demoSchema demoSchema 1 12 20 0 "2" "n" "n" "5"
    (by decide)

/-! ## The last-load record read back -/

/-- C21 (as amended): on a store whose last-load key of the table holds
nothing or a hash, updateLastLoad of a Load with a 64-bit version, status
Failed, Success or Running and any start and end time returns no error, and
GetLastLoad then returns that Load; on a store with nothing under the
last-load key GetLastLoad returns ErrNil. -/
theorem updateLastLoad_then_GetLastLoad (E : Env) (st : Store) (table : Table)
    (hkey : st (table.formatLastLoadKey E) = none ∨
      ∃ h0, st (table.formatLastLoadKey E) = some (.hash h0)) :
    (∀ l : Load, (- (2 : Int) ^ 63 ≤ l.Version ∧ l.Version < (2 : Int) ^ 63) →
      (l.Status = LoadFailed ∨ l.Status = LoadSuccess ∨ l.Status = LoadRunning) →
        (updateLastLoad E st table l).2 = none ∧
        GetLastLoad E (updateLastLoad E st table l).1 table = .ok l) ∧
    (st (table.formatLastLoadKey E) = none → GetLastLoad E st table = .error Err.ErrNil) := by
  refine ⟨?_, ?_⟩
  · intro l hver hstatus
    have hs : - (2 : Int) ^ 63 ≤ l.Status ∧ l.Status < (2 : Int) ^ 63 := by
      rcases hstatus with h | h | h
      · rw [h]; simp [LoadFailed]
      · rw [h]; simp [LoadSuccess]
      · rw [h]; simp [LoadRunning]
    obtain ⟨h1, h2, _, _⟩ := updateLastLoad_read E st table l hkey hver hs
    exact ⟨h1, h2⟩
  · intro hnone
    unfold GetLastLoad HGetAll
    rw [hnone]
    simp

/-- C21 (witness): the Running record of version 3 written over the last-load
record of the loaded demo table. -/
theorem updateLastLoad_then_GetLastLoad_witness :
    (updateLastLoad demoEnv loadedStore demoTable
        { Version := 3, Status := LoadRunning, StartTime := "s", EndTime := "" }).2 = none ∧
      GetLastLoad demoEnv (updateLastLoad demoEnv loadedStore demoTable
        { Version := 3, Status := LoadRunning, StartTime := "s", EndTime := "" }).1 demoTable
        = .ok { Version := 3, Status := LoadRunning, StartTime := "s", EndTime := "" } :=
  (updateLastLoad_then_GetLastLoad demoEnv loadedStore demoTable
    (Or.inr ⟨[("version", "0"), ("status", "1"), ("starttime", "t0"), ("endtime", "t1")],
      by decide⟩)).1
    { Version := 3, Status := LoadRunning, StartTime := "s", EndTime := "" }
    (by decide) (Or.inr (Or.inr rfl))

/-- C21 (counterexample): the bulk load of a CSV with the value `lastload` in
the column `name` of table `t` succeeds and stores a set under the key
`rdb:t:0:name:lastload`, which is the last-load key of the table named
`t:0:name`. On that store no last-load record of the table `t:0:name` was
ever written, yet GetLastLoad returns the engine's type error and not ErrNil,
updateLastLoad of the Running record of version 0 returns that error, and
GetLastLoad after it returns the error again. -/
theorem updateLastLoad_wrong_type_counterexample :
    (BulkLoad demoEnv schemaStore "t" lastloadCsv "csv" "t0" "t1").2 = none ∧
    nameTable.formatLastLoadKey demoEnv = demoTable.formatFilterKey demoEnv "name" "lastload" ∧
    lastloadStore (nameTable.formatLastLoadKey demoEnv) = some (.set ["rdb:t:0:0"]) ∧
    GetLastLoad demoEnv lastloadStore nameTable = .error wrongType ∧
    (updateLastLoad demoEnv lastloadStore nameTable
      { Version := 0, Status := LoadRunning, StartTime := "s", EndTime := "" }).2
        = some wrongType ∧
    GetLastLoad demoEnv (updateLastLoad demoEnv lastloadStore nameTable
      { Version := 0, Status := LoadRunning, StartTime := "s", EndTime := "" }).1 nameTable
        = .error wrongType := by
  decide

/-! ## Union-store keys of two filters -/

theorem split_first_char (c : Char) (a a2 b b2 : List Char) (ha : c ∉ a) (ha2 : c ∉ a2)
    (h : a ++ c :: b = a2 ++ c :: b2) : a = a2 ∧ b = b2 := by
  induction a generalizing a2 with
  | nil =>
    cases a2 with
    | nil => simpa using h
    | cons x xs =>
      simp only [List.nil_append, List.cons_append, List.cons.injEq] at h
      exact absurd (h.1 ▸ List.mem_cons_self _ _) ha2
  | cons y ys ih =>
    cases a2 with
    | nil =>
      simp only [List.nil_append, List.cons_append, List.cons.injEq] at h
      exact absurd (h.1 ▸ List.mem_cons_self _ _) ha
    | cons x xs =>
      simp only [List.cons_append, List.cons.injEq] at h
      obtain ⟨e1, e2⟩ := ih xs (fun hm => ha (List.mem_cons_of_mem _ hm))
        (fun hm => ha2 (List.mem_cons_of_mem _ hm)) h.2
      exact ⟨by rw [h.1, e1], e2⟩

/-- The characters `formatUnionStoreKey` appends for a value list. -/
theorem foldl_wrap_data (l : List String) (init : String) :
    (l.foldl (fun key v => key ++ ("_" ++ v ++ "_")) init).data
      = init.data ++ l.flatMap (fun v => '_' :: (v.data ++ ['_'])) := by
  induction l generalizing init with
  | nil => simp
  | cons v vs ih =>
    rw [List.foldl_cons, ih]
    have : ("_" ++ v ++ "_").data = '_' :: (v.data ++ ['_']) := by
      simp only [String.data_append]
      rfl
    simp only [String.data_append, this, List.flatMap_cons, List.append_assoc]

theorem wrapped_values_inj (vs ws : List String) (hv : ∀ v ∈ vs, '_' ∉ v.data)
    (hw : ∀ w ∈ ws, '_' ∉ w.data)
    (h : vs.flatMap (fun v => '_' :: (v.data ++ ['_']))
      = ws.flatMap (fun v => '_' :: (v.data ++ ['_']))) : vs = ws := by
  induction vs generalizing ws with
  | nil =>
    cases ws with
    | nil => rfl
    | cons w ws => simp at h
  | cons v vs ih =>
    cases ws with
    | nil => simp at h
    | cons w ws =>
      simp only [List.flatMap_cons, List.cons_append, List.cons.injEq, true_and,
        List.append_assoc, List.singleton_append] at h
      obtain ⟨e1, e2⟩ := split_first_char '_' _ _ _ _ (hv v (List.mem_cons_self _ _))
        (hw w (List.mem_cons_self _ _)) h
      rw [String.ext e1, ih ws (fun x hx => hv x (List.mem_cons_of_mem _ hx))
        (fun x hx => hw x (List.mem_cons_of_mem _ hx)) e2]

/-- Union-store keys of two filters of one planner invocation (one table, one
token t): the operator is no part of the key; two filters whose columns and
values hold no underscore get the same key only if they have the same column
and the same value list; and the union stored for one filter is left as it is
by the step of a filter with another union-store key. -/
theorem formatUnionStoreKey_eq_iff (E : Env) (table : Table) (t : String) (f1 f2 : Filter)
    (h1 : UnderscoreFree f1) (h2 : UnderscoreFree f2) :
    (f1.Col = f2.Col → f1.Val = f2.Val →
      table.formatUnionStoreKey E f1.Col f1.Val t = table.formatUnionStoreKey E f2.Col f2.Val t) ∧
    (table.formatUnionStoreKey E f1.Col f1.Val t = table.formatUnionStoreKey E f2.Col f2.Val t →
      f1.Col = f2.Col ∧ f1.Val = f2.Val) ∧
    (table.formatUnionStoreKey E f1.Col f1.Val t ≠ table.formatUnionStoreKey E f2.Col f2.Val t →
      ∀ st uks, (addFilterUnionKey E st table uks t f2).1
          (table.formatUnionStoreKey E f1.Col f1.Val t)
        = st (table.formatUnionStoreKey E f1.Col f1.Val t)) := by
  refine ⟨fun e1 e2 => by rw [e1, e2], ?_, ?_⟩
  · intro h
    have hd := congrArg String.data h
    unfold Table.formatUnionStoreKey at hd
    simp only [String.data_append, foldl_wrap_data, List.append_assoc] at hd
    have hd2 := List.append_cancel_left hd
    have hd3 : f1.Col.data ++ f1.Val.flatMap (fun v => '_' :: (v.data ++ ['_']))
        = f2.Col.data ++ f2.Val.flatMap (fun v => '_' :: (v.data ++ ['_'])) := by
      have := List.append_cancel_left hd2
      have e : (f1.Col.data ++ f1.Val.flatMap (fun v => '_' :: (v.data ++ ['_'])))
            ++ ([':'] ++ t.data)
          = (f2.Col.data ++ f2.Val.flatMap (fun v => '_' :: (v.data ++ ['_'])))
            ++ ([':'] ++ t.data) := by
        simpa only [List.append_assoc] using this
      exact List.append_cancel_right e
    have hcol : f1.Col.data = f2.Col.data ∧
        f1.Val.flatMap (fun v => '_' :: (v.data ++ ['_']))
          = f2.Val.flatMap (fun v => '_' :: (v.data ++ ['_'])) := by
      cases hv1 : f1.Val with
      | nil =>
        cases hv2 : f2.Val with
        | nil =>
          rw [hv1, hv2] at hd3
          simpa using hd3
        | cons w ws =>
          rw [hv1, hv2] at hd3
          exfalso
          apply h1.1
          simp only [List.flatMap_nil, List.append_nil, List.flatMap_cons] at hd3
          rw [hd3]
          simp
      | cons v vs =>
        cases hv2 : f2.Val with
        | nil =>
          rw [hv1, hv2] at hd3
          exfalso
          apply h2.1
          simp only [List.flatMap_nil, List.append_nil, List.flatMap_cons] at hd3
          rw [← hd3]
          simp
        | cons w ws =>
          rw [hv1, hv2] at hd3
          simp only [List.flatMap_cons, List.cons_append] at hd3
          obtain ⟨e1, e2⟩ := split_first_char '_' _ _ _ _ h1.1 h2.1 hd3
          refine ⟨e1, ?_⟩
          simp only [List.flatMap_cons, List.cons_append, e2]
    refine ⟨String.ext hcol.1, wrapped_values_inj _ _ h1.2 h2.2 hcol.2⟩
  · intro hne st uks
    exact addFilterUnionKey_frame E st table uks t f2 _ (fun e => hne e.symm)

/-- The filters `name eq a` and `n gte 7` of the demo table have different
union-store keys. -/
theorem formatUnionStoreKey_eq_iff_witness :
    demoTable.formatUnionStoreKey demoEnv "name" ["a"] "T"
      ≠ demoTable.formatUnionStoreKey demoEnv "n" ["7"] "T" :=
  fun h => absurd
    ((formatUnionStoreKey_eq_iff demoEnv demoTable "T" ⟨"name", FilterOp.EqualTo, ["a"]⟩
      ⟨"n", FilterOp.GreaterThanOrEqual, ["7"]⟩ ⟨by decide, by decide⟩ ⟨by decide, by decide⟩).2.1
      h).1 (by decide)

/-- The value lists `a__b` and `a`, `b` of one column have the same
union-store key: the values are joined without escaping. -/
theorem formatUnionStoreKey_value_list_clash :
    demoTable.formatUnionStoreKey demoEnv "name" ["a__b"] "T"
      = demoTable.formatUnionStoreKey demoEnv "name" ["a", "b"] "T" := by
  decide

/-- C30 (the code at the failing input): the filters `n gte 7` and `n lte 7`
of one query differ in the operator and get the same union-store key from
formatUnionStoreKey; the step of the first stores the records of seq 1 and 2
under it, and the step of the second replaces them by the records of seq 0
and 1. -/
theorem formatUnionStoreKey_ignores_operator :
    demoTable.formatUnionStoreKey demoEnv "n" ["7"] "T" = "rdb:t:0:unionstore:n_7_:T" ∧
    readSet (addFilterUnionKey demoEnv loadedStore demoTable [] "T"
        ⟨"n", FilterOp.GreaterThanOrEqual, ["7"]⟩).1 "rdb:t:0:unionstore:n_7_:T"
      = .ok ["rdb:t:0:1", "rdb:t:0:2"] ∧
    readSet (addFilterUnionKey demoEnv
        (addFilterUnionKey demoEnv loadedStore demoTable [] "T"
          ⟨"n", FilterOp.GreaterThanOrEqual, ["7"]⟩).1 demoTable
        ["rdb:t:0:unionstore:n_7_:T"] "T" ⟨"n", FilterOp.LessThanOrEqual, ["7"]⟩).1
        "rdb:t:0:unionstore:n_7_:T"
      = .ok ["rdb:t:0:0", "rdb:t:0:1"] := by
  decide

/-! ## Bulk updates the code lets through -/

/-- C22 (the code at the failing input): the update of the column `zzz`, which
the demo schema does not have, passes query validation; validateUpdateValues
would reject it and updateRecords returns the error of isFilterable, yet
UpdateData returns no error. The store is left as it was. -/
theorem UpdateData_unknown_column_accepted :
    (getTable demoEnv loadedStore "t").1.Schema = demoSchema ∧
    validateUpdateValues demoSchema [("zzz", "1")] = some (Err.msg "column zzz not found") ∧
    demoSchema.validateQuery (mkUpdate "zzz" "1") = none ∧
    (getRecordKeys demoEnv loadedStore demoTable (mkUpdate "zzz" "1") "T").2
      = .ok (["rdb:t:0:0", "rdb:t:0:1", "rdb:t:0:2"],
          { Count := 3, Offset := 0, Limit := 0, Total := 3 }) ∧
    (updateRecords demoEnv loadedStore demoTable ["rdb:t:0:0", "rdb:t:0:1", "rdb:t:0:2"]
      [("zzz", "1")]).2 = some (Err.msg "column zzz not found in schema") ∧
    (UpdateData demoEnv loadedStore "t" (mkUpdate "zzz" "1") "T").2 = none ∧
    (UpdateData demoEnv loadedStore "t" (mkUpdate "zzz" "1") "T").1 = loadedStore :=
  ⟨by decide, by decide, by decide, by decide, by decide, by decide, rfl⟩

/-- C23 (the code at the failing input): the bulk update `name := z` with no
filter and limit 1 is valid and returns no error; of the three records of the
loaded demo table only the first receives the update. -/
theorem UpdateData_limit_applies :
    demoSchema.validateQuery
      { Filters := [], SearchTerm := "", Limit := 1, Offset := 0, Updates := [("name", "z")] }
      = none ∧
    (UpdateData demoEnv loadedStore "t"
      { Filters := [], SearchTerm := "", Limit := 1, Offset := 0, Updates := [("name", "z")] }
      "T").2 = none ∧
    HGetAll (UpdateData demoEnv loadedStore "t"
      { Filters := [], SearchTerm := "", Limit := 1, Offset := 0, Updates := [("name", "z")] }
      "T").1 "rdb:t:0:0" = .ok [("name", "z"), ("n", "5")] ∧
    HGetAll (UpdateData demoEnv loadedStore "t"
      { Filters := [], SearchTerm := "", Limit := 1, Offset := 0, Updates := [("name", "z")] }
      "T").1 "rdb:t:0:1" = .ok [("name", "b"), ("n", "7")] ∧
    HGetAll (UpdateData demoEnv loadedStore "t"
      { Filters := [], SearchTerm := "", Limit := 1, Offset := 0, Updates := [("name", "z")] }
      "T").1 "rdb:t:0:2" = .ok [("name", "a"), ("n", "10")] := by
  decide

/-- C28 (the code at the failing input): the bulk update `n := 1` of the
records with `name eq zzz` passes validation; no record has that name, the
planner returns ErrNil and no key list, and UpdateData goes on to dereference
the key list: a run-time panic. -/
theorem UpdateData_panics_on_empty_union :
    demoSchema.validateQuery
      { Filters := [⟨"name", FilterOp.EqualTo, ["zzz"]⟩], SearchTerm := "", Limit := 0,
        Offset := 0, Updates := [("n", "1")] } = none ∧
    (getRecordKeys demoEnv loadedStore demoTable
      { Filters := [⟨"name", FilterOp.EqualTo, ["zzz"]⟩], SearchTerm := "", Limit := 0,
        Offset := 0, Updates := [("n", "1")] } "T").2 = .error Err.ErrNil ∧
    (UpdateData demoEnv loadedStore "t"
      { Filters := [⟨"name", FilterOp.EqualTo, ["zzz"]⟩], SearchTerm := "", Limit := 0,
        Offset := 0, Updates := [("n", "1")] } "T").2
      = some (Err.panic "invalid memory address or nil pointer dereference") := by
  decide

/-! ## The key of the all-schemas set -/

/-- C25 (the code at the failing input): with the prefix `app` the schema of
table `t` is written under `app:t:schema`, and its key is added to the set
`rdb:schemas`; no key `app:schemas` exists afterwards, and GetAllSchemas finds
the schema through `rdb:schemas`. -/
theorem AddSchema_allSchemasKey_ignores_prefix :
    appEnv.Prefix = "app" ∧
    allSchemasKey ≠ appEnv.Prefix ++ ":schemas" ∧
    (AddSchema appEnv blankStore demoSchema).2 = none ∧
    Get (AddSchema appEnv blankStore demoSchema).1 "app:t:schema" = .ok "demo-schema" ∧
    readSet (AddSchema appEnv blankStore demoSchema).1 "rdb:schemas" = .ok ["app:t:schema"] ∧
    (AddSchema appEnv blankStore demoSchema).1 "app:schemas" = none ∧
    GetAllSchemas appEnv (AddSchema appEnv blankStore demoSchema).1 = .ok [demoSchema] := by
  decide

/-! ## Index cleanup of one record -/

/-- C26 (the code at the failing input): the records of seq 0 and seq 1 both
hold 5 in the sortable column `n`. Before the cleanup of record 0 the range
filter `n gte 5` selects both; after it record 1 is still stored with `n = 5`
and is still a member of filter(n, 5), but filter(n, 5) is no member of
sortable(n) any more, and the range filter `n gte 5` selects nothing. -/
theorem deleteRecords_drops_shared_sortable_entry :
    (getRecordKeys demoEnv sharedValueStore demoTable
      (mkQuery [⟨"n", FilterOp.GreaterThanOrEqual, ["5"]⟩] 0 0) "T").2
      = .ok (["rdb:t:0:0", "rdb:t:0:1"], { Count := 2, Offset := 0, Limit := 0, Total := 2 }) ∧
    (deleteRecords demoEnv sharedValueStore demoTable ["name", "n"] [("name", "a"), ("n", "5")]
      "rdb:t:0:0").2 = none ∧
    HGetAll cleanedStore "rdb:t:0:1" = .ok [("name", "b"), ("n", "5")] ∧
    ZRange cleanedStore "rdb:t:0:all" 0 (-1) = .ok ["rdb:t:0:1"] ∧
    SIsMember cleanedStore "rdb:t:0:n:5" "rdb:t:0:1" = .ok true ∧
    readZSet cleanedStore "rdb:t:0:n" = .ok [] ∧
    (getRecordKeys demoEnv cleanedStore demoTable
      (mkQuery [⟨"n", FilterOp.GreaterThanOrEqual, ["5"]⟩] 0 0) "T").2 = .error Err.ErrNil :=
  ⟨by decide!, by decide, by decide, by decide, by decide, by decide, by decide⟩

/-! ## Members of a sorted set after a pipeline -/

theorem applyTo_zset_members (M : String → Prop) (c : Cmd) (v : Option RVal)
    (h0 : ∀ z, v = some (.zset z) → ∀ p ∈ z, M p.1)
    (h : ∀ k sc m, c = Cmd.ZAdd k sc m → M m) :
    ∀ z, c.applyTo v = some (.zset z) → ∀ p ∈ z, M p.1 := by
  intro z hz p hp
  cases c with
  | SAdd k m =>
    cases v with
    | none => simp [Cmd.applyTo, Cmd.onValue] at hz
    | some w =>
      cases w with
      | set s => simp [Cmd.applyTo, Cmd.onValue] at hz
      | zset z0 =>
        simp only [Cmd.applyTo, Cmd.onValue] at hz
        exact h0 z hz p hp
      | str _ => simp [Cmd.applyTo, Cmd.onValue] at hz
      | hash _ => simp [Cmd.applyTo, Cmd.onValue] at hz
  | SRem k m =>
    cases v with
    | none => simp [Cmd.applyTo, Cmd.onValue] at hz
    | some w =>
      cases w with
      | set s =>
        simp only [Cmd.applyTo, Cmd.onValue, setVal] at hz
        split_ifs at hz
        cases hz
      | zset z0 =>
        simp only [Cmd.applyTo, Cmd.onValue] at hz
        exact h0 z hz p hp
      | str _ => simp [Cmd.applyTo, Cmd.onValue] at hz
      | hash _ => simp [Cmd.applyTo, Cmd.onValue] at hz
  | ZAdd k sc m =>
    cases v with
    | none =>
      simp only [Cmd.applyTo, Cmd.onValue, Option.some.injEq, RVal.zset.injEq] at hz
      subst hz
      simp only [List.mem_singleton] at hp
      subst hp
      exact h k sc m rfl
    | some w =>
      cases w with
      | zset z0 =>
        simp only [Cmd.applyTo, Cmd.onValue, Option.some.injEq, RVal.zset.injEq] at hz
        subst hz
        rcases assocSet_mem z0 m sc p hp with h1 | h1
        · exact h0 z0 rfl p h1
        · subst h1; exact h k sc m rfl
      | set s => simp [Cmd.applyTo, Cmd.onValue] at hz
      | str _ => simp [Cmd.applyTo, Cmd.onValue] at hz
      | hash _ => simp [Cmd.applyTo, Cmd.onValue] at hz
  | HSet k fvs =>
    simp only [Cmd.applyTo, Cmd.onValue] at hz
    split_ifs at hz with hf
    · exact h0 z hz p hp
    · cases v with
      | none => simp at hz
      | some w =>
        cases w with
        | zset z0 =>
          simp only [] at hz
          exact h0 z hz p hp
        | set s => simp at hz
        | str _ => simp at hz
        | hash _ => simp at hz
  | Set k value => simp [Cmd.applyTo, Cmd.onValue] at hz
  | Do args =>
    simp only [Cmd.applyTo, Cmd.onValue] at hz
    exact h0 z hz p hp

/-- The members of a sorted set after a pipeline are those it had and those
the `ZADD` commands of the pipeline on its key name. -/
theorem Exec_zset_members (E : Env) (K : String) (M : String → Prop) (cs : List Cmd)
    (st : Store) (h0 : ∀ z, st K = some (.zset z) → ∀ p ∈ z, M p.1)
    (h : ∀ sc m, Cmd.ZAdd K sc m ∈ cs → M m) :
    ∀ z, (Exec E cs st).1 K = some (.zset z) → ∀ p ∈ z, M p.1 := by
  induction cs generalizing st with
  | nil => exact h0
  | cons c cs ih =>
    rw [Exec_cons_at]
    apply ih
    · rw [run_at]
      by_cases hk : c.key = K
      · rw [if_pos hk]
        apply applyTo_zset_members M c (st K) h0
        intro k sc m hc
        subst hc
        simp only [Cmd.key] at hk
        subst hk
        exact h sc m (List.mem_cons_self _ _)
      · rw [if_neg hk]
        exact h0
    · intro sc m hm
      exact h sc m (List.mem_cons_of_mem _ hm)

/-! ## Members the commands of an ingest add to sorted sets -/

theorem recordFields_zadd (E : Env) (table : Table) (seq : Int) (headerMap : List String)
    (schemaMap : List (String × Nat)) (row : List String) (i : Nat) (cmds : List Cmd)
    (vals : List (String × String))
    (h : recordFields E table (table.formatRecordKey E seq) headerMap schemaMap row i
      = .ok (cmds, vals)) :
    ∀ k sc m, Cmd.ZAdd k sc m ∈ cmds → ∃ s, m = table.formatKeyPrefix E ++ (":" ++ s) := by
  induction row generalizing i cmds vals with
  | nil =>
    simp only [recordFields, Except.ok.injEq, Prod.mk.injEq] at h
    intro k sc m hcmd
    rw [← h.1] at hcmd
    cases hcmd
  | cons val rest ih =>
    simp only [recordFields] at h
    cases hc : table.Schema.Columns.get? ((assocGet schemaMap (headerMap.getD i "")).getD 0) with
    | none => rw [hc] at h; simp at h
    | some c =>
      rw [hc] at h
      simp only [] at h
      cases hr : recordFields E table (table.formatRecordKey E seq) headerMap schemaMap rest
          (i + 1) with
      | error e => rw [hr] at h; simp at h
      | ok r =>
        rcases r with ⟨more, vs⟩
        rw [hr] at h
        simp only [Except.ok.injEq, Prod.mk.injEq] at h
        intro k sc m hcmd
        rw [← h.1] at hcmd
        rcases List.mem_append.mp hcmd with h1 | h1
        · rcases (mem_fieldCmds E table _ _ _ c _).mp h1 with ⟨_, h2 | ⟨_, x, _, h2⟩⟩
          · cases h2
          · simp only [Cmd.ZAdd.injEq] at h2
            exact ⟨_, h2.2.2.trans (formatFilterKey_eq E table _ _)⟩
        · exact ih (i + 1) more vs hr k sc m h1

theorem recordToPipe_zadd (E : Env) (table : Table) (row : List String) (seq : Int)
    (headerMap : List String) (schemaMap : List (String × Nat)) (cmds : List Cmd)
    (h : recordToPipe E table row seq headerMap schemaMap = .ok cmds) :
    ∀ k sc m, Cmd.ZAdd k sc m ∈ cmds → ∃ s, m = table.formatKeyPrefix E ++ (":" ++ s) := by
  unfold recordToPipe at h
  cases hr : recordFields E table (table.formatRecordKey E seq) headerMap schemaMap row 0 with
  | error e => rw [hr] at h; simp at h
  | ok r =>
    rcases r with ⟨more, vs⟩
    rw [hr] at h
    simp only [Except.ok.injEq] at h
    intro k sc m hcmd
    rw [← h] at hcmd
    simp only [List.mem_append, List.mem_cons, List.mem_singleton, List.not_mem_nil,
      or_false] at hcmd
    rcases hcmd with h1 | h1 | h1
    · exact recordFields_zadd E table seq headerMap schemaMap row 0 more vs hr k sc m h1
    · cases h1
    · simp only [Cmd.ZAdd.injEq] at h1
      exact ⟨_, h1.2.2.trans (formatRecordKey_eq E table seq)⟩

theorem csvRows_zadd (E : Env) (table : Table) (headerMap : List String)
    (schemaMap : List (String × Nat)) (n : Nat) (rows : List (List String)) (seq : Int)
    (pipe : List Cmd) (h : csvRows E table headerMap schemaMap n rows seq = .ok pipe) :
    ∀ k sc m, Cmd.ZAdd k sc m ∈ pipe → ∃ s, m = table.formatKeyPrefix E ++ (":" ++ s) := by
  induction rows generalizing seq pipe with
  | nil =>
    simp only [csvRows, Except.ok.injEq] at h
    intro k sc m hcmd
    rw [← h] at hcmd
    cases hcmd
  | cons row rest ih =>
    simp only [csvRows] at h
    split_ifs at h with hlen
    cases hr : recordToPipe E table row seq headerMap schemaMap with
    | error e => rw [hr] at h; simp at h
    | ok cmds =>
      rw [hr] at h
      simp only [] at h
      cases hrest : csvRows E table headerMap schemaMap n rest (seq + 1) with
      | error e => rw [hrest] at h; simp at h
      | ok more =>
        rw [hrest] at h
        simp only [Except.ok.injEq] at h
        intro k sc m hcmd
        rw [← h] at hcmd
        rcases List.mem_append.mp hcmd with h1 | h1
        · exact recordToPipe_zadd E table row seq headerMap schemaMap cmds hr k sc m h1
        · exact ih (seq + 1) more hrest k sc m h1

/-- Every member an ingest adds to a sorted set is a key of the version of the
table: a record key or a filter key. -/
theorem csvToPipe_zadd (E : Env) (f : List (List String)) (table : Table) (pipe : List Cmd)
    (h : csvToPipe E f table = .ok pipe) :
    ∀ k sc m, Cmd.ZAdd k sc m ∈ pipe → ∃ s, m = table.formatKeyPrefix E ++ (":" ++ s) := by
  unfold csvToPipe at h
  rcases hp : parseCSVHeader (csvRecords f) table.Schema with ⟨hm, sm, err⟩
  rw [hp] at h
  cases err with
  | some e => simp at h
  | none => exact csvRows_zadd E table hm sm hm.length _ 0 pipe h

/-! ## The table after a failed load -/

theorem GetLastLoad_version_range (E : Env) (st : Store) (table : Table) (load : Load)
    (h : GetLastLoad E st table = .ok load) :
    - (2 : Int) ^ 63 ≤ load.Version ∧ load.Version < (2 : Int) ^ 63 := by
  unfold GetLastLoad at h
  cases hg : HGetAll st (table.formatLastLoadKey E) with
  | error e => rw [hg] at h; simp at h
  | ok record =>
    rw [hg] at h
    simp only [] at h
    split_ifs at h
    cases ha : atoi (fieldOf record "version") with
    | none => rw [ha] at h; simp at h
    | some v =>
      rw [ha] at h
      simp only [] at h
      cases hb : atoi (fieldOf record "status") with
      | none => rw [hb] at h; simp at h
      | some s =>
        rw [hb] at h
        simp only [Except.ok.injEq] at h
        rw [← h]
        simp only []
        unfold atoi at ha
        cases hsg : atoiSigned (fieldOf record "version").data with
        | none => rw [hsg] at ha; simp at ha
        | some i =>
          rw [hsg] at ha
          simp only [] at ha
          split_ifs at ha with hr
          cases ha
          exact hr

/-- The store a failed bulk load leaves: the Failed record written over the
store after the commands that ran, which are none or those of the ingest. -/
theorem BulkLoad_failed_store (E : Env) (st : Store) (tableName : String)
    (f : List (List String)) (format starttime endtime : String) (table : Table) (e : Err)
    (htable : loadTable E st tableName = .ok table)
    (herr : (BulkLoad E st tableName f format starttime endtime).2 = some e) :
    ∃ st1 cmds,
      updateLastLoad E st table
        { Version := table.Version, Status := LoadRunning, StartTime := starttime,
          EndTime := "" } = (st1, none) ∧
      (BulkLoad E st tableName f format starttime endtime).1 =
        (updateLastLoad E (Exec E cmds st1).1 table
          { Version := table.Version, Status := LoadFailed, StartTime := starttime,
            EndTime := "" }).1 ∧
      (cmds = [] ∨ ∃ pipe, csvToPipe E f table = .ok pipe ∧
        cmds = if E.indexOnLoad = true then pipe ++ createIndexToPipe E table else pipe) := by
  obtain ⟨_, _, hv1, hv2⟩ := loadTable_ok E st tableName table htable
  have hkey := loadTable_lastKey E st tableName table htable
  obtain ⟨hr1, _, _, _⟩ := updateLastLoad_read E st table
    { Version := table.Version, Status := LoadRunning, StartTime := starttime, EndTime := "" }
    hkey ⟨hv1, hv2⟩ ⟨by simp [LoadRunning], by simp [LoadRunning]⟩
  rcases hu : updateLastLoad E st table
    { Version := table.Version, Status := LoadRunning, StartTime := starttime, EndTime := "" }
    with ⟨st1, e1⟩
  rw [hu] at hr1
  simp only [] at hr1
  subst hr1
  unfold BulkLoad at herr ⊢
  rw [htable] at herr ⊢
  simp only [hu] at herr ⊢
  by_cases hfmt : format = "csv"
  · simp only [hfmt, if_true] at herr ⊢
    cases hp : csvToPipe E f table with
    | error e2 => exact ⟨st1, [], rfl, rfl, Or.inl rfl⟩
    | ok pipe =>
      rw [hp] at herr
      simp only [] at herr ⊢
      refine ⟨st1, (if E.indexOnLoad = true then pipe ++ createIndexToPipe E table else pipe),
        rfl, ?_, Or.inr ⟨pipe, rfl, rfl⟩⟩
      rcases hx : Exec E (if E.indexOnLoad = true then pipe ++ createIndexToPipe E table
          else pipe) st1 with ⟨st2, e2⟩
      rw [hx] at herr
      cases e2 with
      | some e3 => rfl
      | none => simp at herr
  · simp only [hfmt, if_false]
    exact ⟨st1, [], rfl, rfl, Or.inl rfl⟩

/-- C29: getTable takes the version of the stored last-load record, whatever
its status, and 0 when the last-load key is missing. So after a BulkLoad that
got past version allocation on a table whose last load succeeded, and then
returned an error, the last-load record is Failed with the next version,
getTable finds the table at that version, GetData with the empty query pages
the all-records set of that version, and (the all-records key of that version
being unused before the load) no key it fetches is a record key of the
version of the previous load. -/
theorem getTable_follows_last_load (E : Env) (st : Store) (tableName : String)
    (f : List (List String)) (format starttime endtime : String) (table : Table)
    (prev : Load) (e : Err)
    (htable : loadTable E st tableName = .ok table)
    (hprev : GetLastLoad E st table = .ok prev) (hsucc : prev.Status = LoadSuccess)
    (herr : (BulkLoad E st tableName f format starttime endtime).2 = some e)
    (hfresh : st (table.formatAllRecordKeys E) = none) :
    (∀ (s : Store) (schema : Schema), GetSchema E s tableName = .ok schema →
      (∀ load, GetLastLoad E s ⟨schema, 0, tableName⟩ = .ok load →
        getTable E s tableName = (⟨schema, load.Version, tableName⟩, none)) ∧
      (s (E.Prefix ++ ":" ++ tableName ++ ":lastload") = none →
        getTable E s tableName = (⟨schema, 0, tableName⟩, none))) ∧
    table.Version = wrapInt64 (prev.Version + 1) ∧ table.Version ≠ prev.Version ∧
    GetLastLoad E (BulkLoad E st tableName f format starttime endtime).1 table = .ok
      { Version := table.Version, Status := LoadFailed, StartTime := starttime,
        EndTime := "" } ∧
    getTable E (BulkLoad E st tableName f format starttime endtime).1 tableName
      = (table, none) ∧
    (∀ t, GetData E (BulkLoad E st tableName f format starttime endtime).1 tableName
        (mkQuery [] 0 0) t =
      ((BulkLoad E st tableName f format starttime endtime).1,
        match getPagedRecordKeys (BulkLoad E st tableName f format starttime endtime).1
            (table.formatAllRecordKeys E) 0 0 with
        | .error e2 => .error e2
        | .ok (keys, resultSet) =>
          match getRecordsWorkerPool (BulkLoad E st tableName f format starttime endtime).1
              table.Schema keys with
          | .error e2 => .error e2
          | .ok records => .ok { Records := records, Metadata := resultSet })) ∧
    (∀ keys resultSet,
      getPagedRecordKeys (BulkLoad E st tableName f format starttime endtime).1
        (table.formatAllRecordKeys E) 0 0 = .ok (keys, resultSet) →
      ∀ k ∈ keys, (∃ s, k = table.formatKeyPrefix E ++ (":" ++ s)) ∧
        ∀ seq, k ≠ Table.formatRecordKey E ⟨table.Schema, prev.Version, tableName⟩ seq) := by
  -- getTable in general
  have hA : ∀ (s : Store) (schema : Schema), GetSchema E s tableName = .ok schema →
      (∀ load, GetLastLoad E s ⟨schema, 0, tableName⟩ = .ok load →
        getTable E s tableName = (⟨schema, load.Version, tableName⟩, none)) ∧
      (s (E.Prefix ++ ":" ++ tableName ++ ":lastload") = none →
        getTable E s tableName = (⟨schema, 0, tableName⟩, none)) := by
    intro s schema hs
    constructor
    · intro load hl
      unfold getTable
      rw [hs]
      simp only [hl]
    · intro hnone
      have hl : GetLastLoad E s ⟨schema, 0, tableName⟩ = .error Err.ErrNil := by
        unfold GetLastLoad HGetAll Table.formatLastLoadKey
        rw [hnone]
        simp
      unfold getTable
      rw [hs]
      simp only [hl]
  -- the version of the failed load
  obtain ⟨hname, hschema, hv1, hv2⟩ := loadTable_ok E st tableName table htable
  obtain ⟨t0, hn0, _, hnext⟩ := loadTable_parts E st tableName table htable
  have hprange := GetLastLoad_version_range E st table prev hprev
  have hver : table.Version = wrapInt64 (prev.Version + 1) := by
    have hl0 : GetLastLoad E st t0 = .ok prev := by
      rw [GetLastLoad_name E st t0 table (by rw [hn0, hname])]; exact hprev
    have : getNextTableVersion E st t0 = .ok (wrapInt64 (prev.Version + 1)) := by
      simp [getNextTableVersion, hl0, hsucc, LoadSuccess, LoadRunning]
    rw [this] at hnext
    exact (Except.ok.inj hnext).symm
  have hne : table.Version ≠ prev.Version := by
    rw [hver]
    unfold wrapInt64
    omega
  -- the store after the load
  obtain ⟨st1, cmds, hu, hstore, hcmds⟩ :=
    BulkLoad_failed_store E st tableName f format starttime endtime table e htable herr
  have hkeys : ∀ c ∈ cmds, (∃ s, c.key = table.formatKeyPrefix E ++ (":" ++ s)) ∨ c.key = "" := by
    intro c hc
    rcases hcmds with h | ⟨pipe, hp, h⟩
    · rw [h] at hc; cases hc
    · rw [h] at hc
      have hpipe : c ∈ pipe → ∃ s, c.key = table.formatKeyPrefix E ++ (":" ++ s) :=
        csvToPipe_keys E f table pipe hp c
      split_ifs at hc
      · rcases List.mem_append.mp hc with h1 | h1
        · exact Or.inl (hpipe h1)
        · simp only [createIndexToPipe, List.mem_singleton] at h1
          subst h1
          exact Or.inr rfl
      · exact Or.inl (hpipe hc)
  have hzadd : ∀ sc m, Cmd.ZAdd (table.formatAllRecordKeys E) sc m ∈ cmds →
      ∃ s, m = table.formatKeyPrefix E ++ (":" ++ s) := by
    intro sc m hc
    rcases hcmds with h | ⟨pipe, hp, h⟩
    · rw [h] at hc; cases hc
    · rw [h] at hc
      split_ifs at hc
      · rcases List.mem_append.mp hc with h1 | h1
        · exact csvToPipe_zadd E f table pipe hp _ sc m h1
        · simp only [createIndexToPipe, List.mem_singleton] at h1
          cases h1
      · exact csvToPipe_zadd E f table pipe hp _ sc m hc
  have hst1 : ∀ k, table.formatLastLoadKey E ≠ k → st1 k = st k := by
    intro k hk
    have := updateLastLoad_frame E st table
      { Version := table.Version, Status := LoadRunning, StartTime := starttime,
        EndTime := "" } k hk
    rw [hu] at this
    exact this
  have hlastHash : ∃ h1, (Exec E cmds st1).1 (table.formatLastLoadKey E) = some (.hash h1) := by
    have hframe : (Exec E cmds st1).1 (table.formatLastLoadKey E)
        = st1 (table.formatLastLoadKey E) := by
      apply Exec_frame
      intro c hc hk
      rcases hkeys c hc with ⟨s, hs⟩ | hs
      · exact formatLastLoadKey_ne_version E table s (by rw [← hk, hs])
      · rw [hs] at hk
        have h2 := congrArg (fun s => s.data.reverse.head?) hk
        simp [Table.formatLastLoadKey, String.data_append, List.reverse_append] at h2
    rw [hframe]
    exact updateLastLoad_hash E st st1 table _ hu
  obtain ⟨_, hread, _, hother⟩ := updateLastLoad_read E (Exec E cmds st1).1 table
    { Version := table.Version, Status := LoadFailed, StartTime := starttime, EndTime := "" }
    (Or.inr hlastHash) ⟨hv1, hv2⟩ ⟨by simp [LoadFailed], by simp [LoadFailed]⟩
  rw [← hstore] at hread hother
  -- the schema key is left alone
  have hsk : (BulkLoad E st tableName f format starttime endtime).1 (formatSchemaKey E tableName)
      = st (formatSchemaKey E tableName) := by
    rw [hother _ (by rw [← hname]; exact formatSchemaKey_ne_lastLoad E table)]
    rw [Exec_frame E cmds st1 _ (by
      intro c hc hk
      rcases hkeys c hc with ⟨s, hs⟩ | hs
      · exact formatSchemaKey_ne_version E table s (by rw [hname, ← hk, hs])
      · exact formatSchemaKey_ne_empty E tableName (by rw [← hk, hs]))]
    exact hst1 _ (by rw [← hname]; exact fun h => formatSchemaKey_ne_lastLoad E table h.symm)
  have hgs : GetSchema E (BulkLoad E st tableName f format starttime endtime).1 tableName
      = .ok table.Schema := by
    rw [GetSchema_agree E st _ tableName hsk]; exact hschema
  have htab : table = ⟨table.Schema, table.Version, tableName⟩ := by
    cases table
    simp only [] at hname
    rw [hname]
  have hget : getTable E (BulkLoad E st tableName f format starttime endtime).1 tableName
      = (table, none) := by
    have hl : GetLastLoad E (BulkLoad E st tableName f format starttime endtime).1
        ⟨table.Schema, 0, tableName⟩ = .ok
          { Version := table.Version, Status := LoadFailed, StartTime := starttime,
            EndTime := "" } := by
      rw [GetLastLoad_name E _ ⟨table.Schema, 0, tableName⟩ table hname.symm]; exact hread
    have := (hA _ table.Schema hgs).1 _ hl
    rw [this]
    simp only []
    rw [← htab]
  -- members of the all-records set of the failed version
  have hall : ∀ z, (BulkLoad E st tableName f format starttime endtime).1
      (table.formatAllRecordKeys E) = some (.zset z) →
        ∀ p ∈ z, ∃ s, p.1 = table.formatKeyPrefix E ++ (":" ++ s) := by
    have hk : table.formatAllRecordKeys E ≠ table.formatLastLoadKey E :=
      fun h => formatLastLoadKey_ne_version E table "all" h.symm
    rw [hother _ hk]
    apply Exec_zset_members E _ (fun m => ∃ s, m = table.formatKeyPrefix E ++ (":" ++ s))
    · intro z hz
      rw [hst1 _ hk.symm, hfresh] at hz
      cases hz
    · exact hzadd
  refine ⟨hA, hver, hne, hread, hget, ?_, ?_⟩
  · intro t
    unfold GetData
    rw [hget]
    simp only []
    have hval : table.Schema.validateQuery (mkQuery [] 0 0) = none := by
      simp [Schema.validateQuery, mkQuery, Schema.validateFilters]
    rw [hval]
    simp only [getRecordKeys, mkQuery, List.length_nil, gt_iff_lt, lt_self_iff_false, if_false]
    cases getPagedRecordKeys (BulkLoad E st tableName f format starttime endtime).1
        (table.formatAllRecordKeys E) 0 0 with
    | error e2 => rfl
    | ok r =>
      rcases r with ⟨keys, rs⟩
      simp only []
      cases getRecordsWorkerPool (BulkLoad E st tableName f format starttime endtime).1
          table.Schema keys with
      | error e2 => rfl
      | ok records => rfl
  · intro keys rs hpage k hk
    have hpre : ∃ s, k = table.formatKeyPrefix E ++ (":" ++ s) := by
      unfold getPagedRecordKeys ZRange readZSet at hpage
      cases hv : (BulkLoad E st tableName f format starttime endtime).1
          (table.formatAllRecordKeys E) with
      | none =>
        rw [hv] at hpage
        simp only [ZCard, readZSet, hv, Except.ok.injEq, Prod.mk.injEq] at hpage
        rw [← hpage.1] at hk
        have := ( rangeByRank_infix _ _ _).subset hk
        simp [zsorted] at this
      | some w =>
        rw [hv] at hpage
        cases w with
        | zset z =>
          simp only [ZCard, readZSet, hv, Except.ok.injEq, Prod.mk.injEq] at hpage
          rw [← hpage.1] at hk
          have hm := ( rangeByRank_infix _ _ _).subset hk
          obtain ⟨p, hp, hpk⟩ := List.mem_map.mp hm
          obtain ⟨s, hs⟩ := hall z hv p ((mem_zsorted z p).mp hp)
          exact ⟨s, by rw [← hpk, hs]⟩
        | str _ => simp at hpage
        | set _ => simp at hpage
        | hash _ => simp at hpage
    refine ⟨hpre, ?_⟩
    intro seq heq
    obtain ⟨s, hs⟩ := hpre
    rw [hs, formatRecordKey_eq] at heq
    exact formatKeyPrefix_version_ne E table ⟨table.Schema, prev.Version, tableName⟩ hname hne
      _ _ heq

/-- C29 (witness): on the loaded demo table (version 0, Success) a load whose
header names the unknown column `zzz` fails; the table is then at version 1. -/
theorem getTable_follows_last_load_witness :
    (⟨demoSchema, 1, "t"⟩ : Table).Version ≠ 0 ∧
    GetLastLoad demoEnv
        (BulkLoad demoEnv loadedStore "t" [["name", "zzz"], ["a", "1"]] "csv" "t2" "t3").1
        ⟨demoSchema, 1, "t"⟩
      = .ok { Version := 1, Status := LoadFailed, StartTime := "t2", EndTime := "" } ∧
    getTable demoEnv
        (BulkLoad demoEnv loadedStore "t" [["name", "zzz"], ["a", "1"]] "csv" "t2" "t3").1 "t"
      = (⟨demoSchema, 1, "t"⟩, none) :=
  have h := getTable_follows_last_load demoEnv loadedStore "t" [["name", "zzz"], ["a", "1"]]
    "csv" "t2" "t3" ⟨demoSchema, 1, "t"⟩
    { Version := 0, Status := LoadSuccess, StartTime := "t0", EndTime := "t1" }
    (Err.msg "column zzz not in schema")
    (by decide) (by decide) rfl (by decide) (by decide)
  ⟨h.2.2.1, h.2.2.2.1, h.2.2.2.2.1⟩

/-! ## The worker pool under every schedule -/

theorem mem_set_of_mem_ne {α : Type} (l : List α) (n : Nat) (a b c : α) (ha : a ∈ l)
    (hc : l.get? n = some c) (hne : a ≠ c) : a ∈ l.set n b := by
  induction l generalizing n with
  | nil => cases ha
  | cons x xs ih =>
    cases n with
    | zero =>
      simp only [List.get?_cons_zero, Option.some.injEq] at hc
      subst hc
      rcases List.mem_cons.mp ha with h | h
      · exact absurd h hne
      · simp only [List.set_cons_zero, List.mem_cons]
        exact Or.inr h
    | succ n =>
      simp only [List.get?_cons_succ] at hc
      simp only [List.set_cons_succ, List.mem_cons]
      rcases List.mem_cons.mp ha with h | h
      · exact Or.inl h
      · exact Or.inr (ih n h hc)

theorem mem_set_same {α : Type} (l : List α) (n : Nat) (b c : α) (hc : l.get? n = some c) :
    b ∈ l.set n b := by
  induction l generalizing n with
  | nil => simp at hc
  | cons x xs ih =>
    cases n with
    | zero => simp
    | succ n =>
      simp only [List.get?_cons_succ] at hc
      simp only [List.set_cons_succ, List.mem_cons]
      exact Or.inr (ih n hc)

theorem sum_weight_set (l : List WorkerState) (n : Nat) (b c : WorkerState)
    (hc : l.get? n = some c) :
    ((l.set n b).map WorkerState.weight).sum + c.weight
      = (l.map WorkerState.weight).sum + b.weight := by
  induction l generalizing n with
  | nil => simp at hc
  | cons x xs ih =>
    cases n with
    | zero =>
      simp only [List.get?_cons_zero, Option.some.injEq] at hc
      subst hc
      simp only [List.set_cons_zero, List.map_cons, List.sum_cons]
      omega
    | succ n =>
      simp only [List.get?_cons_succ] at hc
      have := ih n hc
      simp only [List.set_cons_succ, List.map_cons, List.sum_cons]
      omega

theorem getD_set_same {α : Type} (l : List α) (i : Nat) (r d : α) (h : i < l.length) :
    (l.set i r).getD i d = r := by
  induction l generalizing i with
  | nil => simp at h
  | cons x xs ih =>
    cases i with
    | zero => rfl
    | succ i =>
      simp only [List.length_cons, Nat.add_lt_add_iff_right] at h
      simp only [List.set_cons_succ, List.getD_cons_succ]
      exact ih i h

theorem getD_set_ne {α : Type} (l : List α) (i j : Nat) (r d : α) (h : i ≠ j) :
    (l.set i r).getD j d = l.getD j d := by
  induction l generalizing i j with
  | nil => rfl
  | cons x xs ih =>
    cases i with
    | zero =>
      cases j with
      | zero => exact absurd rfl h
      | succ j => rfl
    | succ i =>
      cases j with
      | zero => rfl
      | succ j =>
        simp only [List.set_cons_succ, List.getD_cons_succ]
        exact ih i j (fun e => h (by rw [e]))

theorem poolInv_init (st : Store) (schema : Schema) (keys : List String) :
    PoolInv st schema keys (poolInit keys) where
  len := by simp [poolInit]
  sent_le := by simp [poolInit]
  closed := by simp [poolInit]
  jobs := by simp [poolInit]
  sending := by
    intro res h
    simp only [poolInit] at h
    have := List.eq_of_mem_replicate h
    cases this
  results := by simp [poolInit]
  place := by
    intro _ i _
    exact Or.inl (by simp [poolInit])
  gone := by
    intro _ h
    simp only [poolInit] at h
    have := List.eq_of_mem_replicate h
    cases this
  nworkers := by simp [poolInit]
  ok := by simp [poolInit]
  err := by simp [poolInit]

theorem poolInv_feed (st : Store) (schema : Schema) (keys : List String) (p : PoolState)
    (I : PoolInv st schema keys p) (hlt : p.sent < keys.length) :
    PoolInv st schema keys
      { p with sent := p.sent + 1, jobs := p.jobs ++ [⟨keys.getD p.sent "", p.sent⟩] } where
  len := I.len
  sent_le := hlt
  closed := by
    intro h
    have := I.closed h
    omega
  jobs := by
    intro j hj
    rcases List.mem_append.mp hj with h | h
    · exact I.jobs j h
    · simp only [List.mem_singleton] at h
      subst h
      exact ⟨hlt, rfl⟩
  sending := I.sending
  results := I.results
  place := by
    intro hr i hi
    rcases I.place hr i hi with h | ⟨j, hj, hji⟩ | h | h | h
    · by_cases he : p.sent = i
      · refine Or.inr (Or.inl ⟨⟨keys.getD p.sent "", p.sent⟩, ?_, he⟩)
        simp
      · exact Or.inl (by simp only []; omega)
    · exact Or.inr (Or.inl ⟨j, List.mem_append_left _ hj, hji⟩)
    · exact Or.inr (Or.inr (Or.inl h))
    · exact Or.inr (Or.inr (Or.inr (Or.inl h)))
    · exact Or.inr (Or.inr (Or.inr (Or.inr h)))
  gone := by
    intro hr hw
    rcases I.gone hr hw with h | ⟨h1, _⟩
    · exact Or.inl h
    · have := I.closed h1
      omega
  nworkers := I.nworkers
  ok := I.ok
  err := I.err

theorem poolInv_close (st : Store) (schema : Schema) (keys : List String) (p : PoolState)
    (I : PoolInv st schema keys p) (hge : ¬ p.sent < keys.length) :
    PoolInv st schema keys { p with jobsClosed := true } where
  len := I.len
  sent_le := I.sent_le
  closed := by
    intro _
    have := I.sent_le
    show p.sent = keys.length
    omega
  jobs := I.jobs
  sending := I.sending
  results := I.results
  place := I.place
  gone := by
    intro hr hw
    rcases I.gone hr hw with h | ⟨_, h2⟩
    · exact Or.inl h
    · exact Or.inr ⟨rfl, h2⟩
  nworkers := I.nworkers
  ok := I.ok
  err := I.err

theorem poolInv_collect_error (st : Store) (schema : Schema) (keys : List String)
    (p : PoolState) (I : PoolInv st schema keys p) (_hnone : p.returned = none)
    (res : WorkerResult) (rest : List WorkerResult) (e : Err)
    (hres : p.results = res :: rest) (he : res.Result = .error e) :
    PoolInv st schema keys { p with results := rest, returned := some (.error e) } where
  len := I.len
  sent_le := I.sent_le
  closed := I.closed
  jobs := I.jobs
  sending := I.sending
  results := by
    intro r hr
    exact I.results r (by rw [hres]; exact List.mem_cons_of_mem _ hr)
  place := by intro h; cases h
  gone := by intro h; cases h
  nworkers := I.nworkers
  ok := by intro rs h; cases h
  err := by
    intro e2 h
    simp only [Option.some.injEq, Except.error.injEq] at h
    subst h
    obtain ⟨h1, h2⟩ := I.results res (by rw [hres]; exact List.mem_cons_self _ _)
    exact ⟨res.Index, h1, by rw [← h2, he]⟩

theorem poolInv_collect_ok (st : Store) (schema : Schema) (keys : List String)
    (p : PoolState) (I : PoolInv st schema keys p)
    (res : WorkerResult) (rest : List WorkerResult) (record : List (String × String))
    (hres : p.results = res :: rest) (he : res.Result = .ok record) :
    PoolInv st schema keys
      { p with results := rest, records := p.records.set res.Index record } where
  len := by simp [I.len]
  sent_le := I.sent_le
  closed := I.closed
  jobs := I.jobs
  sending := I.sending
  results := by
    intro r hr
    exact I.results r (by rw [hres]; exact List.mem_cons_of_mem _ hr)
  place := by
    intro hr i hi
    obtain ⟨hidx, hfetch⟩ := I.results res (by rw [hres]; exact List.mem_cons_self _ _)
    have hstored : getRecord st (keys.getD res.Index "") schema
        = .ok ((p.records.set res.Index record).getD res.Index []) := by
      rw [getD_set_same _ _ _ _ (by rw [I.len]; exact hidx), ← hfetch, he]
    rcases I.place hr i hi with h | h | h | ⟨r, hrm, hri⟩ | h
    · exact Or.inl h
    · exact Or.inr (Or.inl h)
    · exact Or.inr (Or.inr (Or.inl h))
    · rw [hres] at hrm
      rcases List.mem_cons.mp hrm with h1 | h1
      · subst h1
        subst hri
        exact Or.inr (Or.inr (Or.inr (Or.inr hstored)))
      · exact Or.inr (Or.inr (Or.inr (Or.inl ⟨r, h1, hri⟩)))
    · refine Or.inr (Or.inr (Or.inr (Or.inr ?_)))
      by_cases hsame : res.Index = i
      · subst hsame; exact hstored
      · show getRecord st (keys.getD i "") schema
          = .ok ((p.records.set res.Index record).getD i [])
        rw [getD_set_ne _ _ _ _ _ hsame]
        exact h
  gone := by
    intro hr hw
    rcases I.gone hr hw with ⟨r, hrm, e, hre⟩ | h
    · rw [hres] at hrm
      rcases List.mem_cons.mp hrm with h1 | h1
      · subst h1
        rw [he] at hre
        cases hre
      · exact Or.inl ⟨r, h1, e, hre⟩
    · exact Or.inr h
  nworkers := I.nworkers
  ok := I.ok
  err := I.err

theorem poolInv_finish (st : Store) (schema : Schema) (keys : List String)
    (p : PoolState) (I : PoolInv st schema keys p) (hnone : p.returned = none)
    (hclosed : p.jobsClosed = true) (hres : p.results = [])
    (hall : p.workers.all (fun w => decide (w = WorkerState.returned)) = true) :
    PoolInv st schema keys { p with returned := some (.ok p.records) } where
  len := I.len
  sent_le := I.sent_le
  closed := I.closed
  jobs := I.jobs
  sending := I.sending
  results := I.results
  place := by intro h; cases h
  gone := by intro h; cases h
  nworkers := I.nworkers
  ok := by
    intro rs h
    simp only [Option.some.injEq, Except.ok.injEq] at h
    subst h
    refine ⟨I.len, ?_⟩
    intro i hi
    have hallr : ∀ w ∈ p.workers, w = WorkerState.returned := by
      intro w hw
      have := List.all_eq_true.mp hall w hw
      simpa using this
    have hmem : WorkerState.returned ∈ p.workers := by
      cases hws : p.workers with
      | nil =>
        have := I.nworkers
        rw [hws] at this
        simp [MaxWorkers] at this
      | cons w ws =>
        have := hallr w (by rw [hws]; exact List.mem_cons_self _ _)
        rw [this]
        exact List.mem_cons_self _ _
    have hjobs : p.jobs = [] := by
      rcases I.gone hnone hmem with ⟨r, hr, _⟩ | ⟨_, h⟩
      · rw [hres] at hr; cases hr
      · exact h
    rcases I.place hnone i hi with h | ⟨j, hj, _⟩ | ⟨r, hr, _⟩ | ⟨r, hr, _⟩ | h
    · have := I.closed hclosed
      omega
    · rw [hjobs] at hj; cases hj
    · have := hallr _ hr
      cases this
    · rw [hres] at hr; cases hr
    · exact h
  err := by intro e h; cases h

theorem poolInv_take (st : Store) (schema : Schema) (keys : List String)
    (p : PoolState) (I : PoolInv st schema keys p) (w : Nat)
    (hw : p.workers.get? w = some WorkerState.receiving)
    (j : WorkerJobs) (rest : List WorkerJobs) (hjobs : p.jobs = j :: rest) :
    PoolInv st schema keys
      { p with
        jobs := rest,
        workers := p.workers.set w (.sending ⟨getRecord st j.Key schema, j.Index⟩) } where
  len := I.len
  sent_le := I.sent_le
  closed := I.closed
  jobs := by
    intro j2 hj2
    exact I.jobs j2 (by rw [hjobs]; exact List.mem_cons_of_mem _ hj2)
  sending := by
    intro res hres
    rcases List.mem_or_eq_of_mem_set hres with h | h
    · exact I.sending res h
    · simp only [WorkerState.sending.injEq] at h
      subst h
      obtain ⟨h1, h2⟩ := I.jobs j (by rw [hjobs]; exact List.mem_cons_self _ _)
      exact ⟨h1, by simp only []; rw [h2]⟩
  results := I.results
  place := by
    intro hr i hi
    rcases I.place hr i hi with h | ⟨j2, hj2, hji⟩ | ⟨r, hrm, hri⟩ | h | h
    · exact Or.inl h
    · rw [hjobs] at hj2
      rcases List.mem_cons.mp hj2 with h1 | h1
      · subst h1
        exact Or.inr (Or.inr (Or.inl ⟨⟨getRecord st j2.Key schema, j2.Index⟩,
          mem_set_same _ _ _ _ hw, hji⟩))
      · exact Or.inr (Or.inl ⟨j2, h1, hji⟩)
    · exact Or.inr (Or.inr (Or.inl ⟨r,
        mem_set_of_mem_ne _ _ _ _ _ hrm hw (by simp), hri⟩))
    · exact Or.inr (Or.inr (Or.inr (Or.inl h)))
    · exact Or.inr (Or.inr (Or.inr (Or.inr h)))
  gone := by
    intro hr hm
    rcases List.mem_or_eq_of_mem_set hm with h | h
    · rcases I.gone hr h with h1 | ⟨_, h2⟩
      · exact Or.inl h1
      · rw [hjobs] at h2; cases h2
    · cases h
  nworkers := by simp [I.nworkers]
  ok := I.ok
  err := I.err

theorem poolInv_send (st : Store) (schema : Schema) (keys : List String)
    (p : PoolState) (I : PoolInv st schema keys p) (w : Nat) (res : WorkerResult)
    (hw : p.workers.get? w = some (WorkerState.sending res)) :
    PoolInv st schema keys
      { p with
        results := p.results ++ [res],
        workers := p.workers.set w
          (match res.Result with
            | .error _ => WorkerState.returned
            | .ok _ => WorkerState.receiving) } where
  len := I.len
  sent_le := I.sent_le
  closed := I.closed
  jobs := I.jobs
  sending := by
    intro r hr
    rcases List.mem_or_eq_of_mem_set hr with h | h
    · exact I.sending r h
    · cases hres : res.Result with
      | error e => rw [hres] at h; cases h
      | ok v => rw [hres] at h; cases h
  results := by
    intro r hr
    rcases List.mem_append.mp hr with h | h
    · exact I.results r h
    · simp only [List.mem_singleton] at h
      subst h
      exact I.sending r (List.get?_mem hw)
  place := by
    intro hr i hi
    rcases I.place hr i hi with h | h | ⟨r, hrm, hri⟩ | ⟨r, hrm, hri⟩ | h
    · exact Or.inl h
    · exact Or.inr (Or.inl h)
    · by_cases hsame : r = res
      · subst hsame
        exact Or.inr (Or.inr (Or.inr (Or.inl ⟨r, by simp, hri⟩)))
      · exact Or.inr (Or.inr (Or.inl ⟨r,
          mem_set_of_mem_ne _ _ _ _ _ hrm hw (by simpa using hsame), hri⟩))
    · exact Or.inr (Or.inr (Or.inr (Or.inl ⟨r, List.mem_append_left _ hrm, hri⟩)))
    · exact Or.inr (Or.inr (Or.inr (Or.inr h)))
  gone := by
    intro hr hm
    rcases List.mem_or_eq_of_mem_set hm with h | h
    · rcases I.gone hr h with ⟨r, hrm, e, hre⟩ | h2
      · exact Or.inl ⟨r, List.mem_append_left _ hrm, e, hre⟩
      · exact Or.inr h2
    · cases hres : res.Result with
      | error e => exact Or.inl ⟨res, by simp, e, hres⟩
      | ok v => rw [hres] at h; cases h
  nworkers := by simp [I.nworkers]
  ok := I.ok
  err := I.err

theorem poolInv_exit (st : Store) (schema : Schema) (keys : List String)
    (p : PoolState) (I : PoolInv st schema keys p) (w : Nat)
    (hw : p.workers.get? w = some WorkerState.receiving)
    (hjobs : p.jobs = []) (hclosed : p.jobsClosed = true) :
    PoolInv st schema keys { p with workers := p.workers.set w .returned } where
  len := I.len
  sent_le := I.sent_le
  closed := I.closed
  jobs := I.jobs
  sending := by
    intro r hr
    rcases List.mem_or_eq_of_mem_set hr with h | h
    · exact I.sending r h
    · cases h
  results := I.results
  place := by
    intro hr i hi
    rcases I.place hr i hi with h | h | ⟨r, hrm, hri⟩ | h | h
    · exact Or.inl h
    · exact Or.inr (Or.inl h)
    · exact Or.inr (Or.inr (Or.inl ⟨r,
        mem_set_of_mem_ne _ _ _ _ _ hrm hw (by simp), hri⟩))
    · exact Or.inr (Or.inr (Or.inr (Or.inl h)))
    · exact Or.inr (Or.inr (Or.inr (Or.inr h)))
  gone := by
    intro _ _
    exact Or.inr ⟨hclosed, hjobs⟩
  nworkers := by simp [I.nworkers]
  ok := I.ok
  err := I.err

/-- Every step of every goroutine keeps the invariant and uses up at least
one of the steps the state had left. -/
theorem poolStep_inv (st : Store) (schema : Schema) (keys : List String) (g : Goroutine)
    (p p1 : PoolState) (I : PoolInv st schema keys p)
    (h : poolStep st schema keys g p = some p1) :
    PoolInv st schema keys p1 ∧ poolMeasure keys p1 + 1 ≤ poolMeasure keys p := by
  obtain ⟨sent, jobsClosed, jobs, workers, results, records, returned⟩ := p
  unfold poolStep at h
  cases returned with
  | some r => cases h
  | none =>
    simp only [] at h
    cases g with
    | main =>
      simp only [] at h
      by_cases hlt : sent < keys.length
      · rw [if_pos hlt] at h
        cases h
        refine ⟨poolInv_feed st schema keys _ I hlt, ?_⟩
        simp only [poolMeasure, List.length_append, List.length_singleton]
        omega
      · rw [if_neg hlt] at h
        cases jobsClosed with
        | false =>
          simp only [if_true] at h
          cases h
          refine ⟨poolInv_close st schema keys _ I hlt, ?_⟩
          simp only [poolMeasure]
          simp
          omega
        | true =>
          simp only [reduceCtorEq, if_false] at h
          cases results with
          | nil =>
            simp only [] at h
            split_ifs at h with hall
            cases h
            refine ⟨poolInv_finish st schema keys _ I rfl rfl rfl hall, ?_⟩
            simp only [poolMeasure]
            simp
          | cons res rest =>
            simp only [] at h
            cases hr : res.Result with
            | error e =>
              rw [hr] at h
              cases h
              refine ⟨poolInv_collect_error st schema keys _ I rfl res rest e rfl hr, ?_⟩
              simp only [poolMeasure, List.length_cons]
              simp
            | ok record =>
              rw [hr] at h
              cases h
              refine ⟨poolInv_collect_ok st schema keys _ I res rest record rfl hr, ?_⟩
              simp only [poolMeasure, List.length_cons]
              omega
    | worker w =>
      simp only [] at h
      cases hw : workers.get? w with
      | none => rw [hw] at h; cases h
      | some ws =>
        rw [hw] at h
        cases ws with
        | returned => cases h
        | sending res =>
          simp only [Option.some.injEq] at h
          subst h
          refine ⟨poolInv_send st schema keys _ I w res hw, ?_⟩
          cases hres : res.Result with
          | error e =>
            have hsum := sum_weight_set workers w WorkerState.returned _ hw
            simp only [WorkerState.weight] at hsum
            simp only [poolMeasure, List.length_append, List.length_singleton, hres, if_true]
            omega
          | ok v =>
            have hsum := sum_weight_set workers w WorkerState.receiving _ hw
            simp only [WorkerState.weight] at hsum
            simp only [poolMeasure, List.length_append, List.length_singleton, hres, if_true]
            omega
        | receiving =>
          simp only [] at h
          cases jobs with
          | nil =>
            simp only [] at h
            split_ifs at h with hcl
            cases h
            refine ⟨poolInv_exit st schema keys _ I w hw rfl hcl, ?_⟩
            have hsum := sum_weight_set workers w WorkerState.returned _ hw
            simp only [poolMeasure]
            simp only [WorkerState.weight] at hsum
            omega
          | cons j rest =>
            simp only [Option.some.injEq] at h
            subst h
            refine ⟨poolInv_take st schema keys _ I w hw j rest rfl, ?_⟩
            have hsum := sum_weight_set workers w
              (WorkerState.sending ⟨getRecord st j.Key schema, j.Index⟩) _ hw
            simp only [poolMeasure, List.length_cons]
            simp only [WorkerState.weight] at hsum
            omega

theorem poolRun_inv (st : Store) (schema : Schema) (keys : List String)
    (sched : List Goroutine) (p p1 : PoolState) (I : PoolInv st schema keys p)
    (h : poolRun st schema keys sched p = some p1) :
    PoolInv st schema keys p1 ∧ poolMeasure keys p1 + sched.length ≤ poolMeasure keys p := by
  induction sched generalizing p with
  | nil =>
    simp only [poolRun, Option.some.injEq] at h
    subst h
    exact ⟨I, by simp⟩
  | cons g gs ih =>
    simp only [poolRun] at h
    cases hs : poolStep st schema keys g p with
    | none => rw [hs] at h; cases h
    | some p2 =>
      rw [hs] at h
      obtain ⟨I2, hm2⟩ := poolStep_inv st schema keys g p p2 I hs
      obtain ⟨I1, hm1⟩ := ih p2 I2 h
      refine ⟨I1, ?_⟩
      simp only [List.length_cons]
      omega

/-- While the call has not returned, some goroutine can move. -/
theorem poolStep_progress (st : Store) (schema : Schema) (keys : List String) (p : PoolState)
    (hnone : p.returned = none) : ∃ g, (poolStep st schema keys g p).isSome = true := by
  obtain ⟨sent, jobsClosed, jobs, workers, results, records, returned⟩ := p
  simp only [] at hnone
  subst hnone
  by_cases hlt : sent < keys.length
  · exact ⟨Goroutine.main, by simp [poolStep, hlt]⟩
  · cases jobsClosed with
    | false => exact ⟨Goroutine.main, by simp [poolStep, hlt]⟩
    | true =>
      cases results with
      | cons res rest =>
        refine ⟨Goroutine.main, ?_⟩
        cases hr : res.Result <;> simp [poolStep, hlt, hr]
      | nil =>
        by_cases hall : workers.all (fun w => decide (w = WorkerState.returned)) = true
        · exact ⟨Goroutine.main, by simp only [poolStep, hlt, if_false, reduceCtorEq, hall,
            if_true, Option.isSome_some]⟩
        · have : ∃ x ∈ workers, x ≠ WorkerState.returned := by
            by_contra hcon
            apply hall
            rw [List.all_eq_true]
            intro x hx
            by_contra hx2
            exact hcon ⟨x, hx, by simpa using hx2⟩
          obtain ⟨x, hx, hne⟩ := this
          obtain ⟨w, hw⟩ := List.get?_of_mem hx
          refine ⟨Goroutine.worker w, ?_⟩
          cases x with
          | returned => exact absurd rfl hne
          | sending res => simp only [poolStep, hw, Option.isSome_some]
          | receiving =>
            cases jobs with
            | nil => simp only [poolStep, hw, if_true, Option.isSome_some]
            | cons j rest => simp only [poolStep, hw, Option.isSome_some]

theorem workerPool_of_fetches (st : Store) (schema : Schema) (keys : List String)
    (rs : List (List (String × String))) (hlen : rs.length = keys.length)
    (h : ∀ i, i < keys.length → getRecord st (keys.getD i "") schema = .ok (rs.getD i [])) :
    getRecordsWorkerPool st schema keys = .ok rs := by
  induction keys generalizing rs with
  | nil =>
    cases rs with
    | nil => rfl
    | cons r rs => simp at hlen
  | cons k ks ih =>
    cases rs with
    | nil => simp at hlen
    | cons r rs =>
      have h0 := h 0 (by simp)
      simp only [List.getD_cons_zero] at h0
      have hrest := ih rs (by simpa using hlen) (fun i hi => by
        have := h (i + 1) (by simp only [List.length_cons]; omega)
        simpa only [List.getD_cons_succ] using this)
      simp only [getRecordsWorkerPool, h0, hrest]

theorem sum_holds_set (l : List WorkerState) (n : Nat) (b c : WorkerState)
    (hc : l.get? n = some c) :
    ((l.set n b).map WorkerState.holds).sum + c.holds
      = (l.map WorkerState.holds).sum + b.holds := by
  induction l generalizing n with
  | nil => simp at hc
  | cons x xs ih =>
    cases n with
    | zero =>
      simp only [List.get?_cons_zero, Option.some.injEq] at hc
      subst hc
      simp only [List.set_cons_zero, List.map_cons, List.sum_cons]
      omega
    | succ n =>
      simp only [List.get?_cons_succ] at hc
      have := ih n hc
      simp only [List.set_cons_succ, List.map_cons, List.sum_cons]
      omega

/-- No step puts more into the channels than the caller has sent jobs, and it
sends no more jobs than there are keys: the two channels, of capacity
`len(keys)`, never fill up. -/
theorem poolStep_room (st : Store) (schema : Schema) (keys : List String) (g : Goroutine)
    (p p1 : PoolState) (hroom : poolInFlight p ≤ p.sent ∧ p.sent ≤ keys.length)
    (h : poolStep st schema keys g p = some p1) :
    poolInFlight p1 ≤ p1.sent ∧ p1.sent ≤ keys.length := by
  obtain ⟨sent, jobsClosed, jobs, workers, results, records, returned⟩ := p
  simp only [poolInFlight] at hroom
  unfold poolStep at h
  cases returned with
  | some r => cases h
  | none =>
    simp only [] at h
    cases g with
    | main =>
      simp only [] at h
      by_cases hlt : sent < keys.length
      · rw [if_pos hlt] at h
        cases h
        simp only [poolInFlight, List.length_append, List.length_singleton]
        omega
      · rw [if_neg hlt] at h
        cases jobsClosed with
        | false =>
          simp only [if_true] at h
          cases h
          simp only [poolInFlight]
          exact hroom
        | true =>
          simp only [reduceCtorEq, if_false] at h
          cases results with
          | nil =>
            simp only [] at h
            split_ifs at h with hall
            cases h
            simp only [poolInFlight]
            exact hroom
          | cons res rest =>
            simp only [] at h
            cases hr : res.Result with
            | error e =>
              rw [hr] at h
              cases h
              simp only [poolInFlight, List.length_cons] at hroom ⊢
              omega
            | ok record =>
              rw [hr] at h
              cases h
              simp only [poolInFlight, List.length_cons] at hroom ⊢
              omega
    | worker w =>
      simp only [] at h
      cases hw : workers.get? w with
      | none => rw [hw] at h; cases h
      | some ws =>
        rw [hw] at h
        cases ws with
        | returned => cases h
        | sending res =>
          simp only [Option.some.injEq] at h
          subst h
          cases hres : res.Result with
          | error e =>
            have hsum := sum_holds_set workers w WorkerState.returned _ hw
            simp only [WorkerState.holds] at hsum
            simp only [poolInFlight, List.length_append, List.length_singleton, hres]
            omega
          | ok v =>
            have hsum := sum_holds_set workers w WorkerState.receiving _ hw
            simp only [WorkerState.holds] at hsum
            simp only [poolInFlight, List.length_append, List.length_singleton, hres]
            omega
        | receiving =>
          simp only [] at h
          cases jobs with
          | nil =>
            simp only [] at h
            split_ifs at h with hcl
            cases h
            have hsum := sum_holds_set workers w WorkerState.returned _ hw
            simp only [WorkerState.holds] at hsum
            simp only [poolInFlight, List.length_nil] at hroom ⊢
            omega
          | cons j rest =>
            simp only [Option.some.injEq] at h
            subst h
            have hsum := sum_holds_set workers w
              (WorkerState.sending ⟨getRecord st j.Key schema, j.Index⟩) _ hw
            simp only [WorkerState.holds] at hsum
            simp only [poolInFlight, List.length_cons] at hroom ⊢
            omega

theorem poolRun_room (st : Store) (schema : Schema) (keys : List String)
    (sched : List Goroutine) (p p1 : PoolState)
    (hroom : poolInFlight p ≤ p.sent ∧ p.sent ≤ keys.length)
    (h : poolRun st schema keys sched p = some p1) :
    poolInFlight p1 ≤ p1.sent ∧ p1.sent ≤ keys.length := by
  induction sched generalizing p with
  | nil =>
    simp only [poolRun, Option.some.injEq] at h
    subst h
    exact hroom
  | cons g gs ih =>
    simp only [poolRun] at h
    cases hs : poolStep st schema keys g p with
    | none => rw [hs] at h; cases h
    | some p2 =>
      rw [hs] at h
      exact ih p2 (poolStep_room st schema keys g p p2 hroom hs) h

/-- C27: along every schedule of the caller and the eight workers of
getRecordsWorkerPool, the call has taken at most 4 len(keys) + 10 steps,
and while it has not returned some goroutine can move, so it returns;
if every key's hash conforms to the schema it cannot return anything but the
records, which are as many as the keys, each the hash stored under the key at
its index (what the pool run in key order returns); if the fetch of some key
fails it cannot return anything but an error, with no records, and the error
is that of the fetch of one of the keys; and neither channel ever holds more
than len(keys) items, its capacity, so no send blocks. -/
theorem getRecordsWorkerPool_every_schedule (st : Store) (schema : Schema)
    (keys : List String) (sched : List Goroutine) (p : PoolState)
    (hrun : poolRun st schema keys sched (poolInit keys) = some p) :
    sched.length ≤ 4 * keys.length + 10 ∧
    (p.returned = none → ∃ g, (poolStep st schema keys g p).isSome = true) ∧
    ((∀ k ∈ keys, ∃ r, getRecord st k schema = .ok r) →
      p.returned = none ∨
        ∃ rs, p.returned = some (.ok rs) ∧ rs.length = keys.length ∧
          (∀ i (h : i < keys.length), st (keys.get ⟨i, h⟩) = some (.hash (rs.getD i []))) ∧
          getRecordsWorkerPool st schema keys = .ok rs) ∧
    ((∃ k ∈ keys, ∃ e, getRecord st k schema = .error e) →
      p.returned = none ∨
        ∃ e, p.returned = some (.error e) ∧ ∃ k ∈ keys, getRecord st k schema = .error e) ∧
    (p.jobs.length ≤ keys.length ∧ p.results.length ≤ keys.length) := by
  obtain ⟨I, hm⟩ := poolRun_inv st schema keys sched (poolInit keys) p
    (poolInv_init st schema keys) hrun
  have hget : ∀ i (h : i < keys.length), keys.getD i "" = keys.get ⟨i, h⟩ := by
    intro i h
    simp [List.getD_eq_getElem?_getD, List.getElem?_eq_getElem h]
  refine ⟨?_, poolStep_progress st schema keys p, ?_, ?_, ?_⟩
  · have h0 : poolMeasure keys (poolInit keys) = 4 * keys.length + 10 := by
      simp [poolMeasure, poolInit, MaxWorkers, WorkerState.weight]
    omega
  · intro hall
    cases hret : p.returned with
    | none => exact Or.inl rfl
    | some r =>
      right
      cases r with
      | error e =>
        exfalso
        obtain ⟨i, hi, he⟩ := I.err e hret
        obtain ⟨r, hr⟩ := hall (keys.get ⟨i, hi⟩) (List.get_mem _ _ _)
        rw [hget i hi, hr] at he
        cases he
      | ok rs =>
        obtain ⟨hlen, hfetch⟩ := I.ok rs hret
        refine ⟨rs, rfl, hlen, ?_, workerPool_of_fetches st schema keys rs hlen hfetch⟩
        intro i hi
        have := hfetch i hi
        rw [hget i hi] at this
        exact (getRecord_ok st _ schema _ this).1
  · rintro ⟨k, hk, e, he⟩
    cases hret : p.returned with
    | none => exact Or.inl rfl
    | some r =>
      right
      cases r with
      | error e2 =>
        obtain ⟨i, hi, hfe⟩ := I.err e2 hret
        exact ⟨e2, rfl, keys.get ⟨i, hi⟩, List.get_mem _ _ _, by rw [← hget i hi]; exact hfe⟩
      | ok rs =>
        exfalso
        obtain ⟨_, hfetch⟩ := I.ok rs hret
        obtain ⟨n, hn⟩ := List.get_of_mem hk
        have := hfetch n.1 n.2
        rw [hget n.1 n.2, hn, he] at this
        cases this
  · have hroom := poolRun_room st schema keys sched (poolInit keys) p
      (by simp [poolInFlight, poolInit, WorkerState.holds, MaxWorkers]) hrun
    simp only [poolInFlight] at hroom
    omega

/-- C27 (witness): the pool run along `demoSchedule`, in which the result of
the second key arrives before that of the first. -/
theorem getRecordsWorkerPool_every_schedule_witness :
    poolRun loadedStore demoSchema ["rdb:t:0:0", "rdb:t:0:1", "rdb:t:0:2"] demoSchedule
        (poolInit ["rdb:t:0:0", "rdb:t:0:1", "rdb:t:0:2"]) = some demoPoolEnd ∧
    demoSchedule.length ≤ 4 * ["rdb:t:0:0", "rdb:t:0:1", "rdb:t:0:2"].length + 10 ∧
    (demoPoolEnd.returned = none →
      ∃ g, (poolStep loadedStore demoSchema ["rdb:t:0:0", "rdb:t:0:1", "rdb:t:0:2"] g
        demoPoolEnd).isSome = true) :=
  have h := getRecordsWorkerPool_every_schedule loadedStore demoSchema
    ["rdb:t:0:0", "rdb:t:0:1", "rdb:t:0:2"] demoSchedule demoPoolEnd (by decide)
  ⟨by decide, h.1, h.2.1⟩

/-- The pool on a key list whose second key holds no record: the worker that
fetches it returns, and the caller returns ErrNil when it receives that
result, here after it has stored the record of the first key. -/
theorem poolRun_error_example :
    (poolRun loadedStore demoSchema ["rdb:t:0:0", "rdb:t:0:9"]
      [.main, .main, .main, .worker 0, .worker 1, .worker 0, .worker 1, .main, .main]
      (poolInit ["rdb:t:0:0", "rdb:t:0:9"])).map (fun p => p.returned)
      = some (some (.error Err.ErrNil)) := by
  decide

/-! ## Kinds of values along a pipeline -/

/-- A command other than `SREM` and `SET` leaves the kind of every stored
value as it is, whether the engine accepts the command or refuses it. -/
theorem run_keeps_kind (E : Env) (c : Cmd) (st : Store) (k : String)
    (hc : c.keeps = true) (hk : kindOf (st k) ≠ 0) :
    kindOf ((c.run E st).1 k) = kindOf (st k) := by
  rw [run_at]
  by_cases hkey : c.key = k
  · rw [if_pos hkey]
    cases hv : st k with
    | none => rw [hv] at hk; exact absurd rfl hk
    | some v =>
      cases c with
      | SRem _ _ => cases hc
      | Set _ _ => cases hc
      | Do _ => rfl
      | SAdd _ m => cases v <;> simp [Cmd.applyTo, Cmd.onValue, kindOf]
      | ZAdd _ sc m => cases v <;> simp [Cmd.applyTo, Cmd.onValue, kindOf]
      | HSet _ fvs =>
        by_cases hf : fvs = []
        · simp [Cmd.applyTo, Cmd.onValue, hf]
        · cases v <;> simp [Cmd.applyTo, Cmd.onValue, kindOf, hf]
  · rw [if_neg hkey]

theorem Exec_keeps_kind (E : Env) (cs : List Cmd) (st : Store) (k : String)
    (hcs : ∀ c ∈ cs, c.keeps = true) (hk : kindOf (st k) ≠ 0) :
    kindOf ((Exec E cs st).1 k) = kindOf (st k) := by
  induction cs generalizing st with
  | nil => rfl
  | cons c cs ih =>
    have h1 := run_keeps_kind E c st k (hcs c (List.mem_cons_self _ _)) hk
    rw [Exec_cons_at, ih _ (fun c2 hc2 => hcs c2 (List.mem_cons_of_mem _ hc2)) (by rw [h1]; exact hk),
      h1]

/-- A command on a key that the engine accepts leaves a value of the
command's kind under the key. -/
theorem run_ok_kind (E : Env) (c : Cmd) (st : Store) (hc : c.keeps = true) (hd : c.kind ≠ 0)
    (hok : (c.run E st).2 = none) : kindOf ((c.run E st).1 c.key) = c.kind := by
  cases c with
  | SRem _ _ => cases hc
  | Set _ _ => cases hc
  | Do _ => exact absurd rfl hd
  | SAdd key m =>
    simp only [Cmd.run, Cmd.key] at hok ⊢
    cases hv : st key with
    | none => simp [Cmd.onValue, Store.put, kindOf, Cmd.kind]
    | some v =>
      rw [hv] at hok
      cases v <;> simp [Cmd.onValue, Store.put, kindOf, Cmd.kind] at hok ⊢
  | ZAdd key sc m =>
    simp only [Cmd.run, Cmd.key] at hok ⊢
    cases hv : st key with
    | none => simp [Cmd.onValue, Store.put, kindOf, Cmd.kind]
    | some v =>
      rw [hv] at hok
      cases v <;> simp [Cmd.onValue, Store.put, kindOf, Cmd.kind] at hok ⊢
  | HSet key fvs =>
    simp only [Cmd.run, Cmd.key] at hok ⊢
    by_cases hf : fvs = []
    · simp [Cmd.onValue, hf] at hok
    · cases hv : st key with
      | none => simp [Cmd.onValue, Store.put, kindOf, Cmd.kind, hf]
      | some v =>
        rw [hv] at hok
        cases v <;> simp [Cmd.onValue, Store.put, kindOf, Cmd.kind, hf] at hok ⊢

theorem Exec_ok_cons (E : Env) (c : Cmd) (cs : List Cmd) (st : Store)
    (hok : (Exec E (c :: cs) st).2 = none) :
    (c.run E st).2 = none ∧ (Exec E cs (c.run E st).1).2 = none := by
  simp only [Exec] at hok
  cases hr : (c.run E st).2 with
  | none =>
    rw [hr] at hok
    exact ⟨rfl, by simpa using hok⟩
  | some e =>
    rw [hr] at hok
    simp at hok

theorem Exec_append_ok (E : Env) (a b : List Cmd) (st : Store)
    (hok : (Exec E (a ++ b) st).2 = none) : (Exec E a st).2 = none := by
  induction a generalizing st with
  | nil => rfl
  | cons c cs ih =>
    obtain ⟨h1, h2⟩ := Exec_ok_cons E c (cs ++ b) st hok
    have h3 := ih _ h2
    simp only [Exec, h1, h3]
    rfl

/-- In a pipeline without `SREM` and `SET` that ran without error, every key
a command names holds a value of the kind of that command afterwards. -/
theorem Exec_ok_kind (E : Env) (cs : List Cmd) (st : Store)
    (hcs : ∀ c ∈ cs, c.keeps = true) (hok : (Exec E cs st).2 = none)
    (c : Cmd) (hc : c ∈ cs) (hd : c.kind ≠ 0) :
    kindOf ((Exec E cs st).1 c.key) = c.kind := by
  induction cs generalizing st with
  | nil => cases hc
  | cons d ds ih =>
    obtain ⟨h1, h2⟩ := Exec_ok_cons E d ds st hok
    have hds : ∀ c2 ∈ ds, c2.keeps = true := fun c2 hc2 => hcs c2 (List.mem_cons_of_mem _ hc2)
    rcases List.mem_cons.mp hc with h | h
    · subst h
      have h3 := run_ok_kind E c st (hcs c (List.mem_cons_self _ _)) hd h1
      rw [Exec_cons_at, Exec_keeps_kind E ds _ _ hds (by rw [h3]; exact hd), h3]
    · rw [Exec_cons_at]
      exact ih _ hds h2 h

/-- In a pipeline without `SREM` and `SET` that ran without error, two
commands on one key are of one kind. -/
theorem Exec_ok_same_kind (E : Env) (cs : List Cmd) (st : Store)
    (hcs : ∀ c ∈ cs, c.keeps = true) (hok : (Exec E cs st).2 = none)
    (c1 c2 : Cmd) (h1 : c1 ∈ cs) (h2 : c2 ∈ cs) (hd1 : c1.kind ≠ 0) (hd2 : c2.kind ≠ 0)
    (hkey : c1.key = c2.key) : c1.kind = c2.kind := by
  rw [← Exec_ok_kind E cs st hcs hok c1 h1 hd1, ← Exec_ok_kind E cs st hcs hok c2 h2 hd2, hkey]

/-! ## A load read back -/

theorem loadCmd_keeps (E : Env) (table : Table) (header : List String)
    (schemaMap : List (String × Nat)) (rows : List (List String)) (cmd : Cmd)
    (h : LoadCmd E table header schemaMap rows cmd) : cmd.keeps = true ∧ cmd.kind ≠ 0 := by
  obtain ⟨i, row, _, h1 | h1 | h1⟩ := h
  · obtain ⟨p, col, val, c, _, _, _, _, h2 | ⟨_, x, _, h2⟩⟩ := h1
    · subst h2; exact ⟨rfl, by simp [Cmd.kind]⟩
    · subst h2; exact ⟨rfl, by simp [Cmd.kind]⟩
  · subst h1; exact ⟨rfl, by simp [Cmd.kind]⟩
  · subst h1; exact ⟨rfl, by simp [Cmd.kind]⟩

/-- The pipeline of a bulk load that returned no error ran without error. -/
theorem BulkLoad_success_ok (E : Env) (st : Store) (tableName : String) (f : List (List String))
    (starttime endtime : String) (st2 : Store) (table : Table) (pipe : List Cmd) (st1 : Store)
    (h : BulkLoad E st tableName f "csv" starttime endtime = (st2, none))
    (htable : loadTable E st tableName = .ok table)
    (hp : csvToPipe E f table = .ok pipe)
    (hu : updateLastLoad E st table
      { Version := table.Version, StartTime := starttime, EndTime := "",
        Status := LoadRunning } = (st1, none)) :
    (Exec E pipe st1).2 = none := by
  unfold BulkLoad at h
  rw [htable] at h
  simp only [if_true, hu, hp] at h
  rcases hx : Exec E (if E.indexOnLoad = true then pipe ++ createIndexToPipe E table
      else pipe) st1 with ⟨st3, e3⟩
  rw [hx] at h
  cases e3 with
  | some e => simp at h
  | none =>
    have hok : (Exec E (if E.indexOnLoad = true then pipe ++ createIndexToPipe E table
        else pipe) st1).2 = none := by rw [hx]
    by_cases hi : E.indexOnLoad = true
    · simp only [hi, if_true] at hok
      exact Exec_append_ok E _ _ _ hok
    · simp only [hi] at hok
      exact hok

/-- What is known of a bulk load that returned no error, for a header that
repeats no name: the commands it ran, without error, on a store that held
under the keys of the version what the store before the load held, and the
table `getTable` finds afterwards. -/
theorem BulkLoad_ran (E : Env) (st : Store) (tableName : String) (f : List (List String))
    (starttime endtime : String) (st2 : Store) (table : Table)
    (header : List String) (rows : List (List String))
    (hload : BulkLoad E st tableName f "csv" starttime endtime = (st2, none))
    (htable : loadTable E st tableName = .ok table)
    (hcsv : csvRecords f = header :: rows)
    (hnodup : header.Nodup) :
    ∃ pipe st1 schemaMap,
      (∀ col ∈ header, ∃ i c, table.Schema.Columns.get? i = some c ∧ c.Name = col ∧
        assocGet schemaMap col = some i) ∧
      (∀ row ∈ rows, row.length = header.length) ∧
      (∀ cmd, cmd ∈ pipe ↔ LoadCmd E table header schemaMap rows cmd) ∧
      header ≠ [] ∧
      (∀ s, st1 (table.formatKeyPrefix E ++ (":" ++ s)) =
        st (table.formatKeyPrefix E ++ (":" ++ s))) ∧
      (∀ s, st2 (table.formatKeyPrefix E ++ (":" ++ s)) =
        (Exec E pipe st1).1 (table.formatKeyPrefix E ++ (":" ++ s))) ∧
      (Exec E pipe st1).2 = none ∧
      getTable E st2 tableName = (table, none) := by
  obtain ⟨pipe, st1, hp, h1, h2, h3, hu⟩ :=
    BulkLoad_success E st tableName f starttime endtime st2 table hload htable
  obtain ⟨header2, rows2, schemaMap, hrec, hcols, hlens, hmem⟩ :=
    csvToPipe_spec E f table pipe hp (by
      intro hd hhd
      rw [hcsv] at hhd
      simp only [List.head?_cons, Option.mem_def, Option.some.injEq] at hhd
      rw [← hhd]; exact hnodup)
  rw [hcsv] at hrec
  obtain ⟨e1, e2⟩ := List.cons.inj hrec
  subst e1 e2
  have hne : header ≠ [] := by
    have hm : header ∈ csvRecords f := by rw [hcsv]; simp
    unfold csvRecords at hm
    simpa using (List.mem_filter.mp hm).2
  have hkeys : ∀ cmd ∈ pipe, ∃ s, cmd.key = table.formatKeyPrefix E ++ (":" ++ s) :=
    csvToPipe_keys E f table pipe hp
  have hlastkeys : ∀ cmd ∈ pipe, cmd.key ≠ table.formatLastLoadKey E := by
    intro cmd hcmd hkey
    obtain ⟨s, hs⟩ := hkeys cmd hcmd
    exact formatLastLoadKey_ne_version E table s (by rw [← hkey, hs])
  obtain ⟨hh, hhash⟩ := updateLastLoad_hash E st st1 table _ hu
  have hhash2 : (Exec E pipe st1).1 (table.formatLastLoadKey E) = some (.hash hh) := by
    rw [Exec_frame _ _ _ _ hlastkeys, hhash]
  have hother : ∀ k, table.formatLastLoadKey E ≠ k →
      ¬ (∃ s, k = table.formatKeyPrefix E ++ (":" ++ s)) → st2 k = st k := by
    intro k hk hv
    rw [h2 k hk, Exec_frame, h1 k hk]
    intro cmd hcmd hkey
    obtain ⟨s, hs⟩ := hkeys cmd hcmd
    exact hv ⟨s, by rw [← hkey, hs]⟩
  refine ⟨pipe, st1, schemaMap, hcols, hlens, hmem, hne, ?_, ?_,
    BulkLoad_success_ok E st tableName f starttime endtime st2 table pipe st1 hload htable hp hu,
    ?_⟩
  · intro s
    exact h1 _ (formatLastLoadKey_ne_version E table s)
  · intro s
    exact h2 _ (formatLastLoadKey_ne_version E table s)
  · obtain ⟨hname, hschema, hv1, hv2⟩ := loadTable_ok E st tableName table htable
    have hsk : st2 (formatSchemaKey E tableName) = st (formatSchemaKey E tableName) := by
      rw [← hname]
      apply hother
      · exact fun e => formatSchemaKey_ne_lastLoad E table e.symm
      · rintro ⟨s, hs⟩
        exact formatSchemaKey_ne_version E table s hs
    have hlast := updateLastLoad_on_hash E (Exec E pipe st1).1 table
      { Version := table.Version, StartTime := starttime, EndTime := endtime,
        Status := LoadSuccess } hh hhash2
    rw [← h3] at hlast
    obtain ⟨hne2, hfv, hfs, hst, hen⟩ := lastLoad_fields hh (itoa table.Version)
      (itoa LoadSuccess) starttime endtime
    have hkey : Table.formatLastLoadKey E
        { Schema := table.Schema, Version := 0, Name := tableName }
        = table.formatLastLoadKey E := formatLastLoadKey_name E _ _ hname.symm
    unfold getTable
    rw [GetSchema_agree E st st2 tableName hsk, hschema]
    simp only []
    have hl : GetLastLoad E st2 { Schema := table.Schema, Version := 0, Name := tableName }
        = .ok { Version := table.Version, Status := LoadSuccess, StartTime := starttime,
                EndTime := endtime } := by
      unfold GetLastLoad HGetAll
      rw [hkey, hlast]
      simp only []
      rw [if_neg (fun e => hne2 (List.length_eq_zero.mp e))]
      rw [hfv, hfs, atoi_itoa _ hv1 hv2, atoi_itoa LoadSuccess (by decide) (by decide)]
      simp only []
      rw [hst, hen]
    rw [hl]
    simp only [Prod.mk.injEq, and_true]
    cases table
    simp only [Table.mk.injEq, true_and] at hname ⊢
    exact hname.symm

/-- After a load that returned no error the hash of row `i` lies under the
record key of seq `i`, where that key held nothing before: a command of
another kind on that key would have made the pipeline fail. -/
theorem BulkLoad_record (E : Env) (st : Store) (tableName : String) (f : List (List String))
    (starttime endtime : String) (st2 : Store) (table : Table)
    (header : List String) (rows : List (List String))
    (hload : BulkLoad E st tableName f "csv" starttime endtime = (st2, none))
    (htable : loadTable E st tableName = .ok table)
    (hcsv : csvRecords f = header :: rows)
    (hnodup : header.Nodup)
    (i : Nat) (row : List String) (hrow : rows.get? i = some row)
    (hfree : st (table.formatRecordKey E (i : Int)) = none) :
    st2 (table.formatRecordKey E (i : Int)) = some (.hash (header.zip row)) := by
  obtain ⟨pipe, st1, schemaMap, hcols, hlens, hmem, hne, hsame, hagree, hok, _⟩ :=
    BulkLoad_ran E st tableName f starttime endtime st2 table header rows hload htable
      hcsv hnodup
  have hlen := hlens row (List.get?_mem hrow)
  have hzne : header.zip row ≠ [] := by
    intro h
    have h2 := congrArg (List.map Prod.fst) h
    rw [zip_keys header row hlen] at h2
    exact hne h2
  have hin : Cmd.HSet (table.formatRecordKey E (i : Int)) (header.zip row) ∈ pipe :=
    (hmem _).mpr ⟨i, row, hrow, Or.inr (Or.inl rfl)⟩
  have hkeeps : ∀ c ∈ pipe, c.keeps = true :=
    fun c hc => (loadCmd_keeps E table header schemaMap rows c ((hmem c).mp hc)).1
  rw [formatRecordKey_eq, hagree, ← formatRecordKey_eq]
  apply Exec_hset E _ _ hzne (by rw [zip_keys header row hlen]; exact hnodup)
  · left
    exact ⟨by rw [formatRecordKey_eq, hsame, ← formatRecordKey_eq]; exact hfree, hin⟩
  · intro c hc hk
    have hkind : c.kind = 2 :=
      Exec_ok_same_kind E pipe st1 hkeeps hok c _ hc hin
        (loadCmd_keeps E table header schemaMap rows c ((hmem c).mp hc)).2
        (by simp [Cmd.kind]) hk
    obtain ⟨i2, row2, hrow2, h1 | h1 | h1⟩ := (hmem c).mp hc
    · obtain ⟨p, col, val, c2, _, _, _, _, h2 | ⟨_, x, _, h2⟩⟩ := h1
      · subst h2; cases hkind
      · subst h2; cases hkind
    · subst h1
      simp only [Cmd.key] at hk
      have : i2 = i := formatRecordKey_nat_inj E table i2 i hk
      subst this
      rw [hrow] at hrow2
      rw [Option.some.inj hrow2]
    · subst h1; cases hkind

/-- After a load that returned no error, where the all-records key held
nothing before and no value of a filterable sortable column named `all`
parses, the all-records set holds the record keys of the rows, each once,
scored by its seq. -/
theorem BulkLoad_all (E : Env) (st : Store) (tableName : String) (f : List (List String))
    (starttime endtime : String) (st2 : Store) (table : Table)
    (header : List String) (rows : List (List String))
    (hload : BulkLoad E st tableName f "csv" starttime endtime = (st2, none))
    (htable : loadTable E st tableName = .ok table)
    (hcsv : csvRecords f = header :: rows)
    (hnodup : header.Nodup)
    (hfree : st (table.formatAllRecordKeys E) = none)
    (hall : ∀ c ∈ table.Schema.Columns, c.Name = "all" → c.Filterable = true →
      c.Sortable = true → ∀ row ∈ rows, ∀ v, ("all", v) ∈ header.zip row →
        E.parseFloat v = none) :
    ∃ z, readZSet st2 (table.formatAllRecordKeys E) = .ok z ∧
      zmembers z = (List.range rows.length).map
        (fun i => table.formatRecordKey E ((i : Nat) : Int)) ∧
      z.length = rows.length := by
  obtain ⟨pipe, st1, schemaMap, hcols, hlens, hmem, hne, hsame, hagree, hok, _⟩ :=
    BulkLoad_ran E st tableName f starttime endtime st2 table header rows hload htable
      hcsv hnodup
  have hA : table.formatAllRecordKeys E = table.formatKeyPrefix E ++ (":" ++ "all") := rfl
  have h0 : readZSet st1 (table.formatAllRecordKeys E) = .ok [] := by
    unfold readZSet
    rw [hA, hsame, ← hA, hfree]
  have hshape : ∀ c ∈ pipe, c.key = table.formatAllRecordKeys E →
      ∃ (i : Nat), i < rows.length ∧ c = Cmd.ZAdd (table.formatAllRecordKeys E)
        ((i : Int) : Score) (table.formatRecordKey E (i : Int)) := by
    intro c hc hk
    obtain ⟨i2, row2, hrow2, h1 | h1 | h1⟩ := (hmem c).mp hc
    · obtain ⟨p, col, val, c2, hp1, hp2, hp3, hfil, h2 | ⟨hsort, x, hx, h2⟩⟩ := h1
      · subst h2
        exact absurd hk (formatFilterKey_ne_all E table col val)
      · subst h2
        exfalso
        simp only [Cmd.key] at hk
        rw [formatSortableKey_eq, hA] at hk
        have hcol : col = "all" := (key_eq_iff ":" _ _).mp ((key_eq_iff _ _ _).mp hk)
        subst hcol
        obtain ⟨j, c3, hj, hn, hsm⟩ := hcols "all" (List.get?_mem hp1)
        rw [hsm] at hp3
        simp only [Option.getD_some] at hp3
        rw [hj] at hp3
        have e : c3 = c2 := Option.some.inj hp3
        rw [e] at hn hj
        have := hall c2 (List.get?_mem hj) hn hfil hsort row2 (List.get?_mem hrow2) val
          ((mem_zip_iff_get header row2 "all" val).mpr ⟨p, hp1, hp2⟩)
        rw [this] at hx
        cases hx
    · subst h1
      exact absurd hk (formatRecordKey_ne_all E table i2)
    · exact ⟨i2, (List.get?_eq_some.mp hrow2).1, h1⟩
  obtain ⟨z, hz, hnd, hzm, hze⟩ := Exec_zadd E _ pipe st1 [] h0 (by simp)
    (fun c hc hk => by
      obtain ⟨i, _, hi⟩ := hshape c hc hk
      exact ⟨_, _, hi⟩)
  have hfwd : ∀ m x, (m, x) ∈ z → ∃ i : Nat, i < rows.length ∧
      m = table.formatRecordKey E (i : Int) ∧ x = ((i : Int) : Score) := by
    intro m x hmx
    rcases hze m x hmx with h1 | h1
    · cases h1
    · obtain ⟨i, hi, he⟩ := hshape _ h1 rfl
      simp only [Cmd.ZAdd.injEq, true_and] at he
      exact ⟨i, hi, he.2, he.1⟩
  have hiff : ∀ m x, (m, x) ∈ z ↔ ∃ i : Nat, i < rows.length ∧
      m = table.formatRecordKey E (i : Int) ∧ x = ((i : Int) : Score) := by
    intro m x
    constructor
    · exact hfwd m x
    · rintro ⟨i, hi, hm, hx⟩
      have hcmd : Cmd.ZAdd (table.formatAllRecordKeys E) ((i : Int) : Score)
          (table.formatRecordKey E (i : Int)) ∈ pipe :=
        (hmem _).mpr ⟨i, rows.get ⟨i, hi⟩, List.get?_eq_get hi, Or.inr (Or.inr rfl)⟩
      have hmem2 : m ∈ z.map Prod.fst := (hzm m).mpr (Or.inr ⟨_, hm ▸ hcmd⟩)
      obtain ⟨e, he, hfst⟩ := List.mem_map.mp hmem2
      obtain ⟨i2, _, hm2, hx2⟩ := hfwd e.1 e.2 he
      have : i2 = i := formatRecordKey_nat_inj E table i2 i (by rw [← hm2, hfst, hm])
      subst this
      have : e = (m, x) := Prod.ext hfst (by rw [hx2, hx])
      rw [← this]
      exact he
  have hperm : z.Perm (((List.range rows.length).map Int.ofNat).map
      (fun s => (table.formatRecordKey E s, (s : Score)))) := by
    apply (List.perm_ext_iff_of_nodup (List.Nodup.of_map _ hnd) ?_).mpr
    · rintro ⟨m, x⟩
      rw [hiff]
      simp only [List.map_map, List.mem_map, List.mem_range, Function.comp, Prod.mk.injEq]
      constructor
      · rintro ⟨i, hi, rfl, rfl⟩; exact ⟨i, hi, rfl, rfl⟩
      · rintro ⟨i, hi, rfl, rfl⟩; exact ⟨i, hi, rfl, rfl⟩
    · rw [List.map_map]
      apply (List.nodup_range _).map
      intro a b hab
      simp only [Function.comp, Prod.mk.injEq] at hab
      have : ((a : Int) : Score) = ((b : Int) : Score) := hab.2
      exact_mod_cast this
  have hsorted : ((List.range rows.length).map Int.ofNat).Sorted (fun a b => a < b) := by
    have h := List.pairwise_lt_range rows.length
    exact (List.pairwise_map.mpr (h.imp (fun hab => by exact Int.ofNat_lt.mpr hab)))
  refine ⟨z, ?_, ?_, ?_⟩
  · rw [← hz, hA]
    exact readZSet_agree _ _ _ (hagree "all")
  · unfold zmembers
    rw [zsorted_eq_of_sorted_perm z _ hperm
      (sorted_of_score_lt _ (seqs_entries_pairwise E table _ hsorted)), List.map_map,
      List.map_map]
    rfl
  · rw [hperm.length_eq, List.length_map, List.length_map, List.length_range]

/-- The records of a load that returned no error, fetched by seq. -/
theorem BulkLoad_workerPool (E : Env) (st : Store) (tableName : String)
    (f : List (List String)) (starttime endtime : String) (st2 : Store) (table : Table)
    (header : List String) (rows : List (List String))
    (hload : BulkLoad E st tableName f "csv" starttime endtime = (st2, none))
    (htable : loadTable E st tableName = .ok table)
    (hcsv : csvRecords f = header :: rows)
    (hnodup : header.Nodup)
    (hperm : header.Perm (table.Schema.Columns.map (fun c => c.Name)))
    (is : List Nat) (his : ∀ i ∈ is, i < rows.length)
    (hfree : ∀ i ∈ is, st (table.formatRecordKey E ((i : Nat) : Int)) = none) :
    getRecordsWorkerPool st2 table.Schema
        (is.map (fun i => table.formatRecordKey E ((i : Nat) : Int)))
      = .ok (is.map (fun i => header.zip (rows.getD i []))) := by
  obtain ⟨pipe, st1, schemaMap, _, hlens, _, hne, _⟩ :=
    BulkLoad_ran E st tableName f starttime endtime st2 table header rows hload htable
      hcsv hnodup
  induction is with
  | nil => rfl
  | cons i rest ih =>
    have hi : i < rows.length := his i (List.mem_cons_self _ _)
    have hrow : rows.get? i = some (rows.getD i []) := by
      rw [List.getD_eq_getElem _ _ hi]
      simp
    have hlen := hlens _ (List.get?_mem hrow)
    simp only [List.map_cons, getRecordsWorkerPool]
    rw [getRecord_loaded st2 table.Schema _ header _ hnodup hne hlen hperm
      (BulkLoad_record E st tableName f starttime endtime st2 table header rows hload htable
        hcsv hnodup i _ hrow (hfree i (List.mem_cons_self _ _))),
      ih (fun j hj => his j (List.mem_cons_of_mem _ hj))
        (fun j hj => hfree j (List.mem_cons_of_mem _ hj))]

/-- C2 (as amended): for a CSV whose header is a permutation of the schema's
column names and repeats no name, and in which no value of a filterable
sortable column named `all` parses as a number: after a successful BulkLoad
into a new version (the all-records key and the record keys of the rows held
nothing before), GetData with the empty query returns exactly the n data
rows, the i-th record being the mapping header[j] -> cell(i, j) of the i-th
data row, in CSV row order, with Count = Total = n. -/
theorem BulkLoad_then_GetData (E : Env) (st : Store) (tableName : String)
    (f : List (List String)) (starttime endtime : String) (st2 : Store) (table : Table)
    (header : List String) (rows : List (List String)) (t : String)
    (hload : BulkLoad E st tableName f "csv" starttime endtime = (st2, none))
    (htable : loadTable E st tableName = .ok table)
    (hfreshAll : st (table.formatAllRecordKeys E) = none)
    (hfreshRec : ∀ i : Nat, i < rows.length → st (table.formatRecordKey E (i : Int)) = none)
    (hcsv : csvRecords f = header :: rows)
    (hperm : header.Perm (table.Schema.Columns.map (fun c => c.Name)))
    (hnodup : header.Nodup)
    (hall : ∀ c ∈ table.Schema.Columns, c.Name = "all" → c.Filterable = true →
      c.Sortable = true → ∀ row ∈ rows, ∀ v, ("all", v) ∈ header.zip row →
        E.parseFloat v = none) :
    GetData E st2 tableName (mkQuery [] 0 0) t =
      (st2, .ok { Records := rows.map (fun row => header.zip row),
                  Metadata := { Count := rows.length, Offset := 0, Limit := 0,
                                Total := rows.length } }) := by
  obtain ⟨_, _, _, _, _, _, _, _, _, _, hget⟩ :=
    BulkLoad_ran E st tableName f starttime endtime st2 table header rows hload htable
      hcsv hnodup
  obtain ⟨z, hz, hzm, hzl⟩ := BulkLoad_all E st tableName f starttime endtime st2 table header
    rows hload htable hcsv hnodup hfreshAll hall
  unfold GetData
  rw [hget]
  have hv : table.Schema.validateQuery (mkQuery [] 0 0) = none := by
    simp [Schema.validateQuery, mkQuery, Schema.validateFilters]
  have hk : getRecordKeys E st2 table (mkQuery [] 0 0) t =
      (st2, .ok ((List.range rows.length).map (fun i => table.formatRecordKey E ((i : Nat) : Int)),
        { Count := rows.length, Offset := 0, Limit := 0, Total := rows.length })) := by
    unfold getRecordKeys
    simp only [mkQuery, List.length_nil, gt_iff_lt, lt_self_iff_false, if_false]
    rw [getPagedRecordKeys_eq st2 _ z 0 0 hz (le_refl _) (by omega)]
    simp only [expectedPage, le_refl, if_true, Int.toNat_zero, List.drop_zero, hzm, hzl,
      List.length_map, List.length_range]
  simp only [hv, hk]
  rw [BulkLoad_workerPool E st tableName f starttime endtime st2 table header rows hload htable
      hcsv hnodup hperm (List.range rows.length) (fun i hi => List.mem_range.mp hi)
      (fun i hi => hfreshRec i (List.mem_range.mp hi)),
    map_range_getD rows [] (fun row => header.zip row)]

/-- C2 (witness): the demo CSV, loaded into the demo table, is read back row
for row. -/
theorem BulkLoad_then_GetData_witness :
    GetData demoEnv loadedStore "t" (mkQuery [] 0 0) "T" =
      (loadedStore, .ok { Records := [[("name", "a"), ("n", "5")], [("name", "b"), ("n", "7")],
                            [("name", "a"), ("n", "10")]],
                          Metadata := { Count := 3, Offset := 0, Limit := 0, Total := 3 } }) :=
  BulkLoad_then_GetData demoEnv schemaStore "t" demoCsv "t0" "t1" loadedStore demoTable
    ["name", "n"] [["a", "5"], ["b", "7"], ["a", "10"]] "T"
    demo_loaded.hload demo_loaded.htable (demo_loaded.hfresh "all")
    (fun i _ => by rw [formatRecordKey_eq]; exact demo_loaded.hfresh _)
    demo_loaded.hcsv (List.Perm.refl _) (by decide)
    (by
      intro c hc hn
      simp only [demoTable, demoSchema, List.mem_cons, List.mem_singleton, List.not_mem_nil,
        or_false] at hc
      rcases hc with rfl | rfl
      · exact absurd hn (by decide)
      · exact absurd hn (by decide))

/-- C2 (counterexample): four loads that return no error and that GetData
with the empty query does not read back. The header `name` names only schema
columns of the demo table and the row `a` is well-formed: the record lacks
the column `n` and GetData returns an error. The header `name,n,name` names
only schema columns of the demo table and the row `a,5,b` is well-formed: the
record holds `b` for `name`, not the cell `a` of the first position. The
header `a,a` names every column of the schema of two columns named `a`: the
record hash holds one field and GetData returns an error. The header `all`
is the one column of its schema, filterable and sortable, and the row `5` is
well-formed: the value 5 is scored in the all-records set, whose key is the
sortable key of the column `all`, and GetData looks for a record under the
filter key `rdb:al:0:all:5`. -/
theorem BulkLoad_then_GetData_counterexample :
    ((BulkLoad demoEnv schemaStore "t" [["name"], ["a"]] "csv" "t0" "t1").2 = none ∧
      (GetData demoEnv (BulkLoad demoEnv schemaStore "t" [["name"], ["a"]] "csv" "t0" "t1").1
        "t" (mkQuery [] 0 0) "T").2 =
        .error (Err.msg "Number of columns for key rdb:t:0:0 do not match schema")) ∧
    ((BulkLoad demoEnv schemaStore "t" [["name", "n", "name"], ["a", "5", "b"]] "csv" "t0"
        "t1").2 = none ∧
      (GetData demoEnv
        (BulkLoad demoEnv schemaStore "t" [["name", "n", "name"], ["a", "5", "b"]] "csv" "t0"
          "t1").1 "t" (mkQuery [] 0 0) "T").2 =
        .ok { Records := [[("name", "b"), ("n", "5")]],
              Metadata := { Count := 1, Offset := 0, Limit := 0, Total := 1 } }) ∧
    ((getTable oddEnv oddSchemaStore "tw").1.Schema.Columns.map (fun c => c.Name) = ["a", "a"] ∧
      (BulkLoad oddEnv oddSchemaStore "tw" [["a", "a"], ["1", "2"]] "csv" "t0" "t1").2 = none ∧
      HGetAll (BulkLoad oddEnv oddSchemaStore "tw" [["a", "a"], ["1", "2"]] "csv" "t0" "t1").1
        "rdb:tw:0:0" = .ok [("a", "2")] ∧
      (GetData oddEnv
        (BulkLoad oddEnv oddSchemaStore "tw" [["a", "a"], ["1", "2"]] "csv" "t0" "t1").1
        "tw" (mkQuery [] 0 0) "T").2 =
        .error (Err.msg "Number of columns for key rdb:tw:0:0 do not match schema")) ∧
    ((getTable oddEnv oddSchemaStore "al").1.Schema.Columns.map (fun c => c.Name) = ["all"] ∧
      (BulkLoad oddEnv oddSchemaStore "al" [["all"], ["5"]] "csv" "t0" "t1").2 = none ∧
      ZRange (BulkLoad oddEnv oddSchemaStore "al" [["all"], ["5"]] "csv" "t0" "t1").1
        "rdb:al:0:all" 0 (-1) = .ok ["rdb:al:0:0", "rdb:al:0:all:5"] ∧
      (GetData oddEnv (BulkLoad oddEnv oddSchemaStore "al" [["all"], ["5"]] "csv" "t0" "t1").1
        "al" (mkQuery [] 0 0) "T").2 = .error Err.ErrNil) := by
  decide

end TabularRedis
